import Mathlib

/-!
OggDemuxer: incremental Ogg/Opus demultiplexer

Shallow embedding of `main/audio/demuxer/ogg_demuxer.{h,cc}`.

* `uint8_t` is `Byte = Fin 256`; `size_t` counters are `Nat` (no counter of a
  reachable state comes near `2^32`); the one narrowing conversion of the code,
  `uint8_t seg_len = ctx_.seg_remaining`, is written with an explicit `% 256`.
* The fixed arrays `header[27]`, `seg_table[255]`, `packet_buf[8192]` are maps
  from an index to a byte; `memcpy`/`memmove` update a range of indices.
* `data + processed .. data + size` is the list of input bytes not yet consumed,
  so the value returned by `Process` is `size` minus the length of what is left.
* Invoking `on_demuxer_finished_` appends a `Call` to an output trace.  The
  `std::function` member itself is a flag saying whether a target is stored.
* `ESP_LOG*` has no effect on the state and is left out.
-/

namespace OggDemuxer

abbrev Byte := Fin 256

/-- The `enum ParseState` of the header file. -/
inductive ParseState where
  | FIND_PAGE
  | PARSE_HEADER
  | PARSE_SEGMENTS
  | PARSE_DATA
  deriving DecidableEq, Repr

/-- One invocation `on_demuxer_finished_(data, sample_rate, len)`; `data` holds the
`len` bytes the pointer argument addresses. -/
structure Call where
  data : List Byte
  sample_rate : Int
  len : Nat
  deriving DecidableEq, Repr

/-- The members of the class: `state_`, the fields of `ctx_` and of `opus_info_`
(flattened), and whether `on_demuxer_finished_` holds a target. -/
structure Demuxer where
  state_ : ParseState
  packet_continued : Bool
  header : Nat → Byte
  seg_table : Nat → Byte
  packet_buf : Nat → Byte
  packet_len : Nat
  seg_count : Nat
  seg_index : Nat
  data_offset : Nat
  bytes_needed : Nat
  seg_remaining : Nat
  body_size : Nat
  body_offset : Nat
  head_seen : Bool
  tags_seen : Bool
  sample_rate : Int
  on_demuxer_finished_ : Bool

/-- The bytes of the string literal "OggS". -/
def OggS : List Byte := [79, 103, 103, 83]

/-- The bytes of the string literal "OpusHead". -/
def OpusHead : List Byte := [79, 112, 117, 115, 72, 101, 97, 100]

/-- The bytes of the string literal "OpusTags". -/
def OpusTags : List Byte := [79, 112, 117, 115, 84, 97, 103, 115]

/-- Capacity `sizeof(ctx_.packet_buf)`. -/
def PACKET_BUF_SIZE : Nat := 8192

/-- The first `n` bytes of a buffer, as read by `memcmp` or by the callback. -/
def readBuf (buf : Nat → Byte) (n : Nat) : List Byte :=
  (List.range n).map buf

/-- Effect of `memcpy(buf + off, src, src.length)`. -/
def memcpy (buf : Nat → Byte) (off : Nat) (src : List Byte) : Nat → Byte :=
  fun i => if off ≤ i ∧ i < off + src.length then src.getD (i - off) 0 else buf i

/-- Effect of `memmove(buf, buf + 1, 3)`. -/
def memmove1 (buf : Nat → Byte) : Nat → Byte :=
  fun i => if i < 3 then buf (i + 1) else buf i

/-- Conversion of a 32-bit pattern to `int`. -/
def toInt32 (n : Nat) : Int :=
  if n % 2 ^ 32 < 2 ^ 31 then ((n % 2 ^ 32 : Nat) : Int) else ((n % 2 ^ 32 : Nat) : Int) - 2 ^ 32

/-- The expression `packet_buf[12] | (packet_buf[13] << 8) | (packet_buf[14] << 16) |
(packet_buf[15] << 24)` assigned to the `int sample_rate`. -/
def decodeRate (buf : Nat → Byte) : Int :=
  toInt32 ((buf 12).val ||| ((buf 13).val <<< 8) ||| ((buf 14).val <<< 16) |||
    ((buf 15).val <<< 24))

/-- Body of `OggDemuxer::Reset`. -/
def Reset (d : Demuxer) : Demuxer :=
  { state_ := ParseState.FIND_PAGE
    packet_continued := false
    header := fun _ => 0
    seg_table := fun _ => 0
    packet_buf := fun _ => 0
    packet_len := 0
    seg_count := 0
    seg_index := 0
    data_offset := 0
    bytes_needed := 4
    seg_remaining := 0
    body_size := 0
    body_offset := 0
    head_seen := false
    tags_seen := false
    sample_rate := 48000
    on_demuxer_finished_ := d.on_demuxer_finished_ }

/-- A freshly constructed object: the member initialisers followed by the `Reset()` of the
constructor; no callback is stored yet. -/
def fresh : Demuxer :=
  Reset
    { state_ := ParseState.FIND_PAGE
      packet_continued := false
      header := fun _ => 0
      seg_table := fun _ => 0
      packet_buf := fun _ => 0
      packet_len := 0
      seg_count := 0
      seg_index := 0
      data_offset := 0
      bytes_needed := 0
      seg_remaining := 0
      body_size := 0
      body_offset := 0
      head_seen := false
      tags_seen := false
      sample_rate := 48000
      on_demuxer_finished_ := false }

/-- The setter `OnDemuxerFinished` called with a callable target. -/
def OnDemuxerFinished (d : Demuxer) : Demuxer :=
  { d with on_demuxer_finished_ := true }

/-- Loop state of `Process`: the object, the input not yet consumed and the callback
invocations made so far in this call. -/
structure Run where
  d : Demuxer
  rest : List Byte
  out : List Call

/-- The places where `Process` returns: `done` is the `return processed` after the outer
loop, `need_data` the returns that wait for more input, `overflow` the return of the
"Packet buffer overflow" branch, `error_state` the return of the "run in error state"
branch. -/
inductive Exit where
  | done
  | need_data
  | overflow
  | error_state
  deriving DecidableEq, Repr

/-- How one pass through the `switch` ends: `brk` goes back to the test of the outer
`while`, `ret` is a `return processed` (tagged with the place it stands at). -/
inductive Flow where
  | brk (r : Run)
  | ret (e : Exit) (r : Run)

/-- The search loop `for (; i + 4 <= remaining; i++) if (memcmp(.., "OggS", 4) == 0) ..`,
started at index `i` with `l` the input from that index on; gives `(found, i)`. -/
def searchOggS : List Byte → Nat → Bool × Nat
  | [], i => (false, i)
  | b :: t, i =>
    if 4 ≤ (b :: t).length then
      if (b :: t).take 4 = OggS then (true, i) else searchOggS t (i + 1)
    else (false, i)

/-- The `case ParseState::FIND_PAGE` block. -/
def findPage (d : Demuxer) (rest : List Byte) (out : List Call) : Flow :=
  if d.bytes_needed < 4 then
    let to_copy := min rest.length d.bytes_needed
    let header := memcpy d.header (4 - d.bytes_needed) (rest.take to_copy)
    let rest1 := rest.drop to_copy
    let bytes_needed := d.bytes_needed - to_copy
    if bytes_needed = 0 then
      if readBuf header 4 = OggS then
        Flow.brk ⟨{ d with header := header, state_ := ParseState.PARSE_HEADER,
                           data_offset := 4, bytes_needed := 27 - 4 }, rest1, out⟩
      else
        Flow.brk ⟨{ d with header := memmove1 header, bytes_needed := 1 }, rest1, out⟩
    else
      Flow.ret Exit.need_data
        ⟨{ d with header := header, bytes_needed := bytes_needed }, rest1, out⟩
  else if d.bytes_needed = 4 then
    let remaining := rest.length
    let fi := searchOggS rest 0
    let i := fi.2
    if fi.1 then
      Flow.brk ⟨{ d with state_ := ParseState.PARSE_HEADER, data_offset := 4,
                         bytes_needed := 27 - 4 }, rest.drop (i + 4), out⟩
    else
      let partial_len := remaining - i
      if partial_len > 0 then
        Flow.ret Exit.need_data
          ⟨{ d with header := memcpy d.header 0 ((rest.drop i).take partial_len),
                    bytes_needed := 4 - partial_len },
           rest.drop (i + partial_len), out⟩
      else
        Flow.ret Exit.need_data ⟨d, rest.drop i, out⟩
  else
    Flow.ret Exit.error_state ⟨Reset d, rest, out⟩

/-- The `case ParseState::PARSE_HEADER` block. -/
def parseHeader (d : Demuxer) (rest : List Byte) (out : List Call) : Flow :=
  let available := rest.length
  if available < d.bytes_needed then
    Flow.ret Exit.need_data
      ⟨{ d with header := memcpy d.header d.data_offset (rest.take available),
                data_offset := d.data_offset + available,
                bytes_needed := d.bytes_needed - available },
       rest.drop available, out⟩
  else
    let to_copy := d.bytes_needed
    let header := memcpy d.header d.data_offset (rest.take to_copy)
    let rest1 := rest.drop to_copy
    if header 4 ≠ 0 then
      Flow.brk ⟨{ d with header := header, state_ := ParseState.FIND_PAGE,
                         bytes_needed := 4, data_offset := 0 }, rest1, out⟩
    else
      let seg_count := (header 26).val
      if seg_count > 0 ∧ seg_count ≤ 255 then
        Flow.brk ⟨{ d with header := header, seg_count := seg_count,
                           state_ := ParseState.PARSE_SEGMENTS,
                           bytes_needed := seg_count, data_offset := 0 }, rest1, out⟩
      else if seg_count = 0 then
        Flow.brk ⟨{ d with header := header, seg_count := seg_count,
                           state_ := ParseState.FIND_PAGE,
                           bytes_needed := 4, data_offset := 0 }, rest1, out⟩
      else
        Flow.brk ⟨{ d with header := header, seg_count := seg_count,
                           state_ := ParseState.FIND_PAGE,
                           bytes_needed := 4, data_offset := 0 }, rest1, out⟩

/-- The `case ParseState::PARSE_SEGMENTS` block. -/
def parseSegments (d : Demuxer) (rest : List Byte) (out : List Call) : Flow :=
  let available := rest.length
  if available < d.bytes_needed then
    Flow.ret Exit.need_data
      ⟨{ d with seg_table := memcpy d.seg_table d.data_offset (rest.take available),
                data_offset := d.data_offset + available,
                bytes_needed := d.bytes_needed - available },
       rest.drop available, out⟩
  else
    let to_copy := d.bytes_needed
    let seg_table := memcpy d.seg_table d.data_offset (rest.take to_copy)
    Flow.brk ⟨{ d with seg_table := seg_table, bytes_needed := 0,
                       state_ := ParseState.PARSE_DATA, seg_index := 0, data_offset := 0,
                       body_size := ((List.range d.seg_count).map fun i => (seg_table i).val).sum,
                       body_offset := 0, seg_remaining := 0 },
              rest.drop to_copy, out⟩

/-- The part of the segment loop's body that runs once a segment is complete (from
`bool seg_continued = ...` to the end of the body); `continue` and falling off the end
of the body both lead back to the test of the inner `while`. -/
def segmentComplete (d : Demuxer) (out : List Call) : Demuxer × List Call :=
  let seg_continued := decide (d.seg_table d.seg_index = 255)
  if ¬ seg_continued then
    if d.packet_len ≠ 0 then
      if ¬ d.head_seen ∧ d.packet_len ≥ 8 ∧ readBuf d.packet_buf 8 = OpusHead then
        ({ d with head_seen := true,
                  sample_rate := if d.packet_len ≥ 19 then decodeRate d.packet_buf
                                 else d.sample_rate,
                  packet_len := 0, packet_continued := false,
                  seg_index := d.seg_index + 1, seg_remaining := 0 }, out)
      else if ¬ d.tags_seen ∧ d.packet_len ≥ 8 ∧ readBuf d.packet_buf 8 = OpusTags then
        ({ d with tags_seen := true,
                  packet_len := 0, packet_continued := false,
                  seg_index := d.seg_index + 1, seg_remaining := 0 }, out)
      else
        let out1 :=
          if d.head_seen ∧ d.tags_seen then
            if d.on_demuxer_finished_ then
              out ++ [⟨readBuf d.packet_buf d.packet_len, d.sample_rate, d.packet_len⟩]
            else out
          else out
        ({ d with packet_len := 0, packet_continued := false,
                  seg_index := d.seg_index + 1, seg_remaining := 0 }, out1)
    else
      ({ d with packet_len := 0, packet_continued := false,
                seg_index := d.seg_index + 1, seg_remaining := 0 }, out)
  else
    ({ d with packet_continued := true,
              seg_index := d.seg_index + 1, seg_remaining := 0 }, out)

/-- The value of the local `uint8_t seg_len` after the test "segment data is partially
read": the narrowed `seg_remaining` when that is positive, else `seg_table[seg_index]`. -/
def segLen (d : Demuxer) : Nat :=
  if d.seg_remaining > 0 then d.seg_remaining % 256 else (d.seg_table d.seg_index).val

/-- The value of `ctx_.seg_remaining` after the same test. -/
def segRem (d : Demuxer) : Nat :=
  if d.seg_remaining > 0 then d.seg_remaining else (d.seg_table d.seg_index).val

/-- The object after the "Copy data" statements of the segment loop, `rest` being the
input not yet consumed; `min rest.length (segLen d)` bytes are copied. -/
def copySegment (d : Demuxer) (rest : List Byte) : Demuxer :=
  { d with packet_buf := memcpy d.packet_buf d.packet_len (rest.take (min rest.length (segLen d))),
           packet_len := d.packet_len + min rest.length (segLen d),
           body_offset := d.body_offset + min rest.length (segLen d),
           seg_remaining := segRem d - min rest.length (segLen d) }

/-- One pass through the body of `while (seg_index < seg_count && processed < size)`. -/
def segmentBody (d : Demuxer) (rest : List Byte) (out : List Call) : Flow :=
  if d.packet_len + segLen d > PACKET_BUF_SIZE then
    Flow.ret Exit.overflow
      ⟨{ d with state_ := ParseState.FIND_PAGE, packet_len := 0,
                packet_continued := false, seg_remaining := 0,
                bytes_needed := 4 }, rest, out⟩
  else
    if (copySegment d rest).seg_remaining > 0 then
      Flow.ret Exit.need_data ⟨copySegment d rest, rest.drop (min rest.length (segLen d)), out⟩
    else
      Flow.brk ⟨(segmentComplete (copySegment d rest) out).1,
                rest.drop (min rest.length (segLen d)),
                (segmentComplete (copySegment d rest) out).2⟩

/-- The loop `while (ctx_.seg_index < ctx_.seg_count && processed < size)`.  Every pass
that does not return adds one to `seg_index`, so `seg_count - seg_index` passes are all
the loop can make; the first argument is that number. -/
def segmentLoop : Nat → Demuxer → List Byte → List Call → Flow
  | 0, d, rest, out => Flow.brk ⟨d, rest, out⟩
  | n + 1, d, rest, out =>
    if d.seg_index < d.seg_count ∧ rest ≠ [] then
      match segmentBody d rest out with
      | Flow.ret e r => Flow.ret e r
      | Flow.brk r => segmentLoop n r.d r.rest r.out
    else Flow.brk ⟨d, rest, out⟩

/-- The `case ParseState::PARSE_DATA` block. -/
def parseData (d : Demuxer) (rest : List Byte) (out : List Call) : Flow :=
  match segmentLoop (d.seg_count - d.seg_index) d rest out with
  | Flow.ret e r => Flow.ret e r
  | Flow.brk r =>
    if r.d.seg_index = r.d.seg_count then
      Flow.brk ⟨{ r.d with packet_len := if ¬ r.d.packet_continued then 0 else r.d.packet_len,
                           state_ := ParseState.FIND_PAGE, bytes_needed := 4,
                           data_offset := 0 }, r.rest, r.out⟩
    else Flow.brk r

/-- The `switch (state_)` of the outer loop. -/
def dispatch (d : Demuxer) (rest : List Byte) (out : List Call) : Flow :=
  match d.state_ with
  | ParseState.FIND_PAGE => findPage d rest out
  | ParseState.PARSE_HEADER => parseHeader d rest out
  | ParseState.PARSE_SEGMENTS => parseSegments d rest out
  | ParseState.PARSE_DATA => parseData d rest out

/-- The loop `while (processed < size)` with the `return processed` after it, run for at
most `fuel` passes; `none` when the passes are used up. -/
def ProcessLoop : Nat → Run → Option (Exit × Run)
  | 0, _ => none
  | fuel + 1, r =>
    if r.rest = [] then some (Exit.done, r)
    else
      match dispatch r.d r.rest r.out with
      | Flow.ret e r1 => some (e, r1)
      | Flow.brk r1 => ProcessLoop fuel r1

/-- `OggDemuxer::Process(data, size)` with `data` the list of the `size` input bytes.  The
passes of the outer loop are bounded by `2 * size + 4` whenever the loop ends at all, so
`none` stands for a call that does not return. -/
def Process (d : Demuxer) (data : List Byte) : Option (Exit × Run) :=
  ProcessLoop (2 * data.length + 4) ⟨d, data, []⟩

/-- The value `processed` returned by a call on `size` bytes that ended in `r`. -/
def Run.processed (r : Run) (size : Nat) : Nat := size - r.rest.length

/-- Feeding the chunks of `chunks` to `Process` one call after the other; gives the final
object, all callback invocations in order and the returned values in order. -/
def feed : Demuxer → List (List Byte) → Option (Demuxer × List Call × List Nat)
  | d, [] => some (d, [], [])
  | d, c :: cs =>
    match Process d c with
    | none => none
    | some (_, r) =>
      match feed r.d cs with
      | none => none
      | some (d1, calls, rets) => some (d1, r.out ++ calls, r.processed c.length :: rets)

/-- Loop state `r` of the outer loop of `Process` leads to loop state `r1` after some
passes (with the same final result, whatever the number of passes still allowed). -/
def Reaches (r r1 : Run) : Prop :=
  ∃ k, ∀ fuel, ProcessLoop (fuel + k) r = ProcessLoop fuel r1

/-- The call on loop state `r` ends with result `res`. -/
def Eval (r : Run) (res : Exit × Run) : Prop :=
  ∃ fuel, ProcessLoop fuel r = some res

/-- States an object can be in between calls: it is constructed, `Reset`, given a callback,
or has returned from a `Process` call. -/
inductive Reachable : Demuxer → Prop
  | fresh : Reachable fresh
  | reset (d : Demuxer) : Reachable d → Reachable (Reset d)
  | setcb (d : Demuxer) : Reachable d → Reachable (OnDemuxerFinished d)
  | process (d : Demuxer) (data : List Byte) (e : Exit) (r : Run) :
      Reachable d → Process d data = some (e, r) → Reachable r.d

/-- What holds of the cursor fields at every test of the outer loop in a reachable state. -/
structure StateInv (d : Demuxer) : Prop where
  packet_len_le : d.packet_len ≤ PACKET_BUF_SIZE
  rate_default : d.head_seen = false → d.sample_rate = 48000
  find : d.state_ = ParseState.FIND_PAGE → 1 ≤ d.bytes_needed ∧ d.bytes_needed ≤ 4
  hdr : d.state_ = ParseState.PARSE_HEADER →
    d.data_offset + d.bytes_needed = 27 ∧ 1 ≤ d.bytes_needed ∧ 4 ≤ d.data_offset
  segs : d.state_ = ParseState.PARSE_SEGMENTS →
    d.data_offset + d.bytes_needed = d.seg_count ∧ 1 ≤ d.bytes_needed ∧ d.seg_count ≤ 255
  data : d.state_ = ParseState.PARSE_DATA →
    d.seg_index < d.seg_count ∧ d.seg_count ≤ 255 ∧
    d.seg_remaining ≤ (d.seg_table d.seg_index).val ∧
    d.packet_len + d.seg_remaining ≤ PACKET_BUF_SIZE

/-- What holds at every test of the segment loop in a reachable state. -/
structure SegInv (d : Demuxer) : Prop where
  st : d.state_ = ParseState.PARSE_DATA
  idx_le : d.seg_index ≤ d.seg_count
  cnt_le : d.seg_count ≤ 255
  rem_le : d.seg_remaining ≤ (d.seg_table d.seg_index).val
  len_rem : d.packet_len + d.seg_remaining ≤ PACKET_BUF_SIZE
  rate_default : d.head_seen = false → d.sample_rate = 48000

/-- Bound on the passes the outer loop can still make in a reachable state: two for
every input byte left, and one more in `PARSE_DATA`. -/
def passes (d : Demuxer) (rest : List Byte) : Nat :=
  2 * rest.length + (if d.state_ = ParseState.PARSE_DATA then 1 else 0)

/-- What every exit of a call started in a state with `StateInv` satisfies. -/
def ExitOK (res : Exit × Run) : Prop :=
  StateInv res.2.d ∧
  ((res.1 = Exit.done ∧ res.2.rest = []) ∨ (res.1 = Exit.need_data ∧ res.2.rest = []) ∨
    (res.1 = Exit.overflow ∧ res.2.rest ≠ [] ∧
      res.2.d.state_ = ParseState.FIND_PAGE ∧ res.2.d.bytes_needed = 4 ∧
      res.2.d.packet_len = 0 ∧ res.2.d.packet_continued = false))

/-- What relates the loop state `⟨d, rest, out⟩` to any later loop state `r` of the same call
(when the "run in error state" branch is not taken): input is only consumed, invocations are
only appended, the stored callback is kept, the flags of `opus_info_` are never cleared, the
sample rate is kept once `head_seen` holds, and an invocation is made only with both flags
set. -/
structure Frame (d : Demuxer) (rest : List Byte) (out : List Call) (r : Run) : Prop where
  rest_drop : ∃ k, r.rest = rest.drop k
  out_append : ∃ o, r.out = out ++ o
  cb : r.d.on_demuxer_finished_ = d.on_demuxer_finished_
  head_mono : d.head_seen = true → r.d.head_seen = true ∧ r.d.sample_rate = d.sample_rate
  tags_mono : d.tags_seen = true → r.d.tags_seen = true
  gated : r.out ≠ out → r.d.head_seen = true ∧ r.d.tags_seen = true

/-- An object in `PARSE_DATA` with 8000 bytes accumulated whose next segment has 255 bytes. -/
def overflowState : Demuxer :=
  { Reset fresh with state_ := ParseState.PARSE_DATA, packet_len := 8000, seg_count := 1,
                     seg_table := fun _ => 255 }

/-- An object in `PARSE_DATA` that has just accumulated a 19-byte packet "OpusHead", version
and channel count, pre-skip, and the rate bytes `80 BB 00 00`. -/
def headState : Demuxer :=
  { Reset fresh with state_ := ParseState.PARSE_DATA, packet_len := 19, seg_count := 1,
                     seg_table := fun _ => 19,
                     packet_buf := memcpy (fun _ => 0) 0
                       (OpusHead ++ [1, 2, 56, 1, 0x80, 0xBB, 0, 0, 0, 0, 0]) }

/-- The last three bytes of `l` (all of `l` when it is shorter). -/
def last3 (l : List Byte) : List Byte := l.drop (l.length - 3)

/-- The object `d` is `d0` after a page search that has gone over input ending in the bytes
`w` without completing a magic: `w` (at most three bytes) is held at the start of `header`
and `4 - w.length` bytes are needed. -/
def Searching (d0 : Demuxer) (w : List Byte) (d : Demuxer) : Prop :=
  w.length ≤ 3 ∧
    ∃ h, d = { d0 with header := h, bytes_needed := 4 - w.length } ∧ readBuf h w.length = w

/-! ## Pages, lacing and delivery as the specification describes them -/

/-- Specification of packet reassembly: the body `body` of a page is cut up by the lacing
values `table`, starting with the bytes `acc` of a packet continued from the page before.
A segment with lacing value 255 continues its packet, the first one below 255 ends it.
Gives the packets completed in the page, in order, and the bytes of the packet still open
at the end (`[]` when none is). -/
def lacing : List Byte → List Byte → List Byte → List (List Byte) × List Byte
  | [], _, acc => ([], acc)
  | s :: t, body, acc =>
    if s = 255 then lacing t (body.drop s.val) (acc ++ body.take s.val)
    else
      ((acc ++ body.take s.val) :: (lacing t (body.drop s.val) []).1,
        (lacing t (body.drop s.val) []).2)

/-- Specification of the capacity rule: starting with `n` bytes accumulated, no segment of
`table` brings the accumulated length of its packet above the capacity. -/
def Fits : Nat → List Byte → Prop
  | _, [] => True
  | n, s :: t => n + s.val ≤ PACKET_BUF_SIZE ∧ Fits (if s = 255 then n + s.val else 0) t

/-- The `OpusStreamInfo` of the specification together with the callbacks made so far. -/
structure StreamInfo where
  head : Bool
  tags : Bool
  rate : Int
  out : List Call

/-- Specification of the sample rate of an identification packet: the 32-bit little-endian
integer at byte offset 12. -/
def rateOf (p : List Byte) : Int :=
  toInt32 ((p.getD 12 0).val + 2 ^ 8 * (p.getD 13 0).val + 2 ^ 16 * (p.getD 14 0).val +
    2 ^ 24 * (p.getD 15 0).val)

/-- Specification of what a completed packet `p` does (`cb`: a callback is registered): an
empty packet does nothing; the first packet beginning with "OpusHead" sets the
identification flag and, if it has at least 19 bytes, the rate; else the first packet
beginning with "OpusTags" sets the comment flag; else the packet is delivered if both flags
are set, and dropped if not. -/
def deliverPacket (cb : Bool) (i : StreamInfo) (p : List Byte) : StreamInfo :=
  if p = [] then i
  else if i.head = false ∧ OpusHead <+: p then
    { i with head := true, rate := if 19 ≤ p.length then rateOf p else i.rate }
  else if i.tags = false ∧ OpusTags <+: p then { i with tags := true }
  else if i.head = true ∧ i.tags = true ∧ cb = true then
    { i with out := i.out ++ [⟨p, i.rate, p.length⟩] }
  else i

/-- Specification of what a sequence of completed packets does. -/
def deliver (cb : Bool) (i : StreamInfo) (ps : List (List Byte)) : StreamInfo :=
  ps.foldl (deliverPacket cb) i

/-- The `OpusStreamInfo` part of an object, with the callbacks `out` made so far. -/
def infoOf (d : Demuxer) (out : List Call) : StreamInfo :=
  ⟨d.head_seen, d.tags_seen, d.sample_rate, out⟩

/-- The object `d1` and callbacks `out1` are what the specification gives for the object `d`
(at a segment boundary, holding the open packet `acc`) and callbacks `out` once the segments
`ts` with the body bytes `body` have been taken in. -/
structure AfterSegments (d : Demuxer) (ts body acc : List Byte) (out : List Call)
    (d1 : Demuxer) (out1 : List Call) : Prop where
  state_eq : d1.state_ = d.state_
  header_eq : d1.header = d.header
  seg_table_eq : d1.seg_table = d.seg_table
  seg_count_eq : d1.seg_count = d.seg_count
  cb_eq : d1.on_demuxer_finished_ = d.on_demuxer_finished_
  bytes_needed_eq : d1.bytes_needed = d.bytes_needed
  data_offset_eq : d1.data_offset = d.data_offset
  body_size_eq : d1.body_size = d.body_size
  seg_index_eq : d1.seg_index = d.seg_index + ts.length
  seg_remaining_eq : d1.seg_remaining = 0
  body_offset_eq : d1.body_offset = d.body_offset + body.length
  packet_len_eq : d1.packet_len = (lacing ts body acc).2.length
  packet_buf_eq : readBuf d1.packet_buf (lacing ts body acc).2.length = (lacing ts body acc).2
  info_eq : infoOf d1 out1 = deliver d.on_demuxer_finished_ (infoOf d out) (lacing ts body acc).1
  continued_eq : d1.packet_continued =
    match ts.getLast? with
    | none => d.packet_continued
    | some s => decide (s = 255)

/-- The segment-count byte of a page with `n` segments. -/
def countByte (n : Nat) : Byte := ⟨n % 256, Nat.mod_lt n (by decide)⟩

/-- A page of the stream: the 21 header bytes between the version byte and the segment
count (header type, granule position, serial number, sequence number, checksum), the
segment table and the body. -/
structure Page where
  fields : List Byte
  table : List Byte
  body : List Byte

/-- The bytes of a version-0 page: "OggS", version 0, the other header fields, the segment
count, the segment table, the body. -/
def Page.bytes (p : Page) : List Byte :=
  OggS ++ ([0] ++ p.fields ++ [countByte p.table.length]) ++ p.table ++ p.body

/-- Well-formed page: 27 header bytes, at most 255 segments, and a body of exactly the
length the segment table promises. -/
def Page.WF (p : Page) : Prop :=
  p.fields.length = 21 ∧ p.table.length ≤ 255 ∧ p.body.length = (p.table.map Fin.val).sum

/-- The object `d1` and callbacks `out1` are what the specification gives for the object `d`
(searching for a page, holding the open packet `acc`) and callbacks `out` once the page `p`
has been taken in: searching for the next page, the open packet and the stream information
as `lacing` and `deliver` say. -/
structure AfterPage (d : Demuxer) (p : Page) (acc : List Byte) (out : List Call)
    (d1 : Demuxer) (out1 : List Call) : Prop where
  state_eq : d1.state_ = ParseState.FIND_PAGE
  bytes_needed_eq : d1.bytes_needed = 4
  cb_eq : d1.on_demuxer_finished_ = d.on_demuxer_finished_
  packet_len_eq : d1.packet_len = (lacing p.table p.body acc).2.length
  packet_buf_eq : readBuf d1.packet_buf (lacing p.table p.body acc).2.length =
    (lacing p.table p.body acc).2
  info_eq : infoOf d1 out1 =
    deliver d.on_demuxer_finished_ (infoOf d out) (lacing p.table p.body acc).1
  continued_eq : d1.packet_continued =
    match p.table.getLast? with
    | none => d.packet_continued
    | some s => decide (s = 255)

/-- An object that has seen both header packets, holds no packet bytes, searches for a page
and has a callback registered. -/
def readyState : Demuxer :=
  { OnDemuxerFinished fresh with head_seen := true, tags_seen := true }

/-- The callback invocation that delivers packet `q` at sample rate `rate`. -/
def callOf (rate : Int) (q : List Byte) : Call := ⟨q, rate, q.length⟩

/-- The callbacks for a list of completed packets once both header packets have been seen:
one per non-empty packet, in order. -/
def callsOf (rate : Int) (ps : List (List Byte)) : List Call :=
  (ps.filter fun q => !q.isEmpty).map (callOf rate)

/-- A page with segment table `[50, 30]`: fifty bytes 1 and thirty bytes 2. -/
def page5030 : Page := ⟨List.replicate 21 0, [50, 30], List.replicate 50 1 ++ List.replicate 30 2⟩

/-- A page with segment table `[255, 255, 10]` and 520 body bytes. -/
def page520 : Page := ⟨List.replicate 21 0, [255, 255, 10], List.replicate 520 9⟩

/-- A page whose 34 segments `255, ..., 255, 0` form one packet of 8415 bytes. -/
def bigPage : Page :=
  ⟨List.replicate 21 0, List.replicate 32 255 ++ 255 :: [0], List.replicate 8415 9⟩

/-- The capacity rule can be checked by computation. -/
instance Fits.instDecidable : (n : Nat) → (t : List Byte) → Decidable (Fits n t)
  | _, [] => isTrue trivial
  | n, s :: t =>
    have := Fits.instDecidable (if s = 255 then n + s.val else 0) t
    inferInstanceAs
      (Decidable (n + s.val ≤ PACKET_BUF_SIZE ∧ Fits (if s = 255 then n + s.val else 0) t))

/-- The page with one segment of length 8 holding exactly "OpusHead" (`f`: the 21 free
header bytes). -/
def headPage (f : List Byte) : Page := ⟨f, [8], OpusHead⟩

/-- The page with one segment of length 8 holding exactly "OpusTags". -/
def tagsPage (f : List Byte) : Page := ⟨f, [8], OpusTags⟩

/-- The page with one segment holding the bytes `audio`. -/
def audioPage (f : List Byte) (audio : List Byte) : Page := ⟨f, [countByte audio.length], audio⟩

/-- A page of 32 segments of 255 bytes, all of one packet that is still open at its end. -/
def openPage : Page := ⟨List.replicate 21 0, List.replicate 32 255, List.replicate 8160 9⟩

/-- A page with segment table `[255, 0]`: 255 more bytes of the open packet, then its end. -/
def closePage : Page := ⟨List.replicate 21 0, [255, 0], List.replicate 255 9⟩

/-- A page with the single segment of 255 bytes, which leaves its packet open. -/
def contPage : Page := ⟨List.replicate 21 0, [255], List.replicate 255 1⟩

/-- A page with the single segment `2, 2, 2`, which ends its packet. -/
def endPage : Page := ⟨List.replicate 21 0, [3], [2, 2, 2]⟩

/-- The object `d` with another content of the `header` array. -/
def setHeader (h : Nat → Byte) (d : Demuxer) : Demuxer := { d with header := h }

/-- Applies `f` to the object a pass ends with. -/
def Flow.mapD (f : Demuxer → Demuxer) : Flow → Flow
  | Flow.brk r => Flow.brk ⟨f r.d, r.rest, r.out⟩
  | Flow.ret e r => Flow.ret e ⟨f r.d, r.rest, r.out⟩

/-- The index `i` of `header` holds a byte the code may still read before writing it: the
bytes of a partial magic in `FIND_PAGE`, the header bytes copied so far in `PARSE_HEADER`. -/
def HeaderLive (d : Demuxer) (i : Nat) : Prop :=
  (d.state_ = ParseState.FIND_PAGE ∧ i + d.bytes_needed < 4) ∨
    (d.state_ = ParseState.PARSE_HEADER ∧ 4 ≤ i ∧ i < d.data_offset)

/-- The objects `d` and `d1` agree on every member except for bytes of `header` that are dead
(overwritten before they are read again). -/
structure Alike (d d1 : Demuxer) : Prop where
  fields_eq : d1 = setHeader d1.header d
  live_eq : ∀ i, HeaderLive d i → d1.header i = d.header i

/-- Loop states that agree up to dead header bytes. -/
structure RunAlike (r r1 : Run) : Prop where
  d_alike : Alike r.d r1.d
  rest_eq : r1.rest = r.rest
  out_eq : r1.out = r.out

/-- Passes that end the same way in loop states that agree up to dead header bytes. -/
def FlowAlike : Flow → Flow → Prop
  | Flow.brk r, Flow.brk r1 => RunAlike r r1
  | Flow.ret e r, Flow.ret e1 r1 => e1 = e ∧ RunAlike r r1
  | _, _ => False

/-- Puts the invocations `o` in front of those a pass ends with. -/
def Flow.prependOut (o : List Call) : Flow → Flow
  | Flow.brk r => Flow.brk ⟨r.d, r.rest, o ++ r.out⟩
  | Flow.ret e r => Flow.ret e ⟨r.d, r.rest, o ++ r.out⟩

/-- Puts the invocations `o` in front of those a call ends with. -/
def prependOut (o : List Call) (res : Exit × Run) : Exit × Run :=
  (res.1, ⟨res.2.d, res.2.rest, o ++ res.2.out⟩)

/-- Results of two calls that agree on whether the overflow branch was taken and end in loop
states that agree up to dead header bytes. -/
structure ResAlike (res res1 : Exit × Run) : Prop where
  overflow_iff : res1.1 = Exit.overflow ↔ res.1 = Exit.overflow
  run_alike : RunAlike res.2 res1.2

/-- The runs from the loop states `r` and `r1` both end, with results that agree. -/
def RunsAlike (r r1 : Run) : Prop :=
  ∃ res res1, Eval r res ∧ Eval r1 res1 ∧ ResAlike res res1

/-- What relates a call on the single byte `b` to a call on `b :: rest`, both from the loop
state with object `d` and invocations `out`: the call on `b` ends with `e1` in `r1`, and either
both calls take the overflow branch in the same state, or neither does and the call on
`b :: rest` ends as the loop does when started on `rest` where the call on `b` ended. -/
def ConsSplit (d : Demuxer) (b : Byte) (rest : List Byte) (out : List Call) : Prop :=
  ∃ e1 r1, Eval ⟨d, [b], out⟩ (e1, r1) ∧
    ((e1 = Exit.overflow ∧
        ∃ r, Eval ⟨d, b :: rest, out⟩ (Exit.overflow, r) ∧ r.d = r1.d ∧ r.out = r1.out) ∨
      (e1 ≠ Exit.overflow ∧ r1.rest = [] ∧ RunsAlike ⟨d, b :: rest, out⟩ ⟨r1.d, rest, r1.out⟩))

/-- The object `d` once a page search has matched the magic, with `h` in `header`. -/
def afterMagic (d : Demuxer) (h : Nat → Byte) : Demuxer :=
  { d with header := h, state_ := ParseState.PARSE_HEADER, data_offset := 4,
           bytes_needed := 27 - 4 }

/-- Feeding `data` to `Process` one byte per call, as long as no call takes the overflow
branch (`none` when one does); gives the final object and all callback invocations. -/
def bytewise : Demuxer → List Byte → Option (Demuxer × List Call)
  | d, [] => some (d, [])
  | d, b :: rest =>
    match Process d [b] with
    | none => none
    | some (e, r) =>
      if e = Exit.overflow then none
      else
        match bytewise r.d rest with
        | none => none
        | some (d1, calls) => some (d1, r.out ++ calls)

/-- The byte stream made of the pages `ps`, one after the other. -/
def streamOf (ps : List Page) : List Byte := (ps.map Page.bytes).flatten

/-- Specification of packet reassembly over a stream of pages, starting with the bytes `acc`
of an open packet: the packets completed, in order, and the bytes of the packet left open at
the end of the stream. -/
def packetsOf : List Byte → List Page → List (List Byte) × List Byte
  | acc, [] => ([], acc)
  | acc, p :: ps =>
    ((lacing p.table p.body acc).1 ++ (packetsOf (lacing p.table p.body acc).2 ps).1,
      (packetsOf (lacing p.table p.body acc).2 ps).2)

/-- A stream of three pages: "OpusHead", "OpusTags", and one audio packet `1, 2, 3`. -/
def threePages : List Page :=
  [headPage (List.replicate 21 0), tagsPage (List.replicate 21 0),
    audioPage (List.replicate 21 0) [1, 2, 3]]

/-- The partition of `l` into chunks of one byte. -/
def singles (l : List Byte) : List (List Byte) := l.map fun b => [b]

/-- What `PARSE_HEADER` decides once the header array `H` is complete, as a relation between
`H` and the object `d1` the pass ends in: a non-zero version byte or a segment count of zero
sends it back to the page search, else it goes on to the segment table. -/
def Validated (H : Nat → Byte) (d1 : Demuxer) : Prop :=
  (H 4 ≠ 0 → d1.state_ = ParseState.FIND_PAGE ∧ d1.bytes_needed = 4) ∧
  (H 4 = 0 → (H 26).val = 0 → d1.state_ = ParseState.FIND_PAGE ∧ d1.bytes_needed = 4) ∧
  (H 4 = 0 → (H 26).val ≠ 0 →
    d1.state_ = ParseState.PARSE_SEGMENTS ∧ d1.seg_count = (H 26).val ∧
      d1.bytes_needed = (H 26).val ∧ d1.data_offset = 0)

/-- An object that has matched the magic and holds the first two of the 23 header bytes that
follow it. -/
def midHeader : Demuxer :=
  { Reset fresh with state_ := ParseState.PARSE_HEADER, data_offset := 6, bytes_needed := 21 }

/-- The chunks of a stream that begins with the two header pages and an audio page with
segment table `[255, 0]`, each page a chunk of its own. -/
def deferChunks : List (List Byte) :=
  [(headPage (List.replicate 21 0)).bytes, (tagsPage (List.replicate 21 0)).bytes,
    closePage.bytes]

/-- The sum `seg_table[0] + ... + seg_table[n - 1]` of lacing values. -/
def tableSum (t : Nat → Byte) (n : Nat) : Nat := ((List.range n).map fun i => (t i).val).sum

/-- Loop states at the test of the outer `while` of `Process`, in calls made on objects that
are `Reachable`. -/
inductive ReachRun : Run → Prop
  | start (d : Demuxer) (data : List Byte) : Reachable d → ReachRun ⟨d, data, []⟩
  | next (r r1 : Run) : ReachRun r → r.rest ≠ [] →
      dispatch r.d r.rest r.out = Flow.brk r1 → ReachRun r1

/-- Loop states at the test of the segment loop, in calls made on objects that are
`Reachable`. -/
inductive ReachSeg : Run → Prop
  | enter (r : Run) : ReachRun r → r.rest ≠ [] → r.d.state_ = ParseState.PARSE_DATA → ReachSeg r
  | next (r r1 : Run) : ReachSeg r → r.d.seg_index < r.d.seg_count → r.rest ≠ [] →
      segmentBody r.d r.rest r.out = Flow.brk r1 → ReachSeg r1

/-- The length of the segment that is being copied; 0 at a segment boundary. -/
def inSegment (d : Demuxer) : Nat :=
  if d.seg_remaining > 0 then (d.seg_table d.seg_index).val else 0

/-- What holds of the packet in flight and of the body counters at every test of the outer
loop and of the segment loop: bytes accumulated at a segment boundary belong to a continued
packet; in `PARSE_DATA` past the first segment, `packet_continued` says whether the segment
before had lacing value 255; no segment is cut outside `PARSE_DATA` or past the last
segment; the accumulator holds whole segments of 255 bytes and what has been copied of the
segment being copied; and in `PARSE_DATA` the body counters are the sums of lacing values
they stand for. -/
structure FlightInv (d : Demuxer) : Prop where
  one_packet : d.seg_remaining = 0 → 0 < d.packet_len → d.packet_continued = true
  prev_seg : d.state_ = ParseState.PARSE_DATA → 0 < d.seg_index →
    d.packet_continued = decide (d.seg_table (d.seg_index - 1) = 255)
  idle : d.seg_count ≤ d.seg_index ∨ d.state_ ≠ ParseState.PARSE_DATA → d.seg_remaining = 0
  body_size_eq : d.state_ = ParseState.PARSE_DATA →
    d.body_size = tableSum d.seg_table d.seg_count
  whole : inSegment d ≤ d.packet_len + d.seg_remaining ∧
    (d.packet_len + d.seg_remaining - inSegment d) % 255 = 0
  body_offset_eq : d.state_ = ParseState.PARSE_DATA →
    d.body_offset + d.seg_remaining = tableSum d.seg_table d.seg_index + inSegment d

/-- One packet in flight, as the specification puts it: at a segment boundary, bytes in the
accumulator belong to a packet that is continued (made of whole segments of 255 bytes, the
segment before having lacing value 255), and when no packet is continued the accumulator is
empty. -/
def OneInFlight (d : Demuxer) : Prop :=
  d.seg_remaining = 0 →
    (0 < d.packet_len → d.packet_continued = true ∧ d.packet_len % 255 = 0 ∧
      (d.state_ = ParseState.PARSE_DATA → 0 < d.seg_index →
        d.seg_table (d.seg_index - 1) = 255)) ∧
    (d.packet_continued = false → d.packet_len = 0)

/-- An object that has matched the magic of a page while it holds 255 bytes of a packet
continued from the page before, both header packets seen and a callback registered. -/
def openHeader : Demuxer :=
  { readyState with state_ := ParseState.PARSE_HEADER, data_offset := 4, bytes_needed := 23,
                    packet_continued := true, packet_len := 255, packet_buf := fun _ => 1 }

/-- A page with segment table `[3, 255, 0]`: three bytes that end an open packet, then a
packet of 255 bytes that is closed by an empty segment. -/
def endMorePage : Page :=
  ⟨List.replicate 21 0, [3, 255, 0], [2, 2, 2] ++ List.replicate 255 4⟩

/-! ## Buffers -/

theorem memcpy_nil (buf : Nat → Byte) (off : Nat) : memcpy buf off [] = buf := by
  funext i
  simp [memcpy]

theorem memcpy_memcpy (buf : Nat → Byte) (off : Nat) (a b : List Byte) :
    memcpy (memcpy buf off a) (off + a.length) b = memcpy buf off (a ++ b) := by
  funext i
  simp only [memcpy, List.length_append, List.getD_eq_getElem?_getD]
  by_cases h1 : off + a.length ≤ i ∧ i < off + a.length + b.length
  · rw [if_pos h1, if_pos (by omega)]
    rw [List.getElem?_append_right (by omega)]
    congr 2
    omega
  · rw [if_neg h1]
    by_cases h2 : off ≤ i ∧ i < off + a.length
    · rw [if_pos h2, if_pos (by omega), List.getElem?_append_left (by omega)]
    · rw [if_neg h2, if_neg (by omega)]

theorem memcpy_below (buf : Nat → Byte) (off : Nat) (src : List Byte) (i : Nat) (h : i < off) :
    memcpy buf off src i = buf i := by
  simp only [memcpy]
  rw [if_neg (by omega)]

theorem memcpy_above (buf : Nat → Byte) (off : Nat) (src : List Byte) (i : Nat)
    (h : off + src.length ≤ i) : memcpy buf off src i = buf i := by
  simp only [memcpy]
  rw [if_neg (by omega)]

theorem memcpy_at (buf : Nat → Byte) (off : Nat) (src : List Byte) (i : Nat)
    (h : i < src.length) : memcpy buf off src (off + i) = src.getD i 0 := by
  simp only [memcpy]
  rw [if_pos (by omega)]
  congr 1
  omega

theorem readBuf_length (buf : Nat → Byte) (n : Nat) : (readBuf buf n).length = n := by
  simp [readBuf]

theorem readBuf_succ (buf : Nat → Byte) (n : Nat) :
    readBuf buf (n + 1) = readBuf buf n ++ [buf n] := by
  simp [readBuf, List.range_succ]

theorem readBuf_congr (b1 b2 : Nat → Byte) (n : Nat) (h : ∀ i, i < n → b1 i = b2 i) :
    readBuf b1 n = readBuf b2 n := by
  simp only [readBuf]
  apply List.map_congr_left
  intro i hi
  exact h i (List.mem_range.mp hi)

theorem readBuf_add (buf : Nat → Byte) (n m : Nat) :
    readBuf buf (n + m) = readBuf buf n ++ readBuf (fun i => buf (n + i)) m := by
  induction m with
  | zero => simp [readBuf]
  | succ m ih => rw [← Nat.add_assoc, readBuf_succ, ih, readBuf_succ, List.append_assoc]

theorem readBuf_of_list (src : List Byte) :
    readBuf (fun i => src.getD i 0) src.length = src := by
  apply List.ext_getElem
  · simp [readBuf]
  · intro i h1 h2
    simp [readBuf, List.getD_eq_getElem?_getD, List.getElem?_eq_getElem h2]

theorem readBuf_memcpy (buf : Nat → Byte) (n : Nat) (src : List Byte) :
    readBuf (memcpy buf n src) (n + src.length) = readBuf buf n ++ src := by
  rw [readBuf_add]
  congr 1
  · exact readBuf_congr _ _ _ (fun i hi => memcpy_below _ _ _ _ hi)
  · conv_rhs => rw [← readBuf_of_list src]
    exact readBuf_congr _ _ _ (fun i hi => memcpy_at _ _ _ _ hi)

theorem readBuf_memcpy_below (buf : Nat → Byte) (n k : Nat) (src : List Byte) (h : k ≤ n) :
    readBuf (memcpy buf n src) k = readBuf buf k :=
  readBuf_congr _ _ _ (fun i hi => memcpy_below _ _ _ _ (by omega))

/-! ## The outer loop -/

theorem ProcessLoop_succ (fuel : Nat) (r : Run) :
    ProcessLoop (fuel + 1) r =
      if r.rest = [] then some (Exit.done, r)
      else
        match dispatch r.d r.rest r.out with
        | Flow.ret e r1 => some (e, r1)
        | Flow.brk r1 => ProcessLoop fuel r1 := rfl

theorem ProcessLoop_nil (fuel : Nat) (r : Run) (h : r.rest = []) :
    ProcessLoop (fuel + 1) r = some (Exit.done, r) := by
  rw [ProcessLoop_succ, if_pos h]

theorem ProcessLoop_brk (fuel : Nat) (r r1 : Run) (h : r.rest ≠ [])
    (hd : dispatch r.d r.rest r.out = Flow.brk r1) :
    ProcessLoop (fuel + 1) r = ProcessLoop fuel r1 := by
  rw [ProcessLoop_succ, if_neg h, hd]

theorem ProcessLoop_ret (fuel : Nat) (r r1 : Run) (e : Exit) (h : r.rest ≠ [])
    (hd : dispatch r.d r.rest r.out = Flow.ret e r1) :
    ProcessLoop (fuel + 1) r = some (e, r1) := by
  rw [ProcessLoop_succ, if_neg h, hd]

theorem ProcessLoop_mono (fuel : Nat) : ∀ (r : Run) (res : Exit × Run) (k : Nat),
    ProcessLoop fuel r = some res → ProcessLoop (fuel + k) r = some res := by
  induction fuel with
  | zero => intro r res k h; simp [ProcessLoop] at h
  | succ n ih =>
    intro r res k h
    have e : n + 1 + k = (n + k) + 1 := by omega
    rw [e, ProcessLoop_succ]
    rw [ProcessLoop_succ] at h
    by_cases hr : r.rest = []
    · rw [if_pos hr] at h ⊢; exact h
    · rw [if_neg hr] at h ⊢
      cases hd : dispatch r.d r.rest r.out with
      | ret e r1 => rw [hd] at h; exact h
      | brk r1 => rw [hd] at h; exact ih r1 res k h

theorem ProcessLoop_det (n m : Nat) (r : Run) (a b : Exit × Run)
    (ha : ProcessLoop n r = some a) (hb : ProcessLoop m r = some b) : a = b := by
  have h1 := ProcessLoop_mono n r a m ha
  have h2 := ProcessLoop_mono m r b n hb
  rw [Nat.add_comm] at h2
  rw [h1] at h2
  exact Option.some.inj h2

theorem Eval_det (r : Run) (a b : Exit × Run) (ha : Eval r a) (hb : Eval r b) : a = b := by
  obtain ⟨n, hn⟩ := ha
  obtain ⟨m, hm⟩ := hb
  exact ProcessLoop_det n m r a b hn hm

theorem Eval_nil (r : Run) (h : r.rest = []) : Eval r (Exit.done, r) :=
  ⟨1, ProcessLoop_nil 0 r h⟩

theorem Eval_brk (r r1 : Run) (res : Exit × Run) (h : r.rest ≠ [])
    (hd : dispatch r.d r.rest r.out = Flow.brk r1) : Eval r res ↔ Eval r1 res := by
  constructor
  · rintro ⟨n, hn⟩
    cases n with
    | zero => simp [ProcessLoop] at hn
    | succ n => rw [ProcessLoop_brk n r r1 h hd] at hn; exact ⟨n, hn⟩
  · rintro ⟨n, hn⟩
    exact ⟨n + 1, by rw [ProcessLoop_brk n r r1 h hd]; exact hn⟩

theorem Eval_ret (r r1 : Run) (e : Exit) (res : Exit × Run) (h : r.rest ≠ [])
    (hd : dispatch r.d r.rest r.out = Flow.ret e r1) : Eval r res ↔ res = (e, r1) := by
  constructor
  · rintro ⟨n, hn⟩
    cases n with
    | zero => simp [ProcessLoop] at hn
    | succ n =>
      rw [ProcessLoop_ret n r r1 e h hd] at hn
      exact (Option.some.inj hn).symm
  · rintro rfl
    exact ⟨1, ProcessLoop_ret 0 r r1 e h hd⟩

theorem Reaches_refl (r : Run) : Reaches r r := ⟨0, fun _ => rfl⟩

theorem Reaches_trans (a b c : Run) (h1 : Reaches a b) (h2 : Reaches b c) : Reaches a c := by
  obtain ⟨k1, h1⟩ := h1
  obtain ⟨k2, h2⟩ := h2
  refine ⟨k2 + k1, fun fuel => ?_⟩
  rw [← Nat.add_assoc, h1, h2]

theorem Reaches_brk (r r1 : Run) (h : r.rest ≠ [])
    (hd : dispatch r.d r.rest r.out = Flow.brk r1) : Reaches r r1 :=
  ⟨1, fun fuel => ProcessLoop_brk fuel r r1 h hd⟩

theorem Reaches_Eval (r r1 : Run) (res : Exit × Run) (h : Reaches r r1) (he : Eval r1 res) :
    Eval r res := by
  obtain ⟨k, hk⟩ := h
  obtain ⟨n, hn⟩ := he
  exact ⟨n + k, by rw [hk]; exact hn⟩

/-! ## The segment loop: invariant -/

theorem segmentComplete_inv (d : Demuxer) (out : List Call) (h : SegInv d)
    (hlt : d.seg_index < d.seg_count) (hrem : d.seg_remaining = 0) :
    SegInv (segmentComplete d out).1 ∧
    (segmentComplete d out).1.seg_index = d.seg_index + 1 ∧
    (segmentComplete d out).1.seg_remaining = 0 ∧
    (segmentComplete d out).1.seg_count = d.seg_count := by
  obtain ⟨h1, h2, h3, h4, h5, h6⟩ := h
  unfold segmentComplete
  simp only []
  split_ifs <;> (refine ⟨⟨?_, ?_, ?_, ?_, ?_, ?_⟩, ?_, ?_, ?_⟩) <;> simp_all <;> omega

theorem StateInv_of_SegInv (d : Demuxer) (h : SegInv d) (hlt : d.seg_index < d.seg_count) :
    StateInv d := by
  obtain ⟨h1, h2, h3, h4, h5, h6⟩ := h
  refine ⟨by omega, h6, ?_, ?_, ?_, ?_⟩ <;> intro hs <;> simp_all

theorem SegInv_of_StateInv (d : Demuxer) (h : StateInv d)
    (hs : d.state_ = ParseState.PARSE_DATA) : SegInv d ∧ d.seg_index < d.seg_count := by
  obtain ⟨h1, h2, h3, h4, h5, h6⟩ := h
  have := h6 hs
  exact ⟨⟨hs, by omega, by omega, by omega, by omega, h2⟩, by omega⟩

theorem segLen_eq (d : Demuxer) (h : SegInv d) : segLen d = segRem d := by
  have hb := (d.seg_table d.seg_index).isLt
  have := h.rem_le
  unfold segLen segRem
  split_ifs
  · omega
  · rfl

theorem segRem_le (d : Demuxer) (h : SegInv d) :
    segRem d ≤ (d.seg_table d.seg_index).val ∧ d.seg_remaining ≤ segRem d := by
  have := h.rem_le
  unfold segRem
  split_ifs <;> omega

theorem copySegment_inv (d : Demuxer) (rest : List Byte) (h : SegInv d)
    (hov : ¬ d.packet_len + segLen d > PACKET_BUF_SIZE) : SegInv (copySegment d rest) := by
  have e := segLen_eq d h
  have l := segRem_le d h
  obtain ⟨h1, h2, h3, h4, h5, h6⟩ := h
  refine ⟨h1, h2, h3, ?_, ?_, h6⟩
  · simp only [copySegment]; omega
  · simp only [copySegment]; omega

theorem segmentBody_overflow (d : Demuxer) (rest : List Byte) (out : List Call)
    (hov : d.packet_len + segLen d > PACKET_BUF_SIZE) :
    segmentBody d rest out = Flow.ret Exit.overflow
      ⟨{ d with state_ := ParseState.FIND_PAGE, packet_len := 0,
                packet_continued := false, seg_remaining := 0,
                bytes_needed := 4 }, rest, out⟩ := by
  unfold segmentBody
  rw [if_pos hov]

theorem segmentBody_need (d : Demuxer) (rest : List Byte) (out : List Call)
    (hov : ¬ d.packet_len + segLen d > PACKET_BUF_SIZE)
    (hrem : (copySegment d rest).seg_remaining > 0) :
    segmentBody d rest out =
      Flow.ret Exit.need_data ⟨copySegment d rest, rest.drop (min rest.length (segLen d)), out⟩ := by
  unfold segmentBody
  rw [if_neg hov, if_pos hrem]

theorem segmentBody_complete (d : Demuxer) (rest : List Byte) (out : List Call)
    (hov : ¬ d.packet_len + segLen d > PACKET_BUF_SIZE)
    (hrem : ¬ (copySegment d rest).seg_remaining > 0) :
    segmentBody d rest out =
      Flow.brk ⟨(segmentComplete (copySegment d rest) out).1,
                rest.drop (min rest.length (segLen d)),
                (segmentComplete (copySegment d rest) out).2⟩ := by
  unfold segmentBody
  rw [if_neg hov, if_neg hrem]

theorem segmentBody_spec (d : Demuxer) (rest : List Byte) (out : List Call) (h : SegInv d)
    (hlt : d.seg_index < d.seg_count) :
    (∀ r, segmentBody d rest out = Flow.brk r →
      SegInv r.d ∧ r.d.seg_index = d.seg_index + 1 ∧ r.d.seg_remaining = 0 ∧
      r.d.seg_count = d.seg_count ∧ r.rest.length ≤ rest.length) ∧
    (∀ e r, segmentBody d rest out = Flow.ret e r →
      StateInv r.d ∧ ((e = Exit.need_data ∧ r.rest = [] ∧ r.d.state_ = ParseState.PARSE_DATA) ∨
        (e = Exit.overflow ∧ r.rest = rest ∧ r.out = out ∧
          r.d.state_ = ParseState.FIND_PAGE ∧ r.d.bytes_needed = 4 ∧ r.d.packet_len = 0 ∧
          r.d.packet_continued = false ∧ r.d.packet_buf = d.packet_buf))) := by
  by_cases hov : d.packet_len + segLen d > PACKET_BUF_SIZE
  · rw [segmentBody_overflow d rest out hov]
    refine ⟨fun r hr => (by cases hr), fun e r hr => ?_⟩
    cases hr
    refine ⟨⟨?_, ?_, ?_, ?_, ?_, ?_⟩, Or.inr ?_⟩ <;> simp [PACKET_BUF_SIZE]
    exact h.rate_default
  · have hc := copySegment_inv d rest h hov
    by_cases hrem : (copySegment d rest).seg_remaining > 0
    · rw [segmentBody_need d rest out hov hrem]
      refine ⟨fun r hr => (by cases hr), fun e r hr => ?_⟩
      cases hr
      refine ⟨StateInv_of_SegInv _ hc hlt, Or.inl ⟨rfl, ?_, hc.st⟩⟩
      have e := segLen_eq d h
      simp only [copySegment] at hrem
      simp only [List.drop_eq_nil_iff]
      omega
    · rw [segmentBody_complete d rest out hov hrem]
      refine ⟨fun r hr => ?_, fun e r hr => by cases hr⟩
      cases hr
      obtain ⟨a1, a2, a3, a4⟩ := segmentComplete_inv (copySegment d rest) out hc hlt (by omega)
      exact ⟨a1, a2, a3, a4, by simp⟩

theorem segmentLoop_spec (n : Nat) : ∀ (d : Demuxer) (rest : List Byte) (out : List Call),
    SegInv d → n = d.seg_count - d.seg_index →
    (∀ r, segmentLoop n d rest out = Flow.brk r →
      SegInv r.d ∧ (r.d.seg_index = r.d.seg_count ∨ r.rest = []) ∧
      r.rest.length ≤ rest.length) ∧
    (∀ e r, segmentLoop n d rest out = Flow.ret e r →
      StateInv r.d ∧ ((e = Exit.need_data ∧ r.rest = [] ∧ r.d.state_ = ParseState.PARSE_DATA) ∨
        (e = Exit.overflow ∧ r.rest ≠ [] ∧
          r.d.state_ = ParseState.FIND_PAGE ∧ r.d.bytes_needed = 4 ∧ r.d.packet_len = 0 ∧
          r.d.packet_continued = false))) := by
  induction n with
  | zero =>
    intro d rest out h hn
    have := h.idx_le
    simp only [segmentLoop]
    refine ⟨fun r hr => ?_, fun e r hr => by cases hr⟩
    cases hr
    exact ⟨h, Or.inl (by simp only []; omega), le_refl _⟩
  | succ n ih =>
    intro d rest out h hn
    simp only [segmentLoop]
    by_cases hc : d.seg_index < d.seg_count ∧ rest ≠ []
    · rw [if_pos hc]
      obtain ⟨s1, s2⟩ := segmentBody_spec d rest out h hc.1
      cases hb : segmentBody d rest out with
      | ret e r =>
        simp only []
        refine ⟨fun r hr => (by cases hr), fun e1 r1 hr => ?_⟩
        cases hr
        obtain ⟨i1, i2⟩ := s2 e r hb
        refine ⟨i1, ?_⟩
        rcases i2 with ⟨a, b, c⟩ | ⟨a, b, c, d1, d2, d3, d4, d5⟩
        · exact Or.inl ⟨a, b, c⟩
        · exact Or.inr ⟨a, by rw [b]; exact hc.2, d1, d2, d3, d4⟩
      | brk r =>
        simp only []
        obtain ⟨i1, i2, i3, i4, i5⟩ := s1 r hb
        obtain ⟨j1, j2⟩ := ih r.d r.rest r.out i1 (by omega)
        refine ⟨fun r1 hr => ?_, fun e1 r1 hr => j2 e1 r1 hr⟩
        obtain ⟨k1, k2, k3⟩ := j1 r1 hr
        exact ⟨k1, k2, by omega⟩
    · rw [if_neg hc]
      refine ⟨fun r hr => ?_, fun e r hr => by cases hr⟩
      cases hr
      refine ⟨h, ?_, le_refl _⟩
      have := h.idx_le
      by_cases hr : rest = []
      · exact Or.inr hr
      · left; simp only []; by_contra hx; exact hc ⟨by omega, hr⟩

/-! ## The page search -/

theorem searchOggS_shift (l : List Byte) : ∀ i,
    searchOggS l i = ((searchOggS l 0).1, (searchOggS l 0).2 + i) := by
  induction l with
  | nil => intro i; simp [searchOggS]
  | cons b t ih =>
    intro i
    simp only [searchOggS]
    split_ifs
    · simp
    · rw [ih (i + 1), ih (0 + 1)]
      simp only [Prod.mk.injEq, true_and]
      omega
    · simp

theorem searchOggS_bounds (l : List Byte) :
    ((searchOggS l 0).1 = true → (searchOggS l 0).2 + 4 ≤ l.length) ∧
    ((searchOggS l 0).1 = false → l.length - (searchOggS l 0).2 = min l.length 3 ∧
      (searchOggS l 0).2 ≤ l.length) := by
  induction l with
  | nil => simp [searchOggS]
  | cons b t ih =>
    simp only [searchOggS]
    split_ifs with h1 h2
    · simp only [List.length_cons] at h1 ⊢
      simp
      omega
    · rw [searchOggS_shift t (0 + 1)]
      simp only [List.length_cons] at h1 ⊢
      obtain ⟨i1, i2⟩ := ih
      constructor
      · intro hf; have := i1 hf; omega
      · intro hf; have := i2 hf; omega
    · simp only [List.length_cons] at h1 ⊢
      simp
      omega

theorem findPage_spec (d : Demuxer) (rest : List Byte) (out : List Call) (h : StateInv d)
    (hs : d.state_ = ParseState.FIND_PAGE) (hne : rest ≠ []) :
    (∀ r, findPage d rest out = Flow.brk r →
      StateInv r.d ∧ r.rest.length < rest.length ∧ r.d.state_ ≠ ParseState.PARSE_DATA) ∧
    (∀ e r, findPage d rest out = Flow.ret e r →
      StateInv r.d ∧ e = Exit.need_data ∧ r.rest = []) := by
  obtain ⟨h1, h2, h3, h4, h5, h6⟩ := h
  have hb := h3 hs
  have hl : 0 < rest.length := List.length_pos.mpr hne
  unfold findPage
  simp only []
  split_ifs with c1 c2 c3 c4 c5 c6
  · refine ⟨fun r hr => ?_, fun e r hr => (by cases hr)⟩
    cases hr
    refine ⟨⟨h1, h2, ?_, ?_, ?_, ?_⟩, ?_, ?_⟩ <;> simp
    omega
  · refine ⟨fun r hr => ?_, fun e r hr => (by cases hr)⟩
    cases hr
    refine ⟨⟨h1, h2, ?_, ?_, ?_, ?_⟩, ?_, ?_⟩ <;> simp [hs]
    omega
  · refine ⟨fun r hr => (by cases hr), fun e r hr => ?_⟩
    cases hr
    refine ⟨⟨h1, h2, ?_, ?_, ?_, ?_⟩, rfl, ?_⟩ <;> simp [hs]
    · omega
    · omega
  · have := (searchOggS_bounds rest).1 c5
    refine ⟨fun r hr => ?_, fun e r hr => (by cases hr)⟩
    cases hr
    refine ⟨⟨h1, h2, ?_, ?_, ?_, ?_⟩, ?_, ?_⟩ <;> simp
    omega
  · have := (searchOggS_bounds rest).2 (by simpa using c5)
    refine ⟨fun r hr => (by cases hr), fun e r hr => ?_⟩
    cases hr
    refine ⟨⟨h1, h2, ?_, ?_, ?_, ?_⟩, rfl, ?_⟩ <;> simp [hs]
    · omega
    · omega
  · have := (searchOggS_bounds rest).2 (by simpa using c5)
    exfalso; omega
  · exfalso; omega

theorem parseHeader_spec (d : Demuxer) (rest : List Byte) (out : List Call) (h : StateInv d)
    (hs : d.state_ = ParseState.PARSE_HEADER) (hne : rest ≠ []) :
    (∀ r, parseHeader d rest out = Flow.brk r →
      StateInv r.d ∧ r.rest.length < rest.length ∧ r.d.state_ ≠ ParseState.PARSE_DATA) ∧
    (∀ e r, parseHeader d rest out = Flow.ret e r →
      StateInv r.d ∧ e = Exit.need_data ∧ r.rest = []) := by
  obtain ⟨h1, h2, h3, h4, h5, h6⟩ := h
  have hb := h4 hs
  have hl : 0 < rest.length := List.length_pos.mpr hne
  unfold parseHeader
  simp only []
  split_ifs with c1 c2 c3 c4
  · refine ⟨fun r hr => (by cases hr), fun e r hr => ?_⟩
    cases hr
    refine ⟨⟨h1, h2, ?_, ?_, ?_, ?_⟩, rfl, ?_⟩ <;> simp [hs]
    omega
  all_goals
    refine ⟨fun r hr => ?_, fun e r hr => (by cases hr)⟩
    cases hr
    refine ⟨⟨h1, h2, ?_, ?_, ?_, ?_⟩, ?_, ?_⟩ <;> simp
    all_goals omega

theorem parseSegments_spec (d : Demuxer) (rest : List Byte) (out : List Call) (h : StateInv d)
    (hs : d.state_ = ParseState.PARSE_SEGMENTS) (hne : rest ≠ []) :
    (∀ r, parseSegments d rest out = Flow.brk r →
      StateInv r.d ∧ r.rest.length < rest.length) ∧
    (∀ e r, parseSegments d rest out = Flow.ret e r →
      StateInv r.d ∧ e = Exit.need_data ∧ r.rest = []) := by
  obtain ⟨h1, h2, h3, h4, h5, h6⟩ := h
  have hb := h5 hs
  have hl : 0 < rest.length := List.length_pos.mpr hne
  unfold parseSegments
  simp only []
  split_ifs with c1
  · refine ⟨fun r hr => (by cases hr), fun e r hr => ?_⟩
    cases hr
    refine ⟨⟨h1, h2, ?_, ?_, ?_, ?_⟩, rfl, ?_⟩ <;> simp [hs]
    omega
  · refine ⟨fun r hr => ?_, fun e r hr => (by cases hr)⟩
    cases hr
    refine ⟨⟨h1, h2, ?_, ?_, ?_, ?_⟩, ?_⟩ <;> simp
    · omega
    · omega

theorem parseData_spec (d : Demuxer) (rest : List Byte) (out : List Call) (h : StateInv d)
    (hs : d.state_ = ParseState.PARSE_DATA) (hne : rest ≠ []) :
    (∀ r, parseData d rest out = Flow.brk r →
      StateInv r.d ∧ passes r.d r.rest < passes d rest) ∧
    (∀ e r, parseData d rest out = Flow.ret e r →
      StateInv r.d ∧ ((e = Exit.need_data ∧ r.rest = []) ∨
        (e = Exit.overflow ∧ r.rest ≠ [] ∧
          r.d.state_ = ParseState.FIND_PAGE ∧ r.d.bytes_needed = 4 ∧ r.d.packet_len = 0 ∧
          r.d.packet_continued = false))) := by
  obtain ⟨hi, hlt⟩ := SegInv_of_StateInv d h hs
  have hl : 0 < rest.length := List.length_pos.mpr hne
  obtain ⟨s1, s2⟩ := segmentLoop_spec (d.seg_count - d.seg_index) d rest out hi rfl
  unfold parseData
  cases hb : segmentLoop (d.seg_count - d.seg_index) d rest out with
  | ret e r =>
    simp only []
    refine ⟨fun r hr => (by cases hr), fun e1 r1 hr => ?_⟩
    cases hr
    obtain ⟨i1, i2⟩ := s2 e r hb
    refine ⟨i1, ?_⟩
    rcases i2 with ⟨a, b, c⟩ | i2
    · exact Or.inl ⟨a, b⟩
    · exact Or.inr i2
  | brk r =>
    simp only []
    obtain ⟨i1, i2, i3⟩ := s1 r hb
    obtain ⟨k1, k2, k3, k4, k5, k6⟩ := i1
    by_cases c1 : r.d.seg_index = r.d.seg_count
    · rw [if_pos c1]
      refine ⟨fun r hr => ?_, fun e r hr => (by cases hr)⟩
      cases hr
      refine ⟨⟨?_, k6, ?_, ?_, ?_, ?_⟩, ?_⟩ <;> simp [passes, hs]
      · split_ifs <;> omega
      · omega
    · rw [if_neg c1]
      refine ⟨fun r hr => ?_, fun e r hr => (by cases hr)⟩
      cases hr
      have hr : r.rest = [] := by
        rcases i2 with i2 | i2
        · exact absurd i2 c1
        · exact i2
      refine ⟨StateInv_of_SegInv _ ⟨k1, k2, k3, k4, k5, k6⟩ (by omega), ?_⟩
      simp [passes, hs, hr, k1]
      omega

theorem dispatch_spec (d : Demuxer) (rest : List Byte) (out : List Call) (h : StateInv d)
    (hne : rest ≠ []) :
    (∀ r, dispatch d rest out = Flow.brk r →
      StateInv r.d ∧ passes r.d r.rest < passes d rest) ∧
    (∀ e r, dispatch d rest out = Flow.ret e r →
      StateInv r.d ∧ ((e = Exit.need_data ∧ r.rest = []) ∨
        (e = Exit.overflow ∧ r.rest ≠ [] ∧
          r.d.state_ = ParseState.FIND_PAGE ∧ r.d.bytes_needed = 4 ∧ r.d.packet_len = 0 ∧
          r.d.packet_continued = false))) := by
  unfold dispatch
  cases hs : d.state_ with
  | FIND_PAGE =>
    simp only []
    obtain ⟨s1, s2⟩ := findPage_spec d rest out h hs hne
    refine ⟨fun r hr => ?_, fun e r hr => ?_⟩
    · obtain ⟨a, b, c⟩ := s1 r hr
      refine ⟨a, ?_⟩
      simp only [passes, hs, if_neg c]
      simp
      omega
    · obtain ⟨a, b, c⟩ := s2 e r hr
      exact ⟨a, Or.inl ⟨b, c⟩⟩
  | PARSE_HEADER =>
    simp only []
    obtain ⟨s1, s2⟩ := parseHeader_spec d rest out h hs hne
    refine ⟨fun r hr => ?_, fun e r hr => ?_⟩
    · obtain ⟨a, b, c⟩ := s1 r hr
      refine ⟨a, ?_⟩
      simp only [passes, hs, if_neg c]
      simp
      omega
    · obtain ⟨a, b, c⟩ := s2 e r hr
      exact ⟨a, Or.inl ⟨b, c⟩⟩
  | PARSE_SEGMENTS =>
    simp only []
    obtain ⟨s1, s2⟩ := parseSegments_spec d rest out h hs hne
    refine ⟨fun r hr => ?_, fun e r hr => ?_⟩
    · obtain ⟨a, b⟩ := s1 r hr
      refine ⟨a, ?_⟩
      simp only [passes, hs]
      split_ifs <;> simp <;> omega
    · obtain ⟨a, b, c⟩ := s2 e r hr
      exact ⟨a, Or.inl ⟨b, c⟩⟩
  | PARSE_DATA =>
    simp only []
    exact parseData_spec d rest out h hs hne

/-- Loop rule: a property `P` of loop states that every `break` keeps, and a property `Q`
that every exit establishes, give a result with `Q` once the fuel exceeds `passes`. -/
theorem ProcessLoop_rule (P : Run → Prop) (Q : Exit × Run → Prop)
    (hinv : ∀ r, P r → StateInv r.d)
    (hdone : ∀ r, P r → r.rest = [] → Q (Exit.done, r))
    (hbrk : ∀ r r1, P r → r.rest ≠ [] → dispatch r.d r.rest r.out = Flow.brk r1 → P r1)
    (hret : ∀ r e r1, P r → r.rest ≠ [] → dispatch r.d r.rest r.out = Flow.ret e r1 →
      Q (e, r1)) :
    ∀ (fuel : Nat) (r : Run), P r → passes r.d r.rest < fuel →
      ∃ res, ProcessLoop fuel r = some res ∧ Q res := by
  intro fuel
  induction fuel with
  | zero => intro r _ h; omega
  | succ n ih =>
    intro r hp hf
    by_cases hr : r.rest = []
    · exact ⟨_, ProcessLoop_nil n r hr, hdone r hp hr⟩
    · cases hd : dispatch r.d r.rest r.out with
      | ret e r1 => exact ⟨_, ProcessLoop_ret n r r1 e hr hd, hret r e r1 hp hr hd⟩
      | brk r1 =>
        rw [ProcessLoop_brk n r r1 hr hd]
        have := ((dispatch_spec r.d r.rest r.out (hinv r hp) hr).1 r1 hd).2
        exact ih r1 (hbrk r r1 hp hr hd) (by omega)

theorem ProcessLoop_total (fuel : Nat) (r : Run) (h : StateInv r.d)
    (hf : passes r.d r.rest < fuel) : ∃ res, ProcessLoop fuel r = some res ∧ ExitOK res := by
  refine ProcessLoop_rule (fun r => StateInv r.d) ExitOK (fun _ h => h) ?_ ?_ ?_ fuel r h hf
  · intro r hp hr
    exact ⟨hp, Or.inl ⟨rfl, hr⟩⟩
  · intro r r1 hp hr hd
    exact ((dispatch_spec r.d r.rest r.out hp hr).1 r1 hd).1
  · intro r e r1 hp hr hd
    obtain ⟨a, b⟩ := (dispatch_spec r.d r.rest r.out hp hr).2 e r1 hd
    refine ⟨a, ?_⟩
    rcases b with b | b
    · exact Or.inr (Or.inl b)
    · exact Or.inr (Or.inr b)

theorem passes_lt (d : Demuxer) (data : List Byte) : passes d data < 2 * data.length + 4 := by
  unfold passes
  split_ifs <;> omega

theorem Process_total (d : Demuxer) (data : List Byte) (h : StateInv d) :
    ∃ res, Process d data = some res ∧ ExitOK res :=
  ProcessLoop_total _ ⟨d, data, []⟩ h (passes_lt d data)

theorem StateInv_Reset (d : Demuxer) : StateInv (Reset d) := by
  refine ⟨?_, ?_, ?_, ?_, ?_, ?_⟩ <;> simp [Reset, PACKET_BUF_SIZE]

theorem StateInv_of_Reachable (d : Demuxer) (h : Reachable d) : StateInv d := by
  induction h with
  | fresh => exact StateInv_Reset _
  | reset d _ _ => exact StateInv_Reset d
  | setcb d _ ih =>
    obtain ⟨h1, h2, h3, h4, h5, h6⟩ := ih
    exact ⟨h1, h2, h3, h4, h5, h6⟩
  | process d data e r _ hp ih =>
    obtain ⟨res, h1, h2⟩ := Process_total d data ih
    rw [hp] at h1
    cases h1
    exact h2.1

theorem Process_of_Eval (d : Demuxer) (data : List Byte) (res : Exit × Run) (h : StateInv d)
    (he : Eval ⟨d, data, []⟩ res) : Process d data = some res := by
  obtain ⟨res1, h1, _⟩ := Process_total d data h
  rw [h1, Eval_det _ _ _ ⟨_, h1⟩ he]

/-! ## Frame of a call -/

theorem Frame_refl (d : Demuxer) (rest : List Byte) (out : List Call) :
    Frame d rest out ⟨d, rest, out⟩ :=
  ⟨⟨0, rfl⟩, ⟨[], by simp⟩, rfl, fun h => ⟨h, rfl⟩, fun h => h, fun h => absurd rfl h⟩

theorem Frame_trans (d : Demuxer) (rest : List Byte) (out : List Call) (r1 r2 : Run)
    (h1 : Frame d rest out r1) (h2 : Frame r1.d r1.rest r1.out r2) : Frame d rest out r2 := by
  obtain ⟨⟨k1, a1⟩, ⟨o1, a2⟩, a3, a4, a5, a6⟩ := h1
  obtain ⟨⟨k2, b1⟩, ⟨o2, b2⟩, b3, b4, b5, b6⟩ := h2
  refine ⟨⟨k1 + k2, ?_⟩, ⟨o1 ++ o2, ?_⟩, b3.trans a3, ?_, ?_, ?_⟩
  · rw [b1, a1, List.drop_drop, Nat.add_comm]
  · rw [b2, a2, List.append_assoc]
  · intro h
    obtain ⟨x1, x2⟩ := a4 h
    obtain ⟨y1, y2⟩ := b4 x1
    exact ⟨y1, y2.trans x2⟩
  · intro h
    exact b5 (a5 h)
  · intro h
    by_cases hc : r1.out = out
    · exact b6 (by rw [hc]; exact h)
    · obtain ⟨x1, x2⟩ := a6 hc
      exact ⟨(b4 x1).1, b5 x2⟩

theorem Frame_drop (d d1 : Demuxer) (rest : List Byte) (out : List Call) (k : Nat)
    (hcb : d1.on_demuxer_finished_ = d.on_demuxer_finished_)
    (hh : d1.head_seen = d.head_seen) (ht : d1.tags_seen = d.tags_seen)
    (hr : d1.sample_rate = d.sample_rate) : Frame d rest out ⟨d1, rest.drop k, out⟩ :=
  ⟨⟨k, rfl⟩, ⟨[], by simp⟩, hcb, fun h => ⟨by rw [hh]; exact h, hr⟩,
    fun h => by rw [ht]; exact h, fun h => absurd rfl h⟩

theorem findPage_frame (d : Demuxer) (rest : List Byte) (out : List Call)
    (h : d.bytes_needed ≤ 4) :
    (∀ r, findPage d rest out = Flow.brk r → Frame d rest out r) ∧
    (∀ e r, findPage d rest out = Flow.ret e r → Frame d rest out r) := by
  unfold findPage
  simp only []
  split_ifs
  all_goals first
    | omega
    | (refine ⟨fun r hr => ?_, fun e r hr => ?_⟩ <;> cases hr
       exact Frame_drop _ _ _ _ _ rfl rfl rfl rfl)

theorem parseHeader_frame (d : Demuxer) (rest : List Byte) (out : List Call) :
    (∀ r, parseHeader d rest out = Flow.brk r → Frame d rest out r) ∧
    (∀ e r, parseHeader d rest out = Flow.ret e r → Frame d rest out r) := by
  unfold parseHeader
  simp only []
  split_ifs
  all_goals
    refine ⟨fun r hr => ?_, fun e r hr => ?_⟩ <;> cases hr
    exact Frame_drop _ _ _ _ _ rfl rfl rfl rfl

theorem parseSegments_frame (d : Demuxer) (rest : List Byte) (out : List Call) :
    (∀ r, parseSegments d rest out = Flow.brk r → Frame d rest out r) ∧
    (∀ e r, parseSegments d rest out = Flow.ret e r → Frame d rest out r) := by
  unfold parseSegments
  simp only []
  split_ifs
  all_goals
    refine ⟨fun r hr => ?_, fun e r hr => ?_⟩ <;> cases hr
    exact Frame_drop _ _ _ _ _ rfl rfl rfl rfl

theorem segmentComplete_frame (d : Demuxer) (rest : List Byte) (out : List Call) :
    Frame d rest out ⟨(segmentComplete d out).1, rest, (segmentComplete d out).2⟩ := by
  unfold segmentComplete
  simp only []
  split_ifs
  all_goals
    refine ⟨⟨0, rfl⟩, ?_, rfl, ?_, ?_, ?_⟩ <;> simp_all

theorem segmentBody_frame (d : Demuxer) (rest : List Byte) (out : List Call) :
    (∀ r, segmentBody d rest out = Flow.brk r → Frame d rest out r) ∧
    (∀ e r, segmentBody d rest out = Flow.ret e r → Frame d rest out r) := by
  unfold segmentBody
  split_ifs
  · refine ⟨fun r hr => ?_, fun e r hr => ?_⟩ <;> cases hr
    exact ⟨⟨0, rfl⟩, ⟨[], by simp⟩, rfl, fun h => ⟨h, rfl⟩, fun h => h, fun h => absurd rfl h⟩
  · refine ⟨fun r hr => ?_, fun e r hr => ?_⟩ <;> cases hr
    exact Frame_drop _ _ _ _ _ rfl rfl rfl rfl
  · refine ⟨fun r hr => ?_, fun e r hr => ?_⟩ <;> cases hr
    have h1 : Frame d rest out ⟨copySegment d rest, rest.drop (min rest.length (segLen d)), out⟩ :=
      Frame_drop _ _ _ _ _ rfl rfl rfl rfl
    exact Frame_trans _ _ _ _ _ h1 (segmentComplete_frame _ _ _)

theorem segmentLoop_frame (n : Nat) : ∀ (d : Demuxer) (rest : List Byte) (out : List Call),
    (∀ r, segmentLoop n d rest out = Flow.brk r → Frame d rest out r) ∧
    (∀ e r, segmentLoop n d rest out = Flow.ret e r → Frame d rest out r) := by
  induction n with
  | zero =>
    intro d rest out
    simp only [segmentLoop]
    refine ⟨fun r hr => ?_, fun e r hr => ?_⟩ <;> cases hr
    exact Frame_refl _ _ _
  | succ n ih =>
    intro d rest out
    simp only [segmentLoop]
    split_ifs
    · obtain ⟨s1, s2⟩ := segmentBody_frame d rest out
      cases hb : segmentBody d rest out with
      | ret e r =>
        simp only []
        refine ⟨fun r hr => ?_, fun e r hr => ?_⟩ <;> cases hr
        exact s2 _ _ hb
      | brk r =>
        simp only []
        obtain ⟨j1, j2⟩ := ih r.d r.rest r.out
        exact ⟨fun r1 hr => Frame_trans _ _ _ _ _ (s1 r hb) (j1 r1 hr),
          fun e r1 hr => Frame_trans _ _ _ _ _ (s1 r hb) (j2 e r1 hr)⟩
    · refine ⟨fun r hr => ?_, fun e r hr => ?_⟩ <;> cases hr
      exact Frame_refl _ _ _

theorem parseData_frame (d : Demuxer) (rest : List Byte) (out : List Call) :
    (∀ r, parseData d rest out = Flow.brk r → Frame d rest out r) ∧
    (∀ e r, parseData d rest out = Flow.ret e r → Frame d rest out r) := by
  obtain ⟨s1, s2⟩ := segmentLoop_frame (d.seg_count - d.seg_index) d rest out
  unfold parseData
  cases hb : segmentLoop (d.seg_count - d.seg_index) d rest out with
  | ret e r =>
    simp only []
    refine ⟨fun r hr => ?_, fun e r hr => ?_⟩ <;> cases hr
    exact s2 _ _ hb
  | brk r =>
    simp only []
    have := s1 r hb
    by_cases c1 : r.d.seg_index = r.d.seg_count
    · rw [if_pos c1]
      refine ⟨fun r hr => ?_, fun e r hr => ?_⟩ <;> cases hr
      exact Frame_trans _ _ _ _ _ this
        ⟨⟨0, rfl⟩, ⟨[], by simp⟩, rfl, fun h => ⟨h, rfl⟩, fun h => h, fun h => absurd rfl h⟩
    · rw [if_neg c1]
      refine ⟨fun r hr => ?_, fun e r hr => ?_⟩ <;> cases hr
      exact this

theorem dispatch_frame (d : Demuxer) (rest : List Byte) (out : List Call)
    (h : d.state_ = ParseState.FIND_PAGE → d.bytes_needed ≤ 4) :
    (∀ r, dispatch d rest out = Flow.brk r → Frame d rest out r) ∧
    (∀ e r, dispatch d rest out = Flow.ret e r → Frame d rest out r) := by
  unfold dispatch
  cases hs : d.state_ with
  | FIND_PAGE => exact findPage_frame d rest out (h hs)
  | PARSE_HEADER => exact parseHeader_frame d rest out
  | PARSE_SEGMENTS => exact parseSegments_frame d rest out
  | PARSE_DATA => exact parseData_frame d rest out

theorem Process_frame (d : Demuxer) (data : List Byte) (h : StateInv d) :
    ∃ res, Process d data = some res ∧ ExitOK res ∧ Frame d data [] res.2 := by
  have key := ProcessLoop_rule (fun r => StateInv r.d ∧ Frame d data [] r)
    (fun res => ExitOK res ∧ Frame d data [] res.2) (fun _ h => h.1) ?_ ?_ ?_
    (2 * data.length + 4) ⟨d, data, []⟩ ⟨h, Frame_refl _ _ _⟩ (passes_lt d data)
  · exact key
  · intro r hp hr
    exact ⟨⟨hp.1, Or.inl ⟨rfl, hr⟩⟩, hp.2⟩
  · intro r r1 hp hr hd
    exact ⟨((dispatch_spec r.d r.rest r.out hp.1 hr).1 r1 hd).1,
      Frame_trans _ _ _ _ _ hp.2
        ((dispatch_frame r.d r.rest r.out (fun hs => (hp.1.find hs).2)).1 r1 hd)⟩
  · intro r e r1 hp hr hd
    obtain ⟨a, b⟩ := (dispatch_spec r.d r.rest r.out hp.1 hr).2 e r1 hd
    refine ⟨⟨a, ?_⟩, Frame_trans _ _ _ _ _ hp.2
        ((dispatch_frame r.d r.rest r.out (fun hs => (hp.1.find hs).2)).2 e r1 hd)⟩
    rcases b with b | b
    · exact Or.inr (Or.inl b)
    · exact Or.inr (Or.inr b)

/-! ## Sample rate -/

theorem le32_eq (a b c e : Nat) (ha : a < 256) (hb : b < 256) (hc : c < 256) (he : e < 256) :
    a ||| (b <<< 8) ||| (c <<< 16) ||| (e <<< 24) = a + 2 ^ 8 * b + 2 ^ 16 * c + 2 ^ 24 * e ∧
    a + 2 ^ 8 * b + 2 ^ 16 * c + 2 ^ 24 * e < 2 ^ 32 := by
  have h1 : a ||| (b <<< 8) = a + 2 ^ 8 * b := by
    rw [Nat.shiftLeft_eq, Nat.mul_comm b, Nat.or_comm,
      ← Nat.mul_add_lt_is_or (by norm_num; exact ha), Nat.add_comm]
  have h2 : a + 2 ^ 8 * b ||| (c <<< 16) = a + 2 ^ 8 * b + 2 ^ 16 * c := by
    rw [Nat.shiftLeft_eq, Nat.mul_comm c, Nat.or_comm,
      ← Nat.mul_add_lt_is_or (by norm_num; omega), Nat.add_comm]
  have h3 : a + 2 ^ 8 * b + 2 ^ 16 * c ||| (e <<< 24) =
      a + 2 ^ 8 * b + 2 ^ 16 * c + 2 ^ 24 * e := by
    rw [Nat.shiftLeft_eq, Nat.mul_comm e, Nat.or_comm,
      ← Nat.mul_add_lt_is_or (by norm_num; omega), Nat.add_comm]
  rw [h1, h2, h3]
  exact ⟨rfl, by norm_num; omega⟩

theorem decodeRate_eq (buf : Nat → Byte) :
    decodeRate buf = toInt32 ((buf 12).val + 2 ^ 8 * (buf 13).val + 2 ^ 16 * (buf 14).val +
      2 ^ 24 * (buf 15).val) := by
  unfold decodeRate
  rw [(le32_eq _ _ _ _ (buf 12).isLt (buf 13).isLt (buf 14).isLt (buf 15).isLt).1]

theorem segmentComplete_head (d : Demuxer) (out : List Call) (hfirst : d.head_seen = false)
    (hend : d.seg_table d.seg_index ≠ 255) (hlen : 8 ≤ d.packet_len)
    (hmagic : readBuf d.packet_buf 8 = OpusHead) :
    segmentComplete d out =
      ({ d with head_seen := true,
                sample_rate := if d.packet_len ≥ 19 then decodeRate d.packet_buf
                               else d.sample_rate,
                packet_len := 0, packet_continued := false,
                seg_index := d.seg_index + 1, seg_remaining := 0 }, out) := by
  unfold segmentComplete
  simp only [decide_eq_true_eq]
  rw [if_pos hend, if_pos (by omega), if_pos ⟨by simp [hfirst], hlen, hmagic⟩]

/-! ## Sequences of calls -/

theorem feed_cons (d : Demuxer) (c : List Byte) (cs : List (List Byte)) (e : Exit) (r : Run)
    (d1 : Demuxer) (calls : List Call) (rets : List Nat)
    (h1 : Process d c = some (e, r)) (h2 : feed r.d cs = some (d1, calls, rets)) :
    feed d (c :: cs) = some (d1, r.out ++ calls, r.processed c.length :: rets) := by
  simp only [feed, h1, h2]

theorem feed_frame (chunks : List (List Byte)) : ∀ (d : Demuxer), StateInv d →
    ∃ d1 calls rets, feed d chunks = some (d1, calls, rets) ∧ StateInv d1 ∧
      d1.on_demuxer_finished_ = d.on_demuxer_finished_ ∧
      (d.head_seen = true → d1.head_seen = true ∧ d1.sample_rate = d.sample_rate) ∧
      (d.tags_seen = true → d1.tags_seen = true) ∧
      (calls ≠ [] → d1.head_seen = true ∧ d1.tags_seen = true) := by
  induction chunks with
  | nil =>
    intro d h
    exact ⟨d, [], [], rfl, h, rfl, fun h => ⟨h, rfl⟩, fun h => h, fun h => absurd rfl h⟩
  | cons c cs ih =>
    intro d h
    obtain ⟨⟨e, r⟩, p1, p2, p3⟩ := Process_frame d c h
    obtain ⟨d1, calls, rets, q1, q2, q3, q4, q5, q6⟩ := ih r.d p2.1
    refine ⟨d1, r.out ++ calls, _, feed_cons d c cs e r d1 calls rets p1 q1, q2,
      q3.trans p3.cb, ?_, ?_, ?_⟩
    · intro hh
      obtain ⟨x1, x2⟩ := p3.head_mono hh
      obtain ⟨y1, y2⟩ := q4 x1
      exact ⟨y1, y2.trans x2⟩
    · intro hh
      exact q5 (p3.tags_mono hh)
    · intro hc
      by_cases hcalls : calls = []
      · have : r.out ≠ [] := by
          intro hr
          rw [hr, hcalls] at hc
          exact hc rfl
        obtain ⟨x1, x2⟩ := p3.gated this
        exact ⟨(q4 x1).1, q5 x2⟩
      · exact q6 hcalls

theorem segmentComplete_head_set (s : Demuxer) (out : List Call)
    (h : (segmentComplete s out).1.head_seen = true) :
    s.head_seen = true ∨ (s.seg_table s.seg_index ≠ 255 ∧ 8 ≤ s.packet_len ∧
      readBuf s.packet_buf 8 = OpusHead) := by
  unfold segmentComplete at h
  simp only [decide_eq_true_eq] at h
  split_ifs at h <;> simp_all

theorem segmentComplete_tags_set (s : Demuxer) (out : List Call)
    (h : (segmentComplete s out).1.tags_seen = true) :
    s.tags_seen = true ∨ (s.seg_table s.seg_index ≠ 255 ∧ 8 ≤ s.packet_len ∧
      readBuf s.packet_buf 8 = OpusTags) := by
  unfold segmentComplete at h
  simp only [decide_eq_true_eq] at h
  split_ifs at h <;> simp_all

theorem segmentComplete_call (s : Demuxer) (out : List Call)
    (h : (segmentComplete s out).2 ≠ out) :
    s.head_seen = true ∧ s.tags_seen = true ∧
    (segmentComplete s out).1.head_seen = true ∧ (segmentComplete s out).1.tags_seen = true ∧
    (segmentComplete s out).2 = out ++ [⟨readBuf s.packet_buf s.packet_len, s.sample_rate,
      s.packet_len⟩] := by
  unfold segmentComplete at h ⊢
  simp only [decide_eq_true_eq] at h ⊢
  split_ifs at h ⊢ <;> simp_all

theorem dispatch_other_frame (d0 : Demuxer) (rest : List Byte) (out : List Call) (r : Run)
    (hs : d0.state_ ≠ ParseState.PARSE_DATA)
    (h : dispatch d0 rest out = Flow.brk r ∨ ∃ e, dispatch d0 rest out = Flow.ret e r) :
    r.out = out ∧ (r.d.head_seen = true → d0.head_seen = true) ∧
      (r.d.tags_seen = true → d0.tags_seen = true) := by
  unfold dispatch at h
  cases hst : d0.state_ with
  | PARSE_DATA => exact absurd hst hs
  | FIND_PAGE =>
    rw [hst] at h
    simp only [] at h
    unfold findPage at h
    simp only [] at h
    split_ifs at h <;>
      (rcases h with h | ⟨e, h⟩ <;> cases h) <;>
      simp_all [Reset]
  | PARSE_HEADER =>
    rw [hst] at h
    simp only [] at h
    unfold parseHeader at h
    simp only [] at h
    split_ifs at h <;>
      (rcases h with h | ⟨e, h⟩ <;> cases h) <;>
      simp_all
  | PARSE_SEGMENTS =>
    rw [hst] at h
    simp only [] at h
    unfold parseSegments at h
    simp only [] at h
    split_ifs at h <;>
      (rcases h with h | ⟨e, h⟩ <;> cases h) <;>
      simp_all

theorem segmentBody_brk_eq (s : Demuxer) (rest : List Byte) (out : List Call) (r : Run)
    (h : segmentBody s rest out = Flow.brk r) :
    r.d = (segmentComplete (copySegment s rest) out).1 ∧
      r.out = (segmentComplete (copySegment s rest) out).2 := by
  unfold segmentBody at h
  split_ifs at h
  cases h
  exact ⟨rfl, rfl⟩

theorem segmentBody_ret_frame (s : Demuxer) (rest : List Byte) (out : List Call) (e : Exit)
    (r : Run) (h : segmentBody s rest out = Flow.ret e r) :
    r.out = out ∧ r.d.head_seen = s.head_seen ∧ r.d.tags_seen = s.tags_seen := by
  unfold segmentBody at h
  split_ifs at h <;> cases h <;> exact ⟨rfl, rfl, rfl⟩

theorem parseData_page_end_frame (s : Demuxer) (rest : List Byte) (out : List Call) :
    match parseData s rest out, segmentLoop (s.seg_count - s.seg_index) s rest out with
    | Flow.brk r, Flow.brk r0 =>
      r.out = r0.out ∧ r.d.head_seen = r0.d.head_seen ∧ r.d.tags_seen = r0.d.tags_seen
    | Flow.ret e r, Flow.ret e0 r0 => e = e0 ∧ r = r0
    | _, _ => False := by
  unfold parseData
  cases segmentLoop (s.seg_count - s.seg_index) s rest out with
  | ret e r => exact ⟨rfl, rfl⟩
  | brk r =>
    simp only []
    split_ifs <;> exact ⟨rfl, rfl, rfl⟩

/-! ## Claims C2, C5, C6, C7, C8 -/

/-- C2 (header gating).  Fed any chunks after `Reset`, the calls return, and if any callback
was invoked then `head_seen` and `tags_seen` both hold; the same for one call from any
reachable state.  In the code that ends a segment, a callback is invoked only in a state
where both flags hold already, and a flag that holds afterwards either held before or was
set by a completed packet (lacing value below 255) of at least 8 bytes that begins with
"OpusHead", respectively "OpusTags".  No other code invokes the callback or sets a flag: a
pass of the `switch` outside `PARSE_DATA` leaves the invocations as they are and sets no
flag; in the segment loop the copy keeps the flags, a pass that returns keeps flags and
invocations, and a pass that goes on is the code that ends a segment, run after the copy;
the page end after the loop keeps flags and invocations. -/
theorem C2_header_gating (d : Demuxer) (chunks : List (List Byte)) (s : Demuxer)
    (out : List Call) :
    (∃ d1 calls rets, feed (Reset d) chunks = some (d1, calls, rets) ∧
      (calls ≠ [] → d1.head_seen = true ∧ d1.tags_seen = true)) ∧
    (∀ d0 data, Reachable d0 → ∃ e r, Process d0 data = some (e, r) ∧
      (r.out ≠ [] → r.d.head_seen = true ∧ r.d.tags_seen = true)) ∧
    ((segmentComplete s out).2 ≠ out → s.head_seen = true ∧ s.tags_seen = true) ∧
    ((segmentComplete s out).1.head_seen = true →
      s.head_seen = true ∨ (s.seg_table s.seg_index ≠ 255 ∧ 8 ≤ s.packet_len ∧
        readBuf s.packet_buf 8 = OpusHead)) ∧
    ((segmentComplete s out).1.tags_seen = true →
      s.tags_seen = true ∨ (s.seg_table s.seg_index ≠ 255 ∧ 8 ≤ s.packet_len ∧
        readBuf s.packet_buf 8 = OpusTags)) ∧
    (∀ d0 rest r, d0.state_ ≠ ParseState.PARSE_DATA →
      (dispatch d0 rest out = Flow.brk r ∨ ∃ e, dispatch d0 rest out = Flow.ret e r) →
      r.out = out ∧ (r.d.head_seen = true → d0.head_seen = true) ∧
        (r.d.tags_seen = true → d0.tags_seen = true)) ∧
    (∀ rest, (copySegment s rest).head_seen = s.head_seen ∧
      (copySegment s rest).tags_seen = s.tags_seen) ∧
    (∀ rest r, segmentBody s rest out = Flow.brk r →
      r.d = (segmentComplete (copySegment s rest) out).1 ∧
        r.out = (segmentComplete (copySegment s rest) out).2) ∧
    (∀ rest e r, segmentBody s rest out = Flow.ret e r →
      r.out = out ∧ r.d.head_seen = s.head_seen ∧ r.d.tags_seen = s.tags_seen) ∧
    (∀ rest,
      match parseData s rest out, segmentLoop (s.seg_count - s.seg_index) s rest out with
      | Flow.brk r, Flow.brk r0 =>
        r.out = r0.out ∧ r.d.head_seen = r0.d.head_seen ∧ r.d.tags_seen = r0.d.tags_seen
      | Flow.ret e r, Flow.ret e0 r0 => e = e0 ∧ r = r0
      | _, _ => False) := by
  refine ⟨?_, ?_, ?_, segmentComplete_head_set s out, segmentComplete_tags_set s out,
    fun d0 rest r hs h => dispatch_other_frame d0 rest out r hs h,
    fun rest => ⟨rfl, rfl⟩,
    fun rest r h => segmentBody_brk_eq s rest out r h,
    fun rest e r h => segmentBody_ret_frame s rest out e r h,
    fun rest => parseData_page_end_frame s rest out⟩
  · obtain ⟨d1, calls, rets, h1, _, _, _, _, h6⟩ := feed_frame chunks (Reset d) (StateInv_Reset d)
    exact ⟨d1, calls, rets, h1, h6⟩
  · intro d0 data hr
    obtain ⟨⟨e, r⟩, p1, _, p3⟩ := Process_frame d0 data (StateInv_of_Reachable d0 hr)
    exact ⟨e, r, p1, p3.gated⟩
  · intro h
    obtain ⟨a, b, _⟩ := segmentComplete_call s out h
    exact ⟨a, b⟩

/-- C5 (return value).  From a reachable state `Process` returns for every chunk; it leaves
by the end of the loop, by a "need more data" return or by the overflow return, never by the
"run in error state" return; the value returned is `size` in the first two cases, and it is
smaller than `size` exactly when the overflow branch was taken. -/
theorem C5_return_value (d : Demuxer) (data : List Byte) (h : Reachable d) :
    ∃ e r, Process d data = some (e, r) ∧
      (e = Exit.done ∨ e = Exit.need_data ∨ e = Exit.overflow) ∧
      (e = Exit.done → r.processed data.length = data.length) ∧
      (e = Exit.need_data → r.processed data.length = data.length) ∧
      (r.processed data.length < data.length ↔ e = Exit.overflow) ∧
      r.processed data.length ≤ data.length := by
  obtain ⟨⟨e, r⟩, p1, p2, p3⟩ := Process_frame d data (StateInv_of_Reachable d h)
  obtain ⟨k, hk⟩ := p3.rest_drop
  have hlen : r.rest.length = data.length - k := by rw [hk]; simp
  refine ⟨e, r, p1, ?_⟩
  simp only [Run.processed]
  rcases p2.2 with ⟨a, b⟩ | ⟨a, b⟩ | ⟨a, b, _⟩
  · simp only [] at a b
    subst a
    simp [b]
  · simp only [] at a b
    subst a
    simp [b]
  · simp only [] at a b
    subst a
    have : 0 < r.rest.length := List.length_pos.mpr b
    simp
    omega

theorem C5_return_value_witness :
    Reachable fresh ∧ ∃ e r, Process fresh [79, 103] = some (e, r) ∧
      (e = Exit.done ∨ e = Exit.need_data ∨ e = Exit.overflow) ∧
      (e = Exit.done → r.processed [79, 103].length = [79, 103].length) ∧
      (e = Exit.need_data → r.processed [79, 103].length = [79, 103].length) ∧
      (r.processed [79, 103].length < [79, 103].length ↔ e = Exit.overflow) ∧
      r.processed [79, 103].length ≤ [79, 103].length :=
  ⟨Reachable.fresh, C5_return_value fresh [79, 103] Reachable.fresh⟩

/-- C6 (overflow containment).  At the test of the segment loop with a segment to process
(`seg_index < seg_count`), input left, and `packet_len + seg_len > 8192` for the length
`seg_len` still to copy of that segment: the loop returns through the overflow branch with
the input and the list of invocations untouched and `packet_buf` unchanged, in `FIND_PAGE`
with `bytes_needed = 4`, `packet_len = 0`, `packet_continued = false`; when the outer loop
stands in `PARSE_DATA` in front of that segment, that is how the call returns.  And every
call from a reachable state that leaves through that branch ends in such a state and
returns less than `size`. -/
theorem C6_overflow_containment (d : Demuxer) (rest : List Byte) (out : List Call) (n : Nat)
    (hseg : d.seg_index < d.seg_count) (hne : rest ≠ [])
    (hov : d.packet_len + segLen d > PACKET_BUF_SIZE) :
    (∃ d1, segmentLoop (n + 1) d rest out = Flow.ret Exit.overflow ⟨d1, rest, out⟩ ∧
      (d.state_ = ParseState.PARSE_DATA → ∀ fuel,
        ProcessLoop (fuel + 1) ⟨d, rest, out⟩ = some (Exit.overflow, ⟨d1, rest, out⟩)) ∧
      d1.packet_buf = d.packet_buf ∧ d1.state_ = ParseState.FIND_PAGE ∧
      d1.bytes_needed = 4 ∧ d1.packet_len = 0 ∧ d1.packet_continued = false) ∧
    (∀ d0 data r, Reachable d0 → Process d0 data = some (Exit.overflow, r) →
      r.d.state_ = ParseState.FIND_PAGE ∧ r.d.bytes_needed = 4 ∧ r.d.packet_len = 0 ∧
      r.d.packet_continued = false ∧ r.processed data.length < data.length) := by
  have hloop : ∀ m, segmentLoop (m + 1) d rest out = Flow.ret Exit.overflow
      ⟨{ d with state_ := ParseState.FIND_PAGE, packet_len := 0,
                packet_continued := false, seg_remaining := 0,
                bytes_needed := 4 }, rest, out⟩ := by
    intro m
    simp only [segmentLoop]
    rw [if_pos ⟨hseg, hne⟩, segmentBody_overflow d rest out hov]
  constructor
  · refine ⟨{ d with state_ := ParseState.FIND_PAGE, packet_len := 0,
                       packet_continued := false, seg_remaining := 0,
                       bytes_needed := 4 }, hloop n, ?_, rfl, rfl, rfl, rfl, rfl⟩
    intro hst fuel
    apply ProcessLoop_ret fuel _ _ _ hne
    show dispatch d rest out = _
    unfold dispatch
    rw [hst]
    simp only []
    unfold parseData
    rw [show d.seg_count - d.seg_index = (d.seg_count - d.seg_index - 1) + 1 by omega, hloop]
  · intro d0 data r hr hp
    obtain ⟨⟨e1, r1⟩, p1, p2, p3⟩ := Process_frame d0 data (StateInv_of_Reachable d0 hr)
    rw [hp] at p1
    cases p1
    obtain ⟨k, hk⟩ := p3.rest_drop
    have hlen : r.rest.length = data.length - k := by rw [hk]; simp
    rcases p2.2 with ⟨a, _⟩ | ⟨a, _⟩ | ⟨_, b, c1, c2, c3, c4⟩
    · cases a
    · cases a
    · simp only [] at b c1 c2 c3 c4
      have : 0 < r.rest.length := List.length_pos.mpr b
      refine ⟨c1, c2, c3, c4, ?_⟩
      simp only [Run.processed]
      omega

theorem C6_overflow_containment_witness :
    (overflowState.seg_index < overflowState.seg_count ∧ ([1] : List Byte) ≠ [] ∧
      overflowState.packet_len + segLen overflowState > PACKET_BUF_SIZE) ∧
    ((∃ d1, segmentLoop (0 + 1) overflowState [1] [] = Flow.ret Exit.overflow ⟨d1, [1], []⟩ ∧
      (overflowState.state_ = ParseState.PARSE_DATA → ∀ fuel,
        ProcessLoop (fuel + 1) ⟨overflowState, [1], []⟩ =
          some (Exit.overflow, ⟨d1, [1], []⟩)) ∧
      d1.packet_buf = overflowState.packet_buf ∧ d1.state_ = ParseState.FIND_PAGE ∧
      d1.bytes_needed = 4 ∧ d1.packet_len = 0 ∧ d1.packet_continued = false) ∧
    (∀ d0 data r, Reachable d0 → Process d0 data = some (Exit.overflow, r) →
      r.d.state_ = ParseState.FIND_PAGE ∧ r.d.bytes_needed = 4 ∧ r.d.packet_len = 0 ∧
      r.d.packet_continued = false ∧ r.processed data.length < data.length)) :=
  ⟨⟨by decide, by decide, by decide⟩,
    C6_overflow_containment overflowState [1] [] 0 (by decide) (by decide) (by decide)⟩

/-- C7 (sample-rate decoding).  When a segment with lacing value below 255 completes a packet
of at least 8 bytes that begins with "OpusHead" while `head_seen` is still false (the first
such packet), `head_seen` is set and no callback is invoked; if the packet has at least 19
bytes the stored rate is the 32-bit `int` with the little-endian pattern
`b12 + 2^8 b13 + 2^16 b14 + 2^24 b15` (that number itself when `b15 < 128`, that number
minus `2^32` when `b15 ≥ 128`; 48000 for the bytes `80 BB 00 00`); if it is shorter the rate keeps its prior value, which is the default
48000 at every point a reachable run can be in with `head_seen` false. -/
theorem C7_sample_rate (d : Demuxer) (out : List Call) (hfirst : d.head_seen = false)
    (hend : d.seg_table d.seg_index ≠ 255) (hlen : 8 ≤ d.packet_len)
    (hmagic : readBuf d.packet_buf 8 = OpusHead) :
    (segmentComplete d out).1.head_seen = true ∧ (segmentComplete d out).2 = out ∧
    (19 ≤ d.packet_len → (segmentComplete d out).1.sample_rate =
      toInt32 ((d.packet_buf 12).val + 2 ^ 8 * (d.packet_buf 13).val +
        2 ^ 16 * (d.packet_buf 14).val + 2 ^ 24 * (d.packet_buf 15).val)) ∧
    (19 ≤ d.packet_len → (d.packet_buf 15).val < 128 → (segmentComplete d out).1.sample_rate =
      (((d.packet_buf 12).val + 2 ^ 8 * (d.packet_buf 13).val +
        2 ^ 16 * (d.packet_buf 14).val + 2 ^ 24 * (d.packet_buf 15).val : Nat) : Int)) ∧
    (19 ≤ d.packet_len → 128 ≤ (d.packet_buf 15).val →
      (segmentComplete d out).1.sample_rate =
      (((d.packet_buf 12).val + 2 ^ 8 * (d.packet_buf 13).val +
        2 ^ 16 * (d.packet_buf 14).val + 2 ^ 24 * (d.packet_buf 15).val : Nat) : Int) -
        2 ^ 32) ∧
    (19 ≤ d.packet_len → d.packet_buf 12 = 0x80 → d.packet_buf 13 = 0xBB →
      d.packet_buf 14 = 0 → d.packet_buf 15 = 0 →
      (segmentComplete d out).1.sample_rate = 48000) ∧
    (d.packet_len < 19 → (segmentComplete d out).1.sample_rate = d.sample_rate) ∧
    (d.packet_len < 19 → SegInv d → (segmentComplete d out).1.sample_rate = 48000) ∧
    (∀ d0, Reachable d0 → d0.head_seen = false → d0.sample_rate = 48000) := by
  rw [segmentComplete_head d out hfirst hend hlen hmagic]
  refine ⟨rfl, rfl, ?_, ?_, ?_, ?_, ?_, ?_, ?_⟩
  · intro h
    simp only [ge_iff_le, if_pos h]
    exact decodeRate_eq d.packet_buf
  · intro h h15
    simp only [ge_iff_le, if_pos h]
    rw [decodeRate_eq]
    have h12 := (d.packet_buf 12).isLt
    have h13 := (d.packet_buf 13).isLt
    have h14 := (d.packet_buf 14).isLt
    have hlt : (d.packet_buf 12).val + 2 ^ 8 * (d.packet_buf 13).val +
        2 ^ 16 * (d.packet_buf 14).val + 2 ^ 24 * (d.packet_buf 15).val < 2 ^ 31 := by
      norm_num
      omega
    unfold toInt32
    rw [Nat.mod_eq_of_lt (by omega), if_pos hlt]
  · intro h h15
    simp only [ge_iff_le, if_pos h]
    rw [decodeRate_eq]
    have h12 := (d.packet_buf 12).isLt
    have h13 := (d.packet_buf 13).isLt
    have h14 := (d.packet_buf 14).isLt
    have h15b := (d.packet_buf 15).isLt
    have hlt : (d.packet_buf 12).val + 2 ^ 8 * (d.packet_buf 13).val +
        2 ^ 16 * (d.packet_buf 14).val + 2 ^ 24 * (d.packet_buf 15).val < 2 ^ 32 := by
      norm_num
      omega
    have hge : ¬ (d.packet_buf 12).val + 2 ^ 8 * (d.packet_buf 13).val +
        2 ^ 16 * (d.packet_buf 14).val + 2 ^ 24 * (d.packet_buf 15).val < 2 ^ 31 := by
      norm_num
      omega
    unfold toInt32
    rw [Nat.mod_eq_of_lt hlt, if_neg hge]
  · intro h h12 h13 h14 h15
    simp only [ge_iff_le, if_pos h]
    rw [decodeRate_eq, h12, h13, h14, h15]
    decide
  · intro h
    simp only [ge_iff_le, if_neg (by omega : ¬ 19 ≤ d.packet_len)]
  · intro h hi
    simp only [ge_iff_le, if_neg (by omega : ¬ 19 ≤ d.packet_len)]
    exact hi.rate_default hfirst
  · intro d0 hr
    exact (StateInv_of_Reachable d0 hr).rate_default

theorem C7_sample_rate_witness :
    (headState.head_seen = false ∧ headState.seg_table headState.seg_index ≠ 255 ∧
      8 ≤ headState.packet_len ∧ readBuf headState.packet_buf 8 = OpusHead) ∧
    (segmentComplete headState []).1.sample_rate = 48000 :=
  ⟨⟨rfl, by decide, by decide, by decide⟩,
    (C7_sample_rate headState [] rfl (by decide) (by decide) (by decide)).2.2.2.2.2.1
      (by decide) (by decide) (by decide) (by decide) (by decide)⟩

/-- C8 (reset idempotence).  `Reset` gives, from any object, the freshly constructed object
with the stored callback kept: `FIND_PAGE`, four bytes needed, all counters zero,
`packet_continued` false, the three buffers zero, both flags false and rate 48000.  A second
`Reset` changes nothing, and every sequence of `Process` calls after `Reset` has the results
(final object, callbacks, returned values) it has on the fresh object with that callback. -/
theorem C8_reset_idempotence (d : Demuxer) (chunks : List (List Byte)) :
    Reset d = { fresh with on_demuxer_finished_ := d.on_demuxer_finished_ } ∧
    Reset (Reset d) = Reset d ∧
    ((Reset d).state_ = ParseState.FIND_PAGE ∧ (Reset d).bytes_needed = 4 ∧
      (Reset d).packet_len = 0 ∧ (Reset d).seg_count = 0 ∧ (Reset d).seg_index = 0 ∧
      (Reset d).data_offset = 0 ∧ (Reset d).seg_remaining = 0 ∧ (Reset d).body_size = 0 ∧
      (Reset d).body_offset = 0 ∧ (Reset d).packet_continued = false ∧
      (∀ i, (Reset d).header i = 0) ∧ (∀ i, (Reset d).seg_table i = 0) ∧
      (∀ i, (Reset d).packet_buf i = 0) ∧ (Reset d).head_seen = false ∧
      (Reset d).tags_seen = false ∧ (Reset d).sample_rate = 48000 ∧
      (Reset d).on_demuxer_finished_ = d.on_demuxer_finished_) ∧
    feed (Reset d) chunks =
      feed { fresh with on_demuxer_finished_ := d.on_demuxer_finished_ } chunks ∧
    feed (Reset (Reset d)) chunks = feed (Reset d) chunks :=
  ⟨rfl, rfl, ⟨rfl, rfl, rfl, rfl, rfl, rfl, rfl, rfl, rfl, rfl, fun _ => rfl, fun _ => rfl,
    fun _ => rfl, rfl, rfl, rfl, rfl⟩, rfl, rfl⟩

/-! ## Page synchronisation -/

theorem take4_occurs (l : List Byte) (i : Nat) (h : (l.drop i).take 4 = OggS) : OggS <:+: l := by
  refine ⟨l.take i, (l.drop i).drop 4, ?_⟩
  rw [← h, List.append_assoc, List.take_append_drop, List.take_append_drop]

theorem not_infix_tail (b : Byte) (t : List Byte) (h : ¬ OggS <:+: b :: t) : ¬ OggS <:+: t := by
  intro hi
  exact h (hi.trans (List.suffix_cons b t).isInfix)

theorem searchOggS_none (l : List Byte) (h : ¬ OggS <:+: l) : (searchOggS l 0).1 = false := by
  induction l with
  | nil => simp [searchOggS]
  | cons b t ih =>
    simp only [searchOggS]
    split_ifs with h1 h2
    · exact absurd (take4_occurs (b :: t) 0 h2) h
    · rw [searchOggS_shift]
      exact ih (not_infix_tail b t h)
    · rfl

theorem take4_first (pre post : List Byte) (hpre : pre ≠ [])
    (h : ¬ OggS <:+: pre ++ OggS.take 3) : (pre ++ OggS ++ post).take 4 ≠ OggS := by
  intro heq
  apply h
  have hl : 0 < pre.length := List.length_pos.mpr hpre
  have e : (pre ++ OggS ++ post).take 4 = (pre ++ OggS.take 3).take 4 := by
    have h1 : pre ++ OggS ++ post = (pre ++ OggS.take 3) ++ (OggS.drop 3 ++ post) := by
      simp [OggS]
    rw [h1, List.take_append_of_le_length]
    simp [OggS]
    omega
  rw [e] at heq
  exact take4_occurs _ 0 heq

theorem searchOggS_first (pre post : List Byte) (h : ¬ OggS <:+: pre ++ OggS.take 3) :
    searchOggS (pre ++ OggS ++ post) 0 = (true, pre.length) := by
  induction pre with
  | nil => simp [searchOggS, OggS]
  | cons b t ih =>
    have h4 := take4_first (b :: t) post (by simp) h
    have hlen : 4 ≤ (b :: (t ++ OggS ++ post)).length := by simp [OggS]; omega
    simp only [List.cons_append] at h4 ⊢
    simp only [searchOggS]
    rw [if_pos hlen, if_neg h4, searchOggS_shift, ih (not_infix_tail b _ h)]
    simp

theorem last3_length (l : List Byte) : (last3 l).length = min l.length 3 := by
  simp only [last3, List.length_drop]
  omega

theorem last3_short (l : List Byte) (h : l.length ≤ 3) : last3 l = l := by
  simp only [last3]
  rw [show l.length - 3 = 0 by omega, List.drop_zero]

theorem last3_append (a b : List Byte) (h : 3 ≤ b.length) : last3 (a ++ b) = last3 b := by
  simp only [last3, List.length_append]
  rw [List.drop_append_eq_append_drop, List.drop_of_length_le (by omega), List.nil_append]
  congr 1
  omega

theorem last3_last3_append (a b : List Byte) : last3 (last3 a ++ b) = last3 (a ++ b) := by
  by_cases h : a.length ≤ 3
  · rw [last3_short a h]
  · have e : a ++ b = a.take (a.length - 3) ++ (last3 a ++ b) := by
      simp only [last3]
      rw [← List.append_assoc, List.take_append_drop]
    have hl : 3 ≤ (last3 a ++ b).length := by
      rw [List.length_append, last3_length]
      omega
    conv_rhs => rw [e, last3_append _ _ hl]

theorem findPage_search_none (d : Demuxer) (c : List Byte) (out : List Call)
    (hb : d.bytes_needed = 4) (hne : c ≠ []) (h : ¬ OggS <:+: c) :
    findPage d c out = Flow.ret Exit.need_data
      ⟨{ d with header := memcpy d.header 0 (last3 c),
                bytes_needed := 4 - (last3 c).length }, [], out⟩ := by
  have hl : 0 < c.length := List.length_pos.mpr hne
  have hf := searchOggS_none c h
  obtain ⟨h1, h2⟩ := (searchOggS_bounds c).2 hf
  unfold findPage
  simp only []
  rw [if_neg (by omega), if_pos hb, hf]
  simp only [Bool.false_eq_true, if_false]
  rw [if_pos (by omega)]
  have e1 : (c.drop (searchOggS c 0).2).take (c.length - (searchOggS c 0).2) = last3 c := by
    rw [List.take_of_length_le (by simp)]
    simp only [last3]
    congr 1
    omega
  have e2 : c.drop ((searchOggS c 0).2 + (c.length - (searchOggS c 0).2)) = [] := by
    rw [List.drop_eq_nil_iff]
    omega
  have e3 : 4 - (c.length - (searchOggS c 0).2) = 4 - (last3 c).length := by
    rw [last3_length]
    omega
  rw [e1, e2, e3]

theorem findPage_search_first (d : Demuxer) (pre post : List Byte) (out : List Call)
    (hb : d.bytes_needed = 4) (h : ¬ OggS <:+: pre ++ OggS.take 3) :
    findPage d (pre ++ OggS ++ post) out = Flow.brk
      ⟨{ d with state_ := ParseState.PARSE_HEADER, data_offset := 4,
                bytes_needed := 27 - 4 }, post, out⟩ := by
  unfold findPage
  simp only []
  rw [if_neg (by omega), if_pos hb, searchOggS_first pre post h]
  simp only [if_true]
  have e : (pre ++ OggS ++ post).drop (pre.length + 4) = post := by
    rw [show pre.length + 4 = (pre ++ OggS).length by simp [OggS]]
    exact List.drop_left _ _
  rw [e]

theorem findPage_partial_short (d : Demuxer) (c : List Byte) (out : List Call) (k : Nat)
    (hb : d.bytes_needed = 4 - k) (hk : 1 ≤ k) (hc : c.length < 4 - k) :
    findPage d c out = Flow.ret Exit.need_data
      ⟨{ d with header := memcpy d.header k c, bytes_needed := 4 - k - c.length }, [], out⟩ := by
  unfold findPage
  simp only []
  rw [if_pos (by omega), if_neg (by omega)]
  have e1 : min c.length d.bytes_needed = c.length := by omega
  rw [e1, List.take_length, List.drop_length, hb]
  rw [show 4 - (4 - k) = k by omega]

theorem findPage_partial_full (d : Demuxer) (c : List Byte) (out : List Call) (k : Nat)
    (hb : d.bytes_needed = 4 - k) (hk : 1 ≤ k) (hk3 : k ≤ 3) (hc : 4 - k ≤ c.length) :
    findPage d c out =
      if readBuf (memcpy d.header k (c.take (4 - k))) 4 = OggS then
        Flow.brk ⟨{ d with header := memcpy d.header k (c.take (4 - k)),
                           state_ := ParseState.PARSE_HEADER,
                           data_offset := 4, bytes_needed := 27 - 4 }, c.drop (4 - k), out⟩
      else
        Flow.brk ⟨{ d with header := memmove1 (memcpy d.header k (c.take (4 - k))),
                           bytes_needed := 1 }, c.drop (4 - k), out⟩ := by
  unfold findPage
  simp only []
  rw [if_pos (by omega)]
  have e1 : min c.length d.bytes_needed = 4 - k := by omega
  rw [e1, hb, if_pos (by omega)]
  rw [show 4 - (4 - k) = k by omega]

theorem readBuf_window (h : Nat → Byte) (c : List Byte) (k : Nat) (hk3 : k ≤ 3)
    (hc : 4 - k ≤ c.length) :
    readBuf (memcpy h k (c.take (4 - k))) 4 = readBuf h k ++ c.take (4 - k) := by
  have e : k + (c.take (4 - k)).length = 4 := by
    rw [List.length_take]
    omega
  have := readBuf_memcpy h k (c.take (4 - k))
  rw [e] at this
  exact this

theorem readBuf_memmove1 (h : Nat → Byte) : readBuf (memmove1 h) 3 = (readBuf h 4).tail := by
  simp [readBuf, memmove1, List.range_succ]

theorem Searching_state (d0 d : Demuxer) (w : List Byte) (h : Searching d0 w d) :
    d.state_ = d0.state_ ∧ d.bytes_needed = 4 - w.length := by
  obtain ⟨_, h1, rfl, _⟩ := h
  exact ⟨rfl, rfl⟩

theorem Searching_start (d0 : Demuxer) (hb : d0.bytes_needed = 4) : Searching d0 [] d0 := by
  refine ⟨by simp, d0.header, ?_, by simp [readBuf]⟩
  cases d0
  simp only [List.length_nil] at hb ⊢
  simp only [hb]

/-- One call that meets no complete magic keeps the object searching. -/
theorem search_partial_none (d0 : Demuxer) (hs : d0.state_ = ParseState.FIND_PAGE)
    (out : List Call) (n : Nat) :
    ∀ (c w : List Byte) (d : Demuxer), c.length ≤ n → Searching d0 w d → 1 ≤ w.length →
      ¬ OggS <:+: w ++ c →
      ∃ e d1, Searching d0 (last3 (w ++ c)) d1 ∧
        ∀ fuel, c.length < fuel → ProcessLoop fuel ⟨d, c, out⟩ = some (e, ⟨d1, [], out⟩) := by
  induction n with
  | zero =>
    intro c w d hn hw hw1 hno
    have hc : c = [] := List.length_eq_zero.mp (by omega)
    subst hc
    refine ⟨Exit.done, d, ?_, ?_⟩
    · rw [List.append_nil, last3_short w hw.1]
      exact hw
    · intro fuel hf
      obtain ⟨m, rfl⟩ : ∃ m, fuel = m + 1 := ⟨fuel - 1, by omega⟩
      exact ProcessLoop_nil m _ rfl
  | succ n ih =>
    intro c w d hn hw hw1 hno
    by_cases hc : c = []
    · subst hc
      refine ⟨Exit.done, d, ?_, ?_⟩
      · rw [List.append_nil, last3_short w hw.1]
        exact hw
      · intro fuel hf
        obtain ⟨m, rfl⟩ : ∃ m, fuel = m + 1 := ⟨fuel - 1, by omega⟩
        exact ProcessLoop_nil m _ rfl
    · have hcl : 0 < c.length := List.length_pos.mpr hc
      obtain ⟨hst, hbn⟩ := Searching_state d0 d w hw
      obtain ⟨hw3, h, hd, hh⟩ := hw
      have hdisp : dispatch d c out = findPage d c out := by
        unfold dispatch
        rw [hst, hs]
      by_cases hshort : c.length < 4 - w.length
      · -- all of the chunk goes into the window
        refine ⟨Exit.need_data,
          { d with header := memcpy d.header w.length c,
                   bytes_needed := 4 - w.length - c.length }, ?_, ?_⟩
        · have hl : (w ++ c).length ≤ 3 := by rw [List.length_append]; omega
          rw [last3_short _ hl]
          refine ⟨hl, memcpy d.header w.length c, ?_, ?_⟩
          · subst hd
            simp only [List.length_append]
            congr 1
            omega
          · subst hd
            simp only [List.length_append]
            rw [readBuf_memcpy, hh]
        · intro fuel hf
          obtain ⟨m, rfl⟩ : ∃ m, fuel = m + 1 := ⟨fuel - 1, by omega⟩
          exact ProcessLoop_ret m _ _ _ hc
            (hdisp.trans (findPage_partial_short d c out w.length hbn hw1 hshort))
      · -- the window fills up, does not match, and slides
        have hfull : 4 - w.length ≤ c.length := by omega
        have hwin : readBuf (memcpy d.header w.length (c.take (4 - w.length))) 4 =
            w ++ c.take (4 - w.length) := by
          rw [readBuf_window d.header c w.length hw3 hfull]
          subst hd
          simp only []
          rw [hh]
        have hne : readBuf (memcpy d.header w.length (c.take (4 - w.length))) 4 ≠ OggS := by
          rw [hwin]
          intro heq
          apply hno
          refine ⟨[], c.drop (4 - w.length), ?_⟩
          rw [← heq]
          simp
        have hstep : dispatch d c out = Flow.brk
            ⟨{ d with header := memmove1 (memcpy d.header w.length (c.take (4 - w.length))),
                      bytes_needed := 1 }, c.drop (4 - w.length), out⟩ := by
          rw [hdisp, findPage_partial_full d c out w.length hbn hw1 hw3 hfull, if_neg hne]
        have hwl : (w ++ c.take (4 - w.length)).length = 4 := by
          rw [List.length_append, List.length_take]
          omega
        have hw1' : Searching d0 (w ++ c.take (4 - w.length)).tail
            { d with header := memmove1 (memcpy d.header w.length (c.take (4 - w.length))),
                     bytes_needed := 1 } := by
          refine ⟨by rw [List.length_tail, hwl],
            memmove1 (memcpy d.header w.length (c.take (4 - w.length))), ?_, ?_⟩
          · subst hd
            simp only [List.length_tail, hwl]
          · rw [List.length_tail, hwl]
            rw [show 4 - 1 = 3 by rfl, readBuf_memmove1, hwin]
        have htail : (w ++ c.take (4 - w.length)).tail ++ c.drop (4 - w.length) =
            (w ++ c).tail := by
          cases w with
          | nil => simp at hw1
          | cons b t =>
            simp only [List.cons_append, List.tail_cons]
            rw [List.append_assoc, List.take_append_drop]
        obtain ⟨e, d1, i1, i2⟩ := ih (c.drop (4 - w.length)) _ _
          (by rw [List.length_drop]; omega) hw1' (by rw [List.length_tail, hwl]; omega)
          (by
            rw [htail]
            cases w with
            | nil => simp at hw1
            | cons b t => exact not_infix_tail b _ hno)
        refine ⟨e, d1, ?_, ?_⟩
        · rw [htail] at i1
          have : last3 (w ++ c).tail = last3 (w ++ c) := by
            cases w with
            | nil => simp at hw1
            | cons b t =>
              simp only [List.cons_append, List.tail_cons]
              have hl : 3 ≤ (t ++ c).length := by
                simp only [List.length_append, List.length_cons] at hfull ⊢
                omega
              exact (last3_append [b] (t ++ c) hl).symm
          rw [← this]
          exact i1
        · intro fuel hf
          obtain ⟨m, rfl⟩ : ∃ m, fuel = m + 1 := ⟨fuel - 1, by omega⟩
          rw [ProcessLoop_brk m _ _ hc hstep]
          exact i2 m (by rw [List.length_drop]; omega)

/-- One call on a chunk that completes no magic: it consumes the chunk and stays searching. -/
theorem search_none (d0 : Demuxer) (hs : d0.state_ = ParseState.FIND_PAGE) (out : List Call)
    (c w : List Byte) (d : Demuxer) (hw : Searching d0 w d) (hno : ¬ OggS <:+: w ++ c) :
    ∃ e d1, Searching d0 (last3 (w ++ c)) d1 ∧
      ∀ fuel, c.length < fuel → ProcessLoop fuel ⟨d, c, out⟩ = some (e, ⟨d1, [], out⟩) := by
  by_cases hw1 : 1 ≤ w.length
  · exact search_partial_none d0 hs out c.length c w d (le_refl _) hw hw1 hno
  · have hwn : w = [] := List.length_eq_zero.mp (by omega)
    subst hwn
    obtain ⟨hst, hbn⟩ := Searching_state d0 d [] hw
    obtain ⟨_, h, hd, _⟩ := hw
    simp only [List.nil_append] at hno ⊢
    by_cases hc : c = []
    · subst hc
      refine ⟨Exit.done, d, ?_, ?_⟩
      · rw [last3_short [] (by simp)]
        exact ⟨by simp, h, hd, by simp [readBuf]⟩
      · intro fuel hf
        obtain ⟨m, rfl⟩ : ∃ m, fuel = m + 1 := ⟨fuel - 1, by omega⟩
        exact ProcessLoop_nil m _ rfl
    · refine ⟨Exit.need_data,
        { d with header := memcpy d.header 0 (last3 c),
                 bytes_needed := 4 - (last3 c).length }, ?_, ?_⟩
      · refine ⟨by rw [last3_length]; omega, memcpy d.header 0 (last3 c), ?_, ?_⟩
        · subst hd
          rfl
        · have := readBuf_memcpy d.header 0 (last3 c)
          rw [Nat.zero_add] at this
          rw [this]
          simp [readBuf]
      · intro fuel hf
        obtain ⟨m, rfl⟩ : ∃ m, fuel = m + 1 := ⟨fuel - 1, by omega⟩
        have hdisp : dispatch d c out = findPage d c out := by
          unfold dispatch
          rw [hst, hs]
        exact ProcessLoop_ret m _ _ _ hc
          (hdisp.trans (findPage_search_none d c out (by simpa using hbn) hc hno))

/-- In the chunk `c1 ++ c2`, where the window `w` followed by `c1` ends with the first
magic, the loop is in `PARSE_HEADER` with `c2` left once it has consumed `c1`. -/
theorem search_partial_first (d0 : Demuxer) (hs : d0.state_ = ParseState.FIND_PAGE)
    (out : List Call) (c2 : List Byte) (pre : List Byte) :
    ∀ (c1 w : List Byte) (d : Demuxer), Searching d0 w d → 1 ≤ w.length →
      w ++ c1 = pre ++ OggS → ¬ OggS <:+: pre ++ OggS.take 3 →
      ∃ h k, k ≤ c1.length ∧ ∀ fuel, ProcessLoop (fuel + k) ⟨d, c1 ++ c2, out⟩ =
        ProcessLoop fuel
          ⟨{ d0 with header := h, state_ := ParseState.PARSE_HEADER, data_offset := 4,
                     bytes_needed := 27 - 4 }, c2, out⟩ := by
  induction pre with
  | nil =>
    intro c1 w d hw hw1 heq hno
    obtain ⟨hst, hbn⟩ := Searching_state d0 d w hw
    obtain ⟨hw3, h, hd, hh⟩ := hw
    have hlen : w.length + c1.length = 4 := by
      have := congrArg List.length heq
      simpa [OggS] using this
    have hc : c1 ++ c2 ≠ [] := by
      intro hc
      have h0 : c1.length = 0 := by rw [(List.append_eq_nil.mp hc).1]; rfl
      omega
    have hfull : 4 - w.length ≤ (c1 ++ c2).length := by
      rw [List.length_append]; omega
    have htake : (c1 ++ c2).take (4 - w.length) = c1 := by
      rw [show 4 - w.length = c1.length by omega]
      exact List.take_left _ _
    have hdrop : (c1 ++ c2).drop (4 - w.length) = c2 := by
      rw [show 4 - w.length = c1.length by omega]
      exact List.drop_left _ _
    have hwin : readBuf (memcpy d.header w.length ((c1 ++ c2).take (4 - w.length))) 4 = OggS := by
      rw [readBuf_window d.header (c1 ++ c2) w.length hw3 hfull, htake]
      subst hd
      simp only []
      rw [hh, heq]
      rfl
    refine ⟨memcpy d.header w.length c1, 1, by omega, fun fuel => ?_⟩
    apply ProcessLoop_brk fuel _ _ hc
    have hdisp : dispatch d (c1 ++ c2) out = findPage d (c1 ++ c2) out := by
      unfold dispatch
      rw [hst, hs]
    rw [hdisp, findPage_partial_full d (c1 ++ c2) out w.length hbn hw1 hw3 hfull, if_pos hwin,
      htake, hdrop]
    subst hd
    rfl
  | cons b t ih =>
    intro c1 w d hw hw1 heq hno
    obtain ⟨hst, hbn⟩ := Searching_state d0 d w hw
    obtain ⟨hw3, h, hd, hh⟩ := hw
    have hlen : w.length + c1.length = t.length + 5 := by
      have := congrArg List.length heq
      simpa [OggS] using this
    have hc : c1 ++ c2 ≠ [] := by
      intro hc
      have h0 : c1.length = 0 := by rw [(List.append_eq_nil.mp hc).1]; rfl
      omega
    have hfull : 4 - w.length ≤ (c1 ++ c2).length := by
      rw [List.length_append]; omega
    have htake : (c1 ++ c2).take (4 - w.length) = c1.take (4 - w.length) := by
      rw [List.take_append_of_le_length (by omega)]
    have hdrop : (c1 ++ c2).drop (4 - w.length) = c1.drop (4 - w.length) ++ c2 := by
      rw [List.drop_append_of_le_length (by omega)]
    have hwin : readBuf (memcpy d.header w.length ((c1 ++ c2).take (4 - w.length))) 4 =
        w ++ c1.take (4 - w.length) := by
      rw [readBuf_window d.header (c1 ++ c2) w.length hw3 hfull, htake]
      subst hd
      simp only []
      rw [hh]
    have hwl : (w ++ c1.take (4 - w.length)).length = 4 := by
      rw [List.length_append, List.length_take]
      omega
    have hw4 : w ++ c1.take (4 - w.length) = ((b :: t) ++ OggS ++ c2).take 4 := by
      rw [← heq, List.append_assoc]
      have : (w ++ (c1 ++ c2)).take 4 = w ++ (c1 ++ c2).take (4 - w.length) := by
        rw [List.take_append_eq_append_take, List.take_of_length_le (by omega)]
      rw [this, htake]
    have hne : readBuf (memcpy d.header w.length ((c1 ++ c2).take (4 - w.length))) 4 ≠ OggS := by
      rw [hwin, hw4]
      exact take4_first (b :: t) c2 (by simp) hno
    have hstep : dispatch d (c1 ++ c2) out = Flow.brk
        ⟨{ d with header := memmove1 (memcpy d.header w.length (c1.take (4 - w.length))),
                  bytes_needed := 1 }, c1.drop (4 - w.length) ++ c2, out⟩ := by
      have hdisp : dispatch d (c1 ++ c2) out = findPage d (c1 ++ c2) out := by
        unfold dispatch
        rw [hst, hs]
      rw [hdisp, findPage_partial_full d (c1 ++ c2) out w.length hbn hw1 hw3 hfull, if_neg hne,
        htake, hdrop]
    have hw1' : Searching d0 (w ++ c1.take (4 - w.length)).tail
        { d with header := memmove1 (memcpy d.header w.length (c1.take (4 - w.length))),
                 bytes_needed := 1 } := by
      refine ⟨by rw [List.length_tail, hwl],
        memmove1 (memcpy d.header w.length (c1.take (4 - w.length))), ?_, ?_⟩
      · subst hd
        simp only [List.length_tail, hwl]
      · rw [List.length_tail, hwl]
        rw [htake] at hwin
        rw [show 4 - 1 = 3 by rfl, readBuf_memmove1, hwin]
    have htail : (w ++ c1.take (4 - w.length)).tail ++ c1.drop (4 - w.length) = t ++ OggS := by
      have e : (w ++ c1.take (4 - w.length)).tail ++ c1.drop (4 - w.length) = (w ++ c1).tail := by
        cases w with
        | nil => simp at hw1
        | cons b t =>
          simp only [List.cons_append, List.tail_cons]
          rw [List.append_assoc, List.take_append_drop]
      rw [e, heq]
      rfl
    obtain ⟨h1, k, hk, i1⟩ := ih (c1.drop (4 - w.length)) _ _ hw1'
      (by rw [List.length_tail, hwl]; omega) htail (not_infix_tail b _ hno)
    rw [List.length_drop] at hk
    refine ⟨h1, k + 1, by omega, fun fuel => ?_⟩
    rw [← Nat.add_assoc, ProcessLoop_brk (fuel + k) _ _ hc hstep]
    exact i1 fuel

/-- The same from any searching state, the one with an empty window included. -/
theorem search_first (d0 : Demuxer) (hs : d0.state_ = ParseState.FIND_PAGE)
    (out : List Call) (c1 c2 pre w : List Byte) (d : Demuxer) (hw : Searching d0 w d)
    (heq : w ++ c1 = pre ++ OggS) (hno : ¬ OggS <:+: pre ++ OggS.take 3) :
    ∃ h k, k ≤ c1.length ∧ ∀ fuel, ProcessLoop (fuel + k) ⟨d, c1 ++ c2, out⟩ =
      ProcessLoop fuel
        ⟨{ d0 with header := h, state_ := ParseState.PARSE_HEADER, data_offset := 4,
                   bytes_needed := 27 - 4 }, c2, out⟩ := by
  by_cases hw1 : 1 ≤ w.length
  · exact search_partial_first d0 hs out c2 pre c1 w d hw hw1 heq hno
  · have hwn : w = [] := List.length_eq_zero.mp (by omega)
    subst hwn
    obtain ⟨hst, hbn⟩ := Searching_state d0 d [] hw
    obtain ⟨_, h, hd, _⟩ := hw
    simp only [List.nil_append] at heq
    subst heq
    have hc : pre ++ OggS ++ c2 ≠ [] := by simp [OggS]
    refine ⟨h, 1, by simp [OggS], fun fuel => ?_⟩
    apply ProcessLoop_brk fuel _ _ hc
    have hdisp : dispatch d (pre ++ OggS ++ c2) out = findPage d (pre ++ OggS ++ c2) out := by
      unfold dispatch
      rw [hst, hs]
    rw [hdisp, findPage_search_first d pre c2 out (by simpa using hbn) hno]
    subst hd
    rfl

theorem feed_search_none (d0 : Demuxer) (hs : d0.state_ = ParseState.FIND_PAGE)
    (chunks : List (List Byte)) : ∀ (w : List Byte) (d : Demuxer), Searching d0 w d →
      ¬ OggS <:+: w ++ chunks.flatten →
      ∃ d1, feed d chunks = some (d1, [], chunks.map List.length) ∧
        Searching d0 (last3 (w ++ chunks.flatten)) d1 := by
  induction chunks with
  | nil =>
    intro w d hw _
    refine ⟨d, rfl, ?_⟩
    rw [List.flatten_nil, List.append_nil, last3_short w hw.1]
    exact hw
  | cons c cs ih =>
    intro w d hw hno
    rw [List.flatten_cons, ← List.append_assoc] at hno
    have hno1 : ¬ OggS <:+: w ++ c := fun hi =>
      hno (hi.trans (List.prefix_append _ _).isInfix)
    obtain ⟨e, d1, i1, i2⟩ := search_none d0 hs [] c w d hw hno1
    have hp : Process d c = some (e, ⟨d1, [], []⟩) := i2 _ (by omega)
    have hno2 : ¬ OggS <:+: last3 (w ++ c) ++ cs.flatten := by
      intro hi
      apply hno
      have e1 : w ++ c ++ cs.flatten =
          (w ++ c).take ((w ++ c).length - 3) ++ (last3 (w ++ c) ++ cs.flatten) := by
        simp only [last3]
        rw [← List.append_assoc, List.take_append_drop]
      rw [e1]
      exact hi.trans (List.suffix_append _ _).isInfix
    obtain ⟨d2, j1, j2⟩ := ih (last3 (w ++ c)) d1 i1 hno2
    refine ⟨d2, ?_, ?_⟩
    · rw [feed_cons d c cs e ⟨d1, [], []⟩ d2 [] _ hp j1]
      simp [Run.processed]
    · rw [last3_last3_append] at j2
      rw [List.flatten_cons, ← List.append_assoc]
      exact j2

/-- C10 (page synchronisation).  An object in `FIND_PAGE` with four bytes needed is fed
`chunks`, every call consuming its whole chunk without a callback.  If their concatenation
contains no "OggS", it is still in `FIND_PAGE` afterwards.  If the next chunk is `c1 ++ c2`
with `c1` non-empty, and the concatenation followed by `c1` ends with the first "OggS" of
the stream (none ends earlier), then the object is still in `FIND_PAGE` before that chunk,
and in the call on it the loop is in `PARSE_HEADER` with `bytes_needed = 23` and
`data_offset = 4` when exactly `c1` has been consumed and `c2` is left; when `c2` is empty
that is the state the call returns in.  Partial matches before the magic and any split of
the magic over calls are covered by the choice of `chunks`, `c1` and `pre`. -/
theorem C10_page_sync (d : Demuxer) (chunks : List (List Byte))
    (hs : d.state_ = ParseState.FIND_PAGE) (hb : d.bytes_needed = 4) :
    (¬ OggS <:+: chunks.flatten →
      ∃ d1, feed d chunks = some (d1, [], chunks.map List.length) ∧
        d1.state_ = ParseState.FIND_PAGE) ∧
    (∀ pre c1 c2, c1 ≠ [] → chunks.flatten ++ c1 = pre ++ OggS →
      ¬ OggS <:+: pre ++ OggS.take 3 →
      ∃ dk d1, feed d chunks = some (dk, [], chunks.map List.length) ∧
        dk.state_ = ParseState.FIND_PAGE ∧
        Reaches ⟨dk, c1 ++ c2, []⟩ ⟨d1, c2, []⟩ ∧
        d1.state_ = ParseState.PARSE_HEADER ∧ d1.bytes_needed = 23 ∧ d1.data_offset = 4 ∧
        (c2 = [] → Process dk c1 = some (Exit.done, ⟨d1, [], []⟩))) := by
  have hstart := Searching_start d hb
  constructor
  · intro hno
    obtain ⟨d1, h1, h2⟩ := feed_search_none d hs chunks [] d hstart (by simpa using hno)
    exact ⟨d1, h1, (Searching_state d d1 _ h2).1.trans hs⟩
  · intro pre c1 c2 hc1 heq hno
    have hc1l : 0 < c1.length := List.length_pos.mpr hc1
    have hlen : chunks.flatten.length + c1.length = pre.length + 4 := by
      have := congrArg List.length heq
      simpa only [List.length_append, OggS, List.length_cons, List.length_nil] using this
    -- what was fed before is a prefix of `pre ++ "Ogg"`
    have hpre : chunks.flatten <+: pre ++ OggS.take 3 := by
      have h1 : chunks.flatten <+: pre ++ OggS := ⟨c1, heq⟩
      have h2 : pre ++ OggS.take 3 <+: pre ++ OggS :=
        ⟨OggS.drop 3, by rw [List.append_assoc, List.take_append_drop]⟩
      exact List.prefix_of_prefix_length_le h1 h2
        (by simp only [List.length_append, OggS, List.length_take, List.length_cons,
              List.length_nil]; omega)
    have hno1 : ¬ OggS <:+: chunks.flatten := fun hi => hno (hi.trans hpre.isInfix)
    obtain ⟨dk, h1, h2⟩ := feed_search_none d hs chunks [] d hstart (by simpa using hno1)
    rw [List.nil_append] at h2
    -- the window and `c1` end with the first magic of what is left of `pre`
    have hw : last3 chunks.flatten ++ c1 = pre.drop (chunks.flatten.length - 3) ++ OggS := by
      have e1 : chunks.flatten.take (chunks.flatten.length - 3) ++ (last3 chunks.flatten ++ c1) =
          pre ++ OggS := by
        simp only [last3]
        rw [← List.append_assoc, List.take_append_drop, heq]
      have e2 := congrArg (List.drop (chunks.flatten.length - 3)) e1
      rw [List.drop_left' (by rw [List.length_take]; omega),
        List.drop_append_of_le_length (by omega)] at e2
      exact e2
    have hno2 : ¬ OggS <:+: pre.drop (chunks.flatten.length - 3) ++ OggS.take 3 := by
      intro hi
      apply hno
      have : pre ++ OggS.take 3 = pre.take (chunks.flatten.length - 3) ++
          (pre.drop (chunks.flatten.length - 3) ++ OggS.take 3) := by
        rw [← List.append_assoc, List.take_append_drop]
      rw [this]
      exact hi.trans (List.suffix_append _ _).isInfix
    obtain ⟨h, k, hk, hr⟩ := search_first d hs [] c1 c2 _ _ dk h2 hw hno2
    refine ⟨dk, _, h1, (Searching_state d dk _ h2).1.trans hs, ⟨k, hr⟩, rfl, rfl, rfl, ?_⟩
    intro hc2
    subst hc2
    have := hr (2 * c1.length + 4 - k)
    rw [List.append_nil] at this
    unfold Process
    rw [show 2 * c1.length + 4 = 2 * c1.length + 4 - k + k by omega, this,
      show 2 * c1.length + 4 - k = (2 * c1.length + 3 - k) + 1 by omega]
    exact ProcessLoop_nil _ _ rfl

theorem C10_page_sync_witness :
    (fresh.state_ = ParseState.FIND_PAGE ∧ fresh.bytes_needed = 4) ∧
    ((¬ OggS <:+: [[1, 79], [103]].flatten →
      ∃ d1, feed fresh [[1, 79], [103]] = some (d1, [], [[1, 79], [103]].map List.length) ∧
        d1.state_ = ParseState.FIND_PAGE) ∧
    (∀ pre c1 c2, c1 ≠ [] → [[1, 79], [103]].flatten ++ c1 = pre ++ OggS →
      ¬ OggS <:+: pre ++ OggS.take 3 →
      ∃ dk d1, feed fresh [[1, 79], [103]] = some (dk, [], [[1, 79], [103]].map List.length) ∧
        dk.state_ = ParseState.FIND_PAGE ∧
        Reaches ⟨dk, c1 ++ c2, []⟩ ⟨d1, c2, []⟩ ∧
        d1.state_ = ParseState.PARSE_HEADER ∧ d1.bytes_needed = 23 ∧ d1.data_offset = 4 ∧
        (c2 = [] → Process dk c1 = some (Exit.done, ⟨d1, [], []⟩)))) :=
  ⟨⟨rfl, rfl⟩, C10_page_sync fresh [[1, 79], [103]] rfl rfl⟩

/-! ## The segment loop on a complete page body -/

theorem readBuf_take (buf : Nat → Byte) (n k : Nat) (h : k ≤ n) :
    (readBuf buf n).take k = readBuf buf k := by
  obtain ⟨m, rfl⟩ : ∃ m, n = k + m := ⟨n - k, by omega⟩
  rw [readBuf_add, List.take_left' (readBuf_length _ _)]

theorem prefix_iff_take (magic p : List Byte) :
    magic <+: p ↔ magic.length ≤ p.length ∧ p.take magic.length = magic := by
  constructor
  · intro h
    exact ⟨h.length_le, List.prefix_iff_eq_take.mp h |>.symm⟩
  · rintro ⟨_, h2⟩
    rw [← h2]
    exact List.take_prefix _ _

theorem magic_check (d : Demuxer) (acc : List Byte) (magic : List Byte)
    (hm : magic.length = 8) (hl : d.packet_len = acc.length)
    (hb : readBuf d.packet_buf acc.length = acc) :
    (d.packet_len ≥ 8 ∧ readBuf d.packet_buf 8 = magic) ↔ magic <+: acc := by
  rw [prefix_iff_take, hm, hl]
  constructor
  · rintro ⟨h1, h2⟩
    refine ⟨h1, ?_⟩
    rw [← hb, readBuf_take _ _ _ h1]
    exact h2
  · rintro ⟨h1, h2⟩
    refine ⟨h1, ?_⟩
    rw [← hb, readBuf_take _ _ _ h1] at h2
    exact h2

theorem decodeRate_rateOf (d : Demuxer) (acc : List Byte) (hl : 19 ≤ acc.length)
    (hb : readBuf d.packet_buf acc.length = acc) : decodeRate d.packet_buf = rateOf acc := by
  rw [decodeRate_eq]
  unfold rateOf
  have key : ∀ i, i < acc.length → acc.getD i 0 = d.packet_buf i := by
    intro i hi
    conv_lhs => rw [← hb]
    simp [readBuf, List.getD_eq_getElem?_getD, hi]
  rw [key 12 (by omega), key 13 (by omega), key 14 (by omega), key 15 (by omega)]

/-- The end of a packet in the code does what `deliverPacket` says. -/
theorem segmentComplete_deliver (d : Demuxer) (out : List Call) (acc : List Byte)
    (hend : d.seg_table d.seg_index ≠ 255) (hl : d.packet_len = acc.length)
    (hb : readBuf d.packet_buf acc.length = acc) :
    infoOf (segmentComplete d out).1 (segmentComplete d out).2 =
      deliverPacket d.on_demuxer_finished_ (infoOf d out) acc ∧
    (segmentComplete d out).1 =
      { d with head_seen := (segmentComplete d out).1.head_seen,
               tags_seen := (segmentComplete d out).1.tags_seen,
               sample_rate := (segmentComplete d out).1.sample_rate,
               packet_len := 0, packet_continued := false,
               seg_index := d.seg_index + 1, seg_remaining := 0 } := by
  have hH := magic_check d acc OpusHead rfl hl hb
  have hT := magic_check d acc OpusTags rfl hl hb
  have hnil : d.packet_len ≠ 0 ↔ acc ≠ [] := by
    rw [hl, Ne, List.length_eq_zero]
  unfold segmentComplete deliverPacket infoOf
  simp only [decide_eq_true_eq]
  rw [if_pos hend]
  by_cases h0 : acc = []
  · rw [if_neg (by rw [hnil]; exact fun h => h h0), if_pos h0]
    exact ⟨rfl, rfl⟩
  · rw [if_pos (hnil.mpr h0), if_neg h0]
    by_cases h1 : ¬ d.head_seen = true ∧ d.packet_len ≥ 8 ∧ readBuf d.packet_buf 8 = OpusHead
    · have h1' : d.head_seen = false ∧ OpusHead <+: acc :=
        ⟨by simpa using h1.1, hH.mp h1.2⟩
      rw [if_pos h1, if_pos h1']
      refine ⟨?_, rfl⟩
      simp only [StreamInfo.mk.injEq, true_and, and_true]
      rw [hl]
      by_cases h19 : 19 ≤ acc.length
      · rw [if_pos h19, if_pos h19, decodeRate_rateOf d acc h19 hb]
      · rw [if_neg h19, if_neg h19]
    · have h1' : ¬ (d.head_seen = false ∧ OpusHead <+: acc) := by
        intro h
        exact h1 ⟨by simp [h.1], hH.mpr h.2⟩
      rw [if_neg h1, if_neg h1']
      by_cases h2 : ¬ d.tags_seen = true ∧ d.packet_len ≥ 8 ∧
          readBuf d.packet_buf 8 = OpusTags
      · have h2' : d.tags_seen = false ∧ OpusTags <+: acc :=
          ⟨by simpa using h2.1, hT.mp h2.2⟩
        rw [if_pos h2, if_pos h2']
        exact ⟨rfl, rfl⟩
      · have h2' : ¬ (d.tags_seen = false ∧ OpusTags <+: acc) := by
          intro h
          exact h2 ⟨by simp [h.1], hT.mpr h.2⟩
        rw [if_neg h2, if_neg h2']
        refine ⟨?_, rfl⟩
        simp only []
        by_cases h3 : d.head_seen = true ∧ d.tags_seen = true
        · rw [if_pos h3]
          by_cases h4 : d.on_demuxer_finished_ = true
          · rw [if_pos h4, if_pos ⟨h3.1, h3.2, h4⟩, hl, hb]
          · rw [if_neg h4, if_neg (fun h => h4 h.2.2)]
        · rw [if_neg h3, if_neg (fun h => h3 ⟨h.1, h.2.1⟩)]

theorem AfterSegments_nil (d : Demuxer) (acc : List Byte) (out : List Call)
    (hl : d.packet_len = acc.length) (hb : readBuf d.packet_buf acc.length = acc)
    (hr : d.seg_remaining = 0) : AfterSegments d [] [] acc out d out :=
  ⟨rfl, rfl, rfl, rfl, rfl, rfl, rfl, rfl, rfl, hr, rfl, hl, hb, rfl, rfl⟩

theorem segmentLoop_fuel (n : Nat) : ∀ (d : Demuxer) (rest : List Byte) (out : List Call),
    d.seg_count ≤ d.seg_index → segmentLoop n d rest out = Flow.brk ⟨d, rest, out⟩ := by
  intro d rest out h
  cases n with
  | zero => rfl
  | succ n =>
    simp only [segmentLoop]
    rw [if_neg (by omega)]

theorem sum_cons_val (s : Byte) (t : List Byte) :
    ((s :: t).map Fin.val).sum = s.val + (t.map Fin.val).sum := by
  simp

theorem segmentComplete_fields (d : Demuxer) (out : List Call) :
    (segmentComplete d out).1.state_ = d.state_ ∧
    (segmentComplete d out).1.header = d.header ∧
    (segmentComplete d out).1.seg_table = d.seg_table ∧
    (segmentComplete d out).1.seg_count = d.seg_count ∧
    (segmentComplete d out).1.on_demuxer_finished_ = d.on_demuxer_finished_ ∧
    (segmentComplete d out).1.bytes_needed = d.bytes_needed ∧
    (segmentComplete d out).1.data_offset = d.data_offset ∧
    (segmentComplete d out).1.body_size = d.body_size ∧
    (segmentComplete d out).1.seg_index = d.seg_index + 1 ∧
    (segmentComplete d out).1.seg_remaining = 0 ∧
    (segmentComplete d out).1.body_offset = d.body_offset ∧
    (segmentComplete d out).1.packet_buf = d.packet_buf := by
  unfold segmentComplete
  simp only []
  split_ifs <;> exact ⟨rfl, rfl, rfl, rfl, rfl, rfl, rfl, rfl, rfl, rfl, rfl, rfl⟩

theorem segmentComplete_continue (d : Demuxer) (out : List Call)
    (h : d.seg_table d.seg_index = 255) :
    (segmentComplete d out).2 = out ∧
    (segmentComplete d out).1.packet_len = d.packet_len ∧
    (segmentComplete d out).1.packet_continued = true ∧
    (segmentComplete d out).1.head_seen = d.head_seen ∧
    (segmentComplete d out).1.tags_seen = d.tags_seen ∧
    (segmentComplete d out).1.sample_rate = d.sample_rate := by
  unfold segmentComplete
  simp only [decide_eq_true_eq]
  rw [if_neg (fun hx => hx h)]
  exact ⟨rfl, rfl, rfl, rfl, rfl, rfl⟩

/-- The segment loop, given the whole body of the segments `ts` still to process (and input
after it, or a last segment that is not empty), does what `lacing` and `deliver` say, as
long as the capacity rule `Fits` holds. -/
theorem segmentLoop_page (ts : List Byte) : ∀ (d : Demuxer) (body tail acc : List Byte)
    (out : List Call) (m : Nat),
    (∀ j (hj : j < ts.length), d.seg_table (d.seg_index + j) = ts.get ⟨j, hj⟩) →
    d.seg_index + ts.length ≤ d.seg_count → d.seg_remaining = 0 →
    body.length = (ts.map Fin.val).sum →
    (tail ≠ [] ∨ ∀ s, ts.getLast? = some s → s ≠ 0) →
    d.packet_len = acc.length → readBuf d.packet_buf acc.length = acc →
    Fits acc.length ts →
    ∃ d1 out1, segmentLoop (ts.length + m) d (body ++ tail) out = segmentLoop m d1 tail out1 ∧
      AfterSegments d ts body acc out d1 out1 := by
  induction ts with
  | nil =>
    intro d body tail acc out m _ hc hr hbody _ hl hb _
    have hb0 : body = [] := List.length_eq_zero.mp (by simpa using hbody)
    subst hb0
    refine ⟨d, out, ?_, AfterSegments_nil d acc out hl hb hr⟩
    rw [List.length_nil, Nat.zero_add, List.nil_append]
  | cons s t ih =>
    intro d body tail acc out m htab hc hr hbody hflush hl hb hfit
    have hs : d.seg_table d.seg_index = s := by
      have := htab 0 (by simp)
      simpa using this
    have hlt : d.seg_index < d.seg_count := by
      simp only [List.length_cons] at hc
      omega
    rw [sum_cons_val] at hbody
    have hsl : segLen d = s.val := by
      unfold segLen
      rw [if_neg (by omega), hs]
    have hsr : segRem d = s.val := by
      unfold segRem
      rw [if_neg (by omega), hs]
    have hne : body ++ tail ≠ [] := by
      rcases hflush with h | h
      · intro hx
        exact h (List.append_eq_nil.mp hx).2
      · intro hx
        have hb0 : body = [] := (List.append_eq_nil.mp hx).1
        rw [hb0] at hbody
        simp only [List.length_nil] at hbody
        have hs0 : s.val = 0 := by omega
        have ht0 : ∀ x ∈ t, x.val = 0 := by
          intro x hx
          have : x.val ≤ (t.map Fin.val).sum :=
            List.single_le_sum (fun _ _ => Nat.zero_le _) _ (List.mem_map_of_mem _ hx)
          omega
        cases hlast : (s :: t).getLast? with
        | none => simp at hlast
        | some x =>
          have hx : x ∈ s :: t := List.mem_of_getLast?_eq_some hlast
          have : x.val = 0 := by
            rcases List.mem_cons.mp hx with rfl | hx
            · exact hs0
            · exact ht0 x hx
          exact h x hlast (Fin.ext this)
    have hov : ¬ d.packet_len + segLen d > PACKET_BUF_SIZE := by
      rw [hsl, hl]
      have := hfit.1
      omega
    have hmin : min (body ++ tail).length (segLen d) = s.val := by
      rw [hsl, List.length_append]
      omega
    have htake : (body ++ tail).take s.val = body.take s.val := by
      rw [List.take_append_of_le_length (by omega)]
    have hdrop : (body ++ tail).drop s.val = body.drop s.val ++ tail := by
      rw [List.drop_append_of_le_length (by omega)]
    have hcopy : copySegment d (body ++ tail) =
        { d with packet_buf := memcpy d.packet_buf d.packet_len (body.take s.val),
                 packet_len := d.packet_len + s.val,
                 body_offset := d.body_offset + s.val,
                 seg_remaining := 0 } := by
      unfold copySegment
      rw [hmin, htake, hsr, Nat.sub_self]
    have hrem : ¬ (copySegment d (body ++ tail)).seg_remaining > 0 := by
      rw [hcopy]
      simp
    have hbody1 : segmentBody d (body ++ tail) out =
        Flow.brk ⟨(segmentComplete (copySegment d (body ++ tail)) out).1, body.drop s.val ++ tail,
          (segmentComplete (copySegment d (body ++ tail)) out).2⟩ := by
      rw [segmentBody_complete d _ out hov hrem, hmin, hdrop]
    have hloop : segmentLoop ((s :: t).length + m) d (body ++ tail) out =
        segmentLoop (t.length + m) (segmentComplete (copySegment d (body ++ tail)) out).1
          (body.drop s.val ++ tail) (segmentComplete (copySegment d (body ++ tail)) out).2 := by
      rw [List.length_cons, show t.length + 1 + m = (t.length + m) + 1 by omega]
      simp only [segmentLoop]
      rw [if_pos ⟨hlt, hne⟩, hbody1]
    rw [hloop]
    have hdc1 : (copySegment d (body ++ tail)).seg_table = d.seg_table := by rw [hcopy]
    have hdc2 : (copySegment d (body ++ tail)).seg_index = d.seg_index := by rw [hcopy]
    have hdc3 : (copySegment d (body ++ tail)).seg_count = d.seg_count := by rw [hcopy]
    have hdc4 : (copySegment d (body ++ tail)).packet_len = d.packet_len + s.val := by rw [hcopy]
    have hdc5 : (copySegment d (body ++ tail)).packet_buf =
        memcpy d.packet_buf d.packet_len (body.take s.val) := by rw [hcopy]
    have hdc6 : (copySegment d (body ++ tail)).body_offset = d.body_offset + s.val := by
      rw [hcopy]
    have hdc7 : (copySegment d (body ++ tail)).state_ = d.state_ ∧
        (copySegment d (body ++ tail)).header = d.header ∧
        (copySegment d (body ++ tail)).on_demuxer_finished_ = d.on_demuxer_finished_ ∧
        (copySegment d (body ++ tail)).bytes_needed = d.bytes_needed ∧
        (copySegment d (body ++ tail)).data_offset = d.data_offset ∧
        (copySegment d (body ++ tail)).body_size = d.body_size ∧
        (copySegment d (body ++ tail)).head_seen = d.head_seen ∧
        (copySegment d (body ++ tail)).tags_seen = d.tags_seen ∧
        (copySegment d (body ++ tail)).sample_rate = d.sample_rate ∧
        (copySegment d (body ++ tail)).packet_continued = d.packet_continued := by
      rw [hcopy]
      exact ⟨rfl, rfl, rfl, rfl, rfl, rfl, rfl, rfl, rfl, rfl⟩
    obtain ⟨g1, g2, g3, g4, g5, g6, g7, g8, g9, g10⟩ := hdc7
    obtain ⟨f1, f2, f3, f4, f5, f6, f7, f8, f9, f10, f11, f12⟩ :=
      segmentComplete_fields (copySegment d (body ++ tail)) out
    generalize hdc : copySegment d (body ++ tail) = dc at *
    generalize hdn : segmentComplete dc out = rn at *
    obtain ⟨dn, outn⟩ := rn
    simp only [] at f1 f2 f3 f4 f5 f6 f7 f8 f9 f10 f11 f12 ⊢
    have hlen1 : (acc ++ body.take s.val).length = d.packet_len + s.val := by
      rw [List.length_append, List.length_take, hl]
      omega
    have hbuf1 : readBuf dc.packet_buf (acc ++ body.take s.val).length =
        acc ++ body.take s.val := by
      have := readBuf_memcpy d.packet_buf d.packet_len (body.take s.val)
      rw [hl, hb] at this
      rw [hdc5, List.length_append, hl]
      exact this
    have hbl : (body.drop s.val).length = (t.map Fin.val).sum := by
      rw [List.length_drop]
      omega
    have hflush1 : tail ≠ [] ∨ ∀ x, t.getLast? = some x → x ≠ 0 := by
      rcases hflush with h | h
      · exact Or.inl h
      · right
        intro x hx
        apply h x
        cases t with
        | nil => simp at hx
        | cons a b => simpa [List.getLast?_cons_cons] using hx
    have htab1 : ∀ j (hj : j < t.length), dn.seg_table (dn.seg_index + j) = t.get ⟨j, hj⟩ := by
      intro j hj
      have := htab (j + 1) (by simp only [List.length_cons]; omega)
      simp only [List.get_eq_getElem, List.getElem_cons_succ] at this ⊢
      rw [← this, f3, hdc1, f9, hdc2]
      congr 1
      omega
    have hc1 : dn.seg_index + t.length ≤ dn.seg_count := by
      rw [f4, hdc3, f9, hdc2]
      simp only [List.length_cons] at hc
      omega
    by_cases h255 : s = 255
    · -- the packet goes on
      obtain ⟨k1, k2, k3, k4, k5, k6⟩ := segmentComplete_continue dc out (by rw [hdc1, hdc2, hs, h255])
      rw [hdn] at k1 k2 k3 k4 k5 k6
      simp only [] at k1 k2 k3 k4 k5 k6
      have hfit1 : Fits (acc ++ body.take s.val).length t := by
        have := hfit.2
        rw [if_pos h255] at this
        rw [hlen1, hl]
        exact this
      obtain ⟨d1, out1, e1, e2⟩ := ih dn (body.drop s.val) tail (acc ++ body.take s.val) outn m
        htab1 hc1 f10 hbl hflush1 (by rw [k2, hdc4, hlen1]) (by rw [f12]; exact hbuf1) hfit1
      refine ⟨d1, out1, e1, ?_⟩
      obtain ⟨a1, a2, a3, a4, a5, a6, a7, a8, a9, a10, a11, a12, a13, a14, a15⟩ := e2
      have hlac : lacing (s :: t) body acc =
          lacing t (body.drop s.val) (acc ++ body.take s.val) := by
        simp only [lacing]
        rw [if_pos h255]
      refine ⟨a1.trans (f1.trans g1), a2.trans (f2.trans g2), a3.trans (f3.trans hdc1),
        a4.trans (f4.trans hdc3), a5.trans (f5.trans g3), a6.trans (f6.trans g4),
        a7.trans (f7.trans g5), a8.trans (f8.trans g6), ?_, a10, ?_, ?_, ?_, ?_, ?_⟩
      · rw [a9, f9, hdc2]; simp only [List.length_cons]; omega
      · rw [a11, f11, hdc6]
        simp only [List.length_drop]
        omega
      · rw [hlac]; exact a12
      · rw [hlac]; exact a13
      · rw [hlac, a14, f5, g3]
        congr 1
        simp only [infoOf, k1, k4, k5, k6, g7, g8, g9]
      · rw [a15]
        cases t with
        | nil => simp [h255, k3]
        | cons a b =>
          simp only [List.getLast?_cons_cons]
          cases hx : (a :: b).getLast? with
          | none => simp at hx
          | some x => rfl
    · -- the packet ends here
      obtain ⟨c1, c2⟩ := segmentComplete_deliver dc out (acc ++ body.take s.val)
        (by rw [hdc1, hdc2, hs]; exact h255) (by rw [hdc4, hlen1]) hbuf1
      rw [hdn] at c1 c2
      simp only [] at c1 c2
      have hpl : dn.packet_len = 0 := by rw [c2]
      have hpc : dn.packet_continued = false := by rw [c2]
      have hfit1 : Fits ([] : List Byte).length t := by
        have := hfit.2
        rw [if_neg h255] at this
        exact this
      obtain ⟨d1, out1, e1, e2⟩ := ih dn (body.drop s.val) tail [] outn m
        htab1 hc1 f10 hbl hflush1 (by rw [hpl]; rfl) (by simp [readBuf]) hfit1
      refine ⟨d1, out1, e1, ?_⟩
      obtain ⟨a1, a2, a3, a4, a5, a6, a7, a8, a9, a10, a11, a12, a13, a14, a15⟩ := e2
      have hlac : lacing (s :: t) body acc =
          ((acc ++ body.take s.val) :: (lacing t (body.drop s.val) []).1,
            (lacing t (body.drop s.val) []).2) := by
        simp only [lacing]
        rw [if_neg h255]
      refine ⟨a1.trans (f1.trans g1), a2.trans (f2.trans g2), a3.trans (f3.trans hdc1),
        a4.trans (f4.trans hdc3), a5.trans (f5.trans g3), a6.trans (f6.trans g4),
        a7.trans (f7.trans g5), a8.trans (f8.trans g6), ?_, a10, ?_, ?_, ?_, ?_, ?_⟩
      · rw [a9, f9, hdc2]; simp only [List.length_cons]; omega
      · rw [a11, f11, hdc6]
        simp only [List.length_drop]
        omega
      · rw [hlac]; exact a12
      · rw [hlac]; exact a13
      · rw [hlac, a14, f5, g3, c1, g3]
        simp only [deliver, List.foldl_cons]
        congr 2
        simp only [infoOf, g7, g8, g9]
      · rw [a15]
        cases t with
        | nil => simp [h255, hpc]
        | cons a b =>
          simp only [List.getLast?_cons_cons]
          cases hx : (a :: b).getLast? with
          | none => simp at hx
          | some x => rfl

/-! ## A whole page in one call -/

theorem parseHeader_accept (d : Demuxer) (hdr X : List Byte) (out : List Call) (n : Nat)
    (hoff : d.data_offset = 4) (hbn : d.bytes_needed = 23) (hlen : hdr.length = 23)
    (hv : hdr.getD 0 0 = 0) (hn : (hdr.getD 22 0).val = n) (hpos : 0 < n) :
    parseHeader d (hdr ++ X) out = Flow.brk
      ⟨{ d with header := memcpy d.header 4 hdr, seg_count := n,
                state_ := ParseState.PARSE_SEGMENTS,
                bytes_needed := n, data_offset := 0 }, X, out⟩ := by
  have h4 : memcpy d.header 4 hdr 4 = 0 := by
    have := memcpy_at d.header 4 hdr 0 (by omega)
    rw [Nat.add_zero] at this
    rw [this, hv]
  have h26 : memcpy d.header 4 hdr 26 = hdr.getD 22 0 :=
    memcpy_at d.header 4 hdr 22 (by omega)
  have hle := (hdr.getD 22 0).isLt
  unfold parseHeader
  simp only []
  rw [if_neg (by rw [hbn, List.length_append]; omega), hbn, hoff,
    show (hdr ++ X).take 23 = hdr by rw [← hlen]; exact List.take_left _ _,
    show (hdr ++ X).drop 23 = X by rw [← hlen]; exact List.drop_left _ _]
  rw [if_neg (by rw [h4]; exact fun h => h rfl), h26, hn, if_pos ⟨hpos, by omega⟩]

theorem parseHeader_empty (d : Demuxer) (hdr X : List Byte) (out : List Call)
    (hoff : d.data_offset = 4) (hbn : d.bytes_needed = 23) (hlen : hdr.length = 23)
    (hv : hdr.getD 0 0 = 0) (hn : (hdr.getD 22 0).val = 0) :
    parseHeader d (hdr ++ X) out = Flow.brk
      ⟨{ d with header := memcpy d.header 4 hdr, seg_count := 0,
                state_ := ParseState.FIND_PAGE,
                bytes_needed := 4, data_offset := 0 }, X, out⟩ := by
  have h4 : memcpy d.header 4 hdr 4 = 0 := by
    have := memcpy_at d.header 4 hdr 0 (by omega)
    rw [Nat.add_zero] at this
    rw [this, hv]
  have h26 : memcpy d.header 4 hdr 26 = hdr.getD 22 0 :=
    memcpy_at d.header 4 hdr 22 (by omega)
  unfold parseHeader
  simp only []
  rw [if_neg (by rw [hbn, List.length_append]; omega), hbn, hoff,
    show (hdr ++ X).take 23 = hdr by rw [← hlen]; exact List.take_left _ _,
    show (hdr ++ X).drop 23 = X by rw [← hlen]; exact List.drop_left _ _]
  rw [if_neg (by rw [h4]; exact fun h => h rfl), h26, hn, if_neg (by omega), if_pos rfl]

theorem readBuf_memcpy_zero (buf : Nat → Byte) (src : List Byte) :
    readBuf (memcpy buf 0 src) src.length = src := by
  have := readBuf_memcpy buf 0 src
  rw [Nat.zero_add] at this
  rw [this]
  simp [readBuf]

theorem parseSegments_full (d : Demuxer) (table X : List Byte) (out : List Call)
    (hoff : d.data_offset = 0) (hbn : d.bytes_needed = d.seg_count)
    (hlen : table.length = d.seg_count) :
    parseSegments d (table ++ X) out = Flow.brk
      ⟨{ d with seg_table := memcpy d.seg_table 0 table, bytes_needed := 0,
                state_ := ParseState.PARSE_DATA, seg_index := 0, data_offset := 0,
                body_size := (table.map Fin.val).sum,
                body_offset := 0, seg_remaining := 0 }, X, out⟩ := by
  have hsum : ((List.range d.seg_count).map fun i => (memcpy d.seg_table 0 table i).val).sum =
      (table.map Fin.val).sum := by
    have := readBuf_memcpy_zero d.seg_table table
    rw [hlen] at this
    conv_rhs => rw [← this]
    simp [readBuf, Function.comp_def]
  unfold parseSegments
  simp only []
  rw [if_neg (by rw [hbn, List.length_append]; omega), hbn, hoff,
    show (table ++ X).take d.seg_count = table by rw [← hlen]; exact List.take_left _ _,
    show (table ++ X).drop d.seg_count = X by rw [← hlen]; exact List.drop_left _ _, hsum]

theorem parseData_page_end (d d1 : Demuxer) (rest tail : List Byte) (out out1 : List Call)
    (hloop : segmentLoop (d.seg_count - d.seg_index) d rest out = Flow.brk ⟨d1, tail, out1⟩)
    (hend : d1.seg_index = d1.seg_count) :
    parseData d rest out = Flow.brk
      ⟨{ d1 with packet_len := if ¬ d1.packet_continued then 0 else d1.packet_len,
                 state_ := ParseState.FIND_PAGE, bytes_needed := 4,
                 data_offset := 0 }, tail, out1⟩ := by
  unfold parseData
  rw [hloop]
  simp only []
  rw [if_pos hend]

theorem lacing_cons_continue (t body acc : List Byte) :
    lacing (255 :: t) body acc = lacing t (body.drop 255) (acc ++ body.take 255) := by
  rw [lacing, if_pos rfl]
  rfl

theorem lacing_cons_end (s : Byte) (t body acc : List Byte) (h : s ≠ 255) :
    lacing (s :: t) body acc =
      ((acc ++ body.take s.val) :: (lacing t (body.drop s.val) []).1,
        (lacing t (body.drop s.val) []).2) := by
  rw [lacing, if_neg h]

theorem lacing_closed (t : List Byte) : ∀ (body acc : List Byte) (s : Byte),
    t.getLast? = some s → s ≠ 255 → (lacing t body acc).2 = [] := by
  induction t with
  | nil => intro body acc s h; simp at h
  | cons a b ih =>
    intro body acc s h hs
    cases b with
    | nil =>
      simp only [List.getLast?_singleton, Option.some.injEq] at h
      subst h
      rw [lacing_cons_end _ _ _ _ hs]
      rfl
    | cons c e =>
      rw [List.getLast?_cons_cons] at h
      by_cases ha : a = 255
      · subst ha
        rw [lacing_cons_continue]
        exact ih _ _ s h hs
      · rw [lacing_cons_end _ _ _ _ ha]
        exact ih _ _ s h hs

theorem not_infix_short (l : List Byte) (h : l.length < 4) : ¬ OggS <:+: l := by
  intro hi
  have := hi.length_le
  simp [OggS] at this
  omega

theorem countByte_val (n : Nat) (h : n ≤ 255) : (countByte n).val = n := by
  simp only [countByte]
  omega

/-- A well-formed page at the front of the input is taken in by at most four passes of the
outer loop, with the effect the specification describes, as long as the capacity rule holds
and either input follows the page or its last segment is not empty. -/
theorem page_run (d : Demuxer) (p : Page) (tail acc : List Byte) (out : List Call)
    (hs : d.state_ = ParseState.FIND_PAGE) (hb : d.bytes_needed = 4) (hwf : p.WF)
    (hl : d.packet_len = acc.length) (hbuf : readBuf d.packet_buf acc.length = acc)
    (hfit : Fits acc.length p.table)
    (hflush : tail ≠ [] ∨ ∀ s, p.table.getLast? = some s → s ≠ 0) :
    ∃ d1 out1 k, k ≤ 4 ∧
      (∀ fuel, ProcessLoop (fuel + k) ⟨d, p.bytes ++ tail, out⟩ =
        ProcessLoop fuel ⟨d1, tail, out1⟩) ∧
      AfterPage d p acc out d1 out1 := by
  obtain ⟨hf, ht, hbody⟩ := hwf
  obtain ⟨fields, table, body⟩ := p
  simp only [] at hf ht hbody hfit hflush ⊢
  -- pass 1: the magic
  have hbytes : (⟨fields, table, body⟩ : Page).bytes ++ tail =
      [] ++ OggS ++ (([0] ++ fields ++ [countByte table.length]) ++ (table ++ (body ++ tail))) := by
    simp only [Page.bytes, List.append_assoc, List.nil_append]
  rw [hbytes]
  have h1 : dispatch d ([] ++ OggS ++ (([0] ++ fields ++ [countByte table.length]) ++
      (table ++ (body ++ tail)))) out = Flow.brk
      ⟨{ d with state_ := ParseState.PARSE_HEADER, data_offset := 4,
                bytes_needed := 27 - 4 }, ([0] ++ fields ++ [countByte table.length]) ++
        (table ++ (body ++ tail)), out⟩ := by
    unfold dispatch
    rw [hs]
    exact findPage_search_first d [] _ out hb (not_infix_short _ (by simp [OggS]))
  have hne1 : [] ++ OggS ++ (([0] ++ fields ++ [countByte table.length]) ++
      (table ++ (body ++ tail))) ≠ [] := by simp [OggS]
  have hhl : ([0] ++ fields ++ [countByte table.length]).length = 23 := by
    simp only [List.length_append, List.length_cons, List.length_nil, hf]
  have hh0 : ([0] ++ fields ++ [countByte table.length]).getD 0 0 = 0 := by simp
  have hh22 : (([0] ++ fields ++ [countByte table.length]).getD 22 0).val = table.length := by
    have : ([0] ++ fields ++ [countByte table.length]).getD 22 0 = countByte table.length := by
      rw [List.getD_eq_getElem?_getD, List.getElem?_append_right (by simp [hf])]
      simp [hf]
    rw [this, countByte_val _ ht]
  have hne2 : ([0] ++ fields ++ [countByte table.length]) ++ (table ++ (body ++ tail)) ≠ [] := by
    simp
  generalize hdA : ({ d with state_ := ParseState.PARSE_HEADER, data_offset := 4,
                             bytes_needed := 27 - 4 } : Demuxer) = dA at h1
  have hA1 : dA.state_ = ParseState.PARSE_HEADER := by rw [← hdA]
  have hA2 : dA.data_offset = 4 := by rw [← hdA]
  have hA3 : dA.bytes_needed = 23 := by rw [← hdA]
  have hA4 : dA.packet_len = d.packet_len ∧ dA.packet_buf = d.packet_buf ∧
      dA.on_demuxer_finished_ = d.on_demuxer_finished_ ∧ dA.head_seen = d.head_seen ∧
      dA.tags_seen = d.tags_seen ∧ dA.sample_rate = d.sample_rate ∧
      dA.packet_continued = d.packet_continued := by
    rw [← hdA]
    exact ⟨rfl, rfl, rfl, rfl, rfl, rfl, rfl⟩
  obtain ⟨u1, u2, u3, u4, u5, u6, u7⟩ := hA4
  by_cases htab : table = []
  · -- a page without segments is skipped
    subst htab
    have hb0 : body = [] := List.length_eq_zero.mp (by simpa using hbody)
    subst hb0
    have h2 : dispatch dA (([0] ++ fields ++ [countByte ([] : List Byte).length]) ++
        ([] ++ ([] ++ tail))) out = Flow.brk
        ⟨{ dA with header := memcpy dA.header 4 ([0] ++ fields ++ [countByte 0]), seg_count := 0,
                   state_ := ParseState.FIND_PAGE,
                   bytes_needed := 4, data_offset := 0 }, [] ++ ([] ++ tail), out⟩ := by
      unfold dispatch
      rw [hA1]
      exact parseHeader_empty dA _ _ out hA2 hA3 hhl hh0 hh22
    generalize hdE :
        ({ dA with header := memcpy dA.header 4 ([0] ++ fields ++ [countByte 0]), seg_count := 0,
                   state_ := ParseState.FIND_PAGE,
                   bytes_needed := 4, data_offset := 0 } : Demuxer) = dE at h2
    have hE : dE.state_ = ParseState.FIND_PAGE ∧ dE.bytes_needed = 4 ∧
        dE.packet_len = dA.packet_len ∧ dE.packet_buf = dA.packet_buf ∧
        dE.on_demuxer_finished_ = dA.on_demuxer_finished_ ∧ dE.head_seen = dA.head_seen ∧
        dE.tags_seen = dA.tags_seen ∧ dE.sample_rate = dA.sample_rate ∧
        dE.packet_continued = dA.packet_continued := by
      rw [← hdE]
      exact ⟨rfl, rfl, rfl, rfl, rfl, rfl, rfl, rfl, rfl⟩
    obtain ⟨x1, x2, x3, x4, x5, x6, x7, x8, x9⟩ := hE
    refine ⟨dE, out, 2, by omega, fun fuel => ?_, ?_⟩
    · rw [show fuel + 2 = (fuel + 1) + 1 by omega, ProcessLoop_brk _ _ _ hne1 h1,
        ProcessLoop_brk _ _ _ hne2 h2]
      rfl
    · refine ⟨x1, x2, x5.trans u3, ?_, ?_, ?_, ?_⟩
      · simp only [lacing]
        rw [x3, u1, hl]
      · simp only [lacing]
        rw [x4, u2]
        exact hbuf
      · simp only [lacing, deliver, List.foldl_nil, infoOf, x6, x7, x8, u4, u5, u6]
      · simp only [List.getLast?_nil]
        exact x9.trans u7
  · -- a page with segments
    have hpos : 0 < table.length := List.length_pos.mpr htab
    have h2 : dispatch dA (([0] ++ fields ++ [countByte table.length]) ++
        (table ++ (body ++ tail))) out = Flow.brk
        ⟨{ dA with header := memcpy dA.header 4 ([0] ++ fields ++ [countByte table.length]),
                   seg_count := table.length,
                   state_ := ParseState.PARSE_SEGMENTS,
                   bytes_needed := table.length, data_offset := 0 },
          table ++ (body ++ tail), out⟩ := by
      unfold dispatch
      rw [hA1]
      exact parseHeader_accept dA _ _ out _ hA2 hA3 hhl hh0 hh22 hpos
    generalize hdB :
        ({ dA with header := memcpy dA.header 4 ([0] ++ fields ++ [countByte table.length]),
                   seg_count := table.length,
                   state_ := ParseState.PARSE_SEGMENTS,
                   bytes_needed := table.length, data_offset := 0 } : Demuxer) = dB at h2
    have hB1 : dB.state_ = ParseState.PARSE_SEGMENTS := by rw [← hdB]
    have hB2 : dB.data_offset = 0 := by rw [← hdB]
    have hB3 : dB.bytes_needed = dB.seg_count := by rw [← hdB]
    have hB4 : dB.seg_count = table.length := by rw [← hdB]
    have hB5 : dB.packet_len = dA.packet_len ∧ dB.packet_buf = dA.packet_buf ∧
        dB.on_demuxer_finished_ = dA.on_demuxer_finished_ ∧ dB.head_seen = dA.head_seen ∧
        dB.tags_seen = dA.tags_seen ∧ dB.sample_rate = dA.sample_rate ∧
        dB.packet_continued = dA.packet_continued := by
      rw [← hdB]
      exact ⟨rfl, rfl, rfl, rfl, rfl, rfl, rfl⟩
    obtain ⟨v1, v2, v3, v4, v5, v6, v7⟩ := hB5
    have hne3 : table ++ (body ++ tail) ≠ [] := by simp [htab]
    have h3 : dispatch dB (table ++ (body ++ tail)) out = Flow.brk
        ⟨{ dB with seg_table := memcpy dB.seg_table 0 table, bytes_needed := 0,
                   state_ := ParseState.PARSE_DATA, seg_index := 0, data_offset := 0,
                   body_size := (table.map Fin.val).sum,
                   body_offset := 0, seg_remaining := 0 }, body ++ tail, out⟩ := by
      unfold dispatch
      rw [hB1]
      exact parseSegments_full dB table _ out hB2 hB3 hB4.symm
    generalize hdC : ({ dB with seg_table := memcpy dB.seg_table 0 table, bytes_needed := 0,
                                state_ := ParseState.PARSE_DATA, seg_index := 0, data_offset := 0,
                                body_size := (table.map Fin.val).sum,
                                body_offset := 0, seg_remaining := 0 } : Demuxer) = dC at h3
    have hC1 : dC.state_ = ParseState.PARSE_DATA := by rw [← hdC]
    have hC2 : dC.seg_index = 0 := by rw [← hdC]
    have hC3 : dC.seg_count = table.length := by rw [← hdC]; exact hB4
    have hC4 : dC.seg_remaining = 0 := by rw [← hdC]
    have hC5 : dC.seg_table = memcpy dB.seg_table 0 table := by rw [← hdC]
    have hC6 : dC.packet_len = dB.packet_len ∧ dC.packet_buf = dB.packet_buf ∧
        dC.on_demuxer_finished_ = dB.on_demuxer_finished_ ∧ dC.head_seen = dB.head_seen ∧
        dC.tags_seen = dB.tags_seen ∧ dC.sample_rate = dB.sample_rate ∧
        dC.packet_continued = dB.packet_continued := by
      rw [← hdC]
      exact ⟨rfl, rfl, rfl, rfl, rfl, rfl, rfl⟩
    obtain ⟨w1, w2, w3, w4, w5, w6, w7⟩ := hC6
    have htabC : ∀ j (hj : j < table.length), dC.seg_table (dC.seg_index + j) =
        table.get ⟨j, hj⟩ := by
      intro j hj
      rw [hC5, hC2]
      have := memcpy_at dB.seg_table 0 table j hj
      rw [this, List.getD_eq_getElem?_getD, List.getElem?_eq_getElem hj]
      rfl
    obtain ⟨d1, out1, e1, e2⟩ := segmentLoop_page table dC body tail acc out 0 htabC
      (by rw [hC3, hC2]; omega) hC4 hbody hflush (by rw [w1, v1, u1, hl])
      (by rw [w2, v2, u2]; exact hbuf) hfit
    obtain ⟨a1, a2, a3, a4, a5, a6, a7, a8, a9, a10, a11, a12, a13, a14, a15⟩ := e2
    have hne4 : body ++ tail ≠ [] := by
      rcases hflush with h | h
      · intro hx
        exact h (List.append_eq_nil.mp hx).2
      · intro hx
        have hb0 : body = [] := (List.append_eq_nil.mp hx).1
        rw [hb0] at hbody
        simp only [List.length_nil] at hbody
        cases hlast : table.getLast? with
        | none =>
          rw [List.getLast?_eq_none_iff] at hlast
          exact htab hlast
        | some x =>
          have hx1 : x ∈ table := List.mem_of_getLast?_eq_some hlast
          have : x.val ≤ (table.map Fin.val).sum :=
            List.single_le_sum (fun _ _ => Nat.zero_le _) _ (List.mem_map_of_mem _ hx1)
          exact h x hlast (Fin.ext (by simp only [Fin.val_zero]; omega))
    have h4 : dispatch dC (body ++ tail) out = Flow.brk
        ⟨{ d1 with packet_len := if ¬ d1.packet_continued then 0 else d1.packet_len,
                   state_ := ParseState.FIND_PAGE, bytes_needed := 4,
                   data_offset := 0 }, tail, out1⟩ := by
      unfold dispatch
      rw [hC1]
      apply parseData_page_end dC d1 _ tail out out1
      · rw [hC3, hC2, Nat.sub_zero]
        exact e1.trans rfl
      · rw [a9, a4, hC2, hC3, Nat.zero_add]
    generalize hdD :
        ({ d1 with packet_len := if ¬ d1.packet_continued then 0 else d1.packet_len,
                   state_ := ParseState.FIND_PAGE, bytes_needed := 4,
                   data_offset := 0 } : Demuxer) = dD at h4
    have hD : dD.state_ = ParseState.FIND_PAGE ∧ dD.bytes_needed = 4 ∧
        dD.packet_len = (if ¬ d1.packet_continued then 0 else d1.packet_len) ∧
        dD.packet_buf = d1.packet_buf ∧
        dD.on_demuxer_finished_ = d1.on_demuxer_finished_ ∧ dD.head_seen = d1.head_seen ∧
        dD.tags_seen = d1.tags_seen ∧ dD.sample_rate = d1.sample_rate ∧
        dD.packet_continued = d1.packet_continued := by
      rw [← hdD]
      exact ⟨rfl, rfl, rfl, rfl, rfl, rfl, rfl, rfl, rfl⟩
    obtain ⟨y1, y2, y3, y4, y5, y6, y7, y8, y9⟩ := hD
    refine ⟨dD, out1, 4, le_refl _, fun fuel => ?_, ?_⟩
    · rw [show fuel + 4 = (fuel + 3) + 1 by omega, ProcessLoop_brk _ _ _ hne1 h1,
        show fuel + 3 = (fuel + 2) + 1 by omega, ProcessLoop_brk _ _ _ hne2 h2,
        show fuel + 2 = (fuel + 1) + 1 by omega, ProcessLoop_brk _ _ _ hne3 h3,
        ProcessLoop_brk _ _ _ hne4 h4]
    · have hlastv : ∃ s, table.getLast? = some s := by
        cases hlast : table.getLast? with
        | none =>
          rw [List.getLast?_eq_none_iff] at hlast
          exact absurd hlast htab
        | some x => exact ⟨x, rfl⟩
      obtain ⟨sl, hsl⟩ := hlastv
      rw [hsl] at a15
      simp only [] at a15
      refine ⟨y1, y2, ?_, ?_, ?_, ?_, ?_⟩
      · rw [y5, a5, w3, v3, u3]
      · rw [y3]
        by_cases hc : sl = 255
        · rw [if_neg (by rw [a15]; simp [hc]), a12]
        · rw [if_pos (by rw [a15]; simp [hc]), lacing_closed table body acc sl hsl hc]
          rfl
      · rw [y4]
        exact a13
      · have : infoOf dD out1 = infoOf d1 out1 := by
          simp only [infoOf, y6, y7, y8]
        rw [this, a14, w3, v3, u3]
        congr 1
        simp only [infoOf, w4, w5, w6, v4, v5, v6, u4, u5, u6]
      · simp only []
        rw [hsl, y9, a15]

/-! ## A page whose packet outgrows the accumulator -/

/-- The first three passes on a page with segments: magic, header, segment table. -/
theorem page_head (d : Demuxer) (p : Page) (tail : List Byte) (out : List Call)
    (hs : d.state_ = ParseState.FIND_PAGE) (hb : d.bytes_needed = 4) (hwf : p.WF)
    (htab : p.table ≠ []) :
    ∃ dC, (∀ fuel, ProcessLoop (fuel + 3) ⟨d, p.bytes ++ tail, out⟩ =
        ProcessLoop fuel ⟨dC, p.body ++ tail, out⟩) ∧
      dC.state_ = ParseState.PARSE_DATA ∧ dC.seg_index = 0 ∧ dC.seg_count = p.table.length ∧
      dC.seg_remaining = 0 ∧
      (∀ j (hj : j < p.table.length), dC.seg_table (dC.seg_index + j) = p.table.get ⟨j, hj⟩) ∧
      dC.packet_len = d.packet_len ∧ dC.packet_buf = d.packet_buf ∧
      dC.on_demuxer_finished_ = d.on_demuxer_finished_ ∧ dC.head_seen = d.head_seen ∧
      dC.tags_seen = d.tags_seen ∧ dC.sample_rate = d.sample_rate ∧
      dC.packet_continued = d.packet_continued := by
  obtain ⟨hf, ht, hbody⟩ := hwf
  obtain ⟨fields, table, body⟩ := p
  simp only [] at hf ht hbody htab ⊢
  have hbytes : (⟨fields, table, body⟩ : Page).bytes ++ tail =
      [] ++ OggS ++ (([0] ++ fields ++ [countByte table.length]) ++ (table ++ (body ++ tail))) := by
    simp only [Page.bytes, List.append_assoc, List.nil_append]
  rw [hbytes]
  have h1 : dispatch d ([] ++ OggS ++ (([0] ++ fields ++ [countByte table.length]) ++
      (table ++ (body ++ tail)))) out = Flow.brk
      ⟨{ d with state_ := ParseState.PARSE_HEADER, data_offset := 4,
                bytes_needed := 27 - 4 }, ([0] ++ fields ++ [countByte table.length]) ++
        (table ++ (body ++ tail)), out⟩ := by
    unfold dispatch
    rw [hs]
    exact findPage_search_first d [] _ out hb (not_infix_short _ (by simp [OggS]))
  have hne1 : [] ++ OggS ++ (([0] ++ fields ++ [countByte table.length]) ++
      (table ++ (body ++ tail))) ≠ [] := by simp [OggS]
  have hhl : ([0] ++ fields ++ [countByte table.length]).length = 23 := by
    simp only [List.length_append, List.length_cons, List.length_nil, hf]
  have hh0 : ([0] ++ fields ++ [countByte table.length]).getD 0 0 = 0 := by simp
  have hh22 : (([0] ++ fields ++ [countByte table.length]).getD 22 0).val = table.length := by
    have : ([0] ++ fields ++ [countByte table.length]).getD 22 0 = countByte table.length := by
      rw [List.getD_eq_getElem?_getD, List.getElem?_append_right (by simp [hf])]
      simp [hf]
    rw [this, countByte_val _ ht]
  have hne2 : ([0] ++ fields ++ [countByte table.length]) ++ (table ++ (body ++ tail)) ≠ [] := by
    simp
  generalize hdA : ({ d with state_ := ParseState.PARSE_HEADER, data_offset := 4,
                             bytes_needed := 27 - 4 } : Demuxer) = dA at h1
  have hA1 : dA.state_ = ParseState.PARSE_HEADER := by rw [← hdA]
  have hA2 : dA.data_offset = 4 := by rw [← hdA]
  have hA3 : dA.bytes_needed = 23 := by rw [← hdA]
  have hA4 : dA.packet_len = d.packet_len ∧ dA.packet_buf = d.packet_buf ∧
      dA.on_demuxer_finished_ = d.on_demuxer_finished_ ∧ dA.head_seen = d.head_seen ∧
      dA.tags_seen = d.tags_seen ∧ dA.sample_rate = d.sample_rate ∧
      dA.packet_continued = d.packet_continued := by
    rw [← hdA]
    exact ⟨rfl, rfl, rfl, rfl, rfl, rfl, rfl⟩
  obtain ⟨u1, u2, u3, u4, u5, u6, u7⟩ := hA4
  have hpos : 0 < table.length := List.length_pos.mpr htab
  have h2 : dispatch dA (([0] ++ fields ++ [countByte table.length]) ++
      (table ++ (body ++ tail))) out = Flow.brk
      ⟨{ dA with header := memcpy dA.header 4 ([0] ++ fields ++ [countByte table.length]),
                 seg_count := table.length,
                 state_ := ParseState.PARSE_SEGMENTS,
                 bytes_needed := table.length, data_offset := 0 },
        table ++ (body ++ tail), out⟩ := by
    unfold dispatch
    rw [hA1]
    exact parseHeader_accept dA _ _ out _ hA2 hA3 hhl hh0 hh22 hpos
  generalize hdB :
      ({ dA with header := memcpy dA.header 4 ([0] ++ fields ++ [countByte table.length]),
                 seg_count := table.length,
                 state_ := ParseState.PARSE_SEGMENTS,
                 bytes_needed := table.length, data_offset := 0 } : Demuxer) = dB at h2
  have hB1 : dB.state_ = ParseState.PARSE_SEGMENTS := by rw [← hdB]
  have hB2 : dB.data_offset = 0 := by rw [← hdB]
  have hB3 : dB.bytes_needed = dB.seg_count := by rw [← hdB]
  have hB4 : dB.seg_count = table.length := by rw [← hdB]
  have hB5 : dB.packet_len = dA.packet_len ∧ dB.packet_buf = dA.packet_buf ∧
      dB.on_demuxer_finished_ = dA.on_demuxer_finished_ ∧ dB.head_seen = dA.head_seen ∧
      dB.tags_seen = dA.tags_seen ∧ dB.sample_rate = dA.sample_rate ∧
      dB.packet_continued = dA.packet_continued := by
    rw [← hdB]
    exact ⟨rfl, rfl, rfl, rfl, rfl, rfl, rfl⟩
  obtain ⟨v1, v2, v3, v4, v5, v6, v7⟩ := hB5
  have hne3 : table ++ (body ++ tail) ≠ [] := by simp [htab]
  have h3 : dispatch dB (table ++ (body ++ tail)) out = Flow.brk
      ⟨{ dB with seg_table := memcpy dB.seg_table 0 table, bytes_needed := 0,
                 state_ := ParseState.PARSE_DATA, seg_index := 0, data_offset := 0,
                 body_size := (table.map Fin.val).sum,
                 body_offset := 0, seg_remaining := 0 }, body ++ tail, out⟩ := by
    unfold dispatch
    rw [hB1]
    exact parseSegments_full dB table _ out hB2 hB3 hB4.symm
  generalize hdC : ({ dB with seg_table := memcpy dB.seg_table 0 table, bytes_needed := 0,
                              state_ := ParseState.PARSE_DATA, seg_index := 0, data_offset := 0,
                              body_size := (table.map Fin.val).sum,
                              body_offset := 0, seg_remaining := 0 } : Demuxer) = dC at h3
  have hC1 : dC.state_ = ParseState.PARSE_DATA := by rw [← hdC]
  have hC2 : dC.seg_index = 0 := by rw [← hdC]
  have hC3 : dC.seg_count = table.length := by rw [← hdC]; exact hB4
  have hC4 : dC.seg_remaining = 0 := by rw [← hdC]
  have hC5 : dC.seg_table = memcpy dB.seg_table 0 table := by rw [← hdC]
  have hC6 : dC.packet_len = dB.packet_len ∧ dC.packet_buf = dB.packet_buf ∧
      dC.on_demuxer_finished_ = dB.on_demuxer_finished_ ∧ dC.head_seen = dB.head_seen ∧
      dC.tags_seen = dB.tags_seen ∧ dC.sample_rate = dB.sample_rate ∧
      dC.packet_continued = dB.packet_continued := by
    rw [← hdC]
    exact ⟨rfl, rfl, rfl, rfl, rfl, rfl, rfl⟩
  obtain ⟨w1, w2, w3, w4, w5, w6, w7⟩ := hC6
  have htabC : ∀ j (hj : j < table.length), dC.seg_table (dC.seg_index + j) =
      table.get ⟨j, hj⟩ := by
    intro j hj
    rw [hC5, hC2]
    have := memcpy_at dB.seg_table 0 table j hj
    rw [this, List.getD_eq_getElem?_getD, List.getElem?_eq_getElem hj]
    rfl
  refine ⟨dC, fun fuel => ?_, hC1, hC2, hC3, hC4, htabC, w1.trans (v1.trans u1),
    w2.trans (v2.trans u2), w3.trans (v3.trans u3), w4.trans (v4.trans u4),
    w5.trans (v5.trans u5), w6.trans (v6.trans u6), w7.trans (v7.trans u7)⟩
  rw [show fuel + 3 = (fuel + 2) + 1 by omega, ProcessLoop_brk _ _ _ hne1 h1,
    show fuel + 2 = (fuel + 1) + 1 by omega, ProcessLoop_brk _ _ _ hne2 h2,
    ProcessLoop_brk _ _ _ hne3 h3]

/-- A page in which, after the segments `pre`, the segment `s` would bring the accumulated
packet above the capacity: the call returns through the overflow branch in its fourth pass,
having delivered what the segments `pre` completed and nothing else. -/
theorem page_overflow (d : Demuxer) (p : Page) (tail acc pre post : List Byte) (s : Byte)
    (out : List Call) (fuel : Nat)
    (hs : d.state_ = ParseState.FIND_PAGE) (hb : d.bytes_needed = 4) (hwf : p.WF)
    (hl : d.packet_len = acc.length) (hbuf : readBuf d.packet_buf acc.length = acc)
    (htable : p.table = pre ++ s :: post) (hfit : Fits acc.length pre) (hs0 : 0 < s.val)
    (hov : (lacing pre (p.body.take (pre.map Fin.val).sum) acc).2.length + s.val >
      PACKET_BUF_SIZE) :
    ∃ d1 out1, ProcessLoop (fuel + 4) ⟨d, p.bytes ++ tail, out⟩ =
        some (Exit.overflow, ⟨d1, p.body.drop (pre.map Fin.val).sum ++ tail, out1⟩) ∧
      infoOf d1 out1 = deliver d.on_demuxer_finished_ (infoOf d out)
        (lacing pre (p.body.take (pre.map Fin.val).sum) acc).1 ∧
      d1.state_ = ParseState.FIND_PAGE ∧ d1.bytes_needed = 4 ∧ d1.packet_len = 0 ∧
      d1.packet_continued = false := by
  have htab : p.table ≠ [] := by rw [htable]; simp
  obtain ⟨dC, hrun, c1, c2, c3, c4, c5, c6, c7, c8, c9, c10, c11, c12⟩ :=
    page_head d p tail out hs hb hwf htab
  obtain ⟨hf, ht, hbody⟩ := hwf
  have hsum : (p.table.map Fin.val).sum =
      (pre.map Fin.val).sum + (s.val + (post.map Fin.val).sum) := by
    rw [htable]
    simp
  have hlenT : p.table.length = pre.length + (post.length + 1) := by
    rw [htable]
    simp
  have hsplit : p.body ++ tail = p.body.take (pre.map Fin.val).sum ++
      (p.body.drop (pre.map Fin.val).sum ++ tail) := by
    rw [← List.append_assoc, List.take_append_drop]
  have hrestlen : s.val ≤ (p.body.drop (pre.map Fin.val).sum).length := by
    rw [List.length_drop]
    omega
  have hrest : p.body.drop (pre.map Fin.val).sum ++ tail ≠ [] := by
    intro hx
    have := congrArg List.length hx
    rw [List.length_append] at this
    simp only [List.length_nil] at this
    omega
  obtain ⟨d1, out1, e1, e2⟩ := segmentLoop_page pre dC (p.body.take (pre.map Fin.val).sum)
    (p.body.drop (pre.map Fin.val).sum ++ tail) acc out (post.length + 1)
    (by
      intro j hj
      have := c5 j (by omega)
      rw [this]
      simp only [List.get_eq_getElem, htable]
      rw [List.getElem_append_left hj])
    (by rw [c2, c3, hlenT]; omega) c4
    (by rw [List.length_take]; omega) (Or.inl hrest) (by rw [c6, hl]) (by rw [c7]; exact hbuf)
    hfit
  obtain ⟨a1, a2, a3, a4, a5, a6, a7, a8, a9, a10, a11, a12, a13, a14, a15⟩ := e2
  have hidx : d1.seg_index = pre.length := by rw [a9, c2, Nat.zero_add]
  have hseg : d1.seg_table d1.seg_index = s := by
    have hlt' : pre.length < p.table.length := by omega
    have h5 := c5 pre.length hlt'
    simp only [c2, Nat.zero_add, List.get_eq_getElem] at h5
    have hq : p.table[pre.length]? = some s := by
      rw [htable, List.getElem?_append_right (le_refl _), Nat.sub_self]
      exact List.getElem?_cons_zero
    rw [List.getElem?_eq_getElem hlt'] at hq
    rw [a3, hidx, h5]
    exact Option.some.inj hq
  have hsl : segLen d1 = s.val := by
    unfold segLen
    rw [if_neg (by omega), hseg]
  have hovf : d1.packet_len + segLen d1 > PACKET_BUF_SIZE := by
    rw [hsl, a12]
    exact hov
  have hlt : d1.seg_index < d1.seg_count := by
    rw [hidx, a4, c3, hlenT]
    omega
  have hloop : segmentLoop (dC.seg_count - dC.seg_index) dC (p.body ++ tail) out =
      Flow.ret Exit.overflow
        ⟨{ d1 with state_ := ParseState.FIND_PAGE, packet_len := 0,
                   packet_continued := false, seg_remaining := 0,
                   bytes_needed := 4 }, p.body.drop (pre.map Fin.val).sum ++ tail, out1⟩ := by
    rw [c3, c2, Nat.sub_zero, hlenT, hsplit, e1]
    simp only [segmentLoop]
    rw [if_pos ⟨hlt, hrest⟩, segmentBody_overflow d1 _ out1 hovf]
  have h4 : dispatch dC (p.body ++ tail) out = Flow.ret Exit.overflow
        ⟨{ d1 with state_ := ParseState.FIND_PAGE, packet_len := 0,
                   packet_continued := false, seg_remaining := 0,
                   bytes_needed := 4 }, p.body.drop (pre.map Fin.val).sum ++ tail, out1⟩ := by
    unfold dispatch
    rw [c1]
    simp only [parseData]
    rw [hloop]
  have hne4 : p.body ++ tail ≠ [] := by
    rw [hsplit]
    intro hx
    exact hrest (List.append_eq_nil.mp hx).2
  generalize hdD : ({ d1 with state_ := ParseState.FIND_PAGE, packet_len := 0,
                              packet_continued := false, seg_remaining := 0,
                              bytes_needed := 4 } : Demuxer) = dD at h4
  have hD : dD.state_ = ParseState.FIND_PAGE ∧ dD.bytes_needed = 4 ∧ dD.packet_len = 0 ∧
      dD.packet_continued = false ∧ dD.head_seen = d1.head_seen ∧
      dD.tags_seen = d1.tags_seen ∧ dD.sample_rate = d1.sample_rate := by
    rw [← hdD]
    exact ⟨rfl, rfl, rfl, rfl, rfl, rfl, rfl⟩
  obtain ⟨y1, y2, y3, y4, y5, y6, y7⟩ := hD
  refine ⟨dD, out1, ?_, ?_, y1, y2, y3, y4⟩
  · rw [show fuel + 4 = (fuel + 1) + 3 by omega, hrun]
    exact ProcessLoop_ret _ _ _ _ hne4 h4
  · have : infoOf dD out1 = infoOf d1 out1 := by
      simp only [infoOf, y5, y6, y7]
    rw [this, a14, c8]
    congr 1
    simp only [infoOf, c9, c10, c11]

theorem lacing_replicate (k : Nat) : ∀ (body acc : List Byte),
    lacing (List.replicate k 255) body acc = ([], acc ++ body.take (255 * k)) := by
  induction k with
  | zero => intro body acc; simp [lacing]
  | succ k ih =>
    intro body acc
    rw [List.replicate_succ, lacing_cons_continue, ih, List.append_assoc]
    congr 2
    rw [show 255 * (k + 1) = 255 + 255 * k by omega, List.take_add]

theorem lacing_append_replicate (k : Nat) (t : List Byte) : ∀ (body acc : List Byte),
    lacing (List.replicate k 255 ++ t) body acc =
      lacing t (body.drop (255 * k)) (acc ++ body.take (255 * k)) := by
  induction k with
  | zero => intro body acc; simp
  | succ k ih =>
    intro body acc
    rw [List.replicate_succ, List.cons_append, lacing_cons_continue, ih, List.append_assoc,
      List.drop_drop]
    rw [show 255 * (k + 1) = 255 + 255 * k by omega, List.take_add]

theorem Fits_replicate (k n : Nat) (h : n + 255 * k ≤ PACKET_BUF_SIZE) :
    Fits n (List.replicate k 255) := by
  induction k generalizing n with
  | zero => trivial
  | succ k ih =>
    rw [List.replicate_succ]
    have e : ((255 : Byte) : Nat) = 255 := rfl
    refine ⟨by rw [e]; omega, ?_⟩
    rw [if_pos rfl, e]
    exact ih _ (by omega)

theorem deliver_ready (rate : Int) (ps : List (List Byte)) : ∀ (out : List Call),
    deliver true ⟨true, true, rate, out⟩ ps =
      ⟨true, true, rate, out ++ (ps.filter fun q => !q.isEmpty).map
        fun q => ⟨q, rate, q.length⟩⟩ := by
  induction ps with
  | nil => intro out; simp [deliver]
  | cons q t ih =>
    intro out
    simp only [deliver, List.foldl_cons] at ih ⊢
    by_cases hq : q = []
    · subst hq
      simp only [deliverPacket, if_true]
      rw [ih]
      simp
    · have e : deliverPacket true ⟨true, true, rate, out⟩ q =
          ⟨true, true, rate, out ++ [⟨q, rate, q.length⟩]⟩ := by
        simp [deliverPacket, hq]
      rw [e, ih]
      simp [hq, List.isEmpty_iff]

/-! ## Claim C3 -/

theorem deliver_ready_calls (d : Demuxer) (out : List Call) (ps : List (List Byte))
    (hh : d.head_seen = true) (ht : d.tags_seen = true) :
    deliver true (infoOf d out) ps = ⟨true, true, d.sample_rate, out ++ callsOf d.sample_rate ps⟩ := by
  unfold infoOf
  rw [hh, ht]
  exact deliver_ready d.sample_rate ps out

theorem page_run_ready (d : Demuxer) (p : Page) (tail : List Byte) (out : List Call)
    (hs : d.state_ = ParseState.FIND_PAGE) (hb : d.bytes_needed = 4)
    (hh : d.head_seen = true) (ht : d.tags_seen = true) (hcb : d.on_demuxer_finished_ = true)
    (acc : List Byte) (hl : d.packet_len = acc.length)
    (hbuf : readBuf d.packet_buf acc.length = acc) (hwf : p.WF)
    (hfit : Fits acc.length p.table)
    (hflush : tail ≠ [] ∨ ∀ s, p.table.getLast? = some s → s ≠ 0) :
    ∃ d1 k, k ≤ 4 ∧
      (∀ fuel, ProcessLoop (fuel + k) ⟨d, p.bytes ++ tail, out⟩ =
        ProcessLoop fuel
          ⟨d1, tail, out ++ callsOf d.sample_rate (lacing p.table p.body acc).1⟩) ∧
      d1.state_ = ParseState.FIND_PAGE ∧ d1.bytes_needed = 4 ∧
      d1.head_seen = true ∧ d1.tags_seen = true ∧ d1.on_demuxer_finished_ = true ∧
      d1.sample_rate = d.sample_rate ∧
      d1.packet_len = (lacing p.table p.body acc).2.length ∧
      readBuf d1.packet_buf (lacing p.table p.body acc).2.length = (lacing p.table p.body acc).2 ∧
      d1.packet_continued = (match p.table.getLast? with
        | none => d.packet_continued
        | some s => decide (s = 255)) := by
  obtain ⟨d1, out1, k, hk, hrun, a1, a2, a3, a4, a5, a6, a7⟩ :=
    page_run d p tail acc out hs hb hwf hl hbuf hfit hflush
  rw [hcb, deliver_ready_calls d out _ hh ht] at a6
  simp only [infoOf, StreamInfo.mk.injEq] at a6
  obtain ⟨b1, b2, b3, b4⟩ := a6
  refine ⟨d1, k, hk, ?_, a1, a2, b1, b2, a3.trans hcb, b3, a4, a5, a7⟩
  rw [← b4]
  exact hrun

theorem Page.bytes_length_pos (p : Page) : 1 ≤ p.bytes.length := by
  simp [Page.bytes, OggS]

theorem Process_of_steps (d d1 : Demuxer) (data : List Byte) (out1 : List Call) (k : Nat)
    (hk : k ≤ 4) (hd : 1 ≤ data.length)
    (h : ∀ fuel, ProcessLoop (fuel + k) ⟨d, data, []⟩ = ProcessLoop fuel ⟨d1, [], out1⟩) :
    Process d data = some (Exit.done, ⟨d1, [], out1⟩) := by
  unfold Process
  have e1 : 2 * data.length + 4 = (2 * data.length + 3 - k + 1) + k := by omega
  rw [e1, h]
  exact ProcessLoop_nil _ _ rfl

/-- C3 (packet boundary via lacing), amended by the capacity rule.  Both header packets
seen, a callback registered, the accumulator empty, the object searching for a page: a
well-formed page none of whose packets outgrows the 8192-byte accumulator (`Fits`), followed
by more input or ending in a non-empty segment, brings the loop back to `FIND_PAGE` with
exactly one callback appended per non-empty completed packet of `lacing`, in order, each
carrying the packet's bytes, the sample rate and the packet's length.  When the call holds
just the page, that is the result of the call. -/
theorem C3_packet_boundary (d : Demuxer) (p : Page) (tail : List Byte) (out : List Call)
    (hs : d.state_ = ParseState.FIND_PAGE) (hb : d.bytes_needed = 4)
    (hh : d.head_seen = true) (ht : d.tags_seen = true) (hcb : d.on_demuxer_finished_ = true)
    (hempty : d.packet_len = 0) (hwf : p.WF) (hfit : Fits 0 p.table)
    (hflush : tail ≠ [] ∨ ∀ s, p.table.getLast? = some s → s ≠ 0) :
    (∃ d1, Reaches ⟨d, p.bytes ++ tail, out⟩
        ⟨d1, tail, out ++ callsOf d.sample_rate (lacing p.table p.body []).1⟩ ∧
      d1.state_ = ParseState.FIND_PAGE ∧ d1.bytes_needed = 4) ∧
    (tail = [] → ∃ d1, Process d p.bytes =
        some (Exit.done, ⟨d1, [], callsOf d.sample_rate (lacing p.table p.body []).1⟩) ∧
      d1.state_ = ParseState.FIND_PAGE ∧ d1.bytes_needed = 4) := by
  constructor
  · obtain ⟨d1, k, _, hrun, a1, a2, _⟩ := page_run_ready d p tail out hs hb hh ht hcb []
      hempty (by simp [readBuf]) hwf hfit hflush
    exact ⟨d1, ⟨k, hrun⟩, a1, a2⟩
  · intro htail
    subst htail
    obtain ⟨d1, k, hk, hrun, a1, a2, _⟩ := page_run_ready d p [] [] hs hb hh ht hcb []
      hempty (by simp [readBuf]) hwf hfit hflush
    refine ⟨d1, ?_, a1, a2⟩
    simp only [List.append_nil, List.nil_append] at hrun
    exact Process_of_steps d d1 p.bytes _ k hk p.bytes_length_pos hrun

set_option maxRecDepth 100000 in
theorem C3_packet_boundary_witness :
    (∃ d1, Process readyState page5030.bytes = some (Exit.done, ⟨d1, [],
      [⟨List.replicate 50 1, 48000, 50⟩, ⟨List.replicate 30 2, 48000, 30⟩]⟩)) ∧
    (∃ d1, Process readyState page520.bytes = some (Exit.done, ⟨d1, [],
      [⟨List.replicate 520 9, 48000, 520⟩]⟩)) := by
  constructor
  · obtain ⟨d1, h, _⟩ := (C3_packet_boundary readyState page5030 [] [] rfl rfl rfl rfl rfl rfl
      ⟨by decide, by decide, by decide⟩ (by decide)
      (Or.inr (by decide))).2 rfl
    have e : callsOf readyState.sample_rate (lacing page5030.table page5030.body []).1 =
        [⟨List.replicate 50 1, 48000, 50⟩, ⟨List.replicate 30 2, 48000, 30⟩] := by decide
    rw [e] at h
    exact ⟨d1, h⟩
  · obtain ⟨d1, h, _⟩ := (C3_packet_boundary readyState page520 [] [] rfl rfl rfl rfl rfl rfl
      ⟨by decide, by decide, by decide⟩ (by decide)
      (Or.inr (by decide))).2 rfl
    have e : callsOf readyState.sample_rate (lacing page520.table page520.body []).1 =
        [⟨List.replicate 520 9, 48000, 520⟩] := by decide
    rw [e] at h
    exact ⟨d1, h⟩

theorem bigPage_body_length : bigPage.body.length = 8415 := List.length_replicate _ _

theorem bigPage_WF : bigPage.WF := by
  refine ⟨by decide, by decide, ?_⟩
  rw [bigPage_body_length]
  decide

theorem bigPage_prefix_sum : ((List.replicate 32 (255 : Byte)).map Fin.val).sum = 8160 := by
  decide

theorem lacing_one_big (body : List Byte) (h : body.length = 8415) :
    (lacing (List.replicate 33 255 ++ [0]) body []).1 = [body] := by
  rw [lacing_append_replicate, lacing_cons_end _ _ _ _ (by decide),
    List.take_of_length_le (by omega)]
  simp [lacing]

theorem lacing_open_big (body : List Byte) (h : body.length = 8415) :
    (lacing (List.replicate 32 255) (body.take 8160) []).2.length = 8160 := by
  rw [lacing_replicate]
  simp only [List.nil_append, List.length_take]
  omega

theorem callsOf_single (rate : Int) (q : List Byte) (h : q ≠ []) :
    callsOf rate [q] = [⟨q, rate, q.length⟩] := by
  simp [callsOf, callOf, h]

/-- Counterexample to C3 as stated: with both header packets seen, a callback registered and
the accumulator empty, the well-formed page `bigPage` holds one non-empty packet (8415
bytes, segments `255, ..., 255, 0`), yet the call on it is back in `FIND_PAGE` (through the
overflow branch) with no callback made. -/
theorem C3_counterexample :
    bigPage.WF ∧ readyState.head_seen = true ∧ readyState.tags_seen = true ∧
    readyState.on_demuxer_finished_ = true ∧ readyState.packet_len = 0 ∧
    callsOf readyState.sample_rate (lacing bigPage.table bigPage.body []).1 =
      [⟨bigPage.body, 48000, 8415⟩] ∧
    ∃ r, Process readyState bigPage.bytes = some (Exit.overflow, r) ∧ r.out = [] ∧
      r.d.state_ = ParseState.FIND_PAGE := by
  have hne : bigPage.body ≠ [] := by
    intro h
    have := bigPage_body_length
    rw [h] at this
    exact absurd this (by decide)
  refine ⟨bigPage_WF, rfl, rfl, rfl, rfl, ?_, ?_⟩
  · have e : bigPage.table = List.replicate 33 255 ++ [0] := by decide
    rw [e, lacing_one_big _ bigPage_body_length, callsOf_single _ _ hne, bigPage_body_length]
    rfl
  · have e255 : ((255 : Byte) : Nat) = 255 := rfl
    obtain ⟨d1, out1, h1, h2, h3, _⟩ := page_overflow readyState bigPage [] []
      (List.replicate 32 255) [0] 255 [] (2 * bigPage.bytes.length) rfl rfl bigPage_WF rfl
      (by simp [readBuf]) rfl (Fits_replicate 32 0 (by decide)) (by decide)
      (by
        rw [bigPage_prefix_sum, lacing_open_big _ bigPage_body_length, e255]
        decide)
    rw [List.append_nil] at h1
    refine ⟨_, h1, ?_, h3⟩
    rw [lacing_replicate] at h2
    simp only [deliver, List.foldl_nil, infoOf, StreamInfo.mk.injEq] at h2
    exact h2.2.2.2

/-! ## Claim C9 -/

theorem lacing_single (s : Byte) (body : List Byte) (h : s ≠ 255) (hl : body.length = s.val) :
    lacing [s] body [] = ([body], []) := by
  rw [lacing_cons_end _ _ _ _ h, List.take_of_length_le (by omega)]
  simp [lacing]

/-- One call on a page with a single closing segment, from a searching object with an empty
accumulator. -/
theorem single_packet_page (d : Demuxer) (f body : List Byte) (s : Byte)
    (hs : d.state_ = ParseState.FIND_PAGE) (hb : d.bytes_needed = 4)
    (hempty : d.packet_len = 0) (hf : f.length = 21) (hs255 : s ≠ 255) (hs0 : s ≠ 0)
    (hl : body.length = s.val) :
    ∃ d1 out1, Process d (⟨f, [s], body⟩ : Page).bytes = some (Exit.done, ⟨d1, [], out1⟩) ∧
      d1.state_ = ParseState.FIND_PAGE ∧ d1.bytes_needed = 4 ∧ d1.packet_len = 0 ∧
      d1.on_demuxer_finished_ = d.on_demuxer_finished_ ∧
      infoOf d1 out1 = deliverPacket d.on_demuxer_finished_ (infoOf d []) body := by
  have hfit : Fits ([] : List Byte).length [s] := by
    have := s.isLt
    refine ⟨?_, trivial⟩
    simp only [List.length_nil, PACKET_BUF_SIZE]
    omega
  obtain ⟨d1, out1, k, hk, hrun, a1, a2, a3, a4, a5, a6, a7⟩ :=
    page_run d ⟨f, [s], body⟩ [] [] [] hs hb ⟨hf, by simp, by simpa using hl⟩ hempty
      (by simp [readBuf]) hfit (Or.inr (by simpa using hs0))
  simp only [List.append_nil] at hrun
  simp only [lacing_single s body hs255 hl] at a4 a6
  refine ⟨d1, out1, Process_of_steps d d1 _ out1 k hk (Page.bytes_length_pos _) hrun,
    a1, a2, a4, a3, ?_⟩
  rw [a6]
  simp [deliver]

theorem countByte_ne (n : Nat) (h1 : 1 ≤ n) (h2 : n ≤ 254) :
    countByte n ≠ 255 ∧ countByte n ≠ 0 := by
  have hv := countByte_val n (by omega)
  constructor
  · intro h
    rw [h] at hv
    have : ((255 : Byte) : Nat) = 255 := rfl
    omega
  · intro h
    rw [h] at hv
    have : ((0 : Byte) : Nat) = 0 := rfl
    omega

/-- C9 (end-to-end scenario), amended by the range of `L`.  On a freshly reset object with a
callback registered, the call on a version-0 page with one segment of length 8 holding
"OpusHead" sets `head_seen`, makes no callback and leaves the rate at 48000; the call on a
page with one segment of length 8 holding "OpusTags" sets `tags_seen`, again without a
callback; the call on a third page with one segment of `L` audio bytes, `1 ≤ L ≤ 254`, makes
exactly one callback, with those bytes, rate 48000 and length `L`.  Every call consumes its
whole page. -/
theorem C9_end_to_end (d : Demuxer) (f1 f2 f3 audio : List Byte)
    (hcb : d.on_demuxer_finished_ = true)
    (h1 : f1.length = 21) (h2 : f2.length = 21) (h3 : f3.length = 21)
    (hL1 : 1 ≤ audio.length) (hL2 : audio.length ≤ 254) :
    ∃ d1 d2 d3,
      Process (Reset d) (headPage f1).bytes = some (Exit.done, ⟨d1, [], []⟩) ∧
      d1.head_seen = true ∧ d1.tags_seen = false ∧ d1.sample_rate = 48000 ∧
      Process d1 (tagsPage f2).bytes = some (Exit.done, ⟨d2, [], []⟩) ∧
      d2.head_seen = true ∧ d2.tags_seen = true ∧ d2.sample_rate = 48000 ∧
      Process d2 (audioPage f3 audio).bytes =
        some (Exit.done, ⟨d3, [], [⟨audio, 48000, audio.length⟩]⟩) := by
  obtain ⟨d1, out1, p1, a1, a2, a3, a4, a5⟩ := single_packet_page (Reset d) f1 OpusHead 8
    rfl rfl rfl h1 (by decide) (by decide) rfl
  have e1 : deliverPacket (Reset d).on_demuxer_finished_ (infoOf (Reset d) []) OpusHead =
      ⟨true, false, 48000, []⟩ := by
    simp [deliverPacket, infoOf, Reset, OpusHead]
  rw [e1] at a5
  simp only [infoOf, StreamInfo.mk.injEq] at a5
  obtain ⟨b1, b2, b3, b4⟩ := a5
  subst b4
  obtain ⟨d2, out2, p2, c1, c2, c3, c4, c5⟩ := single_packet_page d1 f2 OpusTags 8
    a1 a2 a3 h2 (by decide) (by decide) rfl
  have e2 : deliverPacket d1.on_demuxer_finished_ (infoOf d1 []) OpusTags =
      ⟨true, true, 48000, []⟩ := by
    simp [deliverPacket, infoOf, b1, b2, b3, OpusHead, OpusTags]
  rw [e2] at c5
  simp only [infoOf, StreamInfo.mk.injEq] at c5
  obtain ⟨g1, g2, g3, g4⟩ := c5
  subst g4
  obtain ⟨hc1, hc2⟩ := countByte_ne audio.length hL1 hL2
  obtain ⟨d3, out3, p3, k1, k2, k3, k4, k5⟩ := single_packet_page d2 f3 audio
    (countByte audio.length) c1 c2 c3 h3 hc1 hc2 (countByte_val _ (by omega)).symm
  have hne : audio ≠ [] := by
    intro h
    rw [h] at hL1
    simp at hL1
  have e3 : deliverPacket d2.on_demuxer_finished_ (infoOf d2 []) audio =
      ⟨true, true, 48000, [⟨audio, 48000, audio.length⟩]⟩ := by
    have hcb2 : d2.on_demuxer_finished_ = true := by
      rw [c4, a4]
      exact hcb
    simp [deliverPacket, infoOf, g1, g2, g3, hne, hcb2]
  rw [e3] at k5
  simp only [infoOf, StreamInfo.mk.injEq] at k5
  obtain ⟨_, _, _, m4⟩ := k5
  subst m4
  exact ⟨d1, d2, d3, p1, b1, b2, b3, p2, g1, g2, g3, p3⟩

theorem C9_end_to_end_witness :
    ∃ d1 d2 d3,
      Process (Reset (OnDemuxerFinished fresh)) (headPage (List.replicate 21 0)).bytes =
        some (Exit.done, ⟨d1, [], []⟩) ∧
      d1.head_seen = true ∧ d1.tags_seen = false ∧ d1.sample_rate = 48000 ∧
      Process d1 (tagsPage (List.replicate 21 0)).bytes = some (Exit.done, ⟨d2, [], []⟩) ∧
      d2.head_seen = true ∧ d2.tags_seen = true ∧ d2.sample_rate = 48000 ∧
      Process d2 (audioPage (List.replicate 21 0) [1, 2, 3]).bytes =
        some (Exit.done, ⟨d3, [], [⟨[1, 2, 3], 48000, [1, 2, 3].length⟩]⟩) :=
  C9_end_to_end (OnDemuxerFinished fresh) (List.replicate 21 0) (List.replicate 21 0)
    (List.replicate 21 0) [1, 2, 3] rfl (by decide) (by decide) (by decide) (by decide)
    (by decide)

set_option maxRecDepth 100000 in
/-- Counterexample to C9 as stated: after the "OpusHead" page and the "OpusTags" page, a
third page with one segment of `L = 255` audio bytes makes no callback (a lacing value of
255 leaves the packet open), and a third page with one segment of `L = 0` bytes makes none
either.  All calls consume their whole page. -/
theorem C9_counterexample :
    (feed (Reset (OnDemuxerFinished fresh))
      [(headPage (List.replicate 21 0)).bytes, (tagsPage (List.replicate 21 0)).bytes,
        (audioPage (List.replicate 21 0) (List.replicate 255 7)).bytes]).map
      (fun x => (x.1.head_seen, x.1.tags_seen, x.2.1, x.2.2)) =
      some (true, true, [], [36, 36, 283]) ∧
    (feed (Reset (OnDemuxerFinished fresh))
      [(headPage (List.replicate 21 0)).bytes, (tagsPage (List.replicate 21 0)).bytes,
        (audioPage (List.replicate 21 0) []).bytes]).map
      (fun x => (x.1.head_seen, x.1.tags_seen, x.2.1, x.2.2)) =
      some (true, true, [], [36, 36, 28]) := by
  constructor <;> decide

/-! ## Claim C4 -/

theorem lacing_append (t1 t2 : List Byte) : ∀ (body acc : List Byte),
    lacing (t1 ++ t2) body acc =
      ((lacing t1 (body.take (t1.map Fin.val).sum) acc).1 ++
        (lacing t2 (body.drop (t1.map Fin.val).sum)
          (lacing t1 (body.take (t1.map Fin.val).sum) acc).2).1,
       (lacing t2 (body.drop (t1.map Fin.val).sum)
          (lacing t1 (body.take (t1.map Fin.val).sum) acc).2).2) := by
  induction t1 with
  | nil => intro body acc; simp [lacing]
  | cons s t ih =>
    intro body acc
    have key : ∀ n : Nat, ((s :: t).map Fin.val).sum = n + (t.map Fin.val).sum →
        (body.take ((s :: t).map Fin.val).sum).drop n =
          (body.drop n).take (t.map Fin.val).sum ∧
        (body.take ((s :: t).map Fin.val).sum).take n = body.take n ∧
        body.drop ((s :: t).map Fin.val).sum = (body.drop n).drop (t.map Fin.val).sum := by
      intro n hn
      rw [hn]
      refine ⟨?_, ?_, ?_⟩
      · rw [List.drop_take]
        congr 1
        omega
      · rw [List.take_take]
        congr 1
        omega
      · rw [List.drop_drop, Nat.add_comm]
    rw [List.cons_append]
    by_cases h : s = 255
    · subst h
      obtain ⟨e2, e3, e4⟩ := key 255 (by simp; rfl)
      rw [lacing_cons_continue, lacing_cons_continue, ih, e2, e3, e4]
    · obtain ⟨e2, e3, e4⟩ := key s.val (by simp)
      rw [lacing_cons_end _ _ _ _ h, lacing_cons_end _ _ _ _ h, ih, e2, e3, e4]
      simp

theorem lacing_carry_nil (t body : List Byte) (h : ∀ x, t.getLast? = some x → x ≠ 255) :
    (lacing t body []).2 = [] := by
  cases hl : t.getLast? with
  | none =>
    rw [List.getLast?_eq_none_iff] at hl
    subst hl
    rfl
  | some x => exact lacing_closed t body [] x hl (h x hl)

theorem getLast?_append_replicate (t : List Byte) (i : Nat) :
    (t ++ List.replicate (i + 1) (255 : Byte)).getLast? = some 255 := by
  rw [List.replicate_succ', ← List.append_assoc, List.getLast?_append]
  simp

theorem callsOf_cons (rate : Int) (q : List Byte) (ps : List (List Byte)) (h : q ≠ []) :
    callsOf rate (q :: ps) = ⟨q, rate, q.length⟩ :: callsOf rate ps := by
  simp [callsOf, callOf, h]

theorem openPage_body_length : openPage.body.length = 8160 := List.length_replicate _ _

theorem openPage_WF : openPage.WF := by
  refine ⟨by decide, by decide, ?_⟩
  rw [openPage_body_length]
  decide

theorem lacing_open_page (body : List Byte) (h : body.length = 8160) :
    lacing (List.replicate 32 255) body [] = ([], body) := by
  rw [lacing_replicate, List.take_of_length_le (by omega)]
  rfl

set_option maxRecDepth 100000 in
/-- Counterexample to C4 as stated.  First: with both header packets seen and a callback
registered, the well-formed page `openPage` (32 segments of 255 bytes, the last one 255)
leaves a packet of 8160 bytes open; the well-formed page `closePage` (`[255, 0]`) supplies
its terminating segment; the call on both pages leaves through the overflow branch and no
callback is ever made for the packet.  Second: on a freshly reset object (no header packet
seen) the pages `[255]` and `[1]` are taken in whole and the 256-byte packet they form is
not delivered. -/
theorem C4_counterexample :
    (openPage.WF ∧ closePage.WF ∧ openPage.table.getLast? = some 255 ∧
      closePage.table = [255, 0] ∧
      ∃ r, Process readyState (openPage.bytes ++ closePage.bytes) = some (Exit.overflow, r) ∧
        r.out = []) ∧
    (feed (Reset (OnDemuxerFinished fresh))
      [(⟨List.replicate 21 0, [255], List.replicate 255 7⟩ : Page).bytes ++
        (⟨List.replicate 21 0, [1], [7]⟩ : Page).bytes]).map (fun x => (x.2.1, x.2.2)) =
      some ([], [312]) := by
  refine ⟨⟨openPage_WF, ⟨by decide, by decide, by decide⟩, by decide, rfl, ?_⟩, by decide⟩
  have e255 : ((255 : Byte) : Nat) = 255 := rfl
  have hlac : lacing openPage.table openPage.body [] = ([], openPage.body) :=
    lacing_open_page _ openPage_body_length
  obtain ⟨d1, k1, hk1, hrun1, a1, a2, a3, a4, a5, a6, a7, a8, a9⟩ :=
    page_run_ready readyState openPage closePage.bytes [] rfl rfl rfl rfl rfl [] rfl
      (by simp [readBuf]) openPage_WF (Fits_replicate 32 0 (by decide))
      (Or.inl (by
        intro hx
        have := Page.bytes_length_pos closePage
        rw [hx] at this
        simp at this))
  rw [hlac] at hrun1 a7 a8
  simp only [] at hrun1 a7 a8
  have hL : 2 ≤ (openPage.bytes ++ closePage.bytes).length := by
    rw [List.length_append]
    have h1 := Page.bytes_length_pos openPage
    have h2 := Page.bytes_length_pos closePage
    omega
  obtain ⟨d2, out2, h1, h2, _⟩ := page_overflow d1 closePage [] openPage.body [] [0] 255
    ([] ++ callsOf readyState.sample_rate [])
    (2 * (openPage.bytes ++ closePage.bytes).length - k1) a1 a2
    ⟨by decide, by decide, by decide⟩ a7 a8 rfl trivial (by decide)
    (by
      simp only [lacing, List.map_nil, List.sum_nil]
      rw [openPage_body_length, e255]
      decide)
  rw [List.append_nil] at h1
  refine ⟨⟨d2, closePage.body.drop (([] : List Byte).map Fin.val).sum, out2⟩, ?_, ?_⟩
  · unfold Process
    rw [show 2 * (openPage.bytes ++ closePage.bytes).length + 4 =
      (2 * (openPage.bytes ++ closePage.bytes).length - k1 + 4) + k1 by omega, hrun1]
    exact h1
  · simp only [lacing, deliver, List.foldl_nil, infoOf, StreamInfo.mk.injEq] at h2
    rw [h2.2.2.2]
    rfl

/-! ## Chunking invariance: objects that agree up to dead header bytes -/

theorem segmentComplete_setHeader (h : Nat → Byte) (d : Demuxer) (out : List Call) :
    segmentComplete (setHeader h d) out =
      (setHeader h (segmentComplete d out).1, (segmentComplete d out).2) := by
  unfold segmentComplete setHeader
  simp only []
  split_ifs <;> rfl

theorem copySegment_setHeader (h : Nat → Byte) (d : Demuxer) (rest : List Byte) :
    copySegment (setHeader h d) rest = setHeader h (copySegment d rest) := rfl

theorem segmentBody_setHeader (h : Nat → Byte) (d : Demuxer) (rest : List Byte)
    (out : List Call) :
    segmentBody (setHeader h d) rest out = (segmentBody d rest out).mapD (setHeader h) := by
  unfold segmentBody
  rw [copySegment_setHeader, segmentComplete_setHeader]
  have e1 : segLen (setHeader h d) = segLen d := rfl
  have e2 : (setHeader h d).packet_len = d.packet_len := rfl
  have e3 : (setHeader h (copySegment d rest)).seg_remaining = (copySegment d rest).seg_remaining :=
    rfl
  rw [e1, e2, e3]
  split_ifs <;> rfl

theorem segmentLoop_setHeader (h : Nat → Byte) (n : Nat) :
    ∀ (d : Demuxer) (rest : List Byte) (out : List Call),
      segmentLoop n (setHeader h d) rest out = (segmentLoop n d rest out).mapD (setHeader h) := by
  induction n with
  | zero => intro d rest out; rfl
  | succ n ih =>
    intro d rest out
    simp only [segmentLoop]
    have e1 : (setHeader h d).seg_index = d.seg_index := rfl
    have e2 : (setHeader h d).seg_count = d.seg_count := rfl
    rw [e1, e2, segmentBody_setHeader]
    by_cases hc : d.seg_index < d.seg_count ∧ rest ≠ []
    · rw [if_pos hc, if_pos hc]
      cases hb : segmentBody d rest out with
      | ret e r => rfl
      | brk r =>
        simp only [Flow.mapD]
        exact ih r.d r.rest r.out
    · rw [if_neg hc, if_neg hc]
      rfl

theorem parseData_setHeader (h : Nat → Byte) (d : Demuxer) (rest : List Byte)
    (out : List Call) :
    parseData (setHeader h d) rest out = (parseData d rest out).mapD (setHeader h) := by
  unfold parseData
  have e1 : (setHeader h d).seg_index = d.seg_index := rfl
  have e2 : (setHeader h d).seg_count = d.seg_count := rfl
  rw [e1, e2, segmentLoop_setHeader]
  cases hb : segmentLoop (d.seg_count - d.seg_index) d rest out with
  | ret e r => rfl
  | brk r =>
    simp only [Flow.mapD]
    have e3 : (setHeader h r.d).seg_index = r.d.seg_index := rfl
    have e4 : (setHeader h r.d).seg_count = r.d.seg_count := rfl
    rw [e3, e4]
    by_cases hq : r.d.seg_index = r.d.seg_count
    · rw [if_pos hq, if_pos hq]
      rfl
    · rw [if_neg hq, if_neg hq]

theorem parseSegments_setHeader (h : Nat → Byte) (d : Demuxer) (rest : List Byte)
    (out : List Call) :
    parseSegments (setHeader h d) rest out = (parseSegments d rest out).mapD (setHeader h) := by
  unfold parseSegments
  have e1 : (setHeader h d).bytes_needed = d.bytes_needed := rfl
  rw [e1]
  simp only []
  split_ifs <;> rfl

theorem Alike_refl (d : Demuxer) : Alike d d := ⟨rfl, fun _ _ => rfl⟩

theorem Alike.state_eq {d d1 : Demuxer} (h : Alike d d1) : d1.state_ = d.state_ := by
  rw [h.fields_eq]; rfl

theorem Alike.bytes_needed_eq {d d1 : Demuxer} (h : Alike d d1) :
    d1.bytes_needed = d.bytes_needed := by
  rw [h.fields_eq]; rfl

theorem Alike.data_offset_eq {d d1 : Demuxer} (h : Alike d d1) :
    d1.data_offset = d.data_offset := by
  rw [h.fields_eq]; rfl

theorem HeaderLive_alike {d d1 : Demuxer} (h : Alike d d1) (i : Nat) :
    HeaderLive d1 i ↔ HeaderLive d i := by
  unfold HeaderLive
  rw [h.state_eq, h.bytes_needed_eq, h.data_offset_eq]

theorem Alike_symm {d d1 : Demuxer} (h : Alike d d1) : Alike d1 d := by
  refine ⟨?_, fun i hi => ((h.live_eq i ((HeaderLive_alike h i).mp hi))).symm⟩
  have := h.fields_eq
  rw [this]
  rfl

theorem Alike_trans {a b c : Demuxer} (h1 : Alike a b) (h2 : Alike b c) : Alike a c := by
  refine ⟨?_, fun i hi => ?_⟩
  · have e1 := h1.fields_eq
    have e2 := h2.fields_eq
    rw [e2, e1]
    rfl
  · rw [h2.live_eq i ((HeaderLive_alike h1 i).mpr hi), h1.live_eq i hi]

theorem StateInv_alike {d d1 : Demuxer} (h : Alike d d1) (hi : StateInv d) : StateInv d1 := by
  have := h.fields_eq
  rw [this]
  exact ⟨hi.packet_len_le, hi.rate_default, hi.find, hi.hdr, hi.segs, hi.data⟩

/-- Objects alike without live header bytes: any header will do. -/
theorem Alike_setHeader (d : Demuxer) (h : Nat → Byte) (hl : ∀ i, ¬ HeaderLive d i) :
    Alike d (setHeader h d) := ⟨rfl, fun i hi => absurd hi (hl i)⟩

theorem memcpy_agree (h h1 : Nat → Byte) (off : Nat) (src : List Byte) (n : Nat)
    (hn : n ≤ off + src.length) (ha : ∀ i, i < off → i < n → h1 i = h i) :
    ∀ i, i < n → memcpy h1 off src i = memcpy h off src i := by
  intro i hi
  simp only [memcpy]
  by_cases hr : off ≤ i ∧ i < off + src.length
  · rw [if_pos hr, if_pos hr]
  · rw [if_neg hr, if_neg hr]
    exact ha i (by omega) hi

theorem findPage_alike (d : Demuxer) (h1 : Nat → Byte) (rest : List Byte) (out : List Call)
    (ha : Alike d (setHeader h1 d)) (hs : d.state_ = ParseState.FIND_PAGE) :
    FlowAlike (findPage d rest out) (findPage (setHeader h1 d) rest out) := by
  have hlive : ∀ i, i + d.bytes_needed < 4 → h1 i = d.header i := fun i hi =>
    ha.live_eq i (Or.inl ⟨hs, hi⟩)
  unfold findPage
  simp only [setHeader]
  by_cases hp : d.bytes_needed < 4
  · rw [if_pos hp, if_pos hp]
    by_cases h0 : d.bytes_needed - min rest.length d.bytes_needed = 0
    · rw [if_pos h0, if_pos h0]
      have hlen : (rest.take (min rest.length d.bytes_needed)).length = d.bytes_needed := by
        rw [List.length_take]; omega
      have hag := memcpy_agree d.header h1 (4 - d.bytes_needed)
        (rest.take (min rest.length d.bytes_needed)) 4 (by omega)
        (fun i hi _ => hlive i (by omega))
      have hwin : readBuf (memcpy h1 (4 - d.bytes_needed)
          (rest.take (min rest.length d.bytes_needed))) 4 =
          readBuf (memcpy d.header (4 - d.bytes_needed)
            (rest.take (min rest.length d.bytes_needed))) 4 :=
        readBuf_congr _ _ _ hag
      rw [hwin]
      by_cases hm : readBuf (memcpy d.header (4 - d.bytes_needed)
          (rest.take (min rest.length d.bytes_needed))) 4 = OggS
      · rw [if_pos hm, if_pos hm]
        refine ⟨⟨rfl, ?_⟩, rfl, rfl⟩
        intro i hi
        rcases hi with ⟨hx, _⟩ | ⟨_, h4, h5⟩
        · exact absurd hx (by simp)
        · exact absurd h5 (by simp only []; omega)
      · rw [if_neg hm, if_neg hm]
        refine ⟨⟨rfl, ?_⟩, rfl, rfl⟩
        intro i hi
        rcases hi with ⟨_, hx⟩ | ⟨hx, _⟩
        · simp only [] at hx ⊢
          simp only [memmove1]
          rw [if_pos (by omega), if_pos (by omega)]
          exact hag (i + 1) (by omega)
        · simp only [] at hx
          rw [hs] at hx
          exact absurd hx (by simp)
    · rw [if_neg h0, if_neg h0]
      refine ⟨rfl, ⟨rfl, ?_⟩, rfl, rfl⟩
      intro i hi
      rcases hi with ⟨_, hx⟩ | ⟨hx, _⟩
      · simp only [] at hx ⊢
        have hlen : (rest.take (min rest.length d.bytes_needed)).length =
            min rest.length d.bytes_needed := by
          rw [List.length_take]; omega
        exact memcpy_agree d.header h1 (4 - d.bytes_needed)
          (rest.take (min rest.length d.bytes_needed))
          (4 - d.bytes_needed + min rest.length d.bytes_needed) (by omega)
          (fun i hi _ => hlive i (by omega)) i (by omega)
      · simp only [] at hx
        rw [hs] at hx
        exact absurd hx (by simp)
  · rw [if_neg hp, if_neg hp]
    by_cases h4 : d.bytes_needed = 4
    · rw [if_pos h4, if_pos h4]
      by_cases hf : (searchOggS rest 0).1 = true
      · rw [if_pos hf, if_pos hf]
        refine ⟨⟨rfl, ?_⟩, rfl, rfl⟩
        intro i hi
        rcases hi with ⟨hx, _⟩ | ⟨_, h4, h5⟩
        · exact absurd hx (by simp)
        · exact absurd h5 (by simp only []; omega)
      · rw [if_neg hf, if_neg hf]
        by_cases hpl : rest.length - (searchOggS rest 0).2 > 0
        · rw [if_pos hpl, if_pos hpl]
          refine ⟨rfl, ⟨rfl, ?_⟩, rfl, rfl⟩
          intro i hi
          rcases hi with ⟨_, hx⟩ | ⟨hx, _⟩
          · simp only [] at hx ⊢
            have hlen : ((rest.drop (searchOggS rest 0).2).take
                (rest.length - (searchOggS rest 0).2)).length =
                rest.length - (searchOggS rest 0).2 := by
              rw [List.length_take, List.length_drop]; omega
            exact memcpy_agree d.header h1 0 _ (rest.length - (searchOggS rest 0).2)
              (by omega) (fun i hi _ => absurd hi (by omega)) i (by omega)
          · simp only [] at hx
            rw [hs] at hx
            exact absurd hx (by simp)
        · rw [if_neg hpl, if_neg hpl]
          exact ⟨rfl, ha, rfl, rfl⟩
    · rw [if_neg h4, if_neg h4]
      exact ⟨rfl, Alike_refl _, rfl, rfl⟩

theorem parseHeader_alike (d : Demuxer) (h1 : Nat → Byte) (rest : List Byte) (out : List Call)
    (ha : Alike d (setHeader h1 d)) (hinv : StateInv d)
    (hs : d.state_ = ParseState.PARSE_HEADER) :
    FlowAlike (parseHeader d rest out) (parseHeader (setHeader h1 d) rest out) := by
  have hlive : ∀ i, 4 ≤ i → i < d.data_offset → h1 i = d.header i := fun i h4 hi =>
    ha.live_eq i (Or.inr ⟨hs, h4, hi⟩)
  obtain ⟨hsum, hbn, hoff⟩ := hinv.hdr hs
  unfold parseHeader
  simp only [setHeader]
  by_cases hav : rest.length < d.bytes_needed
  · rw [if_pos hav, if_pos hav]
    refine ⟨rfl, ⟨rfl, ?_⟩, rfl, rfl⟩
    intro i hi
    rcases hi with ⟨hx, _⟩ | ⟨_, h4, hx⟩
    · simp only [] at hx
      rw [hs] at hx
      exact absurd hx (by simp)
    · simp only [] at hx ⊢
      simp only [memcpy]
      by_cases hr : d.data_offset ≤ i ∧ i < d.data_offset + (rest.take rest.length).length
      · rw [if_pos hr, if_pos hr]
      · rw [if_neg hr, if_neg hr]
        rw [List.length_take, Nat.min_self] at hr
        exact hlive i h4 (by omega)
  · rw [if_neg hav, if_neg hav]
    have hlen : (rest.take d.bytes_needed).length = d.bytes_needed := by
      rw [List.length_take]; omega
    have hag : ∀ i, 4 ≤ i → i < 27 →
        memcpy h1 d.data_offset (rest.take d.bytes_needed) i =
          memcpy d.header d.data_offset (rest.take d.bytes_needed) i := by
      intro i h4 hi
      simp only [memcpy]
      by_cases hr : d.data_offset ≤ i ∧ i < d.data_offset + (rest.take d.bytes_needed).length
      · rw [if_pos hr, if_pos hr]
      · rw [if_neg hr, if_neg hr]
        exact hlive i h4 (by omega)
    rw [hag 4 (by omega) (by omega), hag 26 (by omega) (by omega)]
    have hnofind : ∀ (x y : Demuxer), x.state_ = ParseState.FIND_PAGE → x.bytes_needed = 4 →
        y = setHeader y.header x → Alike x y := by
      intro x y hx hb hy
      refine ⟨hy, ?_⟩
      intro i hi
      rcases hi with ⟨_, hq⟩ | ⟨hq, _⟩
      · omega
      · rw [hx] at hq
        exact absurd hq (by simp)
    by_cases hv : memcpy d.header d.data_offset (rest.take d.bytes_needed) 4 ≠ 0
    · rw [if_pos hv, if_pos hv]
      exact ⟨hnofind _ _ rfl rfl rfl, rfl, rfl⟩
    · rw [if_neg hv, if_neg hv]
      by_cases hc : (memcpy d.header d.data_offset (rest.take d.bytes_needed) 26).val > 0 ∧
          (memcpy d.header d.data_offset (rest.take d.bytes_needed) 26).val ≤ 255
      · rw [if_pos hc, if_pos hc]
        refine ⟨⟨rfl, ?_⟩, rfl, rfl⟩
        intro i hi
        rcases hi with ⟨hq, _⟩ | ⟨hq, _⟩
        · exact absurd hq (by simp)
        · exact absurd hq (by simp)
      · rw [if_neg hc, if_neg hc]
        by_cases hz : (memcpy d.header d.data_offset (rest.take d.bytes_needed) 26).val = 0
        · rw [if_pos hz, if_pos hz]
          exact ⟨hnofind _ _ rfl rfl rfl, rfl, rfl⟩
        · rw [if_neg hz, if_neg hz]
          exact ⟨hnofind _ _ rfl rfl rfl, rfl, rfl⟩

theorem FlowAlike_mapD (f : Flow) (h : Nat → Byte)
    (hb : ∀ r, f = Flow.brk r → ∀ i, ¬ HeaderLive r.d i)
    (hr : ∀ e r, f = Flow.ret e r → ∀ i, ¬ HeaderLive r.d i) :
    FlowAlike f (f.mapD (setHeader h)) := by
  cases f with
  | brk r => exact ⟨Alike_setHeader _ _ (hb r rfl), rfl, rfl⟩
  | ret e r => exact ⟨rfl, Alike_setHeader _ _ (hr e r rfl), rfl, rfl⟩

theorem not_live_of_state (d : Demuxer)
    (h : d.state_ = ParseState.PARSE_SEGMENTS ∨ d.state_ = ParseState.PARSE_DATA ∨
      (d.state_ = ParseState.FIND_PAGE ∧ d.bytes_needed = 4)) : ∀ i, ¬ HeaderLive d i := by
  intro i hi
  rcases hi with ⟨h1, h2⟩ | ⟨h1, _⟩
  · rcases h with h | h | ⟨_, h⟩
    · rw [h1] at h; exact absurd h (by simp)
    · rw [h1] at h; exact absurd h (by simp)
    · omega
  · rcases h with h | h | ⟨h, _⟩
    · rw [h1] at h; exact absurd h (by simp)
    · rw [h1] at h; exact absurd h (by simp)
    · rw [h1] at h; exact absurd h (by simp)

theorem parseSegments_state (d : Demuxer) (rest : List Byte) (out : List Call)
    (hs : d.state_ = ParseState.PARSE_SEGMENTS) :
    (∀ r, parseSegments d rest out = Flow.brk r → r.d.state_ = ParseState.PARSE_DATA) ∧
    (∀ e r, parseSegments d rest out = Flow.ret e r →
      r.d.state_ = ParseState.PARSE_SEGMENTS) := by
  unfold parseSegments
  simp only []
  by_cases hav : rest.length < d.bytes_needed
  · rw [if_pos hav]
    refine ⟨fun r hr => (by cases hr), fun e r hr => ?_⟩
    cases hr
    exact hs
  · rw [if_neg hav]
    refine ⟨fun r hr => ?_, fun e r hr => (by cases hr)⟩
    cases hr
    rfl

theorem parseData_state (d : Demuxer) (rest : List Byte) (out : List Call)
    (hinv : StateInv d) (hs : d.state_ = ParseState.PARSE_DATA) :
    (∀ r, parseData d rest out = Flow.brk r →
      r.d.state_ = ParseState.PARSE_DATA ∨
        (r.d.state_ = ParseState.FIND_PAGE ∧ r.d.bytes_needed = 4)) ∧
    (∀ e r, parseData d rest out = Flow.ret e r →
      r.d.state_ = ParseState.PARSE_DATA ∨
        (r.d.state_ = ParseState.FIND_PAGE ∧ r.d.bytes_needed = 4)) := by
  obtain ⟨hseg, _⟩ := SegInv_of_StateInv d hinv hs
  obtain ⟨l1, l2⟩ := segmentLoop_spec (d.seg_count - d.seg_index) d rest out hseg rfl
  unfold parseData
  cases hl : segmentLoop (d.seg_count - d.seg_index) d rest out with
  | ret e r =>
    refine ⟨fun r1 hr => (by cases hr), fun e1 r1 hr => ?_⟩
    cases hr
    obtain ⟨_, h | h⟩ := l2 e r hl
    · exact Or.inl h.2.2
    · exact Or.inr ⟨h.2.2.1, h.2.2.2.1⟩
  | brk r =>
    simp only []
    refine ⟨fun r1 hr => ?_, fun e1 r1 hr => ?_⟩
    · by_cases hq : r.d.seg_index = r.d.seg_count
      · rw [if_pos hq] at hr
        cases hr
        exact Or.inr ⟨rfl, rfl⟩
      · rw [if_neg hq] at hr
        cases hr
        exact Or.inl (l1 r hl).1.st
    · by_cases hq : r.d.seg_index = r.d.seg_count
      · rw [if_pos hq] at hr
        cases hr
      · rw [if_neg hq] at hr
        cases hr

theorem dispatch_alike (d d1 : Demuxer) (rest : List Byte) (out : List Call)
    (ha : Alike d d1) (hinv : StateInv d) :
    FlowAlike (dispatch d rest out) (dispatch d1 rest out) := by
  have hd1 := ha.fields_eq
  generalize d1.header = h1 at hd1
  subst hd1
  have hst : (setHeader h1 d).state_ = d.state_ := rfl
  unfold dispatch
  rw [hst]
  cases hs : d.state_ with
  | FIND_PAGE => exact findPage_alike d h1 rest out ha hs
  | PARSE_HEADER => exact parseHeader_alike d h1 rest out ha hinv hs
  | PARSE_SEGMENTS =>
    simp only []
    rw [parseSegments_setHeader]
    obtain ⟨l1, l2⟩ := parseSegments_state d rest out hs
    exact FlowAlike_mapD _ _
      (fun r hr => not_live_of_state _ (Or.inr (Or.inl (l1 r hr))))
      (fun e r hr => not_live_of_state _ (Or.inl (l2 e r hr)))
  | PARSE_DATA =>
    simp only []
    rw [parseData_setHeader]
    obtain ⟨l1, l2⟩ := parseData_state d rest out hinv hs
    exact FlowAlike_mapD _ _
      (fun r hr => not_live_of_state _ (Or.inr (l1 r hr)))
      (fun e r hr => not_live_of_state _ (Or.inr (l2 e r hr)))

/-- Runs from loop states that agree up to dead header bytes end the same way. -/
theorem ProcessLoop_alike (fuel : Nat) : ∀ (r r1 : Run) (res : Exit × Run),
    RunAlike r r1 → StateInv r.d → ProcessLoop fuel r = some res →
    ∃ res1, ProcessLoop fuel r1 = some res1 ∧ res1.1 = res.1 ∧ RunAlike res.2 res1.2 := by
  induction fuel with
  | zero => intro r r1 res _ _ h; simp [ProcessLoop] at h
  | succ n ih =>
    intro r r1 res ha hinv h
    rw [ProcessLoop_succ] at h
    rw [ProcessLoop_succ, ha.rest_eq, ha.out_eq]
    by_cases hr : r.rest = []
    · rw [if_pos hr] at h ⊢
      cases h
      exact ⟨_, rfl, rfl, ha⟩
    · rw [if_neg hr] at h ⊢
      have hf := dispatch_alike r.d r1.d r.rest r.out ha.d_alike hinv
      obtain ⟨s1, _⟩ := dispatch_spec r.d r.rest r.out hinv hr
      cases hd : dispatch r.d r.rest r.out with
      | ret e r2 =>
        rw [hd] at h hf
        cases hd1 : dispatch r1.d r.rest r.out with
        | ret e1 r3 =>
          rw [hd1] at hf
          cases h
          exact ⟨_, rfl, hf.1, hf.2⟩
        | brk r3 =>
          rw [hd1] at hf
          exact absurd hf (by simp [FlowAlike])
      | brk r2 =>
        rw [hd] at h hf
        cases hd1 : dispatch r1.d r.rest r.out with
        | ret e1 r3 =>
          rw [hd1] at hf
          exact absurd hf (by simp [FlowAlike])
        | brk r3 =>
          rw [hd1] at hf
          exact ih r2 r3 res hf (s1 r2 hd).1 h

/-! ## Chunking invariance: invocations made before a run -/

theorem segmentComplete_out (o : List Call) (d : Demuxer) (out : List Call) :
    segmentComplete d (o ++ out) = ((segmentComplete d out).1, o ++ (segmentComplete d out).2) := by
  unfold segmentComplete
  simp only []
  split_ifs <;> simp only [List.append_assoc]

theorem segmentBody_out (o : List Call) (d : Demuxer) (rest : List Byte) (out : List Call) :
    segmentBody d rest (o ++ out) = (segmentBody d rest out).prependOut o := by
  unfold segmentBody
  rw [segmentComplete_out]
  split_ifs <;> rfl

theorem segmentLoop_out (o : List Call) (n : Nat) :
    ∀ (d : Demuxer) (rest : List Byte) (out : List Call),
      segmentLoop n d rest (o ++ out) = (segmentLoop n d rest out).prependOut o := by
  induction n with
  | zero => intro d rest out; rfl
  | succ n ih =>
    intro d rest out
    simp only [segmentLoop]
    rw [segmentBody_out]
    by_cases hc : d.seg_index < d.seg_count ∧ rest ≠ []
    · rw [if_pos hc, if_pos hc]
      cases hb : segmentBody d rest out with
      | ret e r => rfl
      | brk r =>
        simp only [Flow.prependOut]
        exact ih r.d r.rest r.out
    · rw [if_neg hc, if_neg hc]
      rfl

theorem parseData_out (o : List Call) (d : Demuxer) (rest : List Byte) (out : List Call) :
    parseData d rest (o ++ out) = (parseData d rest out).prependOut o := by
  unfold parseData
  rw [segmentLoop_out]
  cases hb : segmentLoop (d.seg_count - d.seg_index) d rest out with
  | ret e r => rfl
  | brk r =>
    simp only [Flow.prependOut]
    by_cases hq : r.d.seg_index = r.d.seg_count
    · rw [if_pos hq, if_pos hq]
    · rw [if_neg hq, if_neg hq]

theorem dispatch_out (o : List Call) (d : Demuxer) (rest : List Byte) (out : List Call) :
    dispatch d rest (o ++ out) = (dispatch d rest out).prependOut o := by
  unfold dispatch
  cases d.state_ with
  | FIND_PAGE =>
    simp only []
    unfold findPage
    simp only []
    split_ifs <;> rfl
  | PARSE_HEADER =>
    simp only []
    unfold parseHeader
    simp only []
    split_ifs <;> rfl
  | PARSE_SEGMENTS =>
    simp only []
    unfold parseSegments
    simp only []
    split_ifs <;> rfl
  | PARSE_DATA => exact parseData_out o d rest out

/-- Invocations made before a run are only carried along by it. -/
theorem ProcessLoop_out (o : List Call) (fuel : Nat) : ∀ (d : Demuxer) (rest : List Byte)
    (out : List Call),
    ProcessLoop fuel ⟨d, rest, o ++ out⟩ = (ProcessLoop fuel ⟨d, rest, out⟩).map (prependOut o) := by
  induction fuel with
  | zero => intro d rest out; rfl
  | succ n ih =>
    intro d rest out
    rw [ProcessLoop_succ, ProcessLoop_succ]
    simp only []
    by_cases hr : rest = []
    · rw [if_pos hr, if_pos hr]
      rfl
    · rw [if_neg hr, if_neg hr, dispatch_out]
      cases hd : dispatch d rest out with
      | ret e r => rfl
      | brk r =>
        simp only [Flow.prependOut]
        exact ih r.d r.rest r.out

theorem Eval_out (o : List Call) (d : Demuxer) (rest : List Byte) (out : List Call)
    (res : Exit × Run) (h : Eval ⟨d, rest, out⟩ res) :
    Eval ⟨d, rest, o ++ out⟩ (prependOut o res) := by
  obtain ⟨fuel, hf⟩ := h
  exact ⟨fuel, by rw [ProcessLoop_out, hf]; rfl⟩

/-! ## Chunking invariance: the first byte of a chunk -/

theorem memcpy_cons (buf : Nat → Byte) (off : Nat) (b : Byte) (l : List Byte) :
    memcpy (memcpy buf off [b]) (off + 1) l = memcpy buf off (b :: l) :=
  memcpy_memcpy buf off [b] l

theorem min_succ_take (b : Byte) (rest : List Byte) (n : Nat) (hn : 1 ≤ n) :
    (b :: rest).take (min (b :: rest).length n) = b :: rest.take (min rest.length (n - 1)) := by
  obtain ⟨m, rfl⟩ : ∃ m, n = m + 1 := ⟨n - 1, by omega⟩
  rw [List.length_cons, Nat.succ_min_succ, List.take_succ_cons, Nat.add_sub_cancel]

theorem min_succ_drop (b : Byte) (rest : List Byte) (n : Nat) (hn : 1 ≤ n) :
    (b :: rest).drop (min (b :: rest).length n) = rest.drop (min rest.length (n - 1)) := by
  obtain ⟨m, rfl⟩ : ∃ m, n = m + 1 := ⟨n - 1, by omega⟩
  rw [List.length_cons, Nat.succ_min_succ, List.drop_succ_cons, Nat.add_sub_cancel]

/-- `PARSE_HEADER` with at least two bytes missing: the first byte of the input is stored, and
the pass goes on as a pass on the rest of the input would from there. -/
theorem parseHeader_cons (d : Demuxer) (b : Byte) (rest : List Byte) (out : List Call)
    (hbn : 2 ≤ d.bytes_needed) :
    parseHeader d [b] out = Flow.ret Exit.need_data
      ⟨{ d with header := memcpy d.header d.data_offset [b],
                data_offset := d.data_offset + 1,
                bytes_needed := d.bytes_needed - 1 }, [], out⟩ ∧
    parseHeader d (b :: rest) out =
      parseHeader { d with header := memcpy d.header d.data_offset [b],
                           data_offset := d.data_offset + 1,
                           bytes_needed := d.bytes_needed - 1 } rest out := by
  constructor
  · unfold parseHeader
    simp only [List.length_cons, List.length_nil]
    rw [if_pos (by omega)]
    rfl
  · unfold parseHeader
    simp only [List.length_cons]
    by_cases hav : rest.length + 1 < d.bytes_needed
    · rw [if_pos hav, if_pos (show rest.length < d.bytes_needed - 1 by omega)]
      simp only [List.take_succ_cons, List.drop_succ_cons, List.take_length, List.drop_length,
        memcpy_cons, Flow.ret.injEq, Run.mk.injEq, Demuxer.mk.injEq, true_and, and_true]
      omega
    · rw [if_neg hav, if_neg (show ¬ rest.length < d.bytes_needed - 1 by omega)]
      have e1 : (b :: rest).take d.bytes_needed = b :: rest.take (d.bytes_needed - 1) := by
        obtain ⟨m, hm⟩ : ∃ m, d.bytes_needed = m + 1 := ⟨d.bytes_needed - 1, by omega⟩
        rw [hm, List.take_succ_cons, Nat.add_sub_cancel]
      have e2 : (b :: rest).drop d.bytes_needed = rest.drop (d.bytes_needed - 1) := by
        obtain ⟨m, hm⟩ : ∃ m, d.bytes_needed = m + 1 := ⟨d.bytes_needed - 1, by omega⟩
        rw [hm, List.drop_succ_cons, Nat.add_sub_cancel]
      rw [memcpy_cons, e1, e2]

/-- `PARSE_HEADER` with one byte missing: the pass takes the first byte of the input and does
not look at the rest. -/
theorem parseHeader_last (d : Demuxer) (b : Byte) (rest : List Byte) (out : List Call)
    (hbn : d.bytes_needed = 1) :
    ∃ d2, parseHeader d [b] out = Flow.brk ⟨d2, [], out⟩ ∧
      parseHeader d (b :: rest) out = Flow.brk ⟨d2, rest, out⟩ := by
  unfold parseHeader
  simp only [List.length_cons, List.length_nil]
  rw [if_neg (show ¬ 0 + 1 < d.bytes_needed by omega),
    if_neg (show ¬ rest.length + 1 < d.bytes_needed by omega)]
  simp only [hbn, List.take_succ_cons, List.take_zero, List.drop_succ_cons, List.drop_zero,
    List.take_nil, List.drop_nil]
  by_cases hv : memcpy d.header d.data_offset [b] 4 ≠ 0
  · rw [if_pos hv, if_pos hv]
    exact ⟨_, rfl, rfl⟩
  · rw [if_neg hv, if_neg hv]
    by_cases hc : (memcpy d.header d.data_offset [b] 26).val > 0 ∧
        (memcpy d.header d.data_offset [b] 26).val ≤ 255
    · rw [if_pos hc, if_pos hc]
      exact ⟨_, rfl, rfl⟩
    · rw [if_neg hc, if_neg hc]
      by_cases hz : (memcpy d.header d.data_offset [b] 26).val = 0
      · rw [if_pos hz, if_pos hz]
        exact ⟨_, rfl, rfl⟩
      · rw [if_neg hz, if_neg hz]
        exact ⟨_, rfl, rfl⟩

theorem parseSegments_cons (d : Demuxer) (b : Byte) (rest : List Byte) (out : List Call)
    (hbn : 2 ≤ d.bytes_needed) :
    parseSegments d [b] out = Flow.ret Exit.need_data
      ⟨{ d with seg_table := memcpy d.seg_table d.data_offset [b],
                data_offset := d.data_offset + 1,
                bytes_needed := d.bytes_needed - 1 }, [], out⟩ ∧
    parseSegments d (b :: rest) out =
      parseSegments { d with seg_table := memcpy d.seg_table d.data_offset [b],
                             data_offset := d.data_offset + 1,
                             bytes_needed := d.bytes_needed - 1 } rest out := by
  constructor
  · unfold parseSegments
    simp only [List.length_cons, List.length_nil]
    rw [if_pos (by omega)]
    rfl
  · unfold parseSegments
    simp only [List.length_cons]
    by_cases hav : rest.length + 1 < d.bytes_needed
    · rw [if_pos hav, if_pos (show rest.length < d.bytes_needed - 1 by omega)]
      simp only [List.take_succ_cons, List.drop_succ_cons, List.take_length, List.drop_length,
        memcpy_cons, Flow.ret.injEq, Run.mk.injEq, Demuxer.mk.injEq, true_and, and_true]
      omega
    · rw [if_neg hav, if_neg (show ¬ rest.length < d.bytes_needed - 1 by omega)]
      have e1 : (b :: rest).take d.bytes_needed = b :: rest.take (d.bytes_needed - 1) := by
        obtain ⟨m, hm⟩ : ∃ m, d.bytes_needed = m + 1 := ⟨d.bytes_needed - 1, by omega⟩
        rw [hm, List.take_succ_cons, Nat.add_sub_cancel]
      have e2 : (b :: rest).drop d.bytes_needed = rest.drop (d.bytes_needed - 1) := by
        obtain ⟨m, hm⟩ : ∃ m, d.bytes_needed = m + 1 := ⟨d.bytes_needed - 1, by omega⟩
        rw [hm, List.drop_succ_cons, Nat.add_sub_cancel]
      rw [memcpy_cons, e1, e2]

theorem parseSegments_last (d : Demuxer) (b : Byte) (rest : List Byte) (out : List Call)
    (hbn : d.bytes_needed = 1) :
    ∃ d2, parseSegments d [b] out = Flow.brk ⟨d2, [], out⟩ ∧
      parseSegments d (b :: rest) out = Flow.brk ⟨d2, rest, out⟩ := by
  unfold parseSegments
  simp only [List.length_cons, List.length_nil]
  rw [if_neg (show ¬ 0 + 1 < d.bytes_needed by omega),
    if_neg (show ¬ rest.length + 1 < d.bytes_needed by omega)]
  simp only [hbn, List.take_succ_cons, List.take_zero, List.drop_succ_cons, List.drop_zero,
    List.take_nil, List.drop_nil]
  exact ⟨_, rfl, rfl⟩

theorem findPage_cons (d : Demuxer) (b : Byte) (rest : List Byte) (out : List Call)
    (hbn : 2 ≤ d.bytes_needed) (hb4 : d.bytes_needed < 4) :
    findPage d [b] out = Flow.ret Exit.need_data
      ⟨{ d with header := memcpy d.header (4 - d.bytes_needed) [b],
                bytes_needed := d.bytes_needed - 1 }, [], out⟩ ∧
    findPage d (b :: rest) out =
      findPage { d with header := memcpy d.header (4 - d.bytes_needed) [b],
                        bytes_needed := d.bytes_needed - 1 } rest out := by
  constructor
  · unfold findPage
    simp only [List.length_cons, List.length_nil]
    rw [if_pos hb4]
    have e : min (0 + 1) d.bytes_needed = 1 := by omega
    rw [e, if_neg (show ¬ d.bytes_needed - 1 = 0 by omega)]
    rfl
  · unfold findPage
    simp only []
    rw [if_pos hb4, if_pos (show d.bytes_needed - 1 < 4 by omega)]
    rw [min_succ_take b rest _ (by omega), min_succ_drop b rest _ (by omega)]
    have e1 : 4 - (d.bytes_needed - 1) = 4 - d.bytes_needed + 1 := by omega
    have e2 : d.bytes_needed - min (b :: rest).length d.bytes_needed =
        d.bytes_needed - 1 - min rest.length (d.bytes_needed - 1) := by
      rw [List.length_cons]; omega
    rw [e1, memcpy_cons, e2]

theorem findPage_last (d : Demuxer) (b : Byte) (rest : List Byte) (out : List Call)
    (hbn : d.bytes_needed = 1) :
    ∃ d2, findPage d [b] out = Flow.brk ⟨d2, [], out⟩ ∧
      findPage d (b :: rest) out = Flow.brk ⟨d2, rest, out⟩ := by
  unfold findPage
  simp only []
  rw [if_pos (show d.bytes_needed < 4 by omega), if_pos (show d.bytes_needed < 4 by omega)]
  have e1 : min [b].length d.bytes_needed = 1 := by rw [hbn]; rfl
  have e2 : min (b :: rest).length d.bytes_needed = 1 := by
    rw [hbn, List.length_cons]; omega
  rw [e1, e2]
  simp only [List.take_succ_cons, List.take_zero, List.drop_succ_cons, List.drop_zero,
    List.take_nil, List.drop_nil]
  rw [if_pos (show d.bytes_needed - 1 = 0 by omega), if_pos (show d.bytes_needed - 1 = 0 by omega)]
  by_cases hm : readBuf (memcpy d.header (4 - d.bytes_needed) [b]) 4 = OggS
  · rw [if_pos hm, if_pos hm]
    exact ⟨_, rfl, rfl⟩
  · rw [if_neg hm, if_neg hm]
    exact ⟨_, rfl, rfl⟩

theorem segmentLoop_nil (n : Nat) (d : Demuxer) (out : List Call) :
    segmentLoop n d [] out = Flow.brk ⟨d, [], out⟩ := by
  cases n with
  | zero => rfl
  | succ n =>
    simp only [segmentLoop]
    rw [if_neg (by simp)]

theorem segLen_le (d : Demuxer) (h : SegInv d) : segLen d ≤ 255 := by
  rw [segLen_eq d h]
  have := (segRem_le d h).1
  have := (d.seg_table d.seg_index).isLt
  omega

/-- A segment with nothing left to copy is completed without a look at the input. -/
theorem segmentBody_zero (d : Demuxer) (x : List Byte) (out : List Call) (h : SegInv d)
    (h0 : segLen d = 0) :
    segmentBody d x out = Flow.brk
      ⟨(segmentComplete (copySegment d []) out).1, x,
        (segmentComplete (copySegment d []) out).2⟩ := by
  have hl := h.len_rem
  have hov : ¬ d.packet_len + segLen d > PACKET_BUF_SIZE := by rw [h0]; omega
  have hc : copySegment d x = copySegment d [] := by
    simp only [copySegment, h0, Nat.min_zero, List.take_zero, List.length_nil]
  have hrem : ¬ (copySegment d x).seg_remaining > 0 := by
    have e := segLen_eq d h
    simp only [copySegment]
    omega
  rw [segmentBody_complete d x out hov hrem, hc, h0, Nat.min_zero, List.drop_zero]

/-- A segment with one byte left is completed by the first byte of the input. -/
theorem segmentBody_one (d : Demuxer) (b : Byte) (rest : List Byte) (out : List Call)
    (h : SegInv d) (h1 : segLen d = 1) (hov : ¬ d.packet_len + segLen d > PACKET_BUF_SIZE) :
    segmentBody d (b :: rest) out = Flow.brk
      ⟨(segmentComplete (copySegment d [b]) out).1, rest,
        (segmentComplete (copySegment d [b]) out).2⟩ := by
  have hm : min (b :: rest).length 1 = 1 := by rw [List.length_cons]; omega
  have hc : copySegment d (b :: rest) = copySegment d [b] := by
    have hm1 : min (rest.length + 1) 1 = 1 := by omega
    have hm0 : min (0 + 1) 1 = 1 := rfl
    simp only [copySegment, h1, List.length_cons, List.length_nil, hm1, hm0,
      List.take_succ_cons, List.take_zero]
  have hrem : ¬ (copySegment d (b :: rest)).seg_remaining > 0 := by
    have e := segLen_eq d h
    simp only [copySegment, h1, hm]
    omega
  rw [segmentBody_complete d (b :: rest) out hov hrem, hc, h1, hm, List.drop_succ_cons,
    List.drop_zero]

theorem copySegment_eq (d : Demuxer) (rest : List Byte) (k R : Nat)
    (hk : min rest.length (segLen d) = k) (hR : segRem d = R) :
    copySegment d rest =
      { d with packet_buf := memcpy d.packet_buf d.packet_len (rest.take k),
               packet_len := d.packet_len + k,
               body_offset := d.body_offset + k,
               seg_remaining := R - k } := by
  subst hk hR
  rfl

theorem copySegment_cons (d : Demuxer) (b : Byte) (rest : List Byte) (h : SegInv d)
    (h2 : 2 ≤ segLen d) :
    segLen (copySegment d [b]) = segLen d - 1 ∧
    copySegment (copySegment d [b]) rest = copySegment d (b :: rest) := by
  have e := segLen_eq d h
  have hle := segLen_le d h
  have hm : min [b].length (segLen d) = 1 := by
    rw [List.length_cons, List.length_nil]; omega
  have hc1 := copySegment_eq d [b] 1 (segLen d) hm e.symm
  have hrem1 : (copySegment d [b]).seg_remaining = segLen d - 1 := by
    rw [hc1]
  have hl1 : segLen (copySegment d [b]) = segLen d - 1 := by
    show (if (copySegment d [b]).seg_remaining > 0 then (copySegment d [b]).seg_remaining % 256
      else _) = _
    rw [hrem1, if_pos (show segLen d - 1 > 0 by omega)]
    exact Nat.mod_eq_of_lt (by omega)
  have hr1 : segRem (copySegment d [b]) = segLen d - 1 := by
    show (if (copySegment d [b]).seg_remaining > 0 then (copySegment d [b]).seg_remaining
      else _) = _
    rw [hrem1, if_pos (show segLen d - 1 > 0 by omega)]
  refine ⟨hl1, ?_⟩
  have hk : min (b :: rest).length (segLen d) = 1 + min rest.length (segLen d - 1) := by
    rw [List.length_cons]; omega
  rw [copySegment_eq (copySegment d [b]) rest (min rest.length (segLen d - 1)) (segLen d - 1)
      (by rw [hl1]) hr1,
    copySegment_eq d (b :: rest) (1 + min rest.length (segLen d - 1)) (segLen d) hk e.symm, hc1]
  simp only [List.take_succ_cons, List.take_zero, Nat.add_comm 1, memcpy_cons,
    Demuxer.mk.injEq, true_and, and_true]
  omega

/-- A segment with at least two bytes left takes the first byte of the input, and the pass
goes on as a pass on the rest of the input would from there. -/
theorem segmentBody_more (d : Demuxer) (b : Byte) (rest : List Byte) (out : List Call)
    (h : SegInv d) (h2 : 2 ≤ segLen d) (hov : ¬ d.packet_len + segLen d > PACKET_BUF_SIZE) :
    segmentBody d [b] out = Flow.ret Exit.need_data ⟨copySegment d [b], [], out⟩ ∧
    segmentBody d (b :: rest) out = segmentBody (copySegment d [b]) rest out := by
  have e := segLen_eq d h
  obtain ⟨hl1, hc⟩ := copySegment_cons d b rest h h2
  have hm : min [b].length (segLen d) = 1 := by
    rw [List.length_cons, List.length_nil]; omega
  have hplen : (copySegment d [b]).packet_len = d.packet_len + 1 := by
    simp only [copySegment, hm]
  constructor
  · have hrem : (copySegment d [b]).seg_remaining > 0 := by
      simp only [copySegment, hm]
      omega
    rw [segmentBody_need d [b] out hov hrem, hm]
    rfl
  · have hov1 : ¬ (copySegment d [b]).packet_len + segLen (copySegment d [b]) >
        PACKET_BUF_SIZE := by
      rw [hplen, hl1]; omega
    have hd := min_succ_drop b rest (segLen d) (by omega)
    by_cases hrem : (copySegment d (b :: rest)).seg_remaining > 0
    · rw [segmentBody_need d (b :: rest) out hov hrem,
        segmentBody_need (copySegment d [b]) rest out hov1 (by rw [hc]; exact hrem), hc, hl1, hd]
    · rw [segmentBody_complete d (b :: rest) out hov hrem,
        segmentBody_complete (copySegment d [b]) rest out hov1 (by rw [hc]; exact hrem),
        hc, hl1, hd]

/-- The segment loop on an input `b :: rest`, compared with the loop on the single byte `b`.
Either the byte completes a segment and the loop goes on with `rest`; or the byte is stored
in an unfinished segment and the loop goes on with `rest`; or the loop overflows before it
takes the byte; or all segments left are empty and the loop ends before it takes the byte. -/
theorem segmentLoop_cons (b : Byte) (rest : List Byte) (hne : rest ≠ []) (n : Nat) :
    ∀ (d : Demuxer) (out : List Call), SegInv d → n = d.seg_count - d.seg_index →
    (∃ d2 out2, SegInv d2 ∧ segmentLoop n d [b] out = Flow.brk ⟨d2, [], out2⟩ ∧
      segmentLoop n d (b :: rest) out =
        segmentLoop (d2.seg_count - d2.seg_index) d2 rest out2) ∨
    (∃ d1 out1, SegInv d1 ∧ d1.seg_index < d1.seg_count ∧
      segmentLoop n d [b] out = Flow.ret Exit.need_data ⟨d1, [], out1⟩ ∧
      segmentLoop n d (b :: rest) out =
        segmentLoop (d1.seg_count - d1.seg_index) d1 rest out1) ∨
    (∃ d2 out2, segmentLoop n d [b] out = Flow.ret Exit.overflow ⟨d2, [b], out2⟩ ∧
      segmentLoop n d (b :: rest) out = Flow.ret Exit.overflow ⟨d2, b :: rest, out2⟩) ∨
    (∃ d2 out2, SegInv d2 ∧ d2.seg_index = d2.seg_count ∧
      segmentLoop n d [b] out = Flow.brk ⟨d2, [b], out2⟩ ∧
      segmentLoop n d (b :: rest) out = Flow.brk ⟨d2, b :: rest, out2⟩) := by
  induction n with
  | zero =>
    intro d out h hn
    have := h.idx_le
    exact Or.inr (Or.inr (Or.inr ⟨d, out, h, by omega, rfl, rfl⟩))
  | succ n ih =>
    intro d out h hn
    have hlt : d.seg_index < d.seg_count := by omega
    have hg1 : d.seg_index < d.seg_count ∧ [b] ≠ [] := ⟨hlt, by simp⟩
    have hg2 : d.seg_index < d.seg_count ∧ b :: rest ≠ [] := ⟨hlt, by simp⟩
    simp only [segmentLoop]
    rw [if_pos hg1, if_pos hg2]
    by_cases hov : d.packet_len + segLen d > PACKET_BUF_SIZE
    · rw [segmentBody_overflow d [b] out hov, segmentBody_overflow d (b :: rest) out hov]
      exact Or.inr (Or.inr (Or.inl ⟨_, _, rfl, rfl⟩))
    · by_cases h0 : segLen d = 0
      · rw [segmentBody_zero d [b] out h h0, segmentBody_zero d (b :: rest) out h h0]
        simp only []
        have hc := copySegment_inv d [] h hov
        have hrem : (copySegment d []).seg_remaining = 0 := by
          have e := segLen_eq d h
          simp only [copySegment]
          omega
        obtain ⟨a1, a2, _, a4⟩ := segmentComplete_inv (copySegment d []) out hc hlt hrem
        have hidx : (copySegment d []).seg_index = d.seg_index := rfl
        have hcnt : (copySegment d []).seg_count = d.seg_count := rfl
        exact ih _ _ a1 (by rw [a2, a4, hidx, hcnt]; omega)
      · by_cases h1 : segLen d = 1
        · rw [segmentBody_one d b [] out h h1 hov, segmentBody_one d b rest out h h1 hov]
          simp only []
          have hc := copySegment_inv d [b] h hov
          have hrem : (copySegment d [b]).seg_remaining = 0 := by
            have e := segLen_eq d h
            have hm : min [b].length (segLen d) = 1 := by
              rw [List.length_cons, List.length_nil]; omega
            rw [copySegment_eq d [b] 1 (segLen d) hm e.symm]
            simp only []
            omega
          obtain ⟨a1, a2, _, a4⟩ := segmentComplete_inv (copySegment d [b]) out hc hlt hrem
          have hidx : (copySegment d [b]).seg_index = d.seg_index := rfl
          have hcnt : (copySegment d [b]).seg_count = d.seg_count := rfl
          refine Or.inl ⟨_, _, a1, segmentLoop_nil _ _ _, ?_⟩
          rw [a2, a4, hidx, hcnt]
          congr 1
          omega
        · have h2 : 2 ≤ segLen d := by omega
          obtain ⟨b1, b2⟩ := segmentBody_more d b rest out h h2 hov
          rw [b1, b2]
          simp only []
          have hc := copySegment_inv d [b] h hov
          have hidx : (copySegment d [b]).seg_index = d.seg_index := rfl
          have hcnt : (copySegment d [b]).seg_count = d.seg_count := rfl
          refine Or.inr (Or.inl ⟨copySegment d [b], out, hc, by rw [hidx, hcnt]; exact hlt, rfl, ?_⟩)
          rw [hidx, hcnt, ← hn]
          simp only [segmentLoop]
          rw [if_pos ⟨by rw [hidx, hcnt]; exact hlt, hne⟩]

/-- The same for the whole `PARSE_DATA` block. -/
theorem parseData_cons (b : Byte) (rest : List Byte) (hne : rest ≠ []) (d : Demuxer)
    (out : List Call) (hinv : StateInv d) (hs : d.state_ = ParseState.PARSE_DATA) :
    (∃ d2 out2, parseData d [b] out = Flow.brk ⟨d2, [], out2⟩ ∧
      parseData d (b :: rest) out = Flow.brk ⟨d2, rest, out2⟩) ∨
    (∃ d1 out1 e, e ≠ Exit.overflow ∧ d1.state_ = ParseState.PARSE_DATA ∧
      (parseData d [b] out = Flow.ret e ⟨d1, [], out1⟩ ∨
        parseData d [b] out = Flow.brk ⟨d1, [], out1⟩) ∧
      parseData d (b :: rest) out = parseData d1 rest out1) ∨
    (∃ d2 out2, parseData d [b] out = Flow.ret Exit.overflow ⟨d2, [b], out2⟩ ∧
      parseData d (b :: rest) out = Flow.ret Exit.overflow ⟨d2, b :: rest, out2⟩) ∨
    (∃ d2 out2, d2.state_ = ParseState.FIND_PAGE ∧
      parseData d [b] out = Flow.brk ⟨d2, [b], out2⟩ ∧
      parseData d (b :: rest) out = Flow.brk ⟨d2, b :: rest, out2⟩) := by
  obtain ⟨hseg, _⟩ := SegInv_of_StateInv d hinv hs
  unfold parseData
  rcases segmentLoop_cons b rest hne (d.seg_count - d.seg_index) d out hseg rfl with
    ⟨d2, out2, i1, i2, i3⟩ | ⟨d1, out1, i1, i2, i3, i4⟩ | ⟨d2, out2, i1, i2⟩ |
    ⟨d2, out2, i1, i2, i3, i4⟩
  · rw [i2, i3]
    simp only []
    by_cases hq : d2.seg_index = d2.seg_count
    · left
      rw [if_pos hq, segmentLoop_fuel _ d2 rest out2 (by omega)]
      simp only []
      rw [if_pos hq]
      exact ⟨_, _, rfl, rfl⟩
    · right; left
      rw [if_neg hq]
      exact ⟨d2, out2, Exit.need_data, by simp, i1.st, Or.inr rfl, rfl⟩
  · rw [i3, i4]
    right; left
    exact ⟨d1, out1, Exit.need_data, by simp, i1.st, Or.inl rfl, rfl⟩
  · rw [i1, i2]
    right; right; left
    exact ⟨_, _, rfl, rfl⟩
  · rw [i3, i4]
    simp only []
    rw [if_pos i2, if_pos i2]
    right; right; right
    exact ⟨_, _, rfl, rfl, rfl⟩

/-! ## Chunking invariance: runs that end alike -/

theorem Eval_total (r : Run) (h : StateInv r.d) : ∃ res, Eval r res ∧ ExitOK res := by
  obtain ⟨res, h1, h2⟩ := ProcessLoop_total (passes r.d r.rest + 1) r h (by omega)
  exact ⟨res, ⟨_, h1⟩, h2⟩

theorem RunAlike_refl (r : Run) : RunAlike r r := ⟨Alike_refl _, rfl, rfl⟩

theorem ResAlike_refl (res : Exit × Run) : ResAlike res res := ⟨Iff.rfl, RunAlike_refl _⟩

theorem RunsAlike_refl (r : Run) (h : StateInv r.d) : RunsAlike r r := by
  obtain ⟨res, h1, _⟩ := Eval_total r h
  exact ⟨res, res, h1, h1, ResAlike_refl _⟩

theorem RunsAlike_of_RunAlike (r r1 : Run) (h : RunAlike r r1) (hinv : StateInv r.d) :
    RunsAlike r r1 := by
  obtain ⟨res, ⟨fuel, hf⟩, _⟩ := Eval_total r hinv
  obtain ⟨res1, h1, h2, h3⟩ := ProcessLoop_alike fuel r r1 res h hinv hf
  exact ⟨res, res1, ⟨fuel, hf⟩, ⟨fuel, h1⟩, ⟨by rw [h2], h3⟩⟩

theorem RunsAlike_left (r r2 r1 : Run) (h : ∀ res, Eval r2 res → Eval r res)
    (ha : RunsAlike r2 r1) : RunsAlike r r1 := by
  obtain ⟨res, res1, h1, h2, h3⟩ := ha
  exact ⟨res, res1, h _ h1, h2, h3⟩

theorem RunsAlike_right (r r1 r2 : Run) (h : ∀ res, Eval r2 res → Eval r1 res)
    (ha : RunsAlike r r2) : RunsAlike r r1 := by
  obtain ⟨res, res1, h1, h2, h3⟩ := ha
  exact ⟨res, res1, h1, h _ h2, h3⟩

theorem Eval_same_dispatch (r r1 : Run) (res : Exit × Run) (h : r.rest ≠ []) (h1 : r1.rest ≠ [])
    (hd : dispatch r.d r.rest r.out = dispatch r1.d r1.rest r1.out) (he : Eval r1 res) :
    Eval r res := by
  obtain ⟨fuel, hf⟩ := he
  cases fuel with
  | zero => simp [ProcessLoop] at hf
  | succ n =>
    refine ⟨n + 1, ?_⟩
    rw [ProcessLoop_succ, if_neg h1] at hf
    rw [ProcessLoop_succ, if_neg h, hd]
    exact hf

theorem Eval_of_ret (r r1 : Run) (e : Exit) (h : r.rest ≠ [])
    (hd : dispatch r.d r.rest r.out = Flow.ret e r1) : Eval r (e, r1) :=
  (Eval_ret r r1 e _ h hd).mpr rfl

theorem Eval_of_brk_nil (r r1 : Run) (h : r.rest ≠ []) (h1 : r1.rest = [])
    (hd : dispatch r.d r.rest r.out = Flow.brk r1) : Eval r (Exit.done, r1) :=
  (Eval_brk r r1 _ h hd).mpr (Eval_nil r1 h1)

/-- Two objects that hold the same window of a page search agree up to dead header bytes. -/
theorem Searching_alike (d0 a b : Demuxer) (w : List Byte) (hs : d0.state_ = ParseState.FIND_PAGE)
    (ha : Searching d0 w a) (hb : Searching d0 w b) : Alike a b := by
  obtain ⟨hw, h1, rfl, e1⟩ := ha
  obtain ⟨_, h2, rfl, e2⟩ := hb
  refine ⟨rfl, ?_⟩
  intro i hi
  rcases hi with ⟨_, hq⟩ | ⟨hq, _⟩
  · simp only [] at hq ⊢
    have hi : i < w.length := by omega
    have e := e2.trans e1.symm
    simp only [readBuf] at e
    have := congrArg (fun l => l[i]?) e
    simp only [List.getElem?_map, List.getElem?_range hi, Option.map_some'] at this
    exact Option.some.inj this
  · simp only [] at hq
    rw [hs] at hq
    exact absurd hq (by simp)

/-- A list containing the magic is cut at its first occurrence. -/
theorem first_magic (l : List Byte) (h : OggS <:+: l) :
    ∃ pre post, l = pre ++ OggS ++ post ∧ ¬ OggS <:+: pre ++ OggS.take 3 := by
  induction l with
  | nil =>
    obtain ⟨s, t, e⟩ := h
    have := congrArg List.length e
    simp [OggS] at this
  | cons x t ih =>
    by_cases hp : OggS <+: x :: t
    · obtain ⟨post, e⟩ := hp
      exact ⟨[], post, by rw [← e]; rfl, not_infix_short _ (by simp [OggS])⟩
    · have ht : OggS <:+: t := by
        rcases List.infix_cons_iff.mp h with h | h
        · exact absurd h hp
        · exact h
      obtain ⟨pre, post, e, hno⟩ := ih ht
      refine ⟨x :: pre, post, by rw [e]; rfl, ?_⟩
      intro hi
      rcases List.infix_cons_iff.mp hi with h1 | h1
      · apply hp
        have : x :: pre ++ OggS.take 3 <+: x :: t := by
          rw [e]
          refine ⟨OggS.drop 3 ++ post, ?_⟩
          simp [OggS]
        exact h1.trans this
      · exact hno h1

theorem ExitOK_not_overflow (res : Exit × Run) (h : ExitOK res) (hr : res.2.rest = []) :
    res.1 ≠ Exit.overflow := by
  intro ho
  rcases h.2 with ⟨h1, _⟩ | ⟨h1, _⟩ | ⟨_, h2, _⟩
  · rw [ho] at h1; cases h1
  · rw [ho] at h1; cases h1
  · exact h2 hr

theorem Eval_not_overflow (r : Run) (res : Exit × Run) (h : StateInv r.d) (he : Eval r res)
    (hr : res.2.rest = []) : res.1 ≠ Exit.overflow := by
  obtain ⟨res1, h1, h2⟩ := Eval_total r h
  rw [Eval_det r res res1 he h1] at hr ⊢
  exact ExitOK_not_overflow res1 h2 hr

theorem Searching_inv (d0 d : Demuxer) (w : List Byte) (h0 : StateInv d0)
    (hs : d0.state_ = ParseState.FIND_PAGE) (h : Searching d0 w d) : StateInv d := by
  obtain ⟨hw, h1, rfl, _⟩ := h
  refine ⟨h0.packet_len_le, h0.rate_default, fun _ => ?_, fun hq => ?_, fun hq => ?_,
    fun hq => ?_⟩
  · simp only []; omega
  · simp only [] at hq; rw [hs] at hq; cases hq
  · simp only [] at hq; rw [hs] at hq; cases hq
  · simp only [] at hq; rw [hs] at hq; cases hq

theorem ConsSplit_nil (d : Demuxer) (b : Byte) (out : List Call) (hinv : StateInv d) :
    ConsSplit d b [] out := by
  obtain ⟨⟨e1, r1⟩, h1, h2⟩ := Eval_total ⟨d, [b], out⟩ hinv
  refine ⟨e1, r1, h1, ?_⟩
  by_cases ho : e1 = Exit.overflow
  · subst ho
    exact Or.inl ⟨rfl, r1, h1, rfl, rfl⟩
  · have hr : r1.rest = [] := by
      rcases h2.2 with ⟨_, h⟩ | ⟨_, h⟩ | ⟨h, _⟩
      · exact h
      · exact h
      · exact absurd h ho
    refine Or.inr ⟨ho, hr, (e1, r1), (Exit.done, ⟨r1.d, [], r1.out⟩), h1, Eval_nil _ rfl, ?_, ?_⟩
    · simp only []
      constructor
      · intro h; cases h
      · intro h; exact absurd h ho
    · exact ⟨Alike_refl _, hr.symm, rfl⟩

/-- The byte completes a unit: the pass on `b :: rest` ends where the pass on `b` ends, with
`rest` left. -/
theorem ConsSplit_of_brk (d : Demuxer) (b : Byte) (rest : List Byte) (out : List Call)
    (hinv : StateInv d) (d2 : Demuxer) (out2 : List Call)
    (h1 : dispatch d [b] out = Flow.brk ⟨d2, [], out2⟩)
    (h2 : dispatch d (b :: rest) out = Flow.brk ⟨d2, rest, out2⟩) : ConsSplit d b rest out := by
  have hi2 : StateInv d2 := ((dispatch_spec d [b] out hinv (by simp)).1 _ h1).1
  refine ⟨Exit.done, ⟨d2, [], out2⟩, Eval_of_brk_nil ⟨d, [b], out⟩ _ (by simp) rfl h1,
    Or.inr ⟨by simp, rfl, ?_⟩⟩
  exact RunsAlike_left _ ⟨d2, rest, out2⟩ _
    (fun res hr => (Eval_brk ⟨d, b :: rest, out⟩ _ res (by simp) h2).mpr hr)
    (RunsAlike_refl _ hi2)

/-- The byte is absorbed: the pass on `b :: rest` is the pass on `rest` from where the pass on
`b` ends. -/
theorem ConsSplit_of_same (d : Demuxer) (b : Byte) (rest : List Byte) (out : List Call)
    (hinv : StateInv d) (hne : rest ≠ []) (d1 : Demuxer) (out1 : List Call) (e : Exit)
    (he : e ≠ Exit.overflow)
    (h1 : dispatch d [b] out = Flow.ret e ⟨d1, [], out1⟩ ∨
      dispatch d [b] out = Flow.brk ⟨d1, [], out1⟩)
    (h2 : dispatch d (b :: rest) out = dispatch d1 rest out1) : ConsSplit d b rest out := by
  have hi1 : StateInv d1 := by
    rcases h1 with h1 | h1
    · exact ((dispatch_spec d [b] out hinv (by simp)).2 _ _ h1).1
    · exact ((dispatch_spec d [b] out hinv (by simp)).1 _ h1).1
  have hstep : RunsAlike ⟨d, b :: rest, out⟩ ⟨d1, rest, out1⟩ :=
    RunsAlike_left _ ⟨d1, rest, out1⟩ _
      (fun res hr => Eval_same_dispatch ⟨d, b :: rest, out⟩ ⟨d1, rest, out1⟩ res (by simp) hne
        h2 hr)
      (RunsAlike_refl _ hi1)
  rcases h1 with h1 | h1
  · exact ⟨e, ⟨d1, [], out1⟩, Eval_of_ret ⟨d, [b], out⟩ _ e (by simp) h1, Or.inr ⟨he, rfl, hstep⟩⟩
  · exact ⟨Exit.done, ⟨d1, [], out1⟩, Eval_of_brk_nil ⟨d, [b], out⟩ _ (by simp) rfl h1,
      Or.inr ⟨by simp, rfl, hstep⟩⟩

/-- The page search with an empty window: scanning `b :: rest` in one call agrees with storing
`b` and matching `rest` against the window. -/
theorem ConsSplit_search (d : Demuxer) (b : Byte) (rest : List Byte) (out : List Call)
    (hinv : StateInv d) (hs : d.state_ = ParseState.FIND_PAGE) (hb : d.bytes_needed = 4) :
    ConsSplit d b rest out := by
  have hstart := Searching_start d hb
  obtain ⟨e1, d1, hw1, hp1⟩ := search_none d hs out [b] [] d hstart
    (not_infix_short _ (by simp))
  rw [List.nil_append, last3_short [b] (by simp)] at hw1
  have hev1 : Eval ⟨d, [b], out⟩ (e1, ⟨d1, [], out⟩) := ⟨2, hp1 2 (by simp)⟩
  have he1 : e1 ≠ Exit.overflow := Eval_not_overflow _ _ hinv hev1 rfl
  have hi1 : StateInv d1 := Searching_inv d d1 _ hinv hs hw1
  refine ⟨e1, ⟨d1, [], out⟩, hev1, Or.inr ⟨he1, rfl, ?_⟩⟩
  by_cases hm : OggS <:+: b :: rest
  · obtain ⟨pre, post, e, hno⟩ := first_magic _ hm
    obtain ⟨c1, hc1, hc2⟩ : ∃ c1, pre ++ OggS = b :: c1 ∧ rest = c1 ++ post := by
      cases pre with
      | nil =>
        simp only [List.nil_append, OggS, List.cons_append, List.cons.injEq] at e
        refine ⟨[103, 103, 83], ?_, ?_⟩
        · rw [e.1]; rfl
        · rw [e.2]; rfl
      | cons x t =>
        simp only [List.cons_append, List.cons.injEq] at e
        refine ⟨t ++ OggS, ?_, ?_⟩
        · rw [e.1]; rfl
        · rw [e.2]
    obtain ⟨h, k, _, hr⟩ := search_first d hs out (pre ++ OggS) post pre [] d hstart
      (by simp) hno
    obtain ⟨h', k', _, hr'⟩ := search_first d hs out c1 post pre [b] d1 hw1
      (by rw [hc1]; rfl) hno
    rw [← e] at hr
    rw [← hc2] at hr'
    have hr2 : ∀ fuel, ProcessLoop (fuel + k) ⟨d, b :: rest, out⟩ =
        ProcessLoop fuel ⟨afterMagic d h, post, out⟩ := hr
    have hr3 : ∀ fuel, ProcessLoop (fuel + k') ⟨d1, rest, out⟩ =
        ProcessLoop fuel ⟨afterMagic d h', post, out⟩ := hr'
    have hin : StateInv (afterMagic d h) := by
      refine ⟨hinv.packet_len_le, hinv.rate_default, fun hq => ?_, fun _ => ?_, fun hq => ?_,
        fun hq => ?_⟩
      · cases hq
      · simp [afterMagic]
      · cases hq
      · cases hq
    have hal : Alike (afterMagic d h) (afterMagic d h') := by
      refine ⟨rfl, ?_⟩
      intro i hi
      rcases hi with ⟨hq, _⟩ | ⟨_, h4, h5⟩
      · cases hq
      · simp only [afterMagic] at h5; omega
    have hra := RunsAlike_of_RunAlike ⟨afterMagic d h, post, out⟩ ⟨afterMagic d h', post, out⟩
      ⟨hal, rfl, rfl⟩ hin
    exact RunsAlike_left _ _ _ (fun res he => Reaches_Eval _ _ res ⟨k, hr2⟩ he)
      (RunsAlike_right _ _ _ (fun res he => Reaches_Eval _ _ res ⟨k', hr3⟩ he) hra)
  · obtain ⟨e2, dS, hwS, hpS⟩ := search_none d hs out (b :: rest) [] d hstart hm
    obtain ⟨e3, dT, hwT, hpT⟩ := search_none d hs out rest [b] d1 hw1 hm
    have hevS : Eval ⟨d, b :: rest, out⟩ (e2, ⟨dS, [], out⟩) := ⟨_, hpS _ (Nat.lt_succ_self _)⟩
    have hevT : Eval ⟨d1, rest, out⟩ (e3, ⟨dT, [], out⟩) := ⟨_, hpT _ (Nat.lt_succ_self _)⟩
    refine ⟨_, _, hevS, hevT, ?_, ?_, rfl, rfl⟩
    · have a2 := Eval_not_overflow _ _ hinv hevS rfl
      have a3 := Eval_not_overflow ⟨d1, rest, out⟩ _ hi1 hevT rfl
      simp only [] at a2 a3 ⊢
      constructor
      · intro hx; exact absurd hx a3
      · intro hx; exact absurd hx a2
    · exact Searching_alike d dS dT _ hs hwS hwT

theorem ConsSplit_nodata (d : Demuxer) (b : Byte) (rest : List Byte) (out : List Call)
    (hinv : StateInv d) (hs : d.state_ ≠ ParseState.PARSE_DATA) : ConsSplit d b rest out := by
  by_cases hne : rest = []
  · subst hne
    exact ConsSplit_nil d b out hinv
  · cases hst : d.state_ with
    | PARSE_DATA => exact absurd hst hs
    | FIND_PAGE =>
      have hd : ∀ x o, dispatch d x o = findPage d x o := by
        intro x o; unfold dispatch; rw [hst]
      obtain ⟨f1, f2⟩ := hinv.find hst
      by_cases h4 : d.bytes_needed = 4
      · exact ConsSplit_search d b rest out hinv hst h4
      · by_cases h1 : d.bytes_needed = 1
        · obtain ⟨d2, a1, a2⟩ := findPage_last d b rest out h1
          exact ConsSplit_of_brk d b rest out hinv d2 out (by rw [hd, a1]) (by rw [hd, a2])
        · obtain ⟨a1, a2⟩ := findPage_cons d b rest out (by omega) (by omega)
          refine ConsSplit_of_same d b rest out hinv hne _ out Exit.need_data (by simp)
            (Or.inl (by rw [hd, a1])) ?_
          rw [hd, a2]
          unfold dispatch
          simp only [hst]
    | PARSE_HEADER =>
      have hd : ∀ x o, dispatch d x o = parseHeader d x o := by
        intro x o; unfold dispatch; rw [hst]
      obtain ⟨_, f1, _⟩ := hinv.hdr hst
      by_cases h1 : d.bytes_needed = 1
      · obtain ⟨d2, a1, a2⟩ := parseHeader_last d b rest out h1
        exact ConsSplit_of_brk d b rest out hinv d2 out (by rw [hd, a1]) (by rw [hd, a2])
      · obtain ⟨a1, a2⟩ := parseHeader_cons d b rest out (by omega)
        refine ConsSplit_of_same d b rest out hinv hne _ out Exit.need_data (by simp)
          (Or.inl (by rw [hd, a1])) ?_
        rw [hd, a2]
        unfold dispatch
        simp only [hst]
    | PARSE_SEGMENTS =>
      have hd : ∀ x o, dispatch d x o = parseSegments d x o := by
        intro x o; unfold dispatch; rw [hst]
      obtain ⟨_, f1, _⟩ := hinv.segs hst
      by_cases h1 : d.bytes_needed = 1
      · obtain ⟨d2, a1, a2⟩ := parseSegments_last d b rest out h1
        exact ConsSplit_of_brk d b rest out hinv d2 out (by rw [hd, a1]) (by rw [hd, a2])
      · obtain ⟨a1, a2⟩ := parseSegments_cons d b rest out (by omega)
        refine ConsSplit_of_same d b rest out hinv hne _ out Exit.need_data (by simp)
          (Or.inl (by rw [hd, a1])) ?_
        rw [hd, a2]
        unfold dispatch
        simp only [hst]

/-- A call on `b :: rest` against a call on `b` followed by the loop on `rest`, from any
state the object can be in. -/
theorem cons_split (d : Demuxer) (b : Byte) (rest : List Byte) (out : List Call)
    (hinv : StateInv d) : ConsSplit d b rest out := by
  by_cases hs : d.state_ = ParseState.PARSE_DATA
  · by_cases hne : rest = []
    · subst hne
      exact ConsSplit_nil d b out hinv
    · have hd : ∀ x o, dispatch d x o = parseData d x o := by
        intro x o; unfold dispatch; rw [hs]
      rcases parseData_cons b rest hne d out hinv hs with
        ⟨d2, out2, a1, a2⟩ | ⟨d1, out1, e, he, hs1, a1, a2⟩ | ⟨d2, out2, a1, a2⟩ |
        ⟨d2, out2, hs2, a1, a2⟩
      · exact ConsSplit_of_brk d b rest out hinv d2 out2 (by rw [hd, a1]) (by rw [hd, a2])
      · refine ConsSplit_of_same d b rest out hinv hne d1 out1 e he ?_ ?_
        · rcases a1 with a1 | a1
          · exact Or.inl (by rw [hd, a1])
          · exact Or.inr (by rw [hd, a1])
        · rw [hd, a2]
          unfold dispatch
          rw [hs1]
      · exact ⟨Exit.overflow, ⟨d2, [b], out2⟩,
          Eval_of_ret ⟨d, [b], out⟩ _ _ (by simp) (by rw [hd, a1]),
          Or.inl ⟨rfl, ⟨d2, b :: rest, out2⟩,
            Eval_of_ret ⟨d, b :: rest, out⟩ _ _ (by simp) (by rw [hd, a2]), rfl, rfl⟩⟩
      · have hb1 : dispatch d [b] out = Flow.brk ⟨d2, [b], out2⟩ := by rw [hd, a1]
        have hb2 : dispatch d (b :: rest) out = Flow.brk ⟨d2, b :: rest, out2⟩ := by rw [hd, a2]
        have hi2 : StateInv d2 := ((dispatch_spec d [b] out hinv (by simp)).1 _ hb1).1
        obtain ⟨e1, r1, h1, h2⟩ := ConsSplit_nodata d2 b rest out2 hi2 (by rw [hs2]; simp)
        refine ⟨e1, r1, (Eval_brk ⟨d, [b], out⟩ _ _ (by simp) hb1).mpr h1, ?_⟩
        rcases h2 with ⟨ho, r, hr, hr1, hr2⟩ | ⟨ho, hr, ha⟩
        · exact Or.inl ⟨ho, r, (Eval_brk ⟨d, b :: rest, out⟩ _ _ (by simp) hb2).mpr hr, hr1, hr2⟩
        · exact Or.inr ⟨ho, hr, RunsAlike_left _ _ _
            (fun res he => (Eval_brk ⟨d, b :: rest, out⟩ _ res (by simp) hb2).mpr he) ha⟩
  · exact ConsSplit_nodata d b rest out hinv hs

/-! ## Chunking invariance: a chunk fed byte by byte -/

theorem Eval_of_Process (d : Demuxer) (data : List Byte) (res : Exit × Run)
    (h : Process d data = some res) : Eval ⟨d, data, []⟩ res := ⟨_, h⟩

theorem bytewise_cons (d : Demuxer) (b : Byte) (rest : List Byte) (e : Exit) (r : Run)
    (h : Process d [b] = some (e, r)) (he : e ≠ Exit.overflow) :
    bytewise d (b :: rest) = (bytewise r.d rest).map (fun x => (x.1, r.out ++ x.2)) := by
  simp only [bytewise, h]
  rw [if_neg he]
  cases bytewise r.d rest with
  | none => rfl
  | some x => rfl

theorem bytewise_cons_some (d : Demuxer) (b : Byte) (rest : List Byte) (d1 : Demuxer)
    (o : List Call) (hinv : StateInv d) (h : bytewise d (b :: rest) = some (d1, o)) :
    ∃ e r o1, Process d [b] = some (e, r) ∧ e ≠ Exit.overflow ∧ r.rest = [] ∧ StateInv r.d ∧
      bytewise r.d rest = some (d1, o1) ∧ o = r.out ++ o1 := by
  obtain ⟨⟨e, r⟩, hp, hok⟩ := Process_total d [b] hinv
  by_cases he : e = Exit.overflow
  · simp only [bytewise, hp] at h
    rw [if_pos he] at h
    cases h
  · rw [bytewise_cons d b rest e r hp he] at h
    have hr : r.rest = [] := by
      rcases hok.2 with ⟨_, h⟩ | ⟨_, h⟩ | ⟨h, _⟩
      · exact h
      · exact h
      · exact absurd h he
    cases hb : bytewise r.d rest with
    | none => rw [hb] at h; cases h
    | some x =>
      rw [hb] at h
      simp only [Option.map_some', Option.some.injEq, Prod.mk.injEq] at h
      exact ⟨e, r, x.2, hp, he, hr, hok.1, by rw [← h.1, hb], h.2.symm⟩

/-- One call on `data` that does not overflow, against `data` fed byte by byte: the same
invocations, and objects that agree up to dead header bytes. -/
theorem Process_bytewise (data : List Byte) : ∀ (d : Demuxer), StateInv d →
    (∀ e r, Process d data = some (e, r) → e ≠ Exit.overflow →
      ∃ d1, bytewise d data = some (d1, r.out) ∧ Alike r.d d1 ∧ r.rest = []) ∧
    (∀ d1 o, bytewise d data = some (d1, o) →
      ∃ e r, Process d data = some (e, r) ∧ e ≠ Exit.overflow ∧ r.out = o ∧ Alike r.d d1 ∧
        r.rest = []) := by
  induction data with
  | nil =>
    intro d hinv
    constructor
    · intro e r hp he
      have : Process d [] = some (Exit.done, ⟨d, [], []⟩) := rfl
      rw [this] at hp
      cases hp
      exact ⟨d, rfl, Alike_refl _, rfl⟩
    · intro d1 o hb
      cases hb
      exact ⟨Exit.done, ⟨d, [], []⟩, rfl, by simp, rfl, Alike_refl _, rfl⟩
  | cons b rest ih =>
    intro d hinv
    obtain ⟨e1, r1, hev1, hcs⟩ := cons_split d b rest [] hinv
    have hp1 : Process d [b] = some (e1, r1) := Process_of_Eval d [b] _ hinv hev1
    have hi1 : StateInv r1.d := by
      obtain ⟨res, h1, h2⟩ := Process_total d [b] hinv
      rw [hp1] at h1
      cases h1
      exact h2.1
    obtain ⟨⟨e0, r0⟩, hp0, hok0⟩ := Process_total r1.d rest hi1
    have hev0 : Eval ⟨r1.d, rest, r1.out⟩ (e0, ⟨r0.d, r0.rest, r1.out ++ r0.out⟩) := by
      have := Eval_out r1.out r1.d rest [] (e0, r0) (Eval_of_Process _ _ _ hp0)
      rw [List.append_nil] at this
      exact this
    obtain ⟨ih1, ih2⟩ := ih r1.d hi1
    constructor
    · intro e r hp he
      rcases hcs with ⟨ho, r2, hr2, _⟩ | ⟨ho, hr1, res, res1, h1, h2, h3⟩
      · have := Eval_det _ _ _ (Eval_of_Process _ _ _ hp) hr2
        simp only [Prod.mk.injEq] at this
        exact absurd this.1 he
      · have e1' := Eval_det _ _ _ h1 (Eval_of_Process _ _ _ hp)
        have e2' := Eval_det _ _ _ h2 hev0
        subst e1' e2'
        have he0 : e0 ≠ Exit.overflow := fun hx => he (h3.overflow_iff.mp hx)
        obtain ⟨d1, j1, j2, j3⟩ := ih1 e0 r0 hp0 he0
        refine ⟨d1, ?_, Alike_trans h3.run_alike.d_alike j2, ?_⟩
        · rw [bytewise_cons d b rest e1 r1 hp1 ho, j1]
          simp only [Option.map_some', Option.some.injEq, Prod.mk.injEq, true_and]
          exact h3.run_alike.out_eq
        · rw [← h3.run_alike.rest_eq]
          exact j3
    · intro d1 o hb
      obtain ⟨e, r, o1, q1, q2, q3, q4, q5, q6⟩ := bytewise_cons_some d b rest d1 o hinv hb
      rw [hp1] at q1
      cases q1
      obtain ⟨e0', r0', j1, j2, j3, j4, j5⟩ := ih2 d1 o1 q5
      rw [hp0] at j1
      cases j1
      rcases hcs with ⟨ho, _⟩ | ⟨ho, hr1, res, res1, h1, h2, h3⟩
      · exact absurd ho q2
      · have e2' := Eval_det _ _ _ h2 hev0
        subst e2'
        refine ⟨res.1, res.2, Process_of_Eval d (b :: rest) _ hinv h1, ?_, ?_, ?_, ?_⟩
        · intro hx
          exact j2 (h3.overflow_iff.mpr hx)
        · rw [q6, ← j3]
          exact h3.run_alike.out_eq.symm
        · exact Alike_trans h3.run_alike.d_alike j4
        · rw [← h3.run_alike.rest_eq]
          exact j5

theorem bytewise_inv (data : List Byte) : ∀ (d d1 : Demuxer) (o : List Call), StateInv d →
    bytewise d data = some (d1, o) → StateInv d1 := by
  induction data with
  | nil => intro d d1 o hinv h; cases h; exact hinv
  | cons b rest ih =>
    intro d d1 o hinv h
    obtain ⟨e, r, o1, _, _, _, q4, q5, _⟩ := bytewise_cons_some d b rest d1 o hinv h
    exact ih r.d d1 o1 q4 q5

theorem bytewise_append (a : List Byte) : ∀ (b : List Byte) (d d2 : Demuxer) (o : List Call),
    StateInv d → bytewise d (a ++ b) = some (d2, o) →
    ∃ d1 o1 o2, bytewise d a = some (d1, o1) ∧ bytewise d1 b = some (d2, o2) ∧ o = o1 ++ o2 := by
  induction a with
  | nil => intro b d d2 o _ h; exact ⟨d, [], o, rfl, h, rfl⟩
  | cons x a ih =>
    intro b d d2 o hinv h
    rw [List.cons_append] at h
    obtain ⟨e, r, o1, q1, q2, q3, q4, q5, q6⟩ := bytewise_cons_some d x (a ++ b) d2 o hinv h
    obtain ⟨d1, u1, u2, j1, j2, j3⟩ := ih b r.d d2 o1 q4 q5
    refine ⟨d1, r.out ++ u1, u2, ?_, j2, ?_⟩
    · rw [bytewise_cons d x a e r q1 q2, j1]
      rfl
    · rw [q6, j3, List.append_assoc]

theorem bytewise_alike (data : List Byte) : ∀ (d d1 dn : Demuxer) (o : List Call),
    Alike d d1 → StateInv d → bytewise d data = some (dn, o) →
    ∃ dm, bytewise d1 data = some (dm, o) ∧ Alike dn dm := by
  induction data with
  | nil =>
    intro d d1 dn o ha _ h
    cases h
    exact ⟨d1, rfl, ha⟩
  | cons b rest ih =>
    intro d d1 dn o ha hinv h
    obtain ⟨e, r, o1, q1, q2, q3, q4, q5, q6⟩ := bytewise_cons_some d b rest dn o hinv h
    obtain ⟨res1, h1, h2, h3⟩ := ProcessLoop_alike _ ⟨d, [b], []⟩ ⟨d1, [b], []⟩ (e, r)
      ⟨ha, rfl, rfl⟩ hinv q1
    have hp1 : Process d1 [b] = some (res1.1, res1.2) := h1
    obtain ⟨dm, j1, j2⟩ := ih r.d res1.2.d dn o1 h3.d_alike q4 q5
    refine ⟨dm, ?_, j2⟩
    rw [bytewise_cons d1 b rest res1.1 res1.2 hp1 (by rw [h2]; exact q2), j1, q6, h3.out_eq]
    rfl

/-- Chunks fed call by call against their concatenation fed byte by byte. -/
theorem feed_bytewise (chunks : List (List Byte)) : ∀ (d d1 : Demuxer) (o : List Call),
    StateInv d → bytewise d chunks.flatten = some (d1, o) →
    ∃ dn, feed d chunks = some (dn, o, chunks.map List.length) ∧ Alike dn d1 := by
  induction chunks with
  | nil =>
    intro d d1 o _ h
    cases h
    exact ⟨d, rfl, Alike_refl _⟩
  | cons c cs ih =>
    intro d d1 o hinv h
    rw [List.flatten_cons] at h
    obtain ⟨d2, o1, o2, h1, h2, h3⟩ := bytewise_append c cs.flatten d d1 o hinv h
    obtain ⟨e, r, p1, p2, p3, p4, p5⟩ := (Process_bytewise c d hinv).2 d2 o1 h1
    have hi2 : StateInv d2 := bytewise_inv c d d2 o1 hinv h1
    obtain ⟨dm, j1, j2⟩ := bytewise_alike cs.flatten d2 r.d d1 o2 (Alike_symm p4) hi2 h2
    have hir : StateInv r.d := StateInv_alike (Alike_symm p4) hi2
    obtain ⟨dn, k1, k2⟩ := ih r.d dm o2 hir j1
    refine ⟨dn, ?_, Alike_trans k2 (Alike_symm j2)⟩
    rw [feed_cons d c cs e r dn o2 _ p1 k1, h3, p3]
    simp [Run.processed, p5]

/-- Chunking invariance for any input: if one call on the concatenation of the chunks does
not take the overflow branch, the chunks fed in order give the same invocations in the same
order, every call consumes its whole chunk, and the final objects agree up to dead header
bytes. -/
theorem feed_flatten (d : Demuxer) (chunks : List (List Byte)) (e : Exit) (r : Run)
    (hinv : StateInv d) (hp : Process d chunks.flatten = some (e, r))
    (he : e ≠ Exit.overflow) :
    ∃ dn, feed d chunks = some (dn, r.out, chunks.map List.length) ∧ Alike dn r.d := by
  obtain ⟨d1, h1, h2, _⟩ := (Process_bytewise chunks.flatten d hinv).1 e r hp he
  obtain ⟨dn, k1, k2⟩ := feed_bytewise chunks d d1 r.out hinv h1
  exact ⟨dn, k1, Alike_trans k2 (Alike_symm h2)⟩

/-! ## Claim C1 -/

/-- The bytes a page starts with belong to its first packet, or to the one it leaves open. -/
theorem lacing_acc_le (N : Nat) (t : List Byte) : ∀ (body acc : List Byte),
    (∀ q ∈ (lacing t body acc).1, q.length ≤ N) → (lacing t body acc).2.length ≤ N →
    acc.length ≤ N := by
  induction t with
  | nil => intro body acc _ h; exact h
  | cons s t ih =>
    intro body acc h1 h2
    by_cases hs : s = 255
    · subst hs
      rw [lacing_cons_continue t body acc] at h1 h2
      have := ih _ _ h1 h2
      rw [List.length_append] at this
      omega
    · rw [lacing_cons_end s t body acc hs] at h1
      have := h1 _ (List.mem_cons_self _ _)
      rw [List.length_append] at this
      omega

theorem packetsOf_acc_le (N : Nat) (ps : List Page) : ∀ (acc : List Byte),
    (∀ q ∈ (packetsOf acc ps).1, q.length ≤ N) → (packetsOf acc ps).2.length ≤ N →
    acc.length ≤ N := by
  induction ps with
  | nil => intro acc _ h; exact h
  | cons p ps ih =>
    intro acc h1 h2
    simp only [packetsOf] at h1 h2
    apply lacing_acc_le N p.table p.body acc
    · intro q hq
      exact h1 q (List.mem_append_left _ hq)
    · exact ih _ (fun q hq => h1 q (List.mem_append_right _ hq)) h2

/-- A page whose packets (the open one included) all have at most 8192 bytes satisfies the
capacity rule. -/
theorem Fits_of_lacing (t : List Byte) : ∀ (body acc : List Byte),
    body.length = (t.map Fin.val).sum →
    (∀ q ∈ (lacing t body acc).1, q.length ≤ PACKET_BUF_SIZE) →
    (lacing t body acc).2.length ≤ PACKET_BUF_SIZE → Fits acc.length t := by
  induction t with
  | nil => intro body acc _ _ _; trivial
  | cons s t ih =>
    intro body acc hb h1 h2
    rw [List.map_cons, List.sum_cons] at hb
    have htl : (body.take s.val).length = s.val := by
      rw [List.length_take]; omega
    have hdl : (body.drop s.val).length = (t.map Fin.val).sum := by
      rw [List.length_drop]; omega
    by_cases hs : s = 255
    · subst hs
      have e255 : ((255 : Byte) : Nat) = 255 := rfl
      rw [e255] at htl hdl
      rw [lacing_cons_continue t body acc] at h1 h2
      have hacc := lacing_acc_le _ t _ _ h1 h2
      have := ih _ _ hdl h1 h2
      rw [List.length_append, htl] at this hacc
      exact ⟨hacc, by rw [if_pos rfl]; exact this⟩
    · rw [lacing_cons_end s t body acc hs] at h1 h2
      have hq := h1 _ (List.mem_cons_self _ _)
      rw [List.length_append, htl] at hq
      have := ih (body.drop s.val) [] hdl (fun q hq => h1 q (List.mem_cons_of_mem _ hq)) h2
      exact ⟨hq, by rw [if_neg hs]; exact this⟩

theorem streamOf_cons (p : Page) (ps : List Page) : streamOf (p :: ps) = p.bytes ++ streamOf ps := by
  simp [streamOf]

/-- On a valid stream followed by more input, the loop takes in page after page and stands
in `FIND_PAGE` in front of what follows. -/
theorem stream_run (tail : List Byte) (htail : tail ≠ []) (ps : List Page) :
    ∀ (d : Demuxer) (acc : List Byte) (out : List Call),
      d.state_ = ParseState.FIND_PAGE → d.bytes_needed = 4 → d.packet_len = acc.length →
      readBuf d.packet_buf acc.length = acc → (∀ p ∈ ps, p.WF) →
      (∀ q ∈ (packetsOf acc ps).1, q.length ≤ PACKET_BUF_SIZE) →
      (packetsOf acc ps).2.length ≤ PACKET_BUF_SIZE →
      ∃ d1 out1, Reaches ⟨d, streamOf ps ++ tail, out⟩ ⟨d1, tail, out1⟩ ∧
        d1.state_ = ParseState.FIND_PAGE ∧ d1.bytes_needed = 4 := by
  induction ps with
  | nil =>
    intro d acc out hs hb _ _ _ _ _
    exact ⟨d, out, Reaches_refl _, hs, hb⟩
  | cons p ps ih =>
    intro d acc out hs hb hl hbuf hwf h1 h2
    simp only [packetsOf] at h1 h2
    have hwfp := hwf p (List.mem_cons_self _ _)
    have hopen := packetsOf_acc_le _ ps _ (fun q hq => h1 q (List.mem_append_right _ hq)) h2
    have hfit : Fits acc.length p.table :=
      Fits_of_lacing p.table p.body acc hwfp.2.2
        (fun q hq => h1 q (List.mem_append_left _ hq)) hopen
    have hne : streamOf ps ++ tail ≠ [] := by
      intro h
      exact htail (List.append_eq_nil.mp h).2
    obtain ⟨d1, out1, k, _, hr, hap⟩ := page_run d p (streamOf ps ++ tail) acc out hs hb hwfp hl
      hbuf hfit (Or.inl hne)
    obtain ⟨d2, out2, hr2, hs2, hb2⟩ := ih d1 _ out1 hap.state_eq hap.bytes_needed_eq
      hap.packet_len_eq hap.packet_buf_eq (fun q hq => hwf q (List.mem_cons_of_mem _ hq))
      (fun q hq => h1 q (List.mem_append_right _ hq)) h2
    refine ⟨d2, out2, ?_, hs2, hb2⟩
    rw [streamOf_cons, List.append_assoc]
    exact Reaches_trans _ _ _ ⟨k, hr⟩ hr2

/-- One call on a valid stream does not take the overflow branch. -/
theorem valid_no_overflow (d0 : Demuxer) (ps : List Page) (hwf : ∀ p ∈ ps, p.WF)
    (hsize : ∀ q ∈ (packetsOf [] ps).1, q.length ≤ PACKET_BUF_SIZE)
    (hopen : (packetsOf [] ps).2.length ≤ PACKET_BUF_SIZE) :
    ∃ e r, Process (Reset d0) (streamOf ps) = some (e, r) ∧ e ≠ Exit.overflow := by
  have hinv := StateInv_Reset d0
  obtain ⟨d1, out1, hr, hs1, hb1⟩ := stream_run [0] (by simp) ps (Reset d0) [] [] rfl rfl rfl rfl
    hwf hsize hopen
  have hd : dispatch d1 [0] out1 = findPage d1 [0] out1 := by
    unfold dispatch
    rw [hs1]
  have hev := Eval_of_ret ⟨d1, [0], out1⟩ _ _ (by simp)
    (hd.trans (findPage_search_none d1 [0] out1 hb1 (by simp) (not_infix_short _ (by simp))))
  have hp := Process_of_Eval (Reset d0) (streamOf ps ++ [0]) _ hinv (Reaches_Eval _ _ _ hr hev)
  obtain ⟨dn, hb, _, _⟩ := (Process_bytewise _ _ hinv).1 _ _ hp (by simp)
  obtain ⟨d2, o1, o2, h1, _, _⟩ := bytewise_append _ _ _ _ _ hinv hb
  obtain ⟨e, r, q1, q2, _⟩ := (Process_bytewise _ _ hinv).2 _ _ h1
  exact ⟨e, r, q1, q2⟩

/-- C1 (chunking invariance).  The stream is made of well-formed version-0 pages `ps`, and
every packet that the lacing values cut it into, the one left open at its end included, has
at most 8192 bytes.  Then one `Process` call on the whole stream, made on an object that has
just been `Reset`, returns without taking the overflow branch, and for every partition
`chunks` of the stream into consecutive chunks (chunks of one byte and empty chunks
included), feeding the chunks in order to an object that has just been `Reset` invokes the
callback with the same sequence of (packet bytes, sample rate, length) as the single call;
every call consumes its whole chunk, and the two objects agree in the end, but for header
bytes that are overwritten before they are read again. -/
theorem C1_chunking_invariance (d0 : Demuxer) (ps : List Page) (chunks : List (List Byte))
    (hwf : ∀ p ∈ ps, p.WF)
    (hsize : ∀ q ∈ (packetsOf [] ps).1, q.length ≤ PACKET_BUF_SIZE)
    (hopen : (packetsOf [] ps).2.length ≤ PACKET_BUF_SIZE)
    (hpart : chunks.flatten = streamOf ps) :
    ∃ e r dn, Process (Reset d0) (streamOf ps) = some (e, r) ∧ e ≠ Exit.overflow ∧
      feed (Reset d0) chunks = some (dn, r.out, chunks.map List.length) ∧ Alike dn r.d := by
  obtain ⟨e, r, hp, he⟩ := valid_no_overflow d0 ps hwf hsize hopen
  rw [← hpart] at hp
  obtain ⟨dn, h1, h2⟩ := feed_flatten (Reset d0) chunks e r (StateInv_Reset d0) hp he
  rw [hpart] at hp
  exact ⟨e, r, dn, hp, he, h1, h2⟩

theorem flatten_singles (l : List Byte) : (singles l).flatten = l := by
  induction l with
  | nil => rfl
  | cons b t ih =>
    simp only [singles, List.map_cons, List.flatten_cons] at ih ⊢
    rw [ih]
    rfl

theorem threePages_WF : ∀ p ∈ threePages, p.WF := by
  intro p hp
  simp only [threePages, List.mem_cons, List.mem_singleton, List.not_mem_nil, or_false] at hp
  rcases hp with rfl | rfl | rfl <;> exact ⟨rfl, by decide, rfl⟩

theorem C1_chunking_invariance_witness :
    ((∀ p ∈ threePages, p.WF) ∧
      (∀ q ∈ (packetsOf [] threePages).1, q.length ≤ PACKET_BUF_SIZE) ∧
      (packetsOf [] threePages).2.length ≤ PACKET_BUF_SIZE ∧
      (singles (streamOf threePages)).flatten = streamOf threePages) ∧
    ∃ e r dn, Process (Reset (OnDemuxerFinished fresh)) (streamOf threePages) = some (e, r) ∧
      e ≠ Exit.overflow ∧
      feed (Reset (OnDemuxerFinished fresh)) (singles (streamOf threePages)) =
        some (dn, r.out, (singles (streamOf threePages)).map List.length) ∧
      Alike dn r.d :=
  ⟨⟨threePages_WF, by decide, by decide, flatten_singles _⟩,
    C1_chunking_invariance (OnDemuxerFinished fresh) threePages (singles (streamOf threePages))
      threePages_WF (by decide) (by decide) (flatten_singles _)⟩

/-- On the three-page stream the single call and the bytewise feed both make the one
invocation for the audio packet. -/
theorem threePages_calls :
    (Process (Reset (OnDemuxerFinished fresh)) (streamOf threePages)).map (fun x => x.2.out) =
      some [⟨[1, 2, 3], 48000, 3⟩] ∧
    (feed (Reset (OnDemuxerFinished fresh)) (singles (streamOf threePages))).map
      (fun x => x.2.1) = some [⟨[1, 2, 3], 48000, 3⟩] := by
  constructor <;> decide

/-! ## Claim C11 -/

/-- The pass of `PARSE_HEADER` on input that holds all the bytes still missing. -/
theorem parseHeader_complete (d : Demuxer) (x tail : List Byte) (out : List Call)
    (hlen : x.length = d.bytes_needed) :
    ∃ d1, parseHeader d (x ++ tail) out = Flow.brk ⟨d1, tail, out⟩ ∧
      d1.header = memcpy d.header d.data_offset x ∧
      Validated (memcpy d.header d.data_offset x) d1 ∧
      d1.packet_buf = d.packet_buf ∧ d1.packet_len = d.packet_len ∧
      d1.packet_continued = d.packet_continued ∧ d1.head_seen = d.head_seen ∧
      d1.tags_seen = d.tags_seen ∧ d1.sample_rate = d.sample_rate ∧
      d1.on_demuxer_finished_ = d.on_demuxer_finished_ ∧ d1.seg_table = d.seg_table ∧
      d1.seg_remaining = d.seg_remaining := by
  unfold parseHeader
  simp only []
  rw [if_neg (show ¬ (x ++ tail).length < d.bytes_needed by rw [List.length_append]; omega)]
  rw [← hlen, List.take_left, List.drop_left]
  have hb := (memcpy d.header d.data_offset x 26).isLt
  by_cases hv : memcpy d.header d.data_offset x 4 ≠ 0
  · rw [if_pos hv]
    exact ⟨_, rfl, rfl, ⟨fun _ => ⟨rfl, rfl⟩, fun h => absurd h hv, fun h => absurd h hv⟩,
      rfl, rfl, rfl, rfl, rfl, rfl, rfl, rfl, rfl⟩
  · rw [if_neg hv]
    have hv0 : memcpy d.header d.data_offset x 4 = 0 := not_not.mp hv
    by_cases hc : (memcpy d.header d.data_offset x 26).val > 0 ∧
        (memcpy d.header d.data_offset x 26).val ≤ 255
    · rw [if_pos hc]
      exact ⟨_, rfl, rfl, ⟨fun h => absurd hv0 h, fun _ h => by omega,
        fun _ _ => ⟨rfl, rfl, rfl, rfl⟩⟩, rfl, rfl, rfl, rfl, rfl, rfl, rfl, rfl, rfl⟩
    · rw [if_neg hc]
      have hz : (memcpy d.header d.data_offset x 26).val = 0 := by omega
      rw [if_pos hz]
      exact ⟨_, rfl, rfl, ⟨fun h => absurd hv0 h, fun _ _ => ⟨rfl, rfl⟩,
        fun _ h => absurd hz h⟩, rfl, rfl, rfl, rfl, rfl, rfl, rfl, rfl, rfl⟩

theorem Validated_alike (H : Nat → Byte) (d1 dn : Demuxer) (h : Validated H d1)
    (ha : Alike dn d1) : Validated H dn := by
  have e := ha.fields_eq
  have e1 : d1.state_ = dn.state_ := by rw [e]; rfl
  have e2 : d1.bytes_needed = dn.bytes_needed := by rw [e]; rfl
  have e3 : d1.seg_count = dn.seg_count := by rw [e]; rfl
  have e4 : d1.data_offset = dn.data_offset := by rw [e]; rfl
  unfold Validated at h ⊢
  rw [← e1, ← e2, ← e3, ← e4]
  exact h

/-- C11 (header validation).  The object is in `PARSE_HEADER` in a state it can be in
(`StateInv`: `data_offset + bytes_needed = 27`), and the chunks hold together exactly the
header bytes still missing, however they are cut up.  Then every call consumes its chunk
without a callback, and with `H` the header array as completed by those bytes the object is
afterwards: in `FIND_PAGE` with `bytes_needed = 4` if `H[4] ≠ 0`, whatever the segment count;
else in `FIND_PAGE` with `bytes_needed = 4` if `H[26] = 0`; else in `PARSE_SEGMENTS` with
`seg_count = bytes_needed = H[26]` and `data_offset = 0`.  When the header bytes come right
after the magic, `H[4]` and `H[26]` are the first and the last of the 23 bytes fed.  The same
decision is made in the pass that gets the missing bytes followed by more input. -/
theorem C11_header_validation (d : Demuxer) (chunks : List (List Byte)) (hinv : StateInv d)
    (hs : d.state_ = ParseState.PARSE_HEADER)
    (hlen : chunks.flatten.length = d.bytes_needed) :
    (∃ dn, feed d chunks = some (dn, [], chunks.map List.length) ∧
      Validated (memcpy d.header d.data_offset chunks.flatten) dn) ∧
    (d.data_offset = 4 →
      memcpy d.header d.data_offset chunks.flatten 4 = chunks.flatten.getD 0 0 ∧
      memcpy d.header d.data_offset chunks.flatten 26 = chunks.flatten.getD 22 0) ∧
    (∀ tail out, ∃ d1, dispatch d (chunks.flatten ++ tail) out = Flow.brk ⟨d1, tail, out⟩ ∧
      Validated (memcpy d.header d.data_offset chunks.flatten) d1) := by
  obtain ⟨hsum, hbn, hoff⟩ := hinv.hdr hs
  have hd : ∀ x o, dispatch d x o = parseHeader d x o := by
    intro x o; unfold dispatch; rw [hs]
  refine ⟨?_, ?_, ?_⟩
  · obtain ⟨d1, h1, _, h2, _⟩ := parseHeader_complete d chunks.flatten [] [] hlen
    rw [List.append_nil] at h1
    have hne : chunks.flatten ≠ [] := by
      intro h
      rw [h] at hlen
      simp at hlen
      omega
    have hev : Eval ⟨d, chunks.flatten, []⟩ (Exit.done, ⟨d1, [], []⟩) :=
      Eval_of_brk_nil ⟨d, chunks.flatten, []⟩ _ hne rfl ((hd _ _).trans h1)
    have hp := Process_of_Eval d chunks.flatten _ hinv hev
    obtain ⟨dn, k1, k2⟩ := feed_flatten d chunks _ _ hinv hp (by simp)
    exact ⟨dn, k1, Validated_alike _ _ _ h2 k2⟩
  · intro h4
    rw [h4]
    have h23 : chunks.flatten.length = 23 := by omega
    constructor
    · have := memcpy_at d.header 4 chunks.flatten 0 (by omega)
      simpa using this
    · have := memcpy_at d.header 4 chunks.flatten 22 (by omega)
      simpa using this
  · intro tail out
    obtain ⟨d1, h1, _, h2, _⟩ := parseHeader_complete d chunks.flatten tail out hlen
    exact ⟨d1, (hd _ _).trans h1, h2⟩

theorem midHeader_inv : StateInv midHeader := by
  refine ⟨by decide, fun _ => rfl, fun h => ?_, fun _ => ⟨rfl, by decide, by decide⟩,
    fun h => ?_, fun h => ?_⟩ <;> cases h

theorem C11_header_validation_witness :
    (StateInv midHeader ∧ midHeader.state_ = ParseState.PARSE_HEADER ∧
      ([[0, 0, 0], List.replicate 17 0, [2]] : List (List Byte)).flatten.length =
        midHeader.bytes_needed) ∧
    ∃ dn, feed midHeader [[0, 0, 0], List.replicate 17 0, [2]] =
        some (dn, [], [[0, 0, 0], List.replicate 17 0, [2]].map List.length) ∧
      Validated (memcpy midHeader.header midHeader.data_offset
        ([[0, 0, 0], List.replicate 17 0, [2]] : List (List Byte)).flatten) dn :=
  ⟨⟨midHeader_inv, rfl, by decide⟩,
    (C11_header_validation midHeader [[0, 0, 0], List.replicate 17 0, [2]] midHeader_inv rfl
      (by decide)).1⟩

/-- The chunks of the witness end in `PARSE_SEGMENTS` with a segment count of two. -/
theorem midHeader_segments :
    (feed midHeader [[0, 0, 0], List.replicate 17 0, [2]]).map
      (fun x => (x.1.state_, x.1.seg_count, x.1.bytes_needed, x.1.data_offset)) =
      some (ParseState.PARSE_SEGMENTS, 2, 2, 0) := by decide

/-! ## Claim C12 -/

set_option maxRecDepth 100000 in
/-- C12 (synchronous delivery) does not hold on the code.  A freshly reset object with a
callback is fed the "OpusHead" page, the "OpusTags" page and a page with segment table
`[255, 0]` and its 255 body bytes, one call each.  The third call consumes the last data
byte of the 255-byte packet and returns 284, all of its chunk, without a callback, the
object left in `PARSE_DATA` in front of the zero-length segment that closes the packet
(`seg_index = 1` of `seg_count = 2`, 255 bytes accumulated).  The callback is made by the
next call that brings a byte; had that byte been in the same chunk, the callback would have
been made in the third call. -/
theorem C12_deferred_delivery :
    (feed (Reset (OnDemuxerFinished fresh)) deferChunks).map
      (fun x => (x.1.head_seen, x.1.tags_seen, x.2.1, x.2.2)) =
      some (true, true, [], [36, 36, 284]) ∧
    (feed (Reset (OnDemuxerFinished fresh)) deferChunks).map
      (fun x => (x.1.state_, x.1.seg_index, x.1.seg_count, x.1.packet_len)) =
      some (ParseState.PARSE_DATA, 1, 2, 255) ∧
    (feed (Reset (OnDemuxerFinished fresh)) (deferChunks ++ [[79]])).map
      (fun x => (x.2.1, x.2.2)) =
      some ([⟨List.replicate 255 9, 48000, 255⟩], [36, 36, 284, 1]) ∧
    (feed (Reset (OnDemuxerFinished fresh))
      [(headPage (List.replicate 21 0)).bytes, (tagsPage (List.replicate 21 0)).bytes,
        closePage.bytes ++ [79]]).map (fun x => (x.2.1, x.2.2)) =
      some ([⟨List.replicate 255 9, 48000, 255⟩], [36, 36, 285]) := by
  refine ⟨?_, ?_, ?_, ?_⟩ <;> decide

/-! ## States inside a call -/

theorem tableSum_succ (t : Nat → Byte) (n : Nat) :
    tableSum t (n + 1) = tableSum t n + (t n).val := by
  simp [tableSum, List.range_succ]

theorem tableSum_mono (t : Nat → Byte) (n m : Nat) (h : n ≤ m) : tableSum t n ≤ tableSum t m := by
  induction m with
  | zero =>
    have : n = 0 := by omega
    subst this
    exact le_refl _
  | succ m ih =>
    by_cases hn : n = m + 1
    · subst hn; exact le_refl _
    · rw [tableSum_succ]
      have := ih (by omega)
      omega

theorem FlightInv_Reset (d : Demuxer) : FlightInv (Reset d) := by
  refine ⟨fun _ h => ?_, fun h => ?_, fun _ => rfl, fun h => ?_, ?_, fun h => ?_⟩
  · simp [Reset] at h
  · cases h
  · cases h
  · simp [Reset, inSegment]
  · cases h

/-- A step that keeps the accumulator fields and `seg_remaining` and stays outside
`PARSE_DATA` keeps the invariant. -/
theorem FlightInv_idle_step (d d1 : Demuxer) (h : FlightInv d)
    (hs : d.state_ ≠ ParseState.PARSE_DATA) (hs1 : d1.state_ ≠ ParseState.PARSE_DATA)
    (h1 : d1.packet_len = d.packet_len) (h2 : d1.packet_continued = d.packet_continued)
    (h3 : d1.seg_remaining = d.seg_remaining) : FlightInv d1 := by
  have h0 := h.idle (Or.inr hs)
  have hw := h.whole
  refine ⟨fun _ hp => ?_, fun hq => absurd hq hs1, fun _ => by rw [h3, h0],
    fun hq => absurd hq hs1, ?_, fun hq => absurd hq hs1⟩
  · rw [h2]
    exact h.one_packet h0 (by rw [← h1]; exact hp)
  · unfold inSegment at hw ⊢
    rw [h3, h1, h0]
    rw [h0] at hw
    exact hw

theorem findPage_flight (d : Demuxer) (rest : List Byte) (out : List Call) (r : Run)
    (hf : FlightInv d) (hs : d.state_ = ParseState.FIND_PAGE)
    (h : findPage d rest out = Flow.brk r ∨ ∃ e, findPage d rest out = Flow.ret e r) :
    FlightInv r.d := by
  have hs0 : d.state_ ≠ ParseState.PARSE_DATA := by rw [hs]; simp
  unfold findPage at h
  simp only [] at h
  split_ifs at h <;> (rcases h with h | ⟨e, h⟩ <;> cases h) <;>
    first
    | exact FlightInv_Reset d
    | exact FlightInv_idle_step d _ hf hs0 (by simp [hs]) rfl rfl rfl

theorem parseHeader_flight (d : Demuxer) (rest : List Byte) (out : List Call) (r : Run)
    (hf : FlightInv d) (hs : d.state_ = ParseState.PARSE_HEADER)
    (h : parseHeader d rest out = Flow.brk r ∨ ∃ e, parseHeader d rest out = Flow.ret e r) :
    FlightInv r.d := by
  have hs0 : d.state_ ≠ ParseState.PARSE_DATA := by rw [hs]; simp
  unfold parseHeader at h
  simp only [] at h
  split_ifs at h <;> (rcases h with h | ⟨e, h⟩ <;> cases h) <;>
    exact FlightInv_idle_step d _ hf hs0 (by simp [hs]) rfl rfl rfl

theorem parseSegments_flight (d : Demuxer) (rest : List Byte) (out : List Call) (r : Run)
    (hf : FlightInv d) (hs : d.state_ = ParseState.PARSE_SEGMENTS)
    (h : parseSegments d rest out = Flow.brk r ∨ ∃ e, parseSegments d rest out = Flow.ret e r) :
    FlightInv r.d := by
  have hs0 : d.state_ ≠ ParseState.PARSE_DATA := by rw [hs]; simp
  have h0 := hf.idle (Or.inr hs0)
  unfold parseSegments at h
  simp only [] at h
  split_ifs at h <;> (rcases h with h | ⟨e, h⟩ <;> cases h)
  · exact FlightInv_idle_step d _ hf hs0 (by simp [hs]) rfl rfl rfl
  · have hw := hf.whole
    unfold inSegment at hw
    rw [h0] at hw
    refine ⟨fun _ hp => hf.one_packet h0 hp, fun _ hq => absurd hq (by simp), fun _ => rfl,
      fun _ => rfl, ?_, fun _ => ?_⟩
    · simpa [inSegment] using hw
    · simp [tableSum, inSegment]

theorem segmentComplete_flight (s : Demuxer) (out : List Call) :
    (segmentComplete s out).1.packet_continued = decide (s.seg_table s.seg_index = 255) ∧
    (s.seg_table s.seg_index ≠ 255 → (segmentComplete s out).1.packet_len = 0) ∧
    (s.seg_table s.seg_index = 255 → (segmentComplete s out).1.packet_len = s.packet_len) := by
  unfold segmentComplete
  simp only [decide_eq_true_eq]
  split_ifs <;> simp_all

theorem segmentBody_flight (d : Demuxer) (rest : List Byte) (out : List Call) (r : Run)
    (hseg : SegInv d) (hf : FlightInv d) (hlt : d.seg_index < d.seg_count)
    (h : segmentBody d rest out = Flow.brk r ∨ ∃ e, segmentBody d rest out = Flow.ret e r) :
    FlightInv r.d := by
  have e := segLen_eq d hseg
  have hbo := hf.body_offset_eq hseg.st
  have hw := hf.whole
  unfold inSegment at hbo hw
  have hk : min rest.length (segLen d) ≤ segRem d := by rw [← e]; exact Nat.min_le_right _ _
  have hrem : segRem d = if d.seg_remaining > 0 then d.seg_remaining
      else (d.seg_table d.seg_index).val := rfl
  by_cases hov : d.packet_len + segLen d > PACKET_BUF_SIZE
  · rw [segmentBody_overflow d rest out hov] at h
    rcases h with h | ⟨e1, h⟩ <;> cases h
    refine ⟨fun _ hp => absurd hp (by simp), fun hq => absurd hq (by simp), fun _ => rfl,
      fun hq => absurd hq (by simp), by simp [inSegment], fun hq => absurd hq (by simp)⟩
  · by_cases hr : (copySegment d rest).seg_remaining > 0
    · rw [segmentBody_need d rest out hov hr] at h
      rcases h with h | ⟨e1, h⟩ <;> cases h
      have hr' : segRem d - min rest.length (segLen d) > 0 := hr
      refine ⟨fun h0 _ => ?_, fun hq hi => hf.prev_seg hseg.st hi, fun hq => ?_,
        fun _ => hf.body_size_eq hseg.st, ?_, fun _ => ?_⟩
      · have : (copySegment d rest).seg_remaining = 0 := h0
        omega
      · rcases hq with hq | hq
        · have : d.seg_count ≤ d.seg_index := hq
          omega
        · exact absurd hseg.st hq
      · show (if segRem d - min rest.length (segLen d) > 0 then (d.seg_table d.seg_index).val
            else 0) ≤ d.packet_len + min rest.length (segLen d) +
              (segRem d - min rest.length (segLen d)) ∧
          (d.packet_len + min rest.length (segLen d) +
            (segRem d - min rest.length (segLen d)) -
            (if segRem d - min rest.length (segLen d) > 0 then (d.seg_table d.seg_index).val
              else 0)) % 255 = 0
        rw [if_pos hr']
        by_cases h0 : d.seg_remaining > 0
        · rw [if_pos h0] at hw hrem
          omega
        · rw [if_neg h0] at hw hrem
          omega
      · show d.body_offset + min rest.length (segLen d) +
            (segRem d - min rest.length (segLen d)) =
          tableSum d.seg_table d.seg_index +
            (if segRem d - min rest.length (segLen d) > 0 then (d.seg_table d.seg_index).val
              else 0)
        rw [if_pos hr']
        by_cases h0 : d.seg_remaining > 0
        · rw [if_pos h0] at hbo hrem
          omega
        · rw [if_neg h0] at hbo hrem
          omega
    · rw [segmentBody_complete d rest out hov hr] at h
      rcases h with h | ⟨e1, h⟩ <;> cases h
      have hr' : ¬ segRem d - min rest.length (segLen d) > 0 := hr
      obtain ⟨f1, _, f3, f4, _, _, _, f8, f9, f10, f11, _⟩ :=
        segmentComplete_fields (copySegment d rest) out
      obtain ⟨g1, g2, g3⟩ := segmentComplete_flight (copySegment d rest) out
      have ht : (copySegment d rest).seg_table = d.seg_table := rfl
      have hi : (copySegment d rest).seg_index = d.seg_index := rfl
      have hc : (copySegment d rest).seg_count = d.seg_count := rfl
      have hbs : (copySegment d rest).body_size = d.body_size := rfl
      have hb : (copySegment d rest).body_offset = d.body_offset + min rest.length (segLen d) :=
        rfl
      rw [ht, hi] at g1 g2 g3
      have hpl : (copySegment d rest).packet_len = d.packet_len + min rest.length (segLen d) :=
        rfl
      refine ⟨fun _ hp => ?_, fun _ _ => ?_, fun _ => f10, fun _ => ?_, ?_, fun _ => ?_⟩
      · simp only [] at hp ⊢
        rw [g1]
        by_cases h255 : d.seg_table d.seg_index = 255
        · simp [h255]
        · rw [g2 h255] at hp
          omega
      · simp only []
        rw [g1, f3, f9, ht, hi, Nat.add_sub_cancel]
      · simp only []
        rw [f8, f3, f4, ht, hc, hbs]
        exact hf.body_size_eq hseg.st
      · unfold inSegment
        simp only []
        rw [f10]
        simp only [gt_iff_lt, lt_self_iff_false, if_false, Nat.add_zero, Nat.sub_zero,
          Nat.zero_le, true_and]
        by_cases h255 : d.seg_table d.seg_index = 255
        · rw [g3 h255, hpl]
          have e255 : (d.seg_table d.seg_index).val = 255 := by rw [h255]; rfl
          by_cases h0 : d.seg_remaining > 0
          · rw [if_pos h0] at hw hrem
            omega
          · rw [if_neg h0] at hw hrem
            omega
        · rw [g2 h255]
      · unfold inSegment
        simp only []
        rw [f10, f11, f3, f9, ht, hi, hb, tableSum_succ]
        simp only [gt_iff_lt, lt_self_iff_false, if_false, Nat.add_zero]
        by_cases h0 : d.seg_remaining > 0
        · rw [if_pos h0] at hbo hrem
          omega
        · rw [if_neg h0] at hbo hrem
          omega

theorem segmentLoop_flight (n : Nat) : ∀ (d : Demuxer) (rest : List Byte) (out : List Call)
    (r : Run), SegInv d → FlightInv d → n = d.seg_count - d.seg_index →
    (segmentLoop n d rest out = Flow.brk r ∨ ∃ e, segmentLoop n d rest out = Flow.ret e r) →
    FlightInv r.d := by
  induction n with
  | zero =>
    intro d rest out r _ hf _ h
    simp only [segmentLoop] at h
    rcases h with h | ⟨e, h⟩ <;> cases h
    exact hf
  | succ n ih =>
    intro d rest out r hseg hf hn h
    simp only [segmentLoop] at h
    by_cases hc : d.seg_index < d.seg_count ∧ rest ≠ []
    · rw [if_pos hc] at h
      cases hb : segmentBody d rest out with
      | ret e1 r1 =>
        rw [hb] at h
        simp only [] at h
        rcases h with h | ⟨e, h⟩ <;> cases h
        exact segmentBody_flight d rest out _ hseg hf hc.1 (Or.inr ⟨_, hb⟩)
      | brk r1 =>
        rw [hb] at h
        simp only [] at h
        obtain ⟨i1, i2, _, i4, _⟩ := (segmentBody_spec d rest out hseg hc.1).1 r1 hb
        exact ih r1.d r1.rest r1.out r i1
          (segmentBody_flight d rest out r1 hseg hf hc.1 (Or.inl hb)) (by omega) h
    · rw [if_neg hc] at h
      rcases h with h | ⟨e, h⟩ <;> cases h
      exact hf

theorem parseData_flight (d : Demuxer) (rest : List Byte) (out : List Call) (r : Run)
    (hinv : StateInv d) (hf : FlightInv d) (hs : d.state_ = ParseState.PARSE_DATA)
    (h : parseData d rest out = Flow.brk r ∨ ∃ e, parseData d rest out = Flow.ret e r) :
    FlightInv r.d := by
  obtain ⟨hseg, _⟩ := SegInv_of_StateInv d hinv hs
  unfold parseData at h
  cases hl : segmentLoop (d.seg_count - d.seg_index) d rest out with
  | ret e1 r1 =>
    rw [hl] at h
    simp only [] at h
    rcases h with h | ⟨e, h⟩ <;> cases h
    exact segmentLoop_flight _ d rest out _ hseg hf rfl (Or.inr ⟨_, hl⟩)
  | brk r1 =>
    rw [hl] at h
    simp only [] at h
    have hf1 := segmentLoop_flight _ d rest out r1 hseg hf rfl (Or.inl hl)
    by_cases hq : r1.d.seg_index = r1.d.seg_count
    · rw [if_pos hq] at h
      rcases h with h | ⟨e, h⟩ <;> cases h
      have h0 := hf1.idle (Or.inl (by omega))
      have hw := hf1.whole
      unfold inSegment at hw
      rw [h0] at hw
      refine ⟨fun _ hp => ?_, fun hx => absurd hx (by simp), fun _ => h0,
        fun hx => absurd hx (by simp), ?_, fun hx => absurd hx (by simp)⟩
      · simp only [] at hp ⊢
        by_cases hcont : r1.d.packet_continued = true
        · exact hcont
        · rw [if_pos hcont] at hp
          omega
      · unfold inSegment
        simp only []
        rw [h0]
        by_cases hcont : r1.d.packet_continued = true
        · rw [if_neg (not_not.mpr hcont)]
          simpa using hw
        · rw [if_pos hcont]
          simp
    · rw [if_neg hq] at h
      rcases h with h | ⟨e, h⟩ <;> cases h
      exact hf1

theorem dispatch_flight (d : Demuxer) (rest : List Byte) (out : List Call) (r : Run)
    (hinv : StateInv d) (hf : FlightInv d)
    (h : dispatch d rest out = Flow.brk r ∨ ∃ e, dispatch d rest out = Flow.ret e r) :
    FlightInv r.d := by
  unfold dispatch at h
  cases hs : d.state_ with
  | FIND_PAGE => rw [hs] at h; exact findPage_flight d rest out r hf hs h
  | PARSE_HEADER => rw [hs] at h; exact parseHeader_flight d rest out r hf hs h
  | PARSE_SEGMENTS => rw [hs] at h; exact parseSegments_flight d rest out r hf hs h
  | PARSE_DATA => rw [hs] at h; exact parseData_flight d rest out r hinv hf hs h

theorem ProcessLoop_flight (fuel : Nat) : ∀ (r : Run) (res : Exit × Run),
    StateInv r.d → FlightInv r.d → ProcessLoop fuel r = some res → FlightInv res.2.d := by
  induction fuel with
  | zero => intro r res _ _ h; simp [ProcessLoop] at h
  | succ n ih =>
    intro r res hinv hf h
    rw [ProcessLoop_succ] at h
    by_cases hr : r.rest = []
    · rw [if_pos hr] at h
      cases h
      exact hf
    · rw [if_neg hr] at h
      cases hd : dispatch r.d r.rest r.out with
      | ret e r1 =>
        rw [hd] at h
        cases h
        exact dispatch_flight r.d r.rest r.out r1 hinv hf (Or.inr ⟨e, hd⟩)
      | brk r1 =>
        rw [hd] at h
        exact ih r1 res ((dispatch_spec r.d r.rest r.out hinv hr).1 r1 hd).1
          (dispatch_flight r.d r.rest r.out r1 hinv hf (Or.inl hd)) h

theorem FlightInv_of_Reachable (d : Demuxer) (h : Reachable d) : FlightInv d := by
  induction h with
  | fresh => exact FlightInv_Reset _
  | reset d _ _ => exact FlightInv_Reset d
  | setcb d _ ih =>
    obtain ⟨h1, h2, h3, h4, h5, h6⟩ := ih
    exact ⟨h1, h2, h3, h4, h5, h6⟩
  | process d data e r hr hp ih =>
    exact ProcessLoop_flight _ ⟨d, data, []⟩ (e, r) (StateInv_of_Reachable d hr) ih hp

theorem inv_of_ReachRun (r : Run) (h : ReachRun r) : StateInv r.d ∧ FlightInv r.d := by
  induction h with
  | start d data hr => exact ⟨StateInv_of_Reachable d hr, FlightInv_of_Reachable d hr⟩
  | next r r1 _ hne hd ih =>
    exact ⟨((dispatch_spec r.d r.rest r.out ih.1 hne).1 r1 hd).1,
      dispatch_flight r.d r.rest r.out r1 ih.1 ih.2 (Or.inl hd)⟩

theorem inv_of_ReachSeg (r : Run) (h : ReachSeg r) : SegInv r.d ∧ FlightInv r.d := by
  induction h with
  | enter r hr _ hs =>
    obtain ⟨h1, h2⟩ := inv_of_ReachRun r hr
    exact ⟨(SegInv_of_StateInv r.d h1 hs).1, h2⟩
  | next r r1 _ hlt _ hb ih =>
    exact ⟨((segmentBody_spec r.d r.rest r.out ih.1 hlt).1 r1 hb).1,
      segmentBody_flight r.d r.rest r.out r1 ih.1 ih.2 hlt (Or.inl hb)⟩

/-! ## Claims C13, C15 -/

theorem segmentBody_buf (d : Demuxer) (rest : List Byte) (out : List Call) (r1 : Run)
    (hov : ¬ d.packet_len + segLen d > PACKET_BUF_SIZE)
    (h : segmentBody d rest out = Flow.brk r1 ∨ ∃ e, segmentBody d rest out = Flow.ret e r1) :
    r1.d.packet_buf = (copySegment d rest).packet_buf := by
  by_cases hr : (copySegment d rest).seg_remaining > 0
  · rw [segmentBody_need d rest out hov hr] at h
    rcases h with h | ⟨e, h⟩ <;> cases h
    rfl
  · rw [segmentBody_complete d rest out hov hr] at h
    rcases h with h | ⟨e, h⟩ <;> cases h
    exact (segmentComplete_fields (copySegment d rest) out).2.2.2.2.2.2.2.2.2.2.2

/-- C13 (accumulator bound).  Between calls, at every test of the outer loop and at every
test of the segment loop of a run from a reachable object, `packet_len ≤ 8192` (it is a
`size_t`, so `0 ≤ packet_len` holds by type).  In a pass of the segment loop the capacity
test comes first: if `packet_len + seg_len > 8192`, the pass returns through the overflow
branch with `packet_buf` and the input as they were; else the copy is the `memcpy` of
`to_copy ≤ seg_len` bytes to offset `packet_len`, with `packet_len + to_copy ≤ 8192`, so no
index from 8192 on is written, and whatever way the pass ends `packet_buf` is as the copy
left it and `packet_len ≤ 8192`. -/
theorem C13_accumulator_bound :
    (∀ d, Reachable d → d.packet_len ≤ PACKET_BUF_SIZE) ∧
    (∀ r, ReachRun r → r.d.packet_len ≤ PACKET_BUF_SIZE) ∧
    (∀ r, ReachSeg r → r.d.packet_len ≤ PACKET_BUF_SIZE ∧
      (r.d.packet_len + segLen r.d > PACKET_BUF_SIZE →
        ∃ r1, segmentBody r.d r.rest r.out = Flow.ret Exit.overflow r1 ∧
          r1.d.packet_buf = r.d.packet_buf ∧ r1.rest = r.rest) ∧
      (¬ r.d.packet_len + segLen r.d > PACKET_BUF_SIZE →
        r.d.packet_len + min r.rest.length (segLen r.d) ≤ PACKET_BUF_SIZE ∧
        (copySegment r.d r.rest).packet_buf =
          memcpy r.d.packet_buf r.d.packet_len
            (r.rest.take (min r.rest.length (segLen r.d))) ∧
        (∀ i, PACKET_BUF_SIZE ≤ i → (copySegment r.d r.rest).packet_buf i = r.d.packet_buf i) ∧
        (∀ r1, (segmentBody r.d r.rest r.out = Flow.brk r1 ∨
            ∃ e, segmentBody r.d r.rest r.out = Flow.ret e r1) →
          r1.d.packet_buf = (copySegment r.d r.rest).packet_buf ∧
            r1.d.packet_len ≤ PACKET_BUF_SIZE))) := by
  refine ⟨fun d h => (StateInv_of_Reachable d h).packet_len_le,
    fun r h => (inv_of_ReachRun r h).1.packet_len_le, fun r h => ?_⟩
  obtain ⟨hseg, _⟩ := inv_of_ReachSeg r h
  have hlr := hseg.len_rem
  refine ⟨by omega, fun hov => ?_, fun hov => ?_⟩
  · exact ⟨_, segmentBody_overflow r.d r.rest r.out hov, rfl, rfl⟩
  · have hk : min r.rest.length (segLen r.d) ≤ segLen r.d := Nat.min_le_right _ _
    have hc := copySegment_inv r.d r.rest hseg hov
    refine ⟨by omega, rfl, fun i hi => ?_, fun r1 h1 => ?_⟩
    · show memcpy r.d.packet_buf r.d.packet_len
        (r.rest.take (min r.rest.length (segLen r.d))) i = r.d.packet_buf i
      apply memcpy_above
      rw [List.length_take]
      omega
    · refine ⟨segmentBody_buf r.d r.rest r.out r1 hov h1, ?_⟩
      by_cases hr : (copySegment r.d r.rest).seg_remaining > 0
      · rw [segmentBody_need r.d r.rest r.out hov hr] at h1
        rcases h1 with h1 | ⟨e, h1⟩ <;> cases h1
        have := hc.len_rem
        show (copySegment r.d r.rest).packet_len ≤ PACKET_BUF_SIZE
        omega
      · rw [segmentBody_complete r.d r.rest r.out hov hr] at h1
        rcases h1 with h1 | ⟨e, h1⟩ <;> cases h1
        by_cases hlt : r.d.seg_index < r.d.seg_count
        · have := (segmentComplete_inv (copySegment r.d r.rest) r.out hc hlt (by omega)).1.len_rem
          simp only [] at this ⊢
          omega
        · obtain ⟨_, g2, g3⟩ := segmentComplete_flight (copySegment r.d r.rest) r.out
          have hl := hc.len_rem
          by_cases h255 : (copySegment r.d r.rest).seg_table (copySegment r.d r.rest).seg_index = 255
          · simp only []
            rw [g3 h255]
            omega
          · simp only []
            rw [g2 h255]
            omega

theorem OneInFlight_of_FlightInv (d : Demuxer) (h : FlightInv d) : OneInFlight d := by
  intro h0
  have hw := h.whole
  unfold inSegment at hw
  rw [h0] at hw
  simp only [gt_iff_lt, lt_self_iff_false, if_false, Nat.add_zero, Nat.sub_zero] at hw
  refine ⟨fun hp => ?_, fun hc => ?_⟩
  · have hcont := h.one_packet h0 hp
    refine ⟨hcont, hw.2, fun hs hi => ?_⟩
    have := h.prev_seg hs hi
    rw [hcont] at this
    exact of_decide_eq_true this.symm
  · by_contra hne
    have := h.one_packet h0 (by omega)
    rw [hc] at this
    cases this

/-- C15 (one packet in flight).  Between calls, at every test of the outer loop and at every
test of the segment loop of a run from a reachable object, in whatever parse state: when
the object is at a segment boundary (`seg_remaining = 0`) and `packet_len > 0`, then
`packet_continued` is true, the accumulated bytes are whole segments of 255 bytes
(`packet_len` is a multiple of 255), and in `PARSE_DATA` past the first segment of the page
the segment before has lacing value 255; when `packet_continued` is false at a segment
boundary, `packet_len = 0`, so that the copy of a segment that starts a new packet is the
`memcpy` to offset 0 of `packet_buf`. -/
theorem C15_one_packet_in_flight :
    (∀ d, Reachable d → OneInFlight d) ∧
    (∀ r, ReachRun r → OneInFlight r.d) ∧
    (∀ r, ReachSeg r → OneInFlight r.d ∧
      (r.d.seg_remaining = 0 → r.d.packet_continued = false →
        (copySegment r.d r.rest).packet_buf =
          memcpy r.d.packet_buf 0 (r.rest.take (min r.rest.length (segLen r.d))))) := by
  refine ⟨fun d h => OneInFlight_of_FlightInv d (FlightInv_of_Reachable d h),
    fun r h => OneInFlight_of_FlightInv r.d (inv_of_ReachRun r h).2, fun r h => ?_⟩
  have hf := OneInFlight_of_FlightInv r.d (inv_of_ReachSeg r h).2
  refine ⟨hf, fun h0 hc => ?_⟩
  have := (hf h0).2 hc
  show memcpy r.d.packet_buf r.d.packet_len _ = _
  rw [this]

/-! ## Claims C17, C19, C20 -/

theorem segmentBody_tables (d : Demuxer) (rest : List Byte) (out : List Call) (r : Run)
    (h : segmentBody d rest out = Flow.brk r ∨ ∃ e, segmentBody d rest out = Flow.ret e r) :
    r.d.header = d.header ∧ r.d.seg_table = d.seg_table := by
  unfold segmentBody at h
  split_ifs at h <;> (rcases h with h | ⟨e, h⟩ <;> cases h)
  · exact ⟨rfl, rfl⟩
  · exact ⟨rfl, rfl⟩
  · obtain ⟨_, f2, f3, _⟩ := segmentComplete_fields (copySegment d rest) out
    exact ⟨f2, f3⟩

theorem segmentLoop_tables (n : Nat) : ∀ (d : Demuxer) (rest : List Byte) (out : List Call)
    (r : Run),
    (segmentLoop n d rest out = Flow.brk r ∨ ∃ e, segmentLoop n d rest out = Flow.ret e r) →
    r.d.header = d.header ∧ r.d.seg_table = d.seg_table := by
  induction n with
  | zero =>
    intro d rest out r h
    simp only [segmentLoop] at h
    rcases h with h | ⟨e, h⟩ <;> cases h
    exact ⟨rfl, rfl⟩
  | succ n ih =>
    intro d rest out r h
    simp only [segmentLoop] at h
    by_cases hc : d.seg_index < d.seg_count ∧ rest ≠ []
    · rw [if_pos hc] at h
      cases hb : segmentBody d rest out with
      | ret e1 r1 =>
        rw [hb] at h
        simp only [] at h
        rcases h with h | ⟨e, h⟩ <;> cases h
        exact segmentBody_tables d rest out _ (Or.inr ⟨_, hb⟩)
      | brk r1 =>
        rw [hb] at h
        simp only [] at h
        obtain ⟨a1, a2⟩ := segmentBody_tables d rest out r1 (Or.inl hb)
        obtain ⟨b1, b2⟩ := ih r1.d r1.rest r1.out r h
        exact ⟨b1.trans a1, b2.trans a2⟩
    · rw [if_neg hc] at h
      rcases h with h | ⟨e, h⟩ <;> cases h
      exact ⟨rfl, rfl⟩

theorem parseData_tables (d : Demuxer) (rest : List Byte) (out : List Call) (r : Run)
    (h : parseData d rest out = Flow.brk r ∨ ∃ e, parseData d rest out = Flow.ret e r) :
    r.d.header = d.header ∧ r.d.seg_table = d.seg_table := by
  unfold parseData at h
  cases hl : segmentLoop (d.seg_count - d.seg_index) d rest out with
  | ret e1 r1 =>
    rw [hl] at h
    simp only [] at h
    rcases h with h | ⟨e, h⟩ <;> cases h
    exact segmentLoop_tables _ d rest out _ (Or.inr ⟨_, hl⟩)
  | brk r1 =>
    rw [hl] at h
    simp only [] at h
    have := segmentLoop_tables _ d rest out r1 (Or.inl hl)
    split_ifs at h <;> (rcases h with h | ⟨e, h⟩ <;> cases h) <;> exact this

/-- No pass from a state the object can be in writes outside the arrays `header` and
`seg_table`; a pass in `FIND_PAGE` writes the first four bytes of `header` only. -/
theorem dispatch_bounds (d : Demuxer) (rest : List Byte) (out : List Call) (r : Run)
    (hinv : StateInv d)
    (h : dispatch d rest out = Flow.brk r ∨ ∃ e, dispatch d rest out = Flow.ret e r) :
    (∀ i, 27 ≤ i → r.d.header i = d.header i) ∧
    (d.state_ = ParseState.FIND_PAGE → ∀ i, 4 ≤ i → r.d.header i = d.header i) ∧
    (∀ i, 255 ≤ i → r.d.seg_table i = d.seg_table i) := by
  unfold dispatch at h
  cases hs : d.state_ with
  | FIND_PAGE =>
    rw [hs] at h
    simp only [] at h
    obtain ⟨f1, f2⟩ := hinv.find hs
    have key : (∀ i, 4 ≤ i → r.d.header i = d.header i) ∧ r.d.seg_table = d.seg_table := by
      unfold findPage at h
      simp only [] at h
      by_cases hp : d.bytes_needed < 4
      · rw [if_pos hp] at h
        have hlen : (rest.take (min rest.length d.bytes_needed)).length ≤ d.bytes_needed := by
          rw [List.length_take]; omega
        have hcp : ∀ i, 4 ≤ i → memcpy d.header (4 - d.bytes_needed)
            (rest.take (min rest.length d.bytes_needed)) i = d.header i :=
          fun i hi => memcpy_above _ _ _ _ (by omega)
        split_ifs at h <;> (rcases h with h | ⟨e, h⟩ <;> cases h)
        · exact ⟨hcp, rfl⟩
        · refine ⟨fun i hi => ?_, rfl⟩
          show memmove1 _ i = _
          simp only [memmove1]
          rw [if_neg (by omega)]
          exact hcp i hi
        · exact ⟨hcp, rfl⟩
      · rw [if_neg hp, if_pos (show d.bytes_needed = 4 by omega)] at h
        have hb := (searchOggS_bounds rest).2
        split_ifs at h with hf hpl <;> (rcases h with h | ⟨e, h⟩ <;> cases h)
        · exact ⟨fun _ _ => rfl, rfl⟩
        · refine ⟨fun i hi => ?_, rfl⟩
          have hnf : (searchOggS rest 0).1 = false := by simpa using hf
          obtain ⟨b1, b2⟩ := hb hnf
          apply memcpy_above
          rw [List.length_take, List.length_drop]
          omega
        · exact ⟨fun _ _ => rfl, rfl⟩
    exact ⟨fun i hi => key.1 i (by omega), fun _ => key.1, fun i _ => by rw [key.2]⟩
  | PARSE_HEADER =>
    rw [hs] at h
    simp only [] at h
    obtain ⟨f1, f2, f3⟩ := hinv.hdr hs
    have key : (∀ i, 27 ≤ i → r.d.header i = d.header i) ∧ r.d.seg_table = d.seg_table := by
      unfold parseHeader at h
      simp only [] at h
      split_ifs at h <;> (rcases h with h | ⟨e, h⟩ <;> cases h) <;>
        exact ⟨fun i hi => memcpy_above _ _ _ _ (by rw [List.length_take]; omega), rfl⟩
    exact ⟨key.1, fun hq => (by cases hq), fun i _ => by rw [key.2]⟩
  | PARSE_SEGMENTS =>
    rw [hs] at h
    simp only [] at h
    obtain ⟨f1, f2, f3⟩ := hinv.segs hs
    have key : r.d.header = d.header ∧ ∀ i, 255 ≤ i → r.d.seg_table i = d.seg_table i := by
      unfold parseSegments at h
      simp only [] at h
      split_ifs at h <;> (rcases h with h | ⟨e, h⟩ <;> cases h) <;>
        exact ⟨rfl, fun i hi => memcpy_above _ _ _ _ (by rw [List.length_take]; omega)⟩
    exact ⟨fun i _ => by rw [key.1], fun hq => (by cases hq), key.2⟩
  | PARSE_DATA =>
    rw [hs] at h
    simp only [] at h
    obtain ⟨a1, a2⟩ := parseData_tables d rest out r h
    exact ⟨fun i _ => by rw [a1], fun hq => (by cases hq), fun i _ => by rw [a2]⟩

/-- C17 (buffer bounds).  At every test of the outer loop of a run from a reachable object:
in `FIND_PAGE` between one and four bytes are needed (so at most four are held, at the start
of `header`), in `PARSE_HEADER` `data_offset + bytes_needed = 27` with `data_offset ≥ 4`, in
`PARSE_SEGMENTS` `data_offset + bytes_needed = seg_count ≤ 255`, in `PARSE_DATA`
`seg_index < seg_count ≤ 255`; and the pass made from there leaves every byte of `header`
from index 27 on (from index 4 on in `FIND_PAGE`) and every byte of `seg_table` from index
255 on as it was.  At every test of the segment loop `seg_index ≤ seg_count ≤ 255`, so the
read `seg_table[seg_index]` in the body, made when `seg_index < seg_count`, is below 255. -/
theorem C17_buffer_bounds :
    (∀ r, ReachRun r →
      (r.d.state_ = ParseState.FIND_PAGE → 1 ≤ r.d.bytes_needed ∧ r.d.bytes_needed ≤ 4) ∧
      (r.d.state_ = ParseState.PARSE_HEADER →
        r.d.data_offset + r.d.bytes_needed = 27 ∧ 4 ≤ r.d.data_offset) ∧
      (r.d.state_ = ParseState.PARSE_SEGMENTS →
        r.d.data_offset + r.d.bytes_needed = r.d.seg_count ∧ r.d.seg_count ≤ 255) ∧
      (r.d.state_ = ParseState.PARSE_DATA →
        r.d.seg_index < r.d.seg_count ∧ r.d.seg_count ≤ 255) ∧
      (∀ r1, (dispatch r.d r.rest r.out = Flow.brk r1 ∨
          ∃ e, dispatch r.d r.rest r.out = Flow.ret e r1) →
        (∀ i, 27 ≤ i → r1.d.header i = r.d.header i) ∧
        (r.d.state_ = ParseState.FIND_PAGE → ∀ i, 4 ≤ i → r1.d.header i = r.d.header i) ∧
        (∀ i, 255 ≤ i → r1.d.seg_table i = r.d.seg_table i))) ∧
    (∀ r, ReachSeg r → r.d.seg_index ≤ r.d.seg_count ∧ r.d.seg_count ≤ 255 ∧
      (r.d.seg_index < r.d.seg_count → r.d.seg_index < 255)) := by
  refine ⟨fun r h => ?_, fun r h => ?_⟩
  · obtain ⟨hinv, _⟩ := inv_of_ReachRun r h
    refine ⟨hinv.find, fun hs => ?_, fun hs => ?_, fun hs => ?_,
      fun r1 h1 => dispatch_bounds r.d r.rest r.out r1 hinv h1⟩
    · obtain ⟨a, _, c⟩ := hinv.hdr hs
      exact ⟨a, c⟩
    · obtain ⟨a, _, c⟩ := hinv.segs hs
      exact ⟨a, c⟩
    · obtain ⟨a, b, _⟩ := hinv.data hs
      exact ⟨a, b⟩
  · obtain ⟨hseg, _⟩ := inv_of_ReachSeg r h
    have := hseg.cnt_le
    exact ⟨hseg.idx_le, hseg.cnt_le, fun hlt => by omega⟩

/-- C19 (unreachable error state).  Between calls and at every test of the outer loop of a
run from a reachable object (calls that took the overflow branch before included), a state
`FIND_PAGE` has `bytes_needed` in `{1, 2, 3, 4}`, so one of the tests `bytes_needed < 4` and
`bytes_needed == 4` holds; no pass returns through the "run in error state" branch, and no
call does.  A call that leaves through the overflow branch ends in `FIND_PAGE` with
`bytes_needed = 4`. -/
theorem C19_no_error_state :
    (∀ d, Reachable d → d.state_ = ParseState.FIND_PAGE →
      d.bytes_needed = 1 ∨ d.bytes_needed = 2 ∨ d.bytes_needed = 3 ∨ d.bytes_needed = 4) ∧
    (∀ r, ReachRun r → r.d.state_ = ParseState.FIND_PAGE →
      (r.d.bytes_needed = 1 ∨ r.d.bytes_needed = 2 ∨ r.d.bytes_needed = 3 ∨
        r.d.bytes_needed = 4) ∧ (r.d.bytes_needed < 4 ∨ r.d.bytes_needed = 4)) ∧
    (∀ r, ReachRun r → r.rest ≠ [] →
      ∀ r1, dispatch r.d r.rest r.out ≠ Flow.ret Exit.error_state r1) ∧
    (∀ d data r, Reachable d → Process d data ≠ some (Exit.error_state, r)) ∧
    (∀ d data r, Reachable d → Process d data = some (Exit.overflow, r) →
      Reachable r.d ∧ r.d.state_ = ParseState.FIND_PAGE ∧ r.d.bytes_needed = 4) := by
  refine ⟨fun d h hs => ?_, fun r h hs => ?_, fun r h hne r1 hd => ?_, fun d data r h hp => ?_,
    fun d data r h hp => ?_⟩
  · obtain ⟨a, b⟩ := (StateInv_of_Reachable d h).find hs
    omega
  · obtain ⟨a, b⟩ := (inv_of_ReachRun r h).1.find hs
    omega
  · obtain ⟨_, h2 | h2⟩ := (dispatch_spec r.d r.rest r.out (inv_of_ReachRun r h).1 hne).2 _ _ hd
    · cases h2.1
    · cases h2.1
  · obtain ⟨res, h1, h2⟩ := Process_total d data (StateInv_of_Reachable d h)
    rw [hp] at h1
    cases h1
    rcases h2.2 with ⟨a, _⟩ | ⟨a, _⟩ | ⟨a, _⟩ <;> cases a
  · obtain ⟨res, h1, h2⟩ := Process_total d data (StateInv_of_Reachable d h)
    rw [hp] at h1
    cases h1
    refine ⟨Reachable.process d data _ r h hp, ?_⟩
    rcases h2.2 with ⟨a, _⟩ | ⟨a, _⟩ | ⟨_, _, c1, c2, _⟩
    · cases a
    · cases a
    · exact ⟨c1, c2⟩

/-- C20 (body accounting).  Between calls, at every test of the outer loop and at every test
of the segment loop of a run from a reachable object, in `PARSE_DATA`: `body_size` is the
sum of `seg_table[0 .. seg_count)`, and `body_offset` is the sum of the lacing values of the
segments completed, `seg_table[0 .. seg_index)`, plus the bytes copied of the segment being
copied (its lacing value less `seg_remaining`; nothing at a segment boundary); hence
`body_offset ≤ body_size`.  At the test of the segment loop at which `seg_index` has reached
`seg_count`, which is where the page end compares the two, `body_offset = body_size`: the
condition `body_offset < body_size` of the warning is false. -/
theorem C20_body_accounting :
    (∀ d, (Reachable d ∨ (∃ r, ReachRun r ∧ r.d = d) ∨ ∃ r, ReachSeg r ∧ r.d = d) →
      d.state_ = ParseState.PARSE_DATA →
      d.body_size = tableSum d.seg_table d.seg_count ∧
      d.seg_remaining ≤ inSegment d ∧
      d.body_offset = tableSum d.seg_table d.seg_index + (inSegment d - d.seg_remaining) ∧
      (d.seg_remaining = 0 → d.body_offset = tableSum d.seg_table d.seg_index) ∧
      d.body_offset ≤ d.body_size) ∧
    (∀ r, ReachSeg r → r.d.state_ = ParseState.PARSE_DATA ∧
      (r.d.seg_index = r.d.seg_count →
        r.d.body_offset = r.d.body_size ∧ ¬ r.d.body_offset < r.d.body_size)) := by
  have key : ∀ d, FlightInv d → d.seg_index ≤ d.seg_count →
      d.seg_remaining ≤ (d.seg_table d.seg_index).val → d.state_ = ParseState.PARSE_DATA →
      d.body_size = tableSum d.seg_table d.seg_count ∧
      d.seg_remaining ≤ inSegment d ∧
      d.body_offset = tableSum d.seg_table d.seg_index + (inSegment d - d.seg_remaining) ∧
      (d.seg_remaining = 0 → d.body_offset = tableSum d.seg_table d.seg_index) ∧
      d.body_offset ≤ d.body_size := by
    intro d hf hle hrem hs
    have h1 := hf.body_size_eq hs
    have h2 := hf.body_offset_eq hs
    have hmono : d.seg_index < d.seg_count →
        tableSum d.seg_table d.seg_index + (d.seg_table d.seg_index).val ≤
          tableSum d.seg_table d.seg_count := by
      intro hlt
      rw [← tableSum_succ]
      exact tableSum_mono _ _ _ hlt
    have hmono0 := tableSum_mono d.seg_table _ _ hle
    have hidle := hf.idle
    unfold inSegment at h2 ⊢
    by_cases h0 : d.seg_remaining > 0
    · rw [if_pos h0] at h2 ⊢
      have hlt : d.seg_index < d.seg_count := by
        by_contra hx
        have := hidle (Or.inl (by omega))
        omega
      have := hmono hlt
      refine ⟨h1, by omega, by omega, fun hz => by omega, by omega⟩
    · rw [if_neg h0] at h2 ⊢
      refine ⟨h1, by omega, by omega, fun _ => by omega, by omega⟩
  refine ⟨fun d h hs => ?_, fun r h => ?_⟩
  · rcases h with h | ⟨r, h, rfl⟩ | ⟨r, h, rfl⟩
    · have hi := StateInv_of_Reachable d h
      obtain ⟨a, _, c, _⟩ := hi.data hs
      exact key d (FlightInv_of_Reachable d h) (by omega) c hs
    · obtain ⟨hi, hf⟩ := inv_of_ReachRun r h
      obtain ⟨a, _, c, _⟩ := hi.data hs
      exact key r.d hf (by omega) c hs
    · obtain ⟨hi, hf⟩ := inv_of_ReachSeg r h
      exact key r.d hf hi.idx_le hi.rem_le hs
  · obtain ⟨hi, hf⟩ := inv_of_ReachSeg r h
    refine ⟨hi.st, fun hq => ?_⟩
    have h1 := hf.body_size_eq hi.st
    have h2 := hf.body_offset_eq hi.st
    have h0 := hf.idle (Or.inl (by omega))
    unfold inSegment at h2
    rw [h0, hq] at h2
    simp only [gt_iff_lt, lt_self_iff_false, if_false, Nat.add_zero] at h2
    rw [h1, h2]
    exact ⟨rfl, Nat.lt_irrefl _⟩

/-! ## Claims C14, C18 -/

theorem readyState_StateInv : StateInv readyState := by
  refine ⟨by decide, fun h => (by cases h), fun _ => ⟨by decide, by decide⟩, fun h => ?_,
    fun h => ?_, fun h => ?_⟩ <;> cases h

/-- C14 (flag monotonicity).  From a state the object can be in (`StateInv`, which holds of
every reachable object), a call on any chunk returns, not through the "run in error state"
branch with its `Reset`; if `head_seen` held before the call it holds after it and the
sample rate is the same; if `tags_seen` held before it holds after.  The same over any
sequence of calls.  `Reset` is what clears the flags and sets the rate to 48000. -/
theorem C14_flag_monotonicity (d : Demuxer) (data : List Byte) (chunks : List (List Byte))
    (h : StateInv d) :
    (∃ e r, Process d data = some (e, r) ∧ e ≠ Exit.error_state ∧
      (d.head_seen = true → r.d.head_seen = true ∧ r.d.sample_rate = d.sample_rate) ∧
      (d.tags_seen = true → r.d.tags_seen = true)) ∧
    (∃ d1 calls rets, feed d chunks = some (d1, calls, rets) ∧
      (d.head_seen = true → d1.head_seen = true ∧ d1.sample_rate = d.sample_rate) ∧
      (d.tags_seen = true → d1.tags_seen = true)) ∧
    ((Reset d).head_seen = false ∧ (Reset d).tags_seen = false ∧
      (Reset d).sample_rate = 48000) ∧
    (∀ d0, Reachable d0 → StateInv d0) := by
  refine ⟨?_, ?_, ⟨rfl, rfl, rfl⟩, StateInv_of_Reachable⟩
  · obtain ⟨⟨e, r⟩, p1, p2, p3⟩ := Process_frame d data h
    refine ⟨e, r, p1, ?_, p3.head_mono, p3.tags_mono⟩
    intro he
    rcases p2.2 with ⟨a, _⟩ | ⟨a, _⟩ | ⟨a, _⟩ <;> (simp only [] at a; rw [he] at a; cases a)
  · obtain ⟨d1, calls, rets, q1, _, _, q4, q5, _⟩ := feed_frame chunks d h
    exact ⟨d1, calls, rets, q1, q4, q5⟩

theorem C14_flag_monotonicity_witness :
    StateInv readyState ∧
    ∃ e r, Process readyState (audioPage (List.replicate 21 0) [1, 2, 3]).bytes = some (e, r) ∧
      e ≠ Exit.error_state ∧
      (readyState.head_seen = true →
        r.d.head_seen = true ∧ r.d.sample_rate = readyState.sample_rate) ∧
      (readyState.tags_seen = true → r.d.tags_seen = true) :=
  ⟨readyState_StateInv,
    (C14_flag_monotonicity readyState (audioPage (List.replicate 21 0) [1, 2, 3]).bytes []
      readyState_StateInv).1⟩

/-- A pass of the segment loop that ends with all its input left has completed segments of
length zero only. -/
theorem segmentLoop_no_input (n : Nat) : ∀ (d : Demuxer) (rest : List Byte) (out : List Call)
    (r : Run), SegInv d → n = d.seg_count - d.seg_index →
    segmentLoop n d rest out = Flow.brk r → r.rest.length = rest.length → rest ≠ [] →
    r.rest = rest ∧ r.d.seg_table = d.seg_table ∧ r.d.seg_count = d.seg_count ∧
      ∀ i, d.seg_index ≤ i → i < r.d.seg_index → (d.seg_table i).val = 0 := by
  induction n with
  | zero =>
    intro d rest out r _ _ h _ _
    simp only [segmentLoop] at h
    cases h
    exact ⟨rfl, rfl, rfl, fun i h1 h2 => absurd h2 (by simp only []; omega)⟩
  | succ n ih =>
    intro d rest out r hseg hn h hlen hne
    simp only [segmentLoop] at h
    have hlt : d.seg_index < d.seg_count := by omega
    rw [if_pos ⟨hlt, hne⟩] at h
    cases hb : segmentBody d rest out with
    | ret e1 r1 => rw [hb] at h; cases h
    | brk r1 =>
      rw [hb] at h
      simp only [] at h
      obtain ⟨i1, i2, _, i4, i5⟩ := (segmentBody_spec d rest out hseg hlt).1 r1 hb
      have hl2 := ((segmentLoop_spec n r1.d r1.rest r1.out i1 (by omega)).1 r h).2.2
      have hov : ¬ d.packet_len + segLen d > PACKET_BUF_SIZE := by
        intro hov
        rw [segmentBody_overflow d rest out hov] at hb
        cases hb
      have hrest : r1.rest = rest.drop (min rest.length (segLen d)) := by
        by_cases hr : (copySegment d rest).seg_remaining > 0
        · rw [segmentBody_need d rest out hov hr] at hb
          cases hb
        · rw [segmentBody_complete d rest out hov hr] at hb
          cases hb
          rfl
      have hl1 : r1.rest.length = rest.length - min rest.length (segLen d) := by
        rw [hrest, List.length_drop]
      have hpos : 0 < rest.length := List.length_pos.mpr hne
      have hz : segLen d = 0 := by omega
      have hr1 : r1.rest = rest := by rw [hrest, hz, Nat.min_zero, List.drop_zero]
      have htab := (segmentBody_tables d rest out r1 (Or.inl hb)).2
      have hz0 : (d.seg_table d.seg_index).val = 0 := by
        have e := segLen_eq d hseg
        have l := (segRem_le d hseg).1
        have hrem : segRem d = if d.seg_remaining > 0 then d.seg_remaining
            else (d.seg_table d.seg_index).val := rfl
        by_cases h0 : d.seg_remaining > 0
        · rw [if_pos h0] at hrem
          omega
        · rw [if_neg h0] at hrem
          omega
      obtain ⟨j1, j2, jc, j3⟩ := ih r1.d r1.rest r1.out r i1 (by omega) h
        (by rw [hr1]; exact hlen) (by rw [hr1]; exact hne)
      refine ⟨j1.trans hr1, j2.trans htab, jc.trans i4, fun i h1 h2 => ?_⟩
      by_cases hi : i = d.seg_index
      · rw [hi]; exact hz0
      · have := j3 i (by omega) h2
        rw [htab] at this
        exact this

/-- C18 (termination).  From a reachable object `Process` returns on every chunk.  At every
test of the outer loop of such a call with input left, the pass either returns or goes back
to the test with less input left, or with the same input left having gone from `PARSE_DATA`
to `FIND_PAGE`, the segments that were left of the page all of length zero; two passes per
input byte and one more bound the passes still to come.  That rests on what holds at the
test: at least one byte is needed in `FIND_PAGE`, `PARSE_HEADER` and `PARSE_SEGMENTS`, and
`seg_index < seg_count` in `PARSE_DATA`.  At every test of the segment loop
`seg_index ≤ seg_count`, a pass that goes on adds one to `seg_index` and takes no input
back, and the loop is left only when its test fails. -/
theorem C18_termination :
    (∀ d data, Reachable d → ∃ e r, Process d data = some (e, r)) ∧
    (∀ r, ReachRun r →
      (r.d.state_ = ParseState.PARSE_DATA → r.d.seg_index < r.d.seg_count) ∧
      (r.d.state_ ≠ ParseState.PARSE_DATA → 1 ≤ r.d.bytes_needed) ∧
      (r.rest ≠ [] → ∀ r1, dispatch r.d r.rest r.out = Flow.brk r1 →
        passes r1.d r1.rest < passes r.d r.rest ∧
        (r1.rest.length < r.rest.length ∨
          (r1.rest = r.rest ∧ r.d.state_ = ParseState.PARSE_DATA ∧
            r1.d.state_ = ParseState.FIND_PAGE ∧
            ∀ i, r.d.seg_index ≤ i → i < r.d.seg_count → (r.d.seg_table i).val = 0)))) ∧
    (∀ r, ReachSeg r → r.d.seg_index ≤ r.d.seg_count ∧
      (r.d.seg_index < r.d.seg_count → r.rest ≠ [] →
        ∀ r1, segmentBody r.d r.rest r.out = Flow.brk r1 →
          r1.d.seg_index = r.d.seg_index + 1 ∧ r1.d.seg_count = r.d.seg_count ∧
            r1.rest.length ≤ r.rest.length) ∧
      (∀ r1, segmentLoop (r.d.seg_count - r.d.seg_index) r.d r.rest r.out = Flow.brk r1 →
        ¬ (r1.d.seg_index < r1.d.seg_count ∧ r1.rest ≠ []))) := by
  refine ⟨fun d data h => ?_, fun r h => ?_, fun r h => ?_⟩
  · obtain ⟨⟨e, r⟩, h1, _⟩ := Process_total d data (StateInv_of_Reachable d h)
    exact ⟨e, r, h1⟩
  · obtain ⟨hinv, _⟩ := inv_of_ReachRun r h
    refine ⟨fun hs => (hinv.data hs).1, fun hs => ?_, fun hne r1 hd => ?_⟩
    · cases hst : r.d.state_ with
      | FIND_PAGE => exact (hinv.find hst).1
      | PARSE_HEADER => exact (hinv.hdr hst).2.1
      | PARSE_SEGMENTS => exact (hinv.segs hst).2.1
      | PARSE_DATA => exact absurd hst hs
    · have hp := ((dispatch_spec r.d r.rest r.out hinv hne).1 r1 hd).2
      refine ⟨hp, ?_⟩
      have hd' := hd
      unfold dispatch at hd'
      cases hst : r.d.state_ with
      | FIND_PAGE =>
        rw [hst] at hd'
        exact Or.inl ((findPage_spec r.d r.rest r.out hinv hst hne).1 r1 hd').2.1
      | PARSE_HEADER =>
        rw [hst] at hd'
        exact Or.inl ((parseHeader_spec r.d r.rest r.out hinv hst hne).1 r1 hd').2.1
      | PARSE_SEGMENTS =>
        rw [hst] at hd'
        exact Or.inl ((parseSegments_spec r.d r.rest r.out hinv hst hne).1 r1 hd').2
      | PARSE_DATA =>
        rw [hst] at hd'
        simp only [] at hd'
        obtain ⟨hseg, hlt⟩ := SegInv_of_StateInv r.d hinv hst
        unfold parseData at hd'
        cases hl : segmentLoop (r.d.seg_count - r.d.seg_index) r.d r.rest r.out with
        | ret e1 r2 => rw [hl] at hd'; cases hd'
        | brk r2 =>
          rw [hl] at hd'
          simp only [] at hd'
          obtain ⟨s1, s2, s3⟩ := (segmentLoop_spec _ r.d r.rest r.out hseg rfl).1 r2 hl
          have hrest : r1.rest = r2.rest := by
            split_ifs at hd' <;> cases hd' <;> rfl
          by_cases hlen : r2.rest.length < r.rest.length
          · exact Or.inl (by rw [hrest]; exact hlen)
          · right
            obtain ⟨j1, j2, hcnt, j3⟩ := segmentLoop_no_input _ r.d r.rest r.out r2 hseg rfl hl
              (by omega) hne
            have hend : r2.d.seg_index = r2.d.seg_count := by
              rcases s2 with s2 | s2
              · exact s2
              · rw [j1] at s2
                exact absurd s2 hne
            rw [if_pos hend] at hd'
            cases hd'
            exact ⟨j1, rfl, rfl, fun i h1 h2 => j3 i h1 (by rw [hend, hcnt]; exact h2)⟩
  · obtain ⟨hseg, _⟩ := inv_of_ReachSeg r h
    refine ⟨hseg.idx_le, fun hlt _ r1 hb => ?_, fun r1 hl => ?_⟩
    · obtain ⟨_, i2, _, i4, i5⟩ := (segmentBody_spec r.d r.rest r.out hseg hlt).1 r1 hb
      exact ⟨i2, i4, i5⟩
    · obtain ⟨s1, s2, _⟩ := (segmentLoop_spec _ r.d r.rest r.out hseg rfl).1 r1 hl
      intro hc
      rcases s2 with s2 | s2
      · omega
      · exact hc.2 s2

/-! ## Claim C16 -/

set_option maxRecDepth 100000 in
/-- A packet left open by a page with segment table `[255]` is delivered whole by the page
with table `[3]` that follows a discarded header, be it one with version 1 or one with a
segment count of zero. -/
theorem discarded_page_example :
    (Process readyState (contPage.bytes ++ (OggS ++ 1 :: List.replicate 22 0) ++
      endPage.bytes)).map (fun x => x.2.out) =
      some [⟨List.replicate 255 1 ++ [2, 2, 2], 48000, 258⟩] ∧
    (Process readyState (contPage.bytes ++ (OggS ++ List.replicate 23 0) ++
      endPage.bytes)).map (fun x => x.2.out) =
      some [⟨List.replicate 255 1 ++ [2, 2, 2], 48000, 258⟩] := by
  constructor <;> decide

/-! ## A state inside a call -/

theorem feed_Reachable (chunks : List (List Byte)) : ∀ (d d1 : Demuxer) (calls : List Call)
    (rets : List Nat), Reachable d → feed d chunks = some (d1, calls, rets) → Reachable d1 := by
  induction chunks with
  | nil =>
    intro d d1 calls rets h hf
    cases hf
    exact h
  | cons c cs ih =>
    intro d d1 calls rets h hf
    obtain ⟨⟨e, r⟩, hp, _⟩ := Process_total d c (StateInv_of_Reachable d h)
    simp only [feed, hp] at hf
    cases hfe : feed r.d cs with
    | none => rw [hfe] at hf; cases hf
    | some x =>
      rw [hfe] at hf
      simp only [Option.some.injEq, Prod.mk.injEq] at hf
      exact ih r.d d1 x.2.1 x.2.2 (Reachable.process d c e r h hp) (by rw [hfe, ← hf.1])

set_option maxRecDepth 100000 in
/-- The states the invariants speak of exist: after the two header pages and the page with
segment table `[255, 0]`, the next call stands at the test of the segment loop in front of
the second segment, with the 255 bytes of a continued packet accumulated. -/
theorem ReachSeg_example :
    ∃ r, ReachSeg r ∧ r.d.seg_index = 1 ∧ r.d.seg_count = 2 ∧ r.d.seg_remaining = 0 ∧
      r.d.packet_len = 255 ∧ r.d.packet_continued = true ∧ r.rest = [79] := by
  have h1 : (feed (Reset (OnDemuxerFinished fresh)) deferChunks).map
      (fun x => (x.1.state_, x.1.seg_index, x.1.seg_count, x.1.packet_len)) =
      some (ParseState.PARSE_DATA, 1, 2, 255) := by decide
  have h2 : (feed (Reset (OnDemuxerFinished fresh)) deferChunks).map
      (fun x => (x.1.seg_remaining, x.1.packet_continued)) = some (0, true) := by decide
  cases hf : feed (Reset (OnDemuxerFinished fresh)) deferChunks with
  | none => rw [hf] at h1; cases h1
  | some x =>
    rw [hf] at h1 h2
    simp only [Option.map_some', Option.some.injEq, Prod.mk.injEq] at h1 h2
    have hr : Reachable x.1 := feed_Reachable deferChunks _ x.1 x.2.1 x.2.2
      (Reachable.reset _ (Reachable.setcb _ Reachable.fresh)) hf
    exact ⟨⟨x.1, [79], []⟩, ReachSeg.enter _ (ReachRun.start x.1 [79] hr) (by simp) h1.1,
      h1.2.1, h1.2.2.1, h2.1, h1.2.2.2, h2.2, rfl⟩

/-! ## A packet continued into the next page -/

/-- The segment loop cut off after `n` passes goes on from the loop state it has come to. -/
theorem segmentLoop_add (n : Nat) : ∀ (d : Demuxer) (rest : List Byte) (out : List Call)
    (r : Run) (m : Nat), segmentLoop n d rest out = Flow.brk r →
    segmentLoop (n + m) d rest out = segmentLoop m r.d r.rest r.out := by
  induction n with
  | zero =>
    intro d rest out r m h
    simp only [segmentLoop] at h
    cases h
    rw [Nat.zero_add]
  | succ n ih =>
    intro d rest out r m h
    rw [show n + 1 + m = (n + m) + 1 by omega]
    simp only [segmentLoop] at h ⊢
    by_cases hc : d.seg_index < d.seg_count ∧ rest ≠ []
    · rw [if_pos hc] at h ⊢
      cases hb : segmentBody d rest out with
      | ret e r1 => rw [hb] at h; cases h
      | brk r1 =>
        rw [hb] at h
        simp only [] at h ⊢
        exact ih _ _ _ r m h
    · rw [if_neg hc] at h ⊢
      cases h
      cases m with
      | zero => rfl
      | succ m =>
        simp only [segmentLoop]
        rw [if_neg hc]

theorem dispatch_out_brk (d : Demuxer) (rest : List Byte) (out : List Call) (r : Run)
    (h : dispatch d rest out = Flow.brk r) : ∃ o, r.out = out ++ o := by
  have hx := dispatch_out out d rest []
  rw [List.append_nil, h] at hx
  cases hd : dispatch d rest [] with
  | ret e r1 =>
    rw [hd] at hx
    simp only [Flow.prependOut] at hx
    cases hx
  | brk r1 =>
    rw [hd] at hx
    simp only [Flow.prependOut] at hx
    cases hx
    exact ⟨r1.out, rfl⟩

theorem dispatch_out_ret (d : Demuxer) (rest : List Byte) (out : List Call) (e : Exit) (r : Run)
    (h : dispatch d rest out = Flow.ret e r) : ∃ o, r.out = out ++ o := by
  have hx := dispatch_out out d rest []
  rw [List.append_nil, h] at hx
  cases hd : dispatch d rest [] with
  | brk r1 =>
    rw [hd] at hx
    simp only [Flow.prependOut] at hx
    cases hx
  | ret e1 r1 =>
    rw [hd] at hx
    simp only [Flow.prependOut] at hx
    cases hx
    exact ⟨r1.out, rfl⟩

theorem Eval_out_append (d : Demuxer) (rest : List Byte) (out : List Call) (res : Exit × Run)
    (h : Eval ⟨d, rest, out⟩ res) : ∃ o, res.2.out = out ++ o := by
  obtain ⟨fuel, hf⟩ := h
  have hx := ProcessLoop_out out fuel d rest []
  rw [List.append_nil, hf] at hx
  cases hp : ProcessLoop fuel ⟨d, rest, []⟩ with
  | none =>
    rw [hp] at hx
    cases hx
  | some y =>
    rw [hp] at hx
    simp only [Option.map_some', Option.some.injEq] at hx
    rw [hx]
    exact ⟨y.2.out, rfl⟩

theorem Eval_of_Reaches (r r1 : Run) (res : Exit × Run) (h : Reaches r r1) (he : Eval r res) :
    Eval r1 res := by
  obtain ⟨k, hk⟩ := h
  obtain ⟨n, hn⟩ := he
  exact ⟨n, by rw [← hk]; exact ProcessLoop_mono n r res k hn⟩

/-- A pass that goes on like the pass from the loop state `⟨dM, restM, outM⟩` ends the call with
the invocations `outM` in front of its list. -/
theorem Eval_through (r : Run) (dM : Demuxer) (restM : List Byte) (outM : List Call)
    (res : Exit × Run) (hne : r.rest ≠ [])
    (hd : dispatch r.d r.rest r.out = dispatch dM restM outM) (he : Eval r res) :
    ∃ o, res.2.out = outM ++ o := by
  cases hx : dispatch dM restM outM with
  | ret e r1 =>
    rw [hx] at hd
    have h1 := (Eval_ret r r1 e res hne hd).mp he
    obtain ⟨o, ho⟩ := dispatch_out_ret dM restM outM e r1 hx
    rw [h1]
    exact ⟨o, ho⟩
  | brk r1 =>
    rw [hx] at hd
    have h1 := (Eval_brk r r1 res hne hd).mp he
    obtain ⟨o, ho⟩ := dispatch_out_brk dM restM outM r1 hx
    obtain ⟨o2, ho2⟩ := Eval_out_append r1.d r1.rest r1.out res h1
    exact ⟨o ++ o2, by rw [ho2, ho, List.append_assoc]⟩

theorem sum_replicate_255 (j : Nat) : ((List.replicate j (255 : Byte)).map Fin.val).sum = 255 * j := by
  induction j with
  | zero => rfl
  | succ k ih =>
    rw [List.replicate_succ, sum_cons_val, ih]
    have e : ((255 : Byte) : Nat) = 255 := rfl
    omega

theorem sum_run_end (j : Nat) (s : Byte) :
    (((List.replicate j (255 : Byte)) ++ [s]).map Fin.val).sum = 255 * j + s.val := by
  rw [List.map_append, List.sum_append, sum_replicate_255]
  simp

theorem Fits_run_end (j n : Nat) (s : Byte) (h : n + (255 * j + s.val) ≤ PACKET_BUF_SIZE) :
    Fits n (List.replicate j 255 ++ [s]) := by
  induction j generalizing n with
  | zero => exact ⟨by simpa using h, trivial⟩
  | succ k ih =>
    rw [List.replicate_succ, List.cons_append]
    have e : ((255 : Byte) : Nat) = 255 := rfl
    refine ⟨by rw [e]; omega, ?_⟩
    rw [if_pos rfl, e]
    exact ih _ (by omega)

theorem getLast?_run_end (j : Nat) (s : Byte) :
    (List.replicate j (255 : Byte) ++ [s]).getLast? = some s := by
  rw [List.getLast?_append]
  simp

theorem lacing_run_end (j : Nat) (s : Byte) (B acc : List Byte) (hs : s ≠ 255)
    (hB : B.length = 255 * j + s.val) :
    lacing (List.replicate j 255 ++ [s]) B acc = ([acc ++ B], []) := by
  rw [lacing_append_replicate, lacing_cons_end _ _ _ _ hs, List.append_assoc, ← List.take_add,
    List.take_of_length_le (by omega)]
  simp [lacing]

theorem lacing_run_open (j : Nat) (B acc : List Byte) (hB : B.length = 255 * j) :
    lacing (List.replicate j 255) B acc = ([], acc ++ B) := by
  rw [lacing_replicate, List.take_of_length_le (by omega)]

/-- A well-formed page with segments at the front of the input, taken in by an object that
searches for a page and holds the open packet `acc`: three passes of the outer loop lead to
the first segment; the first passes of the segment loop, those for the segments `ts` the
table begins with, do what `lacing` and `deliver` say if the capacity rule holds for `ts`
and either input follows the bytes of `ts` or the last segment of `ts` is not empty; and the
pass goes on from the loop state they end in. -/
theorem page_prefix (d : Demuxer) (p : Page) (ts t2 tail acc : List Byte) (out : List Call)
    (n : Nat) (hs : d.state_ = ParseState.FIND_PAGE) (hb : d.bytes_needed = 4) (hwf : p.WF)
    (htab : p.table = ts ++ t2) (hne : p.table ≠ []) (hn : (ts.map Fin.val).sum = n)
    (hl : d.packet_len = acc.length) (hbuf : readBuf d.packet_buf acc.length = acc)
    (hfit : Fits acc.length ts)
    (hflush : p.body.drop n ++ tail ≠ [] ∨ ∀ s, ts.getLast? = some s → s ≠ 0) :
    ∃ dC dM outM,
      (∀ fuel, ProcessLoop (fuel + 3) ⟨d, p.bytes ++ tail, out⟩ =
        ProcessLoop fuel ⟨dC, p.body ++ tail, out⟩) ∧
      dC.state_ = ParseState.PARSE_DATA ∧ dC.seg_index = 0 ∧ dC.seg_count = p.table.length ∧
      dC.on_demuxer_finished_ = d.on_demuxer_finished_ ∧ infoOf dC out = infoOf d out ∧
      dC.packet_continued = d.packet_continued ∧
      (∀ m, segmentLoop (ts.length + m) dC (p.body ++ tail) out =
        segmentLoop m dM (p.body.drop n ++ tail) outM) ∧
      dispatch dC (p.body ++ tail) out = dispatch dM (p.body.drop n ++ tail) outM ∧
      AfterSegments dC ts (p.body.take n) acc out dM outM := by
  subst hn
  obtain ⟨dC, hrun, c1, c2, c3, c4, c5, c6, c7, c8, c9, c10, c11, c12⟩ :=
    page_head d p tail out hs hb hwf hne
  obtain ⟨hf, ht, hbody⟩ := hwf
  have hsum : (p.table.map Fin.val).sum = (ts.map Fin.val).sum + (t2.map Fin.val).sum := by
    rw [htab]
    simp
  have hlenT : p.table.length = ts.length + t2.length := by
    rw [htab]
    simp
  have hsplit : p.body ++ tail = p.body.take (ts.map Fin.val).sum ++
      (p.body.drop (ts.map Fin.val).sum ++ tail) := by
    rw [← List.append_assoc, List.take_append_drop]
  obtain ⟨dM, outM, e1, e2⟩ := segmentLoop_page ts dC (p.body.take (ts.map Fin.val).sum)
    (p.body.drop (ts.map Fin.val).sum ++ tail) acc out 0
    (by
      intro j hj
      have := c5 j (by omega)
      rw [this]
      simp only [List.get_eq_getElem, htab]
      rw [List.getElem_append_left hj])
    (by rw [c2, c3, hlenT]; omega) c4
    (by rw [List.length_take]; omega) hflush (by rw [c6, hl]) (by rw [c7]; exact hbuf) hfit
  have e0 : segmentLoop ts.length dC (p.body ++ tail) out =
      Flow.brk ⟨dM, p.body.drop (ts.map Fin.val).sum ++ tail, outM⟩ := by
    rw [Nat.add_zero, ← hsplit] at e1
    rw [e1]
    rfl
  have hall : ∀ m, segmentLoop (ts.length + m) dC (p.body ++ tail) out =
      segmentLoop m dM (p.body.drop (ts.map Fin.val).sum ++ tail) outM :=
    fun m => segmentLoop_add _ _ _ _ _ m e0
  refine ⟨dC, dM, outM, hrun, c1, c2, c3, c8, ?_, c12, hall, ?_, e2⟩
  · simp only [infoOf, c9, c10, c11]
  · have hM : dM.state_ = ParseState.PARSE_DATA := e2.state_eq.trans c1
    unfold dispatch
    rw [c1, hM]
    simp only [parseData]
    rw [show dC.seg_count - dC.seg_index = ts.length + t2.length by rw [c2, c3, hlenT]; omega,
      show dM.seg_count - dM.seg_index = t2.length by
        rw [e2.seg_count_eq, e2.seg_index_eq, c2, c3, hlenT]; omega, hall]

/-- Input in front of the next capture pattern is skipped by the page search. -/
theorem skip_to_page (d : Demuxer) (g : List Byte) (p : Page) (tail : List Byte)
    (out : List Call) (hs : d.state_ = ParseState.FIND_PAGE) (hb : d.bytes_needed = 4)
    (hg : ¬ OggS <:+: g ++ OggS.take 3) :
    ∀ fuel, ProcessLoop fuel ⟨d, g ++ (p.bytes ++ tail), out⟩ =
      ProcessLoop fuel ⟨d, p.bytes ++ tail, out⟩ := by
  intro fuel
  have hbytes : p.bytes ++ tail =
      OggS ++ (([0] ++ p.fields ++ [countByte p.table.length]) ++ (p.table ++ (p.body ++ tail))) := by
    simp only [Page.bytes, List.append_assoc]
  have h1 := findPage_search_first d g
    (([0] ++ p.fields ++ [countByte p.table.length]) ++ (p.table ++ (p.body ++ tail))) out hb hg
  have h2 := findPage_search_first d []
    (([0] ++ p.fields ++ [countByte p.table.length]) ++ (p.table ++ (p.body ++ tail))) out hb
    (not_infix_short _ (by simp [OggS]))
  rw [List.append_assoc] at h1
  rw [List.nil_append] at h2
  cases fuel with
  | zero => rfl
  | succ k =>
    rw [ProcessLoop_succ, ProcessLoop_succ]
    simp only []
    rw [hbytes, if_neg (by simp [OggS]), if_neg (by simp [OggS])]
    unfold dispatch
    rw [hs]
    simp only []
    rw [h1, h2]

/-! ## Claim C4: continuation across pages -/

theorem StateInv_searching (d : Demuxer) (hs : d.state_ = ParseState.FIND_PAGE)
    (hb : d.bytes_needed = 4) (hl : d.packet_len ≤ PACKET_BUF_SIZE) (hh : d.head_seen = true) :
    StateInv d := by
  refine ⟨hl, ?_, ?_, ?_, ?_, ?_⟩
  · intro h
    rw [hh] at h
    cases h
  · intro _
    omega
  · intro h
    rw [hs] at h
    cases h
  · intro h
    rw [hs] at h
    cases h
  · intro h
    rw [hs] at h
    cases h

/-- C4 (cross-page continuation), amended by header gating, the capacity rule and the input
the closing segment needs.  Both header packets seen, a callback registered, the accumulator
empty, the object searching for a page.  Page `p1` is well formed, within the capacity rule,
and ends with `i + 1` segments of lacing value 255 (after the segments `t1`, which end their
packets); `tail1` is the input after it.  Then, when `p1` ends, the loop is in `FIND_PAGE`
with `packet_continued` set and the `255 (i + 1)` bytes of the open packet kept in the
accumulator, and the callbacks made are those for the packets completed by `t1` only.  Page
`p2` is well formed and begins with `j` segments of 255 and a segment `s < 255`; the packet
made of all these segments has at most 8192 bytes; `s` is not empty or input follows the
packet's last byte.  Then the object `d1` left by `p1`, given `p2` (in the same call or in a
later one, `out2` being the callbacks made before), comes to the first segment of `p2`, and
the `j + 1` first passes of the segment loop add exactly one callback: the kept bytes
followed by the first `255 j + s` body bytes of `p2`, with the sum of all these segment
lengths as length; the accumulator is empty afterwards; and the call returns with that
callback in its list, whatever the rest of `p2` and the input after it hold. -/
theorem C4_cross_page (d : Demuxer) (p1 p2 : Page) (t1 t2 : List Byte) (i j : Nat) (s : Byte)
    (tail1 tail : List Byte) (out out2 : List Call)
    (hs : d.state_ = ParseState.FIND_PAGE) (hb : d.bytes_needed = 4)
    (hh : d.head_seen = true) (ht : d.tags_seen = true) (hcb : d.on_demuxer_finished_ = true)
    (hempty : d.packet_len = 0) (hwf1 : p1.WF) (hwf2 : p2.WF)
    (htab1 : p1.table = t1 ++ List.replicate (i + 1) 255)
    (hclosed : ∀ x, t1.getLast? = some x → x ≠ 255) (hfit1 : Fits 0 p1.table)
    (htab2 : p2.table = List.replicate j 255 ++ s :: t2) (hs255 : s ≠ 255)
    (hfit2 : 255 * (i + 1) + (255 * j + s.val) ≤ PACKET_BUF_SIZE)
    (hflush : s ≠ 0 ∨ p2.body.drop (255 * j + s.val) ++ tail ≠ []) :
    ∃ d1 dC dM,
      Reaches ⟨d, p1.bytes ++ tail1, out⟩
        ⟨d1, tail1,
          out ++ callsOf d.sample_rate (lacing t1 (p1.body.take (t1.map Fin.val).sum) []).1⟩ ∧
      d1.state_ = ParseState.FIND_PAGE ∧ d1.packet_continued = true ∧
      d1.packet_len = 255 * (i + 1) ∧
      readBuf d1.packet_buf (255 * (i + 1)) = p1.body.drop (t1.map Fin.val).sum ∧
      Reaches ⟨d1, p2.bytes ++ tail, out2⟩ ⟨dC, p2.body ++ tail, out2⟩ ∧
      dC.state_ = ParseState.PARSE_DATA ∧ dC.seg_index = 0 ∧
      (∀ m, segmentLoop (j + 1 + m) dC (p2.body ++ tail) out2 =
        segmentLoop m dM (p2.body.drop (255 * j + s.val) ++ tail)
          (out2 ++ [⟨p1.body.drop (t1.map Fin.val).sum ++ p2.body.take (255 * j + s.val),
            d.sample_rate, 255 * (i + 1) + (255 * j + s.val)⟩])) ∧
      dM.seg_index = j + 1 ∧ dM.packet_len = 0 ∧ dM.packet_continued = false ∧
      ∃ e r o, Eval ⟨d1, p2.bytes ++ tail, out2⟩ (e, r) ∧
        r.out = out2 ++
          ⟨p1.body.drop (t1.map Fin.val).sum ++ p2.body.take (255 * j + s.val),
            d.sample_rate, 255 * (i + 1) + (255 * j + s.val)⟩ :: o := by
  have e255 : ((255 : Byte) : Nat) = 255 := rfl
  -- the body of `p1` splits into the packets closed by `t1` and the open run
  have hsum1 : (p1.table.map Fin.val).sum = (t1.map Fin.val).sum + 255 * (i + 1) := by
    rw [htab1, List.map_append, List.sum_append, sum_replicate_255]
  have hopen : (p1.body.drop (t1.map Fin.val).sum).length = 255 * (i + 1) := by
    rw [List.length_drop, hwf1.2.2, hsum1]
    omega
  have hlac1 : lacing p1.table p1.body [] =
      ((lacing t1 (p1.body.take (t1.map Fin.val).sum) []).1,
        p1.body.drop (t1.map Fin.val).sum) := by
    have htk : (p1.body.drop (t1.map Fin.val).sum).take (255 * (i + 1)) =
        p1.body.drop (t1.map Fin.val).sum := List.take_of_length_le (by rw [hopen])
    rw [htab1, lacing_append, lacing_carry_nil _ _ hclosed, lacing_replicate, htk]
    simp
  obtain ⟨d1, k1, _, hrun1, a1, a2, a3, a4, a5, a6, a7, a8, a9⟩ :=
    page_run_ready d p1 tail1 out hs hb hh ht hcb [] hempty (by simp [readBuf])
      hwf1 hfit1 (Or.inr (by
        intro x hx
        rw [htab1, getLast?_append_replicate] at hx
        cases hx
        decide))
  rw [hlac1] at hrun1 a7 a8
  simp only [] at hrun1 a7 a8
  rw [hopen] at a7 a8
  rw [htab1, getLast?_append_replicate] at a9
  simp only [decide_True] at a9
  -- the second page, up to the segment that ends the packet
  have hsum2 : (p2.table.map Fin.val).sum = 255 * j + s.val + (t2.map Fin.val).sum := by
    rw [htab2, List.map_append, List.sum_append, sum_replicate_255, sum_cons_val]
    omega
  have hlen2 : 255 * j + s.val ≤ p2.body.length := by
    rw [hwf2.2.2, hsum2]
    omega
  have htab2' : p2.table = (List.replicate j 255 ++ [s]) ++ t2 := by
    rw [htab2]
    simp
  obtain ⟨dC, dM, outM, hrun2, c1, c2, _, c4, c5, _, hall, hdisp, hseg⟩ :=
    page_prefix d1 p2 (List.replicate j 255 ++ [s]) t2 tail (p1.body.drop (t1.map Fin.val).sum)
      out2 (255 * j + s.val) a1 a2 hwf2 htab2' (by rw [htab2]; simp) (sum_run_end j s)
      (by rw [a7, hopen]) (by rw [hopen]; exact a8)
      (Fits_run_end j _ s (by rw [hopen]; exact hfit2))
      (by
        rcases hflush with h | h
        · right
          intro x hx
          rw [getLast?_run_end] at hx
          cases hx
          exact h
        · exact Or.inl h)
  have hlacing := lacing_run_end j s (p2.body.take (255 * j + s.val))
    (p1.body.drop (t1.map Fin.val).sum) hs255 (by rw [List.length_take]; omega)
  have hq : p1.body.drop (t1.map Fin.val).sum ++ p2.body.take (255 * j + s.val) ≠ [] := by
    intro hx
    have := congrArg List.length (List.append_eq_nil.mp hx).1
    rw [hopen] at this
    simp at this
  have hqlen : (p1.body.drop (t1.map Fin.val).sum ++ p2.body.take (255 * j + s.val)).length =
      255 * (i + 1) + (255 * j + s.val) := by
    rw [List.length_append, hopen, List.length_take]
    omega
  have hinfo := hseg.info_eq
  rw [hlacing, c4, a5, c5, deliver_ready_calls d1 out2 _ a3 a4, callsOf_single _ _ hq, hqlen,
    a6] at hinfo
  simp only [infoOf, StreamInfo.mk.injEq] at hinfo
  obtain ⟨_, _, _, hout⟩ := hinfo
  subst hout
  have hidx : dM.seg_index = j + 1 := by
    rw [hseg.seg_index_eq, c2]
    simp
  have hplen : dM.packet_len = 0 := by
    rw [hseg.packet_len_eq, hlacing]
    rfl
  have hcont : dM.packet_continued = false := by
    rw [hseg.continued_eq, getLast?_run_end]
    simp only [decide_eq_false_iff_not]
    exact hs255
  have hall' : ∀ m, segmentLoop (j + 1 + m) dC (p2.body ++ tail) out2 =
      segmentLoop m dM (p2.body.drop (255 * j + s.val) ++ tail)
        (out2 ++ [⟨p1.body.drop (t1.map Fin.val).sum ++ p2.body.take (255 * j + s.val),
          d.sample_rate, 255 * (i + 1) + (255 * j + s.val)⟩]) := by
    intro m
    have := hall m
    simp only [List.length_append, List.length_replicate, List.length_cons, List.length_nil]
      at this
    exact this
  -- the call returns
  have hinv : StateInv d1 := StateInv_searching d1 a1 a2 (by rw [a7]; omega) a3
  obtain ⟨res, hev, _⟩ := Eval_total ⟨d1, p2.bytes ++ tail, out2⟩ hinv
  have hne : p2.body ++ tail ≠ [] := by
    intro hx
    obtain ⟨hx1, hx2⟩ := List.append_eq_nil.mp hx
    rcases hflush with h | h
    · have hz : s.val = 0 := by
        rw [hx1] at hlen2
        simp only [List.length_nil] at hlen2
        omega
      exact h (Fin.ext hz)
    · rw [hx1, hx2] at h
      simp at h
  obtain ⟨o, ho⟩ := Eval_through ⟨dC, p2.body ++ tail, out2⟩ dM _ _ res hne hdisp
    (Eval_of_Reaches _ _ res ⟨3, hrun2⟩ hev)
  refine ⟨d1, dC, dM, ⟨k1, hrun1⟩, a1, a9, a7, a8, ⟨3, hrun2⟩, c1, c2, hall', hidx, hplen,
    hcont, res.1, res.2, o, hev, ?_⟩
  rw [ho, List.append_assoc]
  rfl

set_option maxRecDepth 100000 in
theorem C4_cross_page_witness :
    ∃ d1 dC dM,
      Reaches ⟨readyState, contPage.bytes ++ [], []⟩ ⟨d1, [], []⟩ ∧
      d1.state_ = ParseState.FIND_PAGE ∧ d1.packet_continued = true ∧ d1.packet_len = 255 ∧
      readBuf d1.packet_buf 255 = List.replicate 255 1 ∧
      Reaches ⟨d1, endMorePage.bytes ++ [], []⟩ ⟨dC, endMorePage.body ++ [], []⟩ ∧
      dC.state_ = ParseState.PARSE_DATA ∧ dC.seg_index = 0 ∧
      (∀ m, segmentLoop (0 + 1 + m) dC (endMorePage.body ++ []) [] =
        segmentLoop m dM (List.replicate 255 4 ++ [])
          ([] ++ [⟨List.replicate 255 1 ++ [2, 2, 2], 48000, 258⟩])) ∧
      dM.seg_index = 0 + 1 ∧ dM.packet_len = 0 ∧ dM.packet_continued = false ∧
      ∃ e r o, Eval ⟨d1, endMorePage.bytes ++ [], []⟩ (e, r) ∧
        r.out = [] ++ ⟨List.replicate 255 1 ++ [2, 2, 2], 48000, 258⟩ :: o :=
  C4_cross_page readyState contPage endMorePage [] [255, 0] 0 0 3 [] [] [] [] rfl rfl rfl rfl
    rfl rfl ⟨by decide, by decide, by decide⟩ ⟨by decide, by decide, by decide⟩ rfl (by decide)
    (by decide) rfl (by decide) (by decide) (Or.inl (by decide))

/-! ## Claim C16: the discarded page -/

/-- C16 (frame of a discarded page), amended by the capacity rule and the input the closing
segment needs.  The object is in `PARSE_HEADER` and the input begins with the header bytes
`x` still missing; the completed header has a non-zero version byte or a segment count of
zero.  First: the pass ends in `FIND_PAGE` with `bytes_needed = 4`, and `packet_buf`,
`packet_len`, `packet_continued`, `head_seen`, `tags_seen`, `sample_rate` (and the stored
callback) are as before.  Second: when the object holds the bytes `acc` of an open packet
and, after input `g` without a capture pattern, a well-formed page `p` with segments comes
whose table begins with `j` segments of lacing value 255, and `acc` with the `255 j` bytes of
these segments is within 8192 bytes, then the loop comes to the first segment of `p` and
after `j` passes of the segment loop the accumulator holds `acc` followed by these bytes,
with no callback made and the flags and the rate as before.  Third: when a segment `s < 255`
follows the `j` segments, `acc` with the `255 j + s` bytes is within 8192 bytes, and `s` is
not empty or input follows the packet's last byte, then after `j + 1` passes of the segment
loop the packet `acc` followed by these `255 j + s` bytes has been completed, with the effect
the specification (`deliverPacket`) gives for that packet, and the accumulator is empty. -/
theorem C16_discarded_page_frame (d : Demuxer) (x tail : List Byte) (out : List Call)
    (hs : d.state_ = ParseState.PARSE_HEADER) (hlen : x.length = d.bytes_needed)
    (hbad : memcpy d.header d.data_offset x 4 ≠ 0 ∨
      (memcpy d.header d.data_offset x 26).val = 0) :
    (∃ d1, dispatch d (x ++ tail) out = Flow.brk ⟨d1, tail, out⟩ ∧
      d1.state_ = ParseState.FIND_PAGE ∧ d1.bytes_needed = 4 ∧
      d1.packet_buf = d.packet_buf ∧ d1.packet_len = d.packet_len ∧
      d1.packet_continued = d.packet_continued ∧ d1.head_seen = d.head_seen ∧
      d1.tags_seen = d.tags_seen ∧ d1.sample_rate = d.sample_rate ∧
      d1.on_demuxer_finished_ = d.on_demuxer_finished_) ∧
    (∀ (g : List Byte) (p : Page) (acc : List Byte) (j : Nat) (t2 : List Byte),
      ¬ OggS <:+: g ++ OggS.take 3 → p.WF → p.table ≠ [] →
      p.table = List.replicate j 255 ++ t2 →
      d.packet_len = acc.length → readBuf d.packet_buf acc.length = acc →
      acc.length + 255 * j ≤ PACKET_BUF_SIZE →
      ∃ dC dM, Reaches ⟨d, x ++ (g ++ (p.bytes ++ tail)), out⟩ ⟨dC, p.body ++ tail, out⟩ ∧
        dC.state_ = ParseState.PARSE_DATA ∧ dC.seg_index = 0 ∧
        (∀ m, segmentLoop (j + m) dC (p.body ++ tail) out =
          segmentLoop m dM (p.body.drop (255 * j) ++ tail) out) ∧
        dM.seg_index = j ∧ dM.packet_len = acc.length + 255 * j ∧
        readBuf dM.packet_buf (acc.length + 255 * j) = acc ++ p.body.take (255 * j) ∧
        dM.head_seen = d.head_seen ∧ dM.tags_seen = d.tags_seen ∧
        dM.sample_rate = d.sample_rate) ∧
    (∀ (g : List Byte) (p : Page) (acc : List Byte) (j : Nat) (s : Byte) (t2 : List Byte),
      ¬ OggS <:+: g ++ OggS.take 3 → p.WF →
      p.table = List.replicate j 255 ++ s :: t2 → s ≠ 255 →
      d.packet_len = acc.length → readBuf d.packet_buf acc.length = acc →
      acc.length + (255 * j + s.val) ≤ PACKET_BUF_SIZE →
      (s ≠ 0 ∨ p.body.drop (255 * j + s.val) ++ tail ≠ []) →
      ∃ dC dM outM, Reaches ⟨d, x ++ (g ++ (p.bytes ++ tail)), out⟩ ⟨dC, p.body ++ tail, out⟩ ∧
        dC.state_ = ParseState.PARSE_DATA ∧ dC.seg_index = 0 ∧
        (∀ m, segmentLoop (j + 1 + m) dC (p.body ++ tail) out =
          segmentLoop m dM (p.body.drop (255 * j + s.val) ++ tail) outM) ∧
        dM.seg_index = j + 1 ∧ dM.packet_len = 0 ∧ dM.packet_continued = false ∧
        infoOf dM outM = deliverPacket d.on_demuxer_finished_ (infoOf d out)
          (acc ++ p.body.take (255 * j + s.val))) := by
  have hd : ∀ y o, dispatch d y o = parseHeader d y o := by
    intro y o; unfold dispatch; rw [hs]
  have hstep : ∀ tl, ∃ d1, dispatch d (x ++ tl) out = Flow.brk ⟨d1, tl, out⟩ ∧
      d1.state_ = ParseState.FIND_PAGE ∧ d1.bytes_needed = 4 ∧
      d1.packet_buf = d.packet_buf ∧ d1.packet_len = d.packet_len ∧
      d1.packet_continued = d.packet_continued ∧ d1.head_seen = d.head_seen ∧
      d1.tags_seen = d.tags_seen ∧ d1.sample_rate = d.sample_rate ∧
      d1.on_demuxer_finished_ = d.on_demuxer_finished_ := by
    intro tl
    obtain ⟨d1, h1, _, hv, a1, a2, a3, a4, a5, a6, a7, _⟩ := parseHeader_complete d x tl out hlen
    have hst : d1.state_ = ParseState.FIND_PAGE ∧ d1.bytes_needed = 4 := by
      by_cases h4 : memcpy d.header d.data_offset x 4 ≠ 0
      · exact hv.1 h4
      · rcases hbad with hb | hb
        · exact absurd hb h4
        · exact hv.2.1 (not_not.mp h4) hb
    exact ⟨d1, (hd _ _).trans h1, hst.1, hst.2, a1, a2, a3, a4, a5, a6, a7⟩
  have hreach : ∀ (g : List Byte) (p : Page) (d1 dC : Demuxer),
      dispatch d (x ++ (g ++ (p.bytes ++ tail))) out =
        Flow.brk ⟨d1, g ++ (p.bytes ++ tail), out⟩ →
      d1.state_ = ParseState.FIND_PAGE → d1.bytes_needed = 4 →
      ¬ OggS <:+: g ++ OggS.take 3 →
      (∀ fuel, ProcessLoop (fuel + 3) ⟨d1, p.bytes ++ tail, out⟩ =
        ProcessLoop fuel ⟨dC, p.body ++ tail, out⟩) →
      Reaches ⟨d, x ++ (g ++ (p.bytes ++ tail)), out⟩ ⟨dC, p.body ++ tail, out⟩ := by
    intro g p d1 dC h1 s1 s2 hg hrun
    have hne : x ++ (g ++ (p.bytes ++ tail)) ≠ [] := by
      intro h
      have := congrArg List.length h
      have hp := p.bytes_length_pos
      simp only [List.length_append, List.length_nil] at this
      omega
    exact Reaches_trans _ _ _ (Reaches_brk ⟨d, x ++ (g ++ (p.bytes ++ tail)), out⟩ _ hne h1)
      (Reaches_trans _ _ _ ⟨0, skip_to_page d1 g p tail out s1 s2 hg⟩ ⟨3, hrun⟩)
  refine ⟨hstep tail, ?_, ?_⟩
  · intro g p acc j t2 hg hwf hne htab hl hbuf hfit
    obtain ⟨d1, h1, s1, s2, a1, a2, a3, a4, a5, a6, a7⟩ := hstep (g ++ (p.bytes ++ tail))
    have hlenB : 255 * j ≤ p.body.length := by
      rw [hwf.2.2, htab, List.map_append, List.sum_append, sum_replicate_255]
      omega
    obtain ⟨dC, dM, outM, hrun, c1, c2, _, c4, c5, _, hall, _, hseg⟩ :=
      page_prefix d1 p (List.replicate j 255) t2 tail acc out (255 * j) s1 s2 hwf htab hne
        (sum_replicate_255 j) (by rw [a2]; exact hl) (by rw [a1]; exact hbuf)
        (Fits_replicate j _ hfit)
        (Or.inr (by
          intro y hy
          cases j with
          | zero => simp at hy
          | succ k =>
            have := getLast?_append_replicate [] k
            rw [List.nil_append] at this
            rw [this] at hy
            cases hy
            decide))
    have hlacing := lacing_run_open j (p.body.take (255 * j)) acc
      (by rw [List.length_take]; omega)
    have hinfo := hseg.info_eq
    rw [hlacing, c5] at hinfo
    simp only [deliver, List.foldl_nil, infoOf, StreamInfo.mk.injEq] at hinfo
    obtain ⟨i1, i2, i3, hout⟩ := hinfo
    subst hout
    have hplen : (acc ++ p.body.take (255 * j)).length = acc.length + 255 * j := by
      rw [List.length_append, List.length_take]
      omega
    refine ⟨dC, dM, hreach g p d1 dC h1 s1 s2 hg hrun, c1, c2, ?_, ?_, ?_, ?_, i1.trans a4,
      i2.trans a5, i3.trans a6⟩
    · intro m
      have := hall m
      rw [List.length_replicate] at this
      exact this
    · rw [hseg.seg_index_eq, c2]
      simp
    · rw [hseg.packet_len_eq, hlacing]
      exact hplen
    · have := hseg.packet_buf_eq
      rw [hlacing] at this
      simp only [] at this
      rw [hplen] at this
      exact this
  · intro g p acc j s t2 hg hwf htab hs255 hl hbuf hfit hflush
    obtain ⟨d1, h1, s1, s2, a1, a2, a3, a4, a5, a6, a7⟩ := hstep (g ++ (p.bytes ++ tail))
    have hlenB : 255 * j + s.val ≤ p.body.length := by
      rw [hwf.2.2, htab, List.map_append, List.sum_append, sum_replicate_255, sum_cons_val]
      omega
    have htab' : p.table = (List.replicate j 255 ++ [s]) ++ t2 := by
      rw [htab]
      simp
    obtain ⟨dC, dM, outM, hrun, c1, c2, _, c4, c5, _, hall, _, hseg⟩ :=
      page_prefix d1 p (List.replicate j 255 ++ [s]) t2 tail acc out (255 * j + s.val) s1 s2
        hwf htab' (by rw [htab]; simp) (sum_run_end j s) (by rw [a2]; exact hl)
        (by rw [a1]; exact hbuf) (Fits_run_end j _ s hfit)
        (by
          rcases hflush with h | h
          · right
            intro y hy
            rw [getLast?_run_end] at hy
            cases hy
            exact h
          · exact Or.inl h)
    have hlacing := lacing_run_end j s (p.body.take (255 * j + s.val)) acc hs255
      (by rw [List.length_take]; omega)
    have hinfo := hseg.info_eq
    rw [hlacing, c4, c5] at hinfo
    simp only [deliver, List.foldl_cons, List.foldl_nil] at hinfo
    have hi : infoOf d1 out = infoOf d out := by
      simp only [infoOf, a4, a5, a6]
    rw [hi, a7] at hinfo
    refine ⟨dC, dM, outM, hreach g p d1 dC h1 s1 s2 hg hrun, c1, c2, ?_, ?_, ?_, ?_, hinfo⟩
    · intro m
      have := hall m
      simp only [List.length_append, List.length_replicate, List.length_cons, List.length_nil]
        at this
      exact this
    · rw [hseg.seg_index_eq, c2]
      simp
    · rw [hseg.packet_len_eq, hlacing]
      rfl
    · rw [hseg.continued_eq, getLast?_run_end]
      simp only [decide_eq_false_iff_not]
      exact hs255

set_option maxRecDepth 100000 in
theorem C16_discarded_page_frame_witness :
    (openHeader.state_ = ParseState.PARSE_HEADER ∧
      ((1 :: List.replicate 22 0 : List Byte)).length = openHeader.bytes_needed ∧
      (memcpy openHeader.header openHeader.data_offset (1 :: List.replicate 22 0) 4 ≠ 0 ∨
        (memcpy openHeader.header openHeader.data_offset (1 :: List.replicate 22 0) 26).val =
          0)) ∧
    (∃ d1, dispatch openHeader ((1 :: List.replicate 22 0) ++ []) [] = Flow.brk ⟨d1, [], []⟩ ∧
      d1.state_ = ParseState.FIND_PAGE ∧ d1.bytes_needed = 4 ∧
      d1.packet_buf = openHeader.packet_buf ∧ d1.packet_len = openHeader.packet_len ∧
      d1.packet_continued = openHeader.packet_continued ∧
      d1.head_seen = openHeader.head_seen ∧ d1.tags_seen = openHeader.tags_seen ∧
      d1.sample_rate = openHeader.sample_rate ∧
      d1.on_demuxer_finished_ = openHeader.on_demuxer_finished_) ∧
    (∃ dC dM, Reaches
        ⟨openHeader, (1 :: List.replicate 22 0) ++ ([7, 7] ++ (contPage.bytes ++ [])), []⟩
        ⟨dC, contPage.body ++ [], []⟩ ∧
      dC.state_ = ParseState.PARSE_DATA ∧ dC.seg_index = 0 ∧
      (∀ m, segmentLoop (1 + m) dC (contPage.body ++ []) [] = segmentLoop m dM ([] ++ []) []) ∧
      dM.seg_index = 1 ∧ dM.packet_len = 510 ∧
      readBuf dM.packet_buf 510 = List.replicate 255 1 ++ List.replicate 255 1 ∧
      dM.head_seen = true ∧ dM.tags_seen = true ∧ dM.sample_rate = 48000) ∧
    (∃ dC dM outM, Reaches
        ⟨openHeader, (1 :: List.replicate 22 0) ++ ([7, 7] ++ (endMorePage.bytes ++ [])), []⟩
        ⟨dC, endMorePage.body ++ [], []⟩ ∧
      dC.state_ = ParseState.PARSE_DATA ∧ dC.seg_index = 0 ∧
      (∀ m, segmentLoop (0 + 1 + m) dC (endMorePage.body ++ []) [] =
        segmentLoop m dM (List.replicate 255 4 ++ []) outM) ∧
      dM.seg_index = 0 + 1 ∧ dM.packet_len = 0 ∧ dM.packet_continued = false ∧
      infoOf dM outM =
        ⟨true, true, 48000, [⟨List.replicate 255 1 ++ [2, 2, 2], 48000, 258⟩]⟩) :=
  ⟨⟨rfl, by decide, Or.inl (by decide)⟩,
    (C16_discarded_page_frame openHeader (1 :: List.replicate 22 0) [] [] rfl
      (by decide) (Or.inl (by decide))).1,
    (C16_discarded_page_frame openHeader (1 :: List.replicate 22 0) [] [] rfl
      (by decide) (Or.inl (by decide))).2.1 [7, 7] contPage (List.replicate 255 1) 1 []
      (by decide) ⟨by decide, by decide, by decide⟩ (by decide) rfl rfl (by decide) (by decide),
    (C16_discarded_page_frame openHeader (1 :: List.replicate 22 0) [] [] rfl
      (by decide) (Or.inl (by decide))).2.2 [7, 7] endMorePage (List.replicate 255 1) 0 3
      [255, 0] (by decide) ⟨by decide, by decide, by decide⟩ rfl (by decide) rfl (by decide)
      (by decide) (Or.inl (by decide))⟩

set_option maxRecDepth 100000 in
/-- Counterexample to C16 as stated.  With both header packets seen and a callback
registered, the well-formed page `openPage` (32 segments of 255 bytes) leaves a packet of
8160 bytes continuing; a header with version byte 1 follows and is completed in
`PARSE_HEADER` while the packet is held; the next accepted page `closePage` (`[255, 0]`)
holds the 255 bytes that end the packet.  The call leaves through the overflow branch at the
first segment of `closePage`: no callback is made, the accumulator is emptied and
`packet_continued` cleared, so the packet is not extended by the segments of that page. -/
theorem C16_counterexample :
    openPage.WF ∧ closePage.WF ∧ closePage.table = [255, 0] ∧
    ∃ dH, Reaches
        ⟨readyState, openPage.bytes ++ (OggS ++ ((1 :: List.replicate 22 0) ++ closePage.bytes)),
          []⟩
        ⟨dH, (1 :: List.replicate 22 0) ++ closePage.bytes, []⟩ ∧
      dH.state_ = ParseState.PARSE_HEADER ∧
      ((1 :: List.replicate 22 0 : List Byte)).length = dH.bytes_needed ∧
      memcpy dH.header dH.data_offset (1 :: List.replicate 22 0) 4 ≠ 0 ∧
      dH.packet_continued = true ∧ dH.packet_len = 8160 ∧
      readBuf dH.packet_buf 8160 = openPage.body ∧
      dH.head_seen = true ∧ dH.tags_seen = true ∧ dH.on_demuxer_finished_ = true ∧
      ∃ r, Process readyState
          (openPage.bytes ++ (OggS ++ ((1 :: List.replicate 22 0) ++ closePage.bytes))) =
          some (Exit.overflow, r) ∧
        r.rest = closePage.body ∧ r.out = [] ∧ r.d.packet_len = 0 ∧
        r.d.packet_continued = false := by
  have e255 : ((255 : Byte) : Nat) = 255 := rfl
  have hwfc : closePage.WF := ⟨by decide, by decide, by decide⟩
  refine ⟨openPage_WF, hwfc, rfl, ?_⟩
  have hlac : lacing openPage.table openPage.body [] = ([], openPage.body) :=
    lacing_open_page _ openPage_body_length
  -- the page that leaves the packet open
  obtain ⟨d1, k1, hk1, hrun1, a1, a2, a3, a4, a5, a6, a7, a8, a9⟩ :=
    page_run_ready readyState openPage
      (OggS ++ ((1 :: List.replicate 22 0) ++ closePage.bytes)) [] rfl rfl rfl rfl rfl [] rfl
      (by simp [readBuf]) openPage_WF (Fits_replicate 32 0 (by decide))
      (Or.inl (by simp [OggS]))
  rw [hlac] at hrun1 a7 a8
  simp only [callsOf, List.filter_nil, List.map_nil, List.append_nil] at hrun1 a7 a8
  rw [openPage_body_length] at a7 a8
  have a9' : d1.packet_continued = true := by
    rw [a9]
    decide
  -- the capture pattern of the page that is discarded
  have h2 : dispatch d1 (OggS ++ ((1 :: List.replicate 22 0) ++ closePage.bytes)) [] =
      Flow.brk ⟨{ d1 with state_ := ParseState.PARSE_HEADER, data_offset := 4,
                          bytes_needed := 27 - 4 },
        (1 :: List.replicate 22 0) ++ closePage.bytes, []⟩ := by
    unfold dispatch
    rw [a1]
    have := findPage_search_first d1 [] ((1 :: List.replicate 22 0) ++ closePage.bytes) [] a2
      (not_infix_short _ (by simp [OggS]))
    rw [List.nil_append] at this
    exact this
  generalize hdH : ({ d1 with state_ := ParseState.PARSE_HEADER, data_offset := 4,
                              bytes_needed := 27 - 4 } : Demuxer) = dH at h2
  have hH : dH.state_ = ParseState.PARSE_HEADER ∧ dH.data_offset = 4 ∧ dH.bytes_needed = 23 ∧
      dH.packet_continued = d1.packet_continued ∧ dH.packet_len = d1.packet_len ∧
      dH.packet_buf = d1.packet_buf ∧ dH.head_seen = d1.head_seen ∧
      dH.tags_seen = d1.tags_seen ∧ dH.on_demuxer_finished_ = d1.on_demuxer_finished_ := by
    rw [← hdH]
    exact ⟨rfl, rfl, rfl, rfl, rfl, rfl, rfl, rfl, rfl⟩
  obtain ⟨b1, b2, b3, b4, b5, b6, b7, b8, b9⟩ := hH
  have hver : memcpy dH.header dH.data_offset (1 :: List.replicate 22 0) 4 ≠ 0 := by
    have := memcpy_at dH.header 4 (1 :: List.replicate 22 0) 0 (by simp)
    rw [b2, this]
    decide
  -- the header is completed and the page discarded
  obtain ⟨dF, h3, _, hv, f1, f2, f3, f4, f5, f6, f7, _⟩ :=
    parseHeader_complete dH (1 :: List.replicate 22 0) closePage.bytes [] (by rw [b3]; rfl)
  obtain ⟨g1, g2⟩ := hv.1 hver
  have h3' : dispatch dH ((1 :: List.replicate 22 0) ++ closePage.bytes) [] =
      Flow.brk ⟨dF, closePage.bytes, []⟩ := by
    unfold dispatch
    rw [b1]
    exact h3
  -- the page that would end the packet
  have hL : 3 ≤ (openPage.bytes ++
      (OggS ++ ((1 :: List.replicate 22 0) ++ closePage.bytes))).length := by
    simp [OggS]
    omega
  obtain ⟨d2, out2, h4, h5, _, _, h6, h7⟩ := page_overflow dF closePage [] openPage.body []
    [0] 255 []
    (2 * (openPage.bytes ++
      (OggS ++ ((1 :: List.replicate 22 0) ++ closePage.bytes))).length - k1 - 2)
    g1 g2 hwfc (by rw [f2, b5, a7, openPage_body_length])
    (by rw [f1, b6, openPage_body_length]; exact a8) rfl trivial (by decide)
    (by
      simp only [lacing, List.map_nil, List.sum_nil]
      rw [openPage_body_length, e255]
      decide)
  rw [List.append_nil] at h4
  have hne2 : OggS ++ ((1 :: List.replicate 22 0) ++ closePage.bytes) ≠ [] := by simp [OggS]
  have hne3 : (1 :: List.replicate 22 0) ++ closePage.bytes ≠ [] := by simp
  refine ⟨dH, ?_, b1, by rw [b3]; rfl, hver, b4.trans a9', b5.trans a7, by rw [b6]; exact a8,
    b7.trans a3, b8.trans a4, b9.trans a5,
    ⟨d2, closePage.body.drop (([] : List Byte).map Fin.val).sum, out2⟩, ?_, rfl, ?_, h6, h7⟩
  · exact Reaches_trans _ _ _ ⟨k1, hrun1⟩ (Reaches_brk ⟨d1, _, []⟩ _ hne2 h2)
  · have hfuel : ∀ n : Nat, 3 ≤ n → 2 * n + 4 = ((2 * n - k1 - 2 + 4) + 1 + 1) + k1 := by
      intro n hn
      omega
    unfold Process
    rw [hfuel _ hL, hrun1, ProcessLoop_brk _ ⟨d1, _, []⟩ _ hne2 h2,
      ProcessLoop_brk _ ⟨dH, _, []⟩ _ hne3 h3']
    exact h4
  · simp only [lacing, deliver, List.foldl_nil, infoOf, StreamInfo.mk.injEq] at h5
    exact h5.2.2.2

set_option maxRecDepth 100000 in
/-- On a fed stream: after the two header pages and a page with segment table `[255]`, each
a call of its own, the call on a page with table `[3, 255, 0]` delivers the packet of 258
bytes that the first segment ends (and keeps the next 255 bytes, whose empty closing segment
ends the input); the call on a page with table `[0]` instead, where the call's input ends
in front of the empty closing segment, makes no callback and keeps the 255 bytes. -/
theorem cross_page_example :
    (feed (Reset (OnDemuxerFinished fresh))
      [(headPage (List.replicate 21 0)).bytes, (tagsPage (List.replicate 21 0)).bytes,
        contPage.bytes, endMorePage.bytes]).map (fun x => (x.2.1, x.2.2, x.1.packet_len)) =
      some ([⟨List.replicate 255 1 ++ [2, 2, 2], 48000, 258⟩], [36, 36, 283, 288], 255) ∧
    (feed (Reset (OnDemuxerFinished fresh))
      [(headPage (List.replicate 21 0)).bytes, (tagsPage (List.replicate 21 0)).bytes,
        contPage.bytes, (⟨List.replicate 21 0, [0], []⟩ : Page).bytes]).map
        (fun x => (x.2.1, x.2.2, x.1.packet_len)) =
      some ([], [36, 36, 283, 28], 255) := by
  constructor <;> decide

end OggDemuxer
